import Mathlib

/-!
# B+ tree with an LRU node cache (`bp_tree.h`, `lru_cache.h`)

Shallow embedding of the tree engine, its node manager, the LRU cache and the
byte stream.  Resident nodes live in a heap indexed by address; child and
sibling references are the raw union value of the source (`_Ref`), read as a
pointer or as an offset according to the owning bitmap.  Every operation is a
state transformer over the whole tree object and may end in a `Fault` where
the source has undefined behaviour.

Instantiation: `bp_tree<size_t, size_t>` as in `test_bp_tree.h`, so keys,
values, counts and offsets are 8 bytes wide, `slotn_t` is one byte and
`bitmap_type` has 64 bits.  The slot count is a parameter (`traits::slot_count`).
-/

namespace stdext

/-! ## Faults and results -/

/-- Ways in which the source leaves defined behaviour. -/
inductive Fault
  | null_deref
  | dangling
  | bad_cast
  | out_of_bounds
  | fuel
  deriving DecidableEq, Repr

/-- Result of running an operation: a value, or the fault that stopped it. -/
inductive Res (α : Type)
  | ok (x : α)
  | fault (f : Fault)
  deriving DecidableEq, Repr

/-- Conversion of the monad result into `Res`. -/
def toRes {α : Type} : Except Fault α → Res α
  | .ok x => .ok x
  | .error e => .fault e

/-! ## Sizes and layout constants -/

/-- Width in bytes of `key_type` (`stream_type::key_storage_size`). -/
def key_storage_size : Nat := 8

/-- Width in bytes of `value_type` (`stream_type::value_storage_size`). -/
def value_storage_size : Nat := 8

/-- Width in bytes of `offset_type` and of `size_t`. -/
def offset_size : Nat := 8

/-- Width in bytes of `slotn_t`. -/
def slotn_size : Nat := 1

/-- The constant `traits::signature_size`. -/
def signature_size : Nat := 2

/-- The constant `traits::leaf_marker_size`. -/
def leaf_marker_size : Nat := 2

/-- Bytes of `traits::signature()`, the text "B+". -/
def signature : List Nat := [66, 43]

/-- Bytes of `traits::leaf_marker()`, the text "<>". -/
def leaf_marker : List Nat := [60, 62]

/-- Number of values of `bitmap_type` (64 bits). -/
def bitmap_mod : Nat := 2 ^ 64

/-- The bitmap `bitmap_type(~0)`. -/
def bitmap_ones : Nat := 2 ^ 64 - 1

/-- Left shift in `bitmap_type`. -/
def bmp_shl (b n : Nat) : Nat := (b <<< n) % bitmap_mod

/-- Complement in `bitmap_type`. -/
def bmp_not (b : Nat) : Nat := bitmap_ones ^^^ (b % bitmap_mod)

/-- The constant `_Node::slot_mid`. -/
def slot_mid (S : Nat) : Nat := (S + 1) / 2

/-- The constant `_Node::extra`. -/
def extra (S : Nat) : Nat := S % 2

/-- The value of `!extra` as an integer. -/
def not_extra (S : Nat) : Nat := if extra S = 0 then 1 else 0

/-- The constant `_Node::min_slots`. -/
def min_slots (S : Nat) : Nat := S / 2

/-- The constant `_Node::storage_size`. -/
def Node_storage_size (S : Nat) : Nat := slotn_size + S * key_storage_size

/-- The constant `_Inner::storage_size`. -/
def Inner_storage_size (S : Nat) : Nat := Node_storage_size S + (S + 1) * offset_size

/-- The constant `_Leaf::storage_size`. -/
def Leaf_storage_size (S : Nat) : Nat :=
  leaf_marker_size + Node_storage_size S + 2 * offset_size + S * value_storage_size

/-- Header flag `count_mask`. -/
def count_mask : Nat := 1

/-- Header flag `root_mask`. -/
def root_mask : Nat := 2

/-- Header flag `head_mask`. -/
def head_mask : Nat := 4

/-- Header flag `tail_mask`. -/
def tail_mask : Nat := 8

/-- Header position `count_offset`. -/
def count_offset : Nat := signature_size

/-- Header position `flag_offset`. -/
def flag_offset : Nat := count_offset + offset_size

/-- Header position `root_level_offset`. -/
def root_level_offset : Nat := flag_offset + 1

/-- Header position `root_offset`. -/
def root_offset : Nat := root_level_offset + slotn_size

/-- Header position `head_offset`. -/
def head_offset : Nat := root_offset + offset_size

/-- Header position `tail_offset`. -/
def tail_offset : Nat := head_offset + offset_size

/-- Header position `items_offset`, the end of the header. -/
def items_offset : Nat := tail_offset + offset_size

/-- Index `_Leaf::sibling_next`. -/
def sibling_next : Nat := 0

/-- Index `_Leaf::sibling_prev`. -/
def sibling_prev : Nat := 1

/-- Mask `_Leaf::sibling_mask_next`. -/
def sibling_mask_next : Nat := 1

/-- Mask `_Leaf::sibling_mask_prev`. -/
def sibling_mask_prev : Nat := 2

/-! ## Byte encoding -/

/-- Little-endian bytes of a scalar of width `w`. -/
def encode : Nat → Nat → List Nat
  | 0, _ => []
  | w + 1, v => (v % 256) :: encode w (v / 256)

/-- Scalar denoted by little-endian bytes. -/
def decode : List Nat → Nat
  | [] => 0
  | b :: bs => b + 256 * decode bs

/-- Bytes of an array of scalars of width `w`. -/
def encode_all (w : Nat) : List Nat → List Nat
  | [] => []
  | v :: vs => encode w v ++ encode_all w vs

/-- Array of `n` scalars of width `w` denoted by a byte string. -/
def decode_all (w : Nat) : Nat → List Nat → List Nat
  | 0, _ => []
  | n + 1, bs => decode (bs.take w) :: decode_all w n (bs.drop w)

/-- Memory after a read that delivered `got`: the bytes obtained replace the
front of the destination, the rest of the destination keeps its content. -/
def overlay (got old : List Nat) : List Nat := got ++ old.drop got.length

/-! ## The byte stream (`bp_tree_default_stream` over a file) -/

/-- State of the stream object together with the file behind it: content,
the single file position, the sticky failure flag of the `iostream` and the
`compact_` switch. -/
structure bp_tree_default_stream where
  bytes : List Nat
  pos : Nat
  failed : Bool
  compact_ : Bool
  deriving DecidableEq, Repr

namespace bp_tree_default_stream

/-- Constructor `bp_tree_default_stream( s)`: positioned at 0, not compact. -/
def mk_stream (content : List Nat) : bp_tree_default_stream :=
  { bytes := content, pos := 0, failed := false, compact_ := false }

/-- Method `is_compact`. -/
def is_compact (s : bp_tree_default_stream) : Bool := s.compact_

/-- Method `set_compact`. -/
def set_compact (s : bp_tree_default_stream) (value : Bool) : bp_tree_default_stream :=
  { s with compact_ := value }

/-- Method `read`: delivers the bytes available, at most `n`; a short read
sets the failure flag, and a failed stream delivers nothing. -/
def read (s : bp_tree_default_stream) (n : Nat) : List Nat × bp_tree_default_stream :=
  if s.failed then ([], s)
  else
    let got := (s.bytes.drop s.pos).take n
    (got, { s with pos := s.pos + got.length, failed := decide (got.length < n) })

/-- Method `write`: replaces or appends bytes at the position; a gap after the
old end of the file reads as zero bytes. -/
def write (s : bp_tree_default_stream) (data : List Nat) : bp_tree_default_stream :=
  if s.failed then s
  else
    let before := (s.bytes ++ List.replicate (s.pos - s.bytes.length) 0).take s.pos
    { s with bytes := before ++ data ++ s.bytes.drop (s.pos + data.length),
             pos := s.pos + data.length }

/-- Method `seek` (absolute). -/
def seek (s : bp_tree_default_stream) (p : Nat) : bp_tree_default_stream :=
  if s.failed then s else { s with pos := p }

/-- Method `position`. -/
def position (s : bp_tree_default_stream) : Nat := s.pos

/-- Method `skip` (relative seek). -/
def skip (s : bp_tree_default_stream) (n : Nat) : bp_tree_default_stream :=
  if s.failed then s else { s with pos := s.pos + n }

/-- Method `ok`. -/
def ok (s : bp_tree_default_stream) : Bool := !s.failed

/-- Read of one scalar of width `w` into a variable holding `old`. -/
def read_scalar (s : bp_tree_default_stream) (w old : Nat) : Nat × bp_tree_default_stream :=
  let r := s.read w
  (decode (overlay r.1 (encode w old)), r.2)

/-- Write of one scalar of width `w`. -/
def write_scalar (s : bp_tree_default_stream) (w v : Nat) : bp_tree_default_stream :=
  s.write (encode w v)

/-- Read of `used` scalars of width `w` into the front of the array `old`;
`none` when the array is shorter than `used` (buffer overrun). -/
def read_array (s : bp_tree_default_stream) (w used : Nat) (old : List Nat) :
    Option (List Nat × bp_tree_default_stream) :=
  if used ≤ old.length then
    let r := s.read (w * used)
    some (decode_all w used (overlay r.1 (encode_all w (old.take used))) ++ old.drop used, r.2)
  else none

/-- Write of the first `used` scalars of width `w` of an array; `none` when
the array is shorter than `used`. -/
def write_array (s : bp_tree_default_stream) (w used : Nat) (a : List Nat) :
    Option bp_tree_default_stream :=
  if used ≤ a.length then some (s.write (encode_all w (a.take used))) else none

/-- Padding step shared by `read_keys`, `write_keys`, `read_data`,
`write_data` and the three-argument `read_offsets`: skip the unused slots
unless the stream is compact.  `none` when `count - used` wraps around. -/
def pad_slots (s : bp_tree_default_stream) (w used count : Nat) :
    Option bp_tree_default_stream :=
  if s.compact_ then some s
  else if used ≤ count then some (s.skip (w * (count - used))) else none

/-- Method `read_keys`. -/
def read_keys (s : bp_tree_default_stream) (keys : List Nat) (used count : Nat) :
    Option (List Nat × bp_tree_default_stream) :=
  match s.read_array key_storage_size used keys with
  | none => none
  | some (ks, s1) =>
    match s1.pad_slots key_storage_size used count with
    | none => none
    | some s2 => some (ks, s2)

/-- Method `write_keys`. -/
def write_keys (s : bp_tree_default_stream) (keys : List Nat) (used count : Nat) :
    Option bp_tree_default_stream :=
  match s.write_array key_storage_size used keys with
  | none => none
  | some s1 => s1.pad_slots key_storage_size used count

/-- Method `read_offsets` with two arguments. -/
def read_offsets2 (s : bp_tree_default_stream) (items : List Nat) (used : Nat) :
    Option (List Nat × bp_tree_default_stream) :=
  s.read_array offset_size used items

/-- Method `read_offsets` with three arguments. -/
def read_offsets3 (s : bp_tree_default_stream) (items : List Nat) (used count : Nat) :
    Option (List Nat × bp_tree_default_stream) :=
  match s.read_array offset_size used items with
  | none => none
  | some (xs, s1) =>
    match s1.pad_slots offset_size used count with
    | none => none
    | some s2 => some (xs, s2)

/-- Method `read_data`. -/
def read_data (s : bp_tree_default_stream) (data : List Nat) (used count : Nat) :
    Option (List Nat × bp_tree_default_stream) :=
  match s.read_array value_storage_size used data with
  | none => none
  | some (xs, s1) =>
    match s1.pad_slots value_storage_size used count with
    | none => none
    | some s2 => some (xs, s2)

/-- Method `write_data`. -/
def write_data (s : bp_tree_default_stream) (data : List Nat) (used count : Nat) :
    Option bp_tree_default_stream :=
  match s.write_array value_storage_size used data with
  | none => none
  | some s1 => s1.pad_slots value_storage_size used count

end bp_tree_default_stream

/-! ## Arrays and the standard algorithms used on them -/

/-- Read of `a[i]`; outside the array is a fault. -/
def arr_get (a : List Nat) (i : Nat) : Except Fault Nat :=
  match a[i]? with
  | some v => .ok v
  | none => .error .out_of_bounds

/-- Write of `a[i]`; outside the array is a fault. -/
def arr_set (a : List Nat) (i v : Nat) : Except Fault (List Nat) :=
  if i < a.length then .ok (a.set i v) else .error .out_of_bounds

/-- The algorithm `std::move( src + first, src + last, dst + d)` between two
distinct arrays of trivially copyable elements (the source range is left as
it was). -/
def std_move (src : List Nat) (first last : Nat) (dst : List Nat) (d : Nat) :
    Except Fault (List Nat) :=
  if first ≤ last ∧ last ≤ src.length ∧ d + (last - first) ≤ dst.length then
    .ok (dst.take d ++ (src.drop first).take (last - first) ++ dst.drop (d + (last - first)))
  else .error .out_of_bounds

/-- The algorithm `std::rotate( a + first, a + middle, a + last)`. -/
def std_rotate (a : List Nat) (first middle last : Nat) : Except Fault (List Nat) :=
  if first ≤ middle ∧ middle ≤ last ∧ last ≤ a.length then
    .ok (a.take first ++ (a.drop middle).take (last - middle)
          ++ (a.drop first).take (middle - first) ++ a.drop last)
  else .error .out_of_bounds

/-- Loop of `std::lower_bound` over `keys[first, first + count)`: binary
search for the first position whose key is not less than `key`. -/
def lower_bound_loop : Nat → List Nat → Nat → Nat → Nat → Nat
  | 0, _, first, _, _ => first
  | fuel + 1, keys, first, count, key =>
    if count = 0 then first
    else
      let step := count / 2
      let it := first + step
      if keys.getD it 0 < key then lower_bound_loop fuel keys (it + 1) (count - (step + 1)) key
      else lower_bound_loop fuel keys first step key

/-- The algorithm `std::lower_bound( keys, keys + used, key) - keys`. -/
def lower_bound (keys : List Nat) (used key : Nat) : Nat :=
  lower_bound_loop used keys 0 used key

/-! ## Nodes -/

/-- Dynamic type of a node object. -/
inductive Kind
  | inner
  | leaf
  deriving DecidableEq, Repr

/-- A node object: the members of `_Node`, then those of `_Inner`, then those
of `_Leaf` (only the members of the object's own kind are meaningful).
`children` and `siblings` hold the raw value of the `_Ref` union; `parent` and
every pointer is an address, 0 being the null pointer. -/
structure Node where
  kind : Kind
  level : Nat
  used_slots : Nat
  key_changes_bmp : Nat
  keys : List Nat
  offset : Nat
  parent : Nat
  children_ptr_bmp : Nat
  children : List Nat
  siblings : List Nat
  siblings_changes_bmp : Nat
  siblings_ptr_bmp : Nat
  data_changes_bmp : Nat
  data : List Nat
  deriving DecidableEq, Repr

namespace Node

/-- Method `_Node::is_leaf`. -/
def is_leaf (n : Node) : Bool := n.level == 0

/-- Method `_Node::is_full`. -/
def is_full (S : Nat) (n : Node) : Bool := n.used_slots == S

/-- Method `_Node::find_lower`. -/
def find_lower (n : Node) (key : Nat) : Except Fault Nat :=
  if n.used_slots = 0 then .ok 0
  else if n.used_slots ≤ n.keys.length then .ok (lower_bound n.keys n.used_slots key)
  else .error .out_of_bounds

/-- Method `_Inner::is_changed`. -/
def inner_is_changed (n : Node) : Bool := n.key_changes_bmp != 0

/-- Method `_Leaf::is_changed`. -/
def leaf_is_changed (n : Node) : Bool :=
  (n.key_changes_bmp ||| n.data_changes_bmp ||| n.siblings_changes_bmp) != 0

/-- Method `_Inner::is_ptr_at`; a shift by 64 or more is a fault. -/
def is_ptr_at (n : Node) (index : Nat) : Except Fault Bool :=
  if index < 64 then .ok ((n.children_ptr_bmp &&& bmp_shl 1 index) != 0)
  else .error .out_of_bounds

/-- Method `_Leaf::is_sibling_ptr_at`. -/
def is_sibling_ptr_at (n : Node) (index : Nat) : Bool :=
  (n.siblings_ptr_bmp &&& bmp_shl 1 index) != 0

/-- Method `_Leaf::link_sibling`. -/
def link_sibling (n : Node) (node : Nat) (index : Nat) : Except Fault Node := do
  let sib ← arr_set n.siblings index node
  pure { n with siblings_ptr_bmp := n.siblings_ptr_bmp ||| bmp_shl 1 index, siblings := sib }

/-- Method `_Leaf::unlink_sibling`. -/
def unlink_sibling (n : Node) (index offset : Nat) : Except Fault Node := do
  let sib ← arr_set n.siblings index offset
  pure { n with siblings_ptr_bmp := n.siblings_ptr_bmp &&& bmp_not (bmp_shl 1 index),
                siblings := sib }

/-- Method `_Leaf::clear_change_flags`. -/
def clear_change_flags (n : Node) : Node :=
  { n with siblings_changes_bmp := 0, key_changes_bmp := 0, data_changes_bmp := 0 }

/-- Method `_Inner::actual_storage_size`. -/
def inner_actual_storage_size (S : Nat) (n : Node) : Nat :=
  Inner_storage_size S - (S - n.used_slots) * (key_storage_size + offset_size)

/-- Method `_Leaf::actual_storage_size`. -/
def leaf_actual_storage_size (S : Nat) (n : Node) : Nat :=
  Leaf_storage_size S - (S - n.used_slots) * (key_storage_size + value_storage_size)

end Node

/-- Static method `_Inner::bit_insert`. -/
def bit_insert (bits key_pos : Nat) : Nat :=
  let mask := bmp_shl bitmap_ones key_pos
  (bmp_shl (bits &&& mask) 1) ||| (bmp_shl 1 key_pos) ||| (bits &&& bmp_not mask)

/-- Outcome of `_Node::split_`: the four arrays, the two slot counts, the
updated `key_pos`, and the place of the returned reference (`result`), an
index into the destination or the source value array. -/
structure SplitResult where
  key_pos : Nat
  dest_used_slots : Nat
  src_used_slots : Nat
  dest_keys : List Nat
  dest_values : List Nat
  src_keys : List Nat
  src_values : List Nat
  result_in_dest : Bool
  result_index : Nat
  deriving DecidableEq, Repr

/-- Static method `_Node::split_<additional_data>`; `ad` is `additional_data`
(0 for a leaf with `data`, 1 for an inner node with `children`). -/
def split_ (S ad key_pos : Nat) (dest_keys dest_values src_keys src_values : List Nat)
    (key : Nat) : Except Fault SplitResult :=
  if key_pos < slot_mid S then do
    let dk ← std_move src_keys (slot_mid S - extra S + ad) S dest_keys 0
    let sk ← std_rotate src_keys key_pos (slot_mid S - 1) (slot_mid S)
    let sk ← arr_set sk key_pos key
    let dv ← std_move src_values (slot_mid S - extra S + ad) (S + ad) dest_values 0
    let sv ← std_rotate src_values key_pos (slot_mid S - 1 + ad) (slot_mid S + ad)
    pure { key_pos := key_pos, dest_used_slots := slot_mid S - ad,
           src_used_slots := S - slot_mid S + extra S,
           dest_keys := dk, dest_values := dv, src_keys := sk, src_values := sv,
           result_in_dest := false, result_index := key_pos }
  else do
    if key_pos < slot_mid S + not_extra S then throw Fault.out_of_bounds
    let new_key_pos := key_pos - slot_mid S - not_extra S
    let dk ← if new_key_pos ≠ 0 then
        std_move src_keys (slot_mid S + not_extra S + ad) key_pos dest_keys 0
      else pure dest_keys
    let dv ← if new_key_pos ≠ 0 then
        std_move src_values (slot_mid S + not_extra S + ad) (key_pos + ad) dest_values 0
      else pure dest_values
    if new_key_pos < ad then throw Fault.out_of_bounds
    let dk ← arr_set dk (new_key_pos - ad) key
    let dk ← std_move src_keys key_pos S dk (new_key_pos + 1)
    let dv ← std_move src_values key_pos (S + ad) dv (new_key_pos + 1)
    pure { key_pos := new_key_pos, dest_used_slots := slot_mid S - ad,
           src_used_slots := S - slot_mid S + extra S,
           dest_keys := dk, dest_values := dv, src_keys := src_keys, src_values := src_values,
           result_in_dest := true, result_index := new_key_pos }

/-- Method `_Node::insert_<additional_data>`: `values` is the whole value
array and `base` the index at which the pointer argument starts (0 for
`data`, 1 for `children + 1`).  Returns keys, values and the new slot count. -/
def insert_ (ad : Nat) (keys : List Nat) (used_slots : Nat) (key pos : Nat)
    (values : List Nat) (base : Nat) : Except Fault (List Nat × List Nat × Nat) := do
  let kv ← if pos < used_slots then do
      let ks ← std_rotate keys pos used_slots (used_slots + 1)
      let vs ← std_rotate values (base + pos) (base + used_slots + ad) (base + used_slots + ad + 1)
      pure (ks, vs)
    else pure (keys, values)
  let ks ← arr_set kv.1 pos key
  pure (ks, kv.2, (used_slots + 1) % 256)

/-! ## The LRU cache (`lru_cache<offset_type, _Node*, _NodeManager>`) -/

/-- Value of an `Item*`: null, the head sentinel `&iMruHead`, or the address
of a cell of the hash map. -/
inductive ItemPtr
  | null
  | head
  | item (addr : Nat)
  deriving DecidableEq, Repr

/-- A cell of the hash map: key, recency links and payload; `addr` is the
address of the cell (what `backRef` leads to). -/
structure Item where
  addr : Nat
  key : Nat
  prev : ItemPtr
  next : ItemPtr
  data : Nat
  deriving DecidableEq, Repr

/-- The cache object.  `iMap` lists the cells in the iteration order of the
hash map, which the source leaves to the container; cells are kept in
insertion order.  `iObserver` tells whether an observer is set; the observer
itself is run by the owner on the payloads the operations hand back. -/
structure lru_cache where
  head_prev : ItemPtr
  head_next : ItemPtr
  iMaxLimit : Nat
  iObserver : Bool
  iMap : List Item
  iLockedSet : List Nat
  next_item : Nat
  deriving DecidableEq, Repr

namespace lru_cache

/-- Constructor `lru_cache( maxLimit, observer)`. -/
def mk_cache (maxLimit : Nat) (observer : Bool) : lru_cache :=
  { head_prev := .head, head_next := .head, iMaxLimit := maxLimit, iObserver := observer,
    iMap := [], iLockedSet := [], next_item := 1 }

/-- Method `size`. -/
def size (c : lru_cache) : Nat := c.iMap.length

/-- Method `max_limit`. -/
def max_limit (c : lru_cache) : Nat := c.iMaxLimit

/-- Method `is_full`. -/
def is_full (c : lru_cache) : Bool := c.size == c.max_limit

/-- Method `set_observer`. -/
def set_observer (c : lru_cache) (present : Bool) : lru_cache := { c with iObserver := present }

/-- Lookup `iMap.find( key)`. -/
def map_find (c : lru_cache) (key : Nat) : Option Item := c.iMap.find? (fun i => i.key == key)

/-- Cell at an address. -/
def cell (c : lru_cache) (addr : Nat) : Except Fault Item :=
  match c.iMap.find? (fun i => i.addr == addr) with
  | some i => .ok i
  | none => .error .dangling

/-- Replacement of the cell at an address. -/
def set_cell (c : lru_cache) (i : Item) : lru_cache :=
  { c with iMap := c.iMap.map (fun j => if j.addr == i.addr then i else j) }

/-- Assignment `p->prev = v`. -/
def set_prev (c : lru_cache) (p v : ItemPtr) : Except Fault lru_cache :=
  match p with
  | .null => .error .null_deref
  | .head => .ok { c with head_prev := v }
  | .item a => do
    let i ← c.cell a
    pure (c.set_cell { i with prev := v })

/-- Assignment `p->next = v`. -/
def set_next (c : lru_cache) (p v : ItemPtr) : Except Fault lru_cache :=
  match p with
  | .null => .error .null_deref
  | .head => .ok { c with head_next := v }
  | .item a => do
    let i ← c.cell a
    pure (c.set_cell { i with next := v })

/-- Method `MruItem::unlink` of the cell at `a`. -/
def unlink (c : lru_cache) (a : Nat) : Except Fault lru_cache := do
  let i ← c.cell a
  let c ← if i.next ≠ .null then c.set_prev i.next i.prev else pure c
  let c ← if i.prev ≠ .null then c.set_next i.prev i.next else pure c
  pure c

/-- Method `MruItem::append` of the head sentinel: the cell at `a` becomes
the first of the recency list. -/
def append (c : lru_cache) (a : Nat) : Except Fault lru_cache := do
  let c ← if c.head_next ≠ .null then c.set_prev c.head_next (.item a) else pure c
  let c ← c.set_prev (.item a) .head
  let c ← c.set_next (.item a) c.head_next
  pure { c with head_next := .item a }

/-- Method `set_mru`. -/
def set_mru (c : lru_cache) (a : Nat) : Except Fault lru_cache := do
  let i ← c.cell a
  if i.prev ≠ .head then
    let c ← c.unlink a
    c.append a
  else pure c

/-- Method `touch( key)`. -/
def touch (c : lru_cache) (key : Nat) : Except Fault lru_cache :=
  match c.map_find key with
  | some i => c.set_mru i.addr
  | none => .ok c

/-- Method `find( key, mru)`: the cell found, if any. -/
def find (c : lru_cache) (key : Nat) (mru : Bool) : Except Fault (Option Item × lru_cache) :=
  match c.map_find key with
  | some i =>
    if mru then do
      let c ← c.set_mru i.addr
      pure (some i, c)
    else .ok (some i, c)
  | none => .ok (none, c)

/-- Protected method `erase( it)` on a valid iterator: the cell is unlinked,
its payload is handed to the observer (returned here when an observer is
set) and the cell leaves the map. -/
def erase_cell (c : lru_cache) (a : Nat) : Except Fault (Option Nat × lru_cache) := do
  let c ← c.unlink a
  let i ← c.cell a
  pure (if c.iObserver then some i.data else none,
        { c with iMap := c.iMap.filter (fun j => j.addr != a) })

/-- Method `erase( key)`. -/
def erase (c : lru_cache) (key : Nat) : Except Fault (Option Nat × lru_cache) :=
  match c.map_find key with
  | some i => c.erase_cell i.addr
  | none => .ok (none, c)

/-- Method `get( key)`: address of the cell for `key`, whether it existed,
and the payload handed to the observer when a cell had to be evicted. -/
def get (c : lru_cache) (key : Nat) : Except Fault ((Nat × Bool) × Option Nat × lru_cache) :=
  match c.map_find key with
  | some i => .ok ((i.addr, true), none, c)
  | none => do
    let r ← if c.is_full then
        match c.head_prev with
        | .item a => c.erase_cell a
        | .head => throw Fault.bad_cast
        | .null => throw Fault.null_deref
      else pure (none, c)
    let c := r.2
    let a := c.next_item
    let fresh : Item := { addr := a, key := key, prev := .null, next := .null, data := 0 }
    let c := { c with iMap := c.iMap ++ [fresh], next_item := a + 1 }
    let c ← c.append a
    pure ((a, false), r.1, c)

/-- Assignment `*it = data` through a cache iterator. -/
def set_data (c : lru_cache) (a data : Nat) : Except Fault lru_cache := do
  let i ← c.cell a
  pure (c.set_cell { i with data := data })

/-- Method `clear`: the payloads handed to the observer, in map order, and
the emptied cache. -/
def clear (c : lru_cache) : List Nat × lru_cache :=
  (if c.iObserver then c.iMap.map (fun i => i.data) else [],
   { c with head_prev := .head, head_next := .head, iMap := [] })

/-- Method `is_locked`. -/
def is_locked (c : lru_cache) (it : Option Nat) : Bool :=
  match it with
  | some a => c.iLockedSet.contains a
  | none => false

/-- Method `lock`. -/
def lock (c : lru_cache) (it : Option Nat) : Except Fault lru_cache :=
  match it with
  | none => .ok c
  | some a => do
    let i ← c.cell a
    let c ← c.set_next i.prev i.next
    let c ← c.set_prev i.next i.prev
    let i ← c.cell a
    let c := c.set_cell { i with next := .null, prev := .null }
    pure { c with iLockedSet := if c.iLockedSet.contains a then c.iLockedSet
                                else c.iLockedSet ++ [a] }

/-- Method `unlock`. -/
def unlock (c : lru_cache) (it : Option Nat) : Except Fault lru_cache :=
  match it with
  | none => .ok c
  | some a =>
    if c.iLockedSet.contains a then do
      let i ← c.cell a
      let c := c.set_cell { i with next := c.head_next, prev := .head }
      let c ← c.set_prev c.head_next (.item a)
      pure { c with head_next := .item a }
    else .ok c

/-- Keys of the recency list from `mru_begin()` to `mru_end()`, following
`next`; at most `fuel` cells. -/
def mru_keys : Nat → lru_cache → ItemPtr → List Nat
  | 0, _, _ => []
  | fuel + 1, c, p =>
    match p with
    | .item a =>
      match c.iMap.find? (fun i => i.addr == a) with
      | some i => i.key :: mru_keys fuel c i.next
      | none => []
    | _ => []

end lru_cache

/-! ## Heap of resident nodes -/

/-- Resident node objects by address. -/
abbrev Heap := List (Nat × Node)

/-- Read through a node pointer. -/
def heap_deref (h : Heap) (p : Nat) : Except Fault Node :=
  if p = 0 then .error .null_deref
  else match h.lookup p with
    | some n => .ok n
    | none => .error .dangling

/-- Replacement of the object at an address. -/
def heap_store (h : Heap) (p : Nat) (n : Node) : Heap :=
  h.map (fun e => if e.1 == p then (p, n) else e)

/-- Address of the first object of the model heap.  Offsets are passed to
`seek( const int)`, so they stay below 2^31; addresses start above them. -/
def heap_base : Nat := 2 ^ 32

/-! ## Saving and loading node records -/

/-- Method `_Node::raw_load_from`. -/
def Node_raw_load_from (S : Nat) (n : Node) (input : bp_tree_default_stream) :
    Except Fault (Node × bp_tree_default_stream × Bool) :=
  let r := input.read_scalar slotn_size n.used_slots
  match r.2.read_keys n.keys r.1 S with
  | none => .error .out_of_bounds
  | some (ks, s2) => .ok ({ n with used_slots := r.1, keys := ks }, s2, s2.ok)

/-- Method `_Node::raw_save_to`. -/
def Node_raw_save_to (S : Nat) (n : Node) (out : bp_tree_default_stream) :
    Except Fault (bp_tree_default_stream × Bool) :=
  match (out.write_scalar slotn_size n.used_slots).write_keys n.keys n.used_slots S with
  | none => .error .out_of_bounds
  | some s2 => .ok (s2, s2.ok)

/-- Method `_Inner::raw_load_from`. -/
def Inner_raw_load_from (S : Nat) (n : Node) (input : bp_tree_default_stream) :
    Except Fault (Node × bp_tree_default_stream × Bool) := do
  let r ← Node_raw_load_from S n input
  match r.2.1.read_offsets3 r.1.children (r.1.used_slots + 1) (S + 1) with
  | none => throw Fault.out_of_bounds
  | some (cs, s2) =>
    let n1 := { r.1 with children := cs }
    if s2.ok then pure ({ n1 with key_changes_bmp := 0, children_ptr_bmp := 0 }, s2, true)
    else pure (n1, s2, false)

/-- Method `_Inner::load_from`. -/
def Inner_load_from (S : Nat) (n : Node) (input : bp_tree_default_stream) :
    Except Fault (Node × bp_tree_default_stream × Bool) :=
  Inner_raw_load_from S n (input.seek n.offset)

/-- Method `_Inner::child_offset`. -/
def child_offset (h : Heap) (n : Node) (flag index : Nat) : Except Fault Nat := do
  let c ← arr_get n.children index
  if n.children_ptr_bmp &&& flag ≠ 0 then
    let m ← heap_deref h c
    pure m.offset
  else pure c

/-- The do-while loop of `_Inner::raw_save_to` writing the child offsets;
`fuel` bounds the number of rounds. -/
def save_children_loop (h : Heap) (n : Node) :
    Nat → Nat → Nat → bp_tree_default_stream → Except Fault bp_tree_default_stream
  | 0, _, _, _ => .error .fuel
  | fuel + 1, index, flag, out => do
    let out1 ← if n.key_changes_bmp &&& flag ≠ 0 then do
        let off ← child_offset h n flag index
        pure (out.write_scalar offset_size off)
      else pure (out.skip offset_size)
    let index1 := (index + 1) % 256
    let flag1 := bmp_shl flag 1
    if index1 < n.used_slots + 1 ∧ out1.ok then save_children_loop h n fuel index1 flag1 out1
    else pure out1

/-- Method `_Inner::raw_save_to`. -/
def Inner_raw_save_to (S : Nat) (h : Heap) (n : Node) (out : bp_tree_default_stream) :
    Except Fault (Node × bp_tree_default_stream × Bool) := do
  let r ← Node_raw_save_to S n out
  if r.2 then
    let out1 ← save_children_loop h n (n.used_slots + 2) 0 1 r.1
    let out2 := out1.skip (offset_size * (S - n.used_slots))
    if out2.ok then pure ({ n with key_changes_bmp := 0 }, out2, true)
    else pure (n, out2, false)
  else pure (n, r.1, false)

/-- Method `_Inner::save_to` (through `_Node::save_`). -/
def Inner_save_to (S : Nat) (h : Heap) (n : Node) (out : bp_tree_default_stream) :
    Except Fault (Node × bp_tree_default_stream × Bool) :=
  if n.inner_is_changed then Inner_raw_save_to S h n (out.seek n.offset)
  else .ok (n, out, true)

/-- Method `_Leaf::raw_load_from`. -/
def Leaf_raw_load_from (S : Nat) (n : Node) (input : bp_tree_default_stream) :
    Except Fault (Node × bp_tree_default_stream × Bool) := do
  let r ← Node_raw_load_from S n (input.skip leaf_marker_size)
  if r.2.2 then
    match r.2.1.read_offsets2 r.1.siblings 2 with
    | none => throw Fault.out_of_bounds
    | some (sb, s2) =>
      match s2.read_data r.1.data r.1.used_slots S with
      | none => throw Fault.out_of_bounds
      | some (d, s3) =>
        let n1 := { r.1 with siblings := sb, data := d }
        if s3.ok then pure ({ n1 with siblings_ptr_bmp := 0 }.clear_change_flags, s3, true)
        else pure (n1, s3, false)
  else pure (r.1, r.2.1, false)

/-- Method `_Leaf::load_from`. -/
def Leaf_load_from (S : Nat) (n : Node) (input : bp_tree_default_stream) :
    Except Fault (Node × bp_tree_default_stream × Bool) :=
  Leaf_raw_load_from S n (input.seek n.offset)

/-- Method `_Leaf::save_sibling`. -/
def save_sibling (h : Heap) (n : Node) (out : bp_tree_default_stream) (index : Nat) :
    Except Fault bp_tree_default_stream := do
  let mask := bmp_shl 1 index
  if n.siblings_changes_bmp &&& mask ≠ 0 then
    let r ← arr_get n.siblings index
    let off ← if n.siblings_ptr_bmp &&& mask ≠ 0 then do
        let m ← heap_deref h r
        pure m.offset
      else pure r
    pure (out.write_scalar offset_size off)
  else pure (out.skip offset_size)

/-- Method `_Leaf::raw_save_to`. -/
def Leaf_raw_save_to (S : Nat) (h : Heap) (n : Node) (out : bp_tree_default_stream) :
    Except Fault (Node × bp_tree_default_stream × Bool) := do
  let r ← Node_raw_save_to S n (out.write leaf_marker)
  let s1 ← save_sibling h n r.1 sibling_next
  let s2 ← save_sibling h n s1 sibling_prev
  match s2.write_data n.data n.used_slots S with
  | none => throw Fault.out_of_bounds
  | some s3 =>
    if s3.ok then pure (n.clear_change_flags, s3, true) else pure (n, s3, false)

/-- Method `_Leaf::save_to` (through `_Node::save_`). -/
def Leaf_save_to (S : Nat) (h : Heap) (n : Node) (out : bp_tree_default_stream) :
    Except Fault (Node × bp_tree_default_stream × Bool) :=
  if n.leaf_is_changed then Leaf_raw_save_to S h n (out.seek n.offset)
  else .ok (n, out, true)

/-! ## The tree object -/

/-- The `bp_tree` object with everything it reaches: the heap of resident
nodes, the cache, the node manager (`stream_attached` is `nodeman_.stream != 0`,
`inner_node` and `leaf_node` are its two prototype nodes) and the stream `io`
that `nodeman_.stream` points to.  `junk` is the content of memory that the
source never initialises. -/
structure bp_tree where
  slot_count : Nat
  junk : Nat
  heap : Heap
  next_addr : Nat
  root_ : Nat
  head_ : Nat
  tail_ : Nat
  eof_ : Nat
  item_count_ : Nat
  change_flags_ : Nat
  cache_ : lru_cache
  stream_attached : Bool
  inner_node : Node
  leaf_node : Node
  io : bp_tree_default_stream
  deriving DecidableEq, Repr

/-- Constructor `_Inner()` as run for `nodeman_.inner_node`. -/
def Inner_ctor (S junk : Nat) : Node :=
  { kind := .inner, level := 0, used_slots := 0, key_changes_bmp := bitmap_ones,
    keys := List.replicate S junk, offset := 0, parent := 0, children_ptr_bmp := 0,
    children := List.replicate (S + 1) junk, siblings := [], siblings_changes_bmp := 0,
    siblings_ptr_bmp := 0, data_changes_bmp := 0, data := [] }

/-- Constructor `_Leaf()` as run for `nodeman_.leaf_node`. -/
def Leaf_ctor (S junk : Nat) : Node :=
  { kind := .leaf, level := 0, used_slots := 0, key_changes_bmp := bitmap_ones,
    keys := List.replicate S junk, offset := 0, parent := 0, children_ptr_bmp := 0,
    children := [], siblings := [0, 0], siblings_changes_bmp := bitmap_ones,
    siblings_ptr_bmp := 0, data_changes_bmp := bitmap_ones, data := List.replicate S junk }

/-- Constructor `bp_tree( cache_size)` next to a stream over `content`. -/
def mk_tree (S cache_size junk : Nat) (content : List Nat) : bp_tree :=
  { slot_count := S, junk := junk, heap := [], next_addr := heap_base,
    root_ := 0, head_ := 0, tail_ := 0, eof_ := 0, item_count_ := 0,
    change_flags_ := bitmap_ones, cache_ := lru_cache.mk_cache cache_size true,
    stream_attached := false, inner_node := Inner_ctor S junk, leaf_node := Leaf_ctor S junk,
    io := bp_tree_default_stream.mk_stream content }

/-- Operations of the tree: state transformers that may fault. -/
abbrev M := StateT bp_tree (Except Fault)

/-- Read through a node pointer. -/
def deref (p : Nat) : M Node := do
  let t ← get
  heap_deref t.heap p

/-- Read through a pointer cast to `_Inner*`. -/
def deref_inner (p : Nat) : M Node := do
  let n ← deref p
  if n.kind = .inner then pure n else throw Fault.bad_cast

/-- Read through a pointer cast to `_Leaf*`. -/
def deref_leaf (p : Nat) : M Node := do
  let n ← deref p
  if n.kind = .leaf then pure n else throw Fault.bad_cast

/-- Write through a node pointer. -/
def store (p : Nat) (n : Node) : M Unit :=
  modify fun t => { t with heap := heap_store t.heap p n }

/-- Release of the storage of a node. -/
def deallocate (p : Nat) : M Unit :=
  modify fun t => { t with heap := t.heap.filter (fun e => e.1 != p) }

/-- Reference `get_stream()`. -/
def get_stream : M bp_tree_default_stream := do
  let t ← get
  if t.stream_attached then pure t.io else throw Fault.null_deref

/-- Update of the stream object. -/
def set_stream (s : bp_tree_default_stream) : M Unit :=
  modify fun t => { t with io := s }

/-! ### Node manager -/

/-- Method `_NodeManager::allocate_leaf`. -/
def allocate_leaf (offset parent : Nat) : M Nat := do
  let t ← get
  let proto := { t.leaf_node with offset := offset, parent := parent }
  modify fun u => { u with leaf_node := proto, heap := (u.next_addr, proto) :: u.heap,
                           next_addr := u.next_addr + 1 }
  pure t.next_addr

/-- Method `_NodeManager::allocate_inner`. -/
def allocate_inner (offset parent level : Nat) : M Nat := do
  let t ← get
  let proto := { t.inner_node with offset := offset, parent := parent, level := level % 256 }
  modify fun u => { u with inner_node := proto, heap := (u.next_addr, proto) :: u.heap,
                           next_addr := u.next_addr + 1 }
  pure t.next_addr

/-- The search loop of `_Inner::unlink` over `children[i .. used_slots]`. -/
def unlink_loop (node node_offset : Nat) : Nat → Nat → Nat → Node → Except Fault Node
  | 0, _, _, par => .ok par
  | fuel + 1, i, mask, par => do
    let c ← arr_get par.children i
    if c = node then
      let cs ← arr_set par.children i node_offset
      pure { par with children_ptr_bmp := par.children_ptr_bmp &&& bmp_not mask, children := cs }
    else unlink_loop node node_offset fuel (i + 1) (bmp_shl mask 1) par

/-- Method `_Inner::unlink`. -/
def Inner_unlink (this node : Nat) : M Unit := do
  let par ← deref_inner this
  let n ← deref node
  let par1 ← unlink_loop node n.offset (par.used_slots + 1) 0 1 par
  store this par1

/-- Destructor `~_Node`. -/
def Node_dtor (this : Nat) : M Unit := do
  let n ← deref this
  if n.parent ≠ 0 then Inner_unlink n.parent this else pure ()

/-- Loop shared by `~_Inner` and `_Inner::set_as_parent`: every child whose
pointer bit is set gets `parent = value`. -/
def set_parent_loop (this value : Nat) : Nat → Nat → Nat → M Unit
  | 0, _, _ => pure ()
  | fuel + 1, i, mask => do
    let n ← deref_inner this
    if n.children_ptr_bmp &&& mask ≠ 0 then
      let c ← arr_get n.children i
      let m ← deref c
      store c { m with parent := value }
    set_parent_loop this value fuel ((i + 1) % 256) (bmp_shl mask 1)

/-- Method `_Inner::set_as_parent`. -/
def set_as_parent (this : Nat) : M Unit := do
  let n ← deref_inner this
  set_parent_loop this this (n.used_slots + 1) 0 1

/-- Destructor `~_Inner` followed by `~_Node`, then release of the storage. -/
def destroy_inner (this : Nat) : M Unit := do
  let n ← deref_inner this
  if n.children_ptr_bmp ≠ 0 then set_parent_loop this 0 (n.used_slots + 1) 0 1
  Node_dtor this
  deallocate this

/-- Destructor `~_Leaf` followed by `~_Node`, then release of the storage. -/
def destroy_leaf (this : Nat) : M Unit := do
  let n ← deref_leaf this
  if n.siblings_ptr_bmp &&& sibling_mask_next ≠ 0 then
    let q ← arr_get n.siblings sibling_next
    let m ← deref_leaf q
    store q (← m.unlink_sibling sibling_prev n.offset)
  let n ← deref_leaf this
  if n.siblings_ptr_bmp &&& sibling_mask_prev ≠ 0 then
    let q ← arr_get n.siblings sibling_prev
    let m ← deref_leaf q
    store q (← m.unlink_sibling sibling_next n.offset)
  Node_dtor this
  deallocate this

/-- Call `save_to( *stream)` on a leaf, on the tree's own stream. -/
def leaf_save (this : Nat) : M Bool := do
  let t ← get
  let n ← deref_leaf this
  let r ← Leaf_save_to t.slot_count t.heap n t.io
  store this r.1
  set_stream r.2.1
  pure r.2.2

/-- Call `save_to( *stream)` on an inner node, on the tree's own stream. -/
def inner_save (this : Nat) : M Bool := do
  let t ← get
  let n ← deref_inner this
  let r ← Inner_save_to t.slot_count t.heap n t.io
  store this r.1
  set_stream r.2.1
  pure r.2.2

/-- Call `load_from( io)` on a leaf, on the stream held next to the tree. -/
def leaf_load_io (this : Nat) : M Bool := do
  let t ← get
  let n ← deref_leaf this
  let r ← Leaf_load_from t.slot_count n t.io
  store this r.1
  set_stream r.2.1
  pure r.2.2

/-- Call `load_from( io)` on an inner node, on the stream held next to the tree. -/
def inner_load_io (this : Nat) : M Bool := do
  let t ← get
  let n ← deref_inner this
  let r ← Inner_load_from t.slot_count n t.io
  store this r.1
  set_stream r.2.1
  pure r.2.2

/-- Call `load_from( get_stream())` on a leaf. -/
def leaf_load (this : Nat) : M Bool := do
  let _ ← get_stream
  leaf_load_io this

/-- Call `load_from( get_stream())` on an inner node. -/
def inner_load (this : Nat) : M Bool := do
  let _ ← get_stream
  inner_load_io this

/-- Method `_NodeManager::operator()`, the eviction observer. -/
def nodeman_call (node : Nat) : M Unit := do
  let n ← deref node
  let t ← get
  if n.is_leaf then
    if t.stream_attached then
      let _ ← leaf_save node
    destroy_leaf node
  else
    if t.stream_attached then
      let _ ← inner_save node
    destroy_inner node

/-! ### Cache calls of the tree -/

/-- Call `cache_.touch( key)`. -/
def cache_touch (key : Nat) : M Unit := do
  let t ← get
  let c ← t.cache_.touch key
  modify fun u => { u with cache_ := c }

/-- Call `cache_.find( key, false)`: payload of the cell, if present. -/
def cache_find (key : Nat) : M (Option Nat) := do
  let t ← get
  let r ← t.cache_.find key false
  modify fun u => { u with cache_ := r.2 }
  pure (r.1.map (fun i => i.data))

/-- Call `cache_.get( key)`; the observer runs on an evicted payload. -/
def cache_get (key : Nat) : M (Nat × Bool) := do
  let t ← get
  let r ← t.cache_.get key
  modify fun u => { u with cache_ := r.2.2 }
  match r.2.1 with
  | some d => nodeman_call d
  | none => pure ()
  pure r.1

/-- Assignment `*it = node` through a cache iterator. -/
def cache_assign (it node : Nat) : M Unit := do
  let t ← get
  let c ← t.cache_.set_data it node
  modify fun u => { u with cache_ := c }

/-- Runs the observer on each payload of a list, in order. -/
def observe_all : List Nat → M Unit
  | [] => pure ()
  | d :: ds => do
    nodeman_call d
    observe_all ds

/-- Call `cache_.clear()`. -/
def cache_clear : M Unit := do
  let t ← get
  let r := t.cache_.clear
  modify fun u => { u with cache_ := r.2 }
  observe_all r.1

/-- Method `cache_new_node`. -/
def cache_new_node (node : Nat) : M Unit := do
  let n ← deref node
  let pos ← cache_get n.offset
  if !pos.2 then cache_assign pos.1 node else pure ()

/-- Method `cache_node`. -/
def cache_node (node : Nat) : M Unit := do
  let t ← get
  if node ≠ t.head_ ∧ node ≠ t.tail_ then cache_new_node node else pure ()

/-! ### Links between resident nodes -/

/-- Method `_Inner::link`. -/
def Inner_link (this index node : Nat) : M Unit := do
  let m ← deref node
  store node { m with parent := this }
  let n ← deref_inner this
  if 64 ≤ index then throw Fault.out_of_bounds
  let cs ← arr_set n.children index node
  store this { n with children_ptr_bmp := n.children_ptr_bmp ||| bmp_shl 1 index, children := cs }

/-- Static function `link_siblings`. -/
def link_siblings (a b : Nat) : M Unit := do
  let na ← deref_leaf a
  store a (← na.link_sibling b 0)
  let nb ← deref_leaf b
  store b (← nb.link_sibling a 1)

/-- Method `link_possible_siblings`. -/
def link_possible_siblings (node : Nat) : M Unit := do
  let t ← get
  let n ← deref_leaf node
  let off ← arr_get n.siblings sibling_next
  let tl ← deref_leaf t.tail_
  if off = tl.offset then link_siblings node t.tail_
  else
    match (← cache_find off) with
    | some sibling => link_siblings node sibling
    | none => pure ()
  let n ← deref_leaf node
  let off ← arr_get n.siblings sibling_prev
  let hd ← deref_leaf t.head_
  if off = hd.offset then link_siblings t.head_ node
  else
    match (← cache_find off) with
    | some sibling => link_siblings sibling node
    | none => pure ()

/-- Method `get_child`. -/
def get_child (node pos : Nat) : M Nat := do
  let t ← get
  let n ← deref_inner node
  if node ≠ t.root_ then cache_touch n.offset
  if (← n.is_ptr_at pos) then
    let child ← arr_get n.children pos
    let c ← deref child
    let hd ← deref t.head_
    if c.offset ≠ hd.offset then
      let tl ← deref t.tail_
      if c.offset ≠ tl.offset then cache_touch c.offset
    pure child
  else
    let offset ← arr_get n.children pos
    let child ← if n.level ≠ 1 then do
        let item ← allocate_inner offset node ((n.level + (2 ^ 64 - 1)) % 2 ^ 64)
        let _ ← inner_load item
        cache_new_node item
        pure item
      else do
        let hd ← deref t.head_
        if offset = hd.offset then pure t.head_
        else
          let tl ← deref t.tail_
          if offset = tl.offset then pure t.tail_
          else
            let item ← allocate_leaf offset node
            let _ ← leaf_load item
            link_possible_siblings item
            cache_new_node item
            pure item
    Inner_link node pos child
    pure child

/-- Method `get_child_by_key`. -/
def get_child_by_key (node key : Nat) : M Nat := do
  let n ← deref_inner node
  let pos ← n.find_lower key
  let k ← arr_get n.keys pos
  get_child node ((pos + (if k = key then 1 else 0)) % 256)

/-- Method `get_sibling`. -/
def get_sibling (node index : Nat) : M Nat := do
  let n ← deref_leaf node
  cache_touch n.offset
  let raw ← arr_get n.siblings index
  if raw = 0 then pure 0
  else if n.is_sibling_ptr_at index then
    let leaf ← deref_leaf raw
    cache_touch leaf.offset
    pure raw
  else
    let t ← get
    let not_index := if index = 0 then 1 else 0
    let hd ← deref_leaf t.head_
    let r ← if raw = hd.offset then do
        store t.head_ (← hd.link_sibling node not_index)
        pure (false, t.head_)
      else do
        let tl ← deref_leaf t.tail_
        if raw = tl.offset then
          store t.tail_ (← tl.link_sibling node not_index)
          pure (false, t.tail_)
        else
          let item ← allocate_leaf raw 0
          let _ ← leaf_load item
          link_possible_siblings item
          pure (true, item)
    let n ← deref_leaf node
    store node (← n.link_sibling r.2 index)
    if r.1 then
      let res ← cache_get raw
      cache_assign res.1 r.2
    pure r.2

/-! ### Insertion into nodes and splits -/

/-- Method `_Inner::insert`. -/
def Inner_insert (this key node : Nat) : M Unit := do
  let n ← deref_inner this
  let pos ← n.find_lower key
  let r ← insert_ 1 n.keys n.used_slots key pos n.children 1
  store this { n with keys := r.1, children := r.2.1, used_slots := r.2.2,
                      children_ptr_bmp := bit_insert n.children_ptr_bmp pos }
  Inner_link this (pos + 1) node

/-- Method `_Inner::split`; returns `key_for_parent`. -/
def Inner_split (this new_inner key new_child : Nat) : M Nat := do
  let t ← get
  let n ← deref_inner this
  let d ← deref_inner new_inner
  let orig_key_pos ← n.find_lower key
  let r ← split_ t.slot_count 1 orig_key_pos d.keys d.children n.keys n.children key
  store this { n with used_slots := r.src_used_slots, keys := r.src_keys,
                      children := r.src_values }
  let bits := if r.key_pos ≠ orig_key_pos then
      n.children_ptr_bmp >>> (slot_mid t.slot_count + extra t.slot_count)
    else n.children_ptr_bmp
  let cs ← arr_set r.dest_values r.key_pos new_child
  store new_inner { d with used_slots := r.dest_used_slots, keys := r.dest_keys, children := cs,
                           children_ptr_bmp := bit_insert bits r.key_pos }
  set_as_parent new_inner
  let n ← deref_inner this
  arr_get n.keys (slot_mid t.slot_count)

/-- Method `_Leaf::insert( key, pos)`. -/
def Leaf_insert (this key pos : Nat) : M Unit := do
  let n ← deref_leaf this
  let r ← insert_ 0 n.keys n.used_slots key pos n.data 0
  store this { n with keys := r.1, data := r.2.1, used_slots := r.2.2 }

/-- Method `_Leaf::split`; returns `def` (leaf and slot of the new key) and
`key_for_parent`. -/
def Leaf_split (this new_leaf key : Nat) : M ((Nat × Nat) × Nat) := do
  let t ← get
  let n ← deref_leaf this
  let d ← deref_leaf new_leaf
  let orig_key_pos ← n.find_lower key
  let r ← split_ t.slot_count 0 orig_key_pos d.keys d.data n.keys n.data key
  store this { n with used_slots := r.src_used_slots, keys := r.src_keys, data := r.src_values }
  store new_leaf { d with used_slots := r.dest_used_slots, keys := r.dest_keys,
                          data := r.dest_values }
  let key_for_parent ← arr_get r.dest_keys 0
  pure ((if r.key_pos = orig_key_pos then this else new_leaf, r.key_pos), key_for_parent)

/-- Method `insert_descend`; returns `def`, `splitkey` and `splitnode`
(`splitnode` is 0 and `splitkey` is uninitialised when nothing was split).
`fuel` bounds the depth of the recursion. -/
def insert_descend : Nat → Nat → Nat → M ((Nat × Nat) × Nat × Nat)
  | 0, _, _ => throw Fault.fuel
  | fuel + 1, node_item, key => do
    let t ← get
    let n ← deref node_item
    let slot ← n.find_lower key
    if !n.is_leaf then
      let child ← get_child node_item slot
      let r ← insert_descend fuel child key
      let new_key := r.2.1
      let new_child := r.2.2
      if new_child ≠ 0 then
        let node ← deref_inner node_item
        if node.is_full t.slot_count then
          let t1 ← get
          let new_node ← allocate_inner t1.eof_ node.parent node.level
          modify fun u => { u with eof_ := u.eof_ + Inner_storage_size u.slot_count }
          let splitkey ← Inner_split node_item new_node new_key new_child
          cache_new_node new_node
          pure (r.1, splitkey, new_node)
        else
          Inner_insert node_item new_key new_child
          pure (r.1, t.junk, 0)
      else pure (r.1, t.junk, 0)
    else
      let node ← deref_leaf node_item
      if node.is_full t.slot_count then
        let t1 ← get
        let new_node ← allocate_leaf t1.eof_ 0
        modify fun u => { u with eof_ := u.eof_ + Leaf_storage_size u.slot_count }
        let next_node ← get_sibling node_item sibling_next
        let r ← Leaf_split node_item new_node key
        if next_node ≠ 0 then
          link_siblings new_node next_node
          let nx ← deref_leaf next_node
          store next_node { nx with siblings_changes_bmp :=
                                      nx.siblings_changes_bmp ||| sibling_mask_prev }
        link_siblings node_item new_node
        let nd ← deref_leaf node_item
        store node_item { nd with siblings_changes_bmp :=
                                    nd.siblings_changes_bmp ||| sibling_mask_next }
        let t2 ← get
        if t2.tail_ = node_item then
          modify fun u => { u with tail_ := new_node }
          if node_item ≠ t2.head_ then cache_new_node node_item
        pure (r.1, r.2, new_node)
      else
        Leaf_insert node_item key slot
        pure ((node_item, slot), t.junk, 0)

/-- The loop of `find_`: descent to a leaf through `get_child_by_key`. -/
def find_loop : Nat → Nat → Nat → M Nat
  | 0, _, _ => throw Fault.fuel
  | fuel + 1, node, key => do
    let n ← deref node
    if !n.is_leaf then
      let child ← get_child_by_key node key
      find_loop fuel child key
    else pure node

/-- Bound on the number of nodes on a path from the root, from the level
stored in the root. -/
def depth_fuel : M Nat := do
  let t ← get
  if t.root_ = 0 then pure 1
  else
    let r ← deref t.root_
    pure (r.level + 2)

/-- Method `find_`: leaf pointer and slot, the null pointer for "not found". -/
def find_ (key : Nat) : M (Nat × Nat) := do
  let t ← get
  if t.root_ ≠ 0 then
    let node ← find_loop (← depth_fuel) t.root_ key
    let n ← deref_leaf node
    let pos ← n.find_lower key
    if pos = n.used_slots then pure (0, 0) else pure (node, pos)
  else pure (0, 0)

/-! ### Public operations -/

/-- Method `size`. -/
def size (t : bp_tree) : Nat := t.item_count_

/-- Method `depth`. -/
def depth : M Nat := do
  let t ← get
  if t.root_ ≠ 0 then
    let r ← deref t.root_
    pure (r.level + 1)
  else pure 0

/-- Method `find`: the cursor (leaf pointer, slot). -/
def find (key : Nat) : M (Nat × Nat) := find_ key

/-- Method `insert`: the cursor (leaf pointer, slot) of the new slot. -/
def insert (key : Nat) : M (Nat × Nat) := do
  let t ← get
  if t.root_ ≠ 0 then
    let r ← insert_descend (← depth_fuel) t.root_ key
    let pos := r.1
    let splitkey := r.2.1
    let splitnode := r.2.2
    if splitnode ≠ 0 then
      let t1 ← get
      let root ← deref t1.root_
      let new_root ← allocate_inner t1.eof_ 0 (root.level + 1)
      modify fun u => { u with eof_ := u.eof_ + Inner_storage_size u.slot_count }
      let nr ← deref_inner new_root
      store new_root { nr with keys := (← arr_set nr.keys 0 splitkey) }
      Inner_link new_root 0 t1.root_
      Inner_link new_root 1 splitnode
      let nr ← deref_inner new_root
      store new_root { nr with used_slots := 1 }
      cache_node t1.root_
      cache_node splitnode
      modify fun u => { u with change_flags_ := u.change_flags_ ||| root_mask, root_ := new_root }
    if pos.1 ≠ 0 then
      modify fun u => { u with item_count_ := (u.item_count_ + 1) % 2 ^ 64 }
    pure pos
  else
    let leaf ← allocate_leaf t.eof_ 0
    modify fun u => { u with eof_ := u.eof_ + Leaf_storage_size u.slot_count }
    Leaf_insert leaf key 0
    modify fun u => { u with root_ := leaf, head_ := leaf, tail_ := leaf,
                             change_flags_ := bitmap_ones, item_count_ := 1 }
    pure (leaf, 0)

/-- Method `open( io, end_off)`, on the stream held next to the tree. -/
def bp_open (end_off : Nat) : M Bool := do
  modify fun u => { u with eof_ := end_off }
  let t ← get
  let ok ← if end_off ≠ 0 then do
      let r := t.io.read signature_size
      set_stream r.2
      if overlay r.1 (encode signature_size t.junk) = signature then
        let t ← get
        let rc := t.io.read_scalar offset_size t.item_count_
        modify fun u => { u with io := rc.2, item_count_ := rc.1 }
        if rc.1 ≠ 0 then
          let rf := rc.2.read_scalar 1 t.junk
          let io1 := rf.2.set_compact (rf.1 % 2 == 1)
          let rl := io1.read_scalar slotn_size t.junk
          let ro := rl.2.read_scalar offset_size t.junk
          set_stream ro.2
          if ro.2.ok then
            modify fun u => { u with change_flags_ := 0 }
            if rc.1 > t.slot_count then
              let rh := ro.2.read_scalar offset_size t.junk
              let rt := rh.2.read_scalar offset_size t.junk
              set_stream rt.2
              if rt.2.ok then
                let node ← allocate_inner ro.1 0 rl.1
                let _ ← inner_load_io node
                modify fun u => { u with root_ := node }
                let hd ← allocate_leaf rh.1 0
                modify fun u => { u with head_ := hd }
                let _ ← leaf_load_io hd
                let tl ← allocate_leaf rt.1 0
                modify fun u => { u with tail_ := tl }
                let _ ← leaf_load_io tl
                pure true
              else pure false
            else
              let node ← allocate_leaf ro.1 0
              let _ ← leaf_load_io node
              modify fun u => { u with root_ := node, head_ := node, tail_ := node }
              pure true
          else pure false
        else pure true
      else pure false
    else do
      let io1 := t.io.write signature
      let io2 := io1.write_scalar offset_size 0
      let io3 := io2.write_scalar 1 0
      modify fun u => { u with io := io3, item_count_ := 0, eof_ := items_offset }
      pure io3.ok
  modify fun u => { u with stream_attached := ok }
  pure ok

/-- Destructor `~bp_tree`. -/
def bp_close : M Unit := do
  cache_clear
  let t ← get
  if t.stream_attached then
    if t.change_flags_ &&& count_mask ≠ 0 then
      set_stream ((t.io.seek count_offset).write_scalar offset_size t.item_count_)
    if t.item_count_ ≠ 0 then
      let root ← deref t.root_
      if t.change_flags_ &&& root_mask ≠ 0 then
        modify fun u => { u with io :=
          (((u.io.seek root_level_offset).write_scalar slotn_size root.level).seek
            root_offset).write_scalar offset_size root.offset }
      if !root.is_leaf then
        if t.change_flags_ &&& head_mask ≠ 0 then
          let hd ← deref t.head_
          modify fun u => { u with io :=
            (u.io.seek head_offset).write_scalar offset_size hd.offset }
        if t.change_flags_ &&& tail_mask ≠ 0 then
          let tl ← deref t.tail_
          modify fun u => { u with io :=
            (u.io.seek tail_offset).write_scalar offset_size tl.offset }
        let _ ← inner_save t.root_
        let _ ← leaf_save t.head_
        let _ ← leaf_save t.tail_
        destroy_leaf t.head_
        destroy_leaf t.tail_
      else
        let _ ← leaf_save t.root_
      Node_dtor t.root_
      deallocate t.root_

/-! ### Cursors -/

/-- Method `begin`. -/
def bp_begin (t : bp_tree) : Nat × Nat := (t.head_, 0)

/-- Method `end` (also `rend`). -/
def bp_end : Nat × Nat := (0, 0)

/-- Method `rbegin`. -/
def rbegin : M (Nat × Nat) := do
  let t ← get
  if t.tail_ ≠ 0 then
    let tl ← deref_leaf t.tail_
    pure (t.tail_, (tl.used_slots + 255) % 256)
  else pure (0, 0)

/-- Method `base_iterator::to_next`. -/
def to_next (it : Nat × Nat) : M (Nat × Nat) := do
  if it.1 ≠ 0 then
    let n ← deref_leaf it.1
    if it.2 + 1 = n.used_slots then
      let node ← get_sibling it.1 sibling_next
      pure (node, 0)
    else pure (it.1, (it.2 + 1) % 256)
  else pure it

/-- Method `base_iterator::to_prev`. -/
def to_prev (it : Nat × Nat) : M (Nat × Nat) := do
  if it.1 ≠ 0 then
    if it.2 = 0 then
      let node ← get_sibling it.1 sibling_prev
      if node ≠ 0 then
        let n ← deref_leaf node
        pure (node, (n.used_slots + 255) % 256)
      else pure (0, 0)
    else pure (it.1, it.2 - 1)
  else pure it

/-- Method `base_iterator::key`. -/
def it_key (it : Nat × Nat) : M Nat := do
  let n ← deref_leaf it.1
  arr_get n.keys it.2

/-- Method `base_iterator::value` (and `operator*` read). -/
def it_value (it : Nat × Nat) : M Nat := do
  let n ← deref_leaf it.1
  arr_get n.data it.2

/-- Assignment `*it = v` through `iterator::operator*`. -/
def it_assign (it : Nat × Nat) (v : Nat) : M Unit := do
  let n ← deref_leaf it.1
  store it.1 { n with data := (← arr_set n.data it.2 v) }

/-! ## Drivers: the calls of the test harness -/

/-- Function `fill` of the test: every key is inserted and the value written
through the returned cursor is the key itself (`*bpt.insert( *i) = *i`). -/
def fill : List Nat → M Unit
  | [] => pure ()
  | k :: ks => do
    let it ← insert k
    it_assign it k
    fill ks

/-- Loop `for( i = begin(); i != end(); ++i)` of `iterate_forward`, from the
cursor `it`: the (key, value) pairs visited.  `fuel` bounds the steps. -/
def forward_from : Nat → Nat × Nat → M (List (Nat × Nat))
  | 0, _ => throw Fault.fuel
  | fuel + 1, it =>
    if it = bp_end then pure []
    else do
      let k ← it_key it
      let v ← it_value it
      let next ← to_next it
      let rest ← forward_from fuel next
      pure ((k, v) :: rest)

/-- Function `iterate_forward` of the test, collecting what it visits. -/
def iterate_forward (fuel : Nat) : M (List (Nat × Nat)) := do
  let t ← get
  forward_from fuel (bp_begin t)

/-- Loop `for( i = rbegin(); i != rend(); ++i)` of `iterate_backward`, from
the cursor `it` (`++` on a reverse cursor is `to_prev`). -/
def backward_from : Nat → Nat × Nat → M (List (Nat × Nat))
  | 0, _ => throw Fault.fuel
  | fuel + 1, it =>
    if it = bp_end then pure []
    else do
      let k ← it_key it
      let v ← it_value it
      let next ← to_prev it
      let rest ← backward_from fuel next
      pure ((k, v) :: rest)

/-- Function `iterate_backward` of the test, collecting what it visits. -/
def iterate_backward (fuel : Nat) : M (List (Nat × Nat)) := do
  backward_from fuel (← rbegin)

/-- Keys of a list of (key, value) pairs. -/
def keys_of (l : List (Nat × Nat)) : List Nat := l.map (fun e => e.1)

/-- Key under the cursor returned by `find( k)`, `none` for the past-the-end
cursor. -/
def find_key (k : Nat) : M (Option Nat) := do
  let it ← find k
  if it = bp_end then pure none else pure (some (← it_key it))

/-- Value under the cursor returned by `find( k)`, `none` for the
past-the-end cursor. -/
def find_value (k : Nat) : M (Option Nat) := do
  let it ← find k
  if it = bp_end then pure none else pure (some (← it_value it))

/-- A tree object with slot count `S` and cache capacity `cache_size`, opened
on a new empty file (`open( io, 0)`), then filled with `ks`, then `m`. -/
def on_fresh {α : Type} (S cache_size : Nat) (ks : List Nat) (m : M α) : Res α :=
  toRes ((do let _ ← bp_open 0; fill ks; m).run' (mk_tree S cache_size 0 []))

/-- A tree filled with `ks` on a new file and closed; then a second tree
object opened on the file left behind, with `end_off` the length of the file:
the result of `open`, `size()` and the forward iteration. -/
def round_trip (S cache_size : Nat) (ks : List Nat) (fuel : Nat) :
    Res (Bool × Nat × List (Nat × Nat)) :=
  match (do let _ ← bp_open 0; fill ks; bp_close).run (mk_tree S cache_size 0 []) with
  | .error e => .fault e
  | .ok r =>
    toRes ((do
      let ok ← bp_open r.2.io.bytes.length
      let l ← iterate_forward fuel
      let t ← get
      pure (ok, size t, l)).run' (mk_tree S cache_size 0 r.2.io.bytes))

/-- Keys visited by `iterate_forward`. -/
def forward_keys (fuel : Nat) : M (List Nat) := do
  let l ← iterate_forward fuel
  pure (keys_of l)

/-- Call `insert( k)` between two readings of `size()`: the size before, the
size after, the slot of the returned cursor and the keys of the forward
iteration. -/
def duplicate_report (k fuel : Nat) : M (Nat × Nat × Nat × List Nat) := do
  let before ← get
  let c ← insert k
  let after ← get
  let l ← forward_keys fuel
  pure (size before, size after, c.2, l)

/-- Keys visited by `iterate_backward`. -/
def backward_keys (fuel : Nat) : M (List Nat) := do
  let l ← iterate_backward fuel
  pure (keys_of l)

/-- Number of slots visited by `iterate_forward`, next to `size()`. -/
def count_and_size (fuel : Nat) : M (Nat × Nat) := do
  let l ← iterate_forward fuel
  let t ← get
  pure (l.length, size t)

/-- The statement `*insert( k) = v`, then the key under the cursor that
`insert` returned and the value read through `find( k)`. -/
def insert_assign_find (k v : Nat) : M (Nat × Option Nat) := do
  let c ← insert k
  it_assign c v
  let kc ← it_key c
  let fv ← find_value k
  pure (kc, fv)

/-- Cursor returned by `insert( k)`: its key, the key after `++` and the key
after `--` (both steps taken from the returned cursor). -/
def insert_and_step (k : Nat) : M (Nat × Nat × Nat) := do
  let c ← insert k
  let kc ← it_key c
  let c_next ← to_next c
  let kn ← it_key c_next
  let c_prev ← to_prev c
  let kp ← it_key c_prev
  pure (kc, kn, kp)

/-- Result of `find( k)` next to the keys of the forward iteration. -/
def find_and_keys (k fuel : Nat) : M (Option Nat × List Nat) := do
  let f ← find_key k
  let l ← forward_keys fuel
  pure (f, l)


/-- State of a tree object opened on a new empty file and filled with `ks`
(the untouched object when the fill faults). -/
def state_after (S cache_size : Nat) (ks : List Nat) : bp_tree :=
  match (do let _ ← bp_open 0; fill ks).run (mk_tree S cache_size 0 []) with
  | .ok r => r.2
  | .error _ => mk_tree S cache_size 0 []

/-- Cursor and state that `insert( k)` yields from state `t` (the null cursor
and `t` when it faults). -/
def insert_result (t : bp_tree) (k : Nat) : (Nat × Nat) × bp_tree :=
  match (insert k).run t with
  | .ok r => r
  | .error _ => ((0, 0), t)

/-- Node object that `root_` points to (a prototype leaf when there is none). -/
def root_node (t : bp_tree) : Node :=
  (t.heap.lookup t.root_).getD (Leaf_ctor t.slot_count t.junk)

/-! ## Specification predicates -/

/-- The operation `m` leaves `item_count_` as it was whenever it completes. -/
structure Keeps {α : Type} (m : M α) : Prop where
  keeps : ∀ s a s', m s = Except.ok (a, s') → s'.item_count_ = s.item_count_

/-- Every value returned by `m` satisfies `P`. -/
structure Post {α : Type} (m : M α) (P : α → Prop) : Prop where
  post : ∀ s a s', m s = Except.ok (a, s') → P a

/-- Whenever `m` completes, `item_count_` is `g` of its value before. -/
structure Counts {α : Type} (m : M α) (g : Nat → Nat) : Prop where
  counts : ∀ s a s', m s = Except.ok (a, s') → s'.item_count_ = g s.item_count_

/-- After the fill: `size()` and the keys of the forward iteration. -/
def size_and_keys (fuel : Nat) : M (Nat × List Nat) := do
  let t ← get
  let l ← forward_keys fuel
  pure (size t, l)

/-! ### Clearing and compaction -/

/-- Method `clear`. -/
def bp_clear : M Unit := do
  let t ← get
  if t.root_ ≠ 0 then
    modify fun u => { u with stream_attached := false }
    cache_clear
    if t.item_count_ > 1 then
      if t.head_ ≠ 0 then destroy_leaf t.head_
      if t.tail_ ≠ 0 then destroy_leaf t.tail_
    Node_dtor t.root_
    deallocate t.root_
    modify fun u => { u with item_count_ := 0, change_flags_ := count_mask, root_ := 0,
                             head_ := 0, tail_ := 0, eof_ := items_offset,
                             stream_attached := t.stream_attached }

/-- The algorithm `std::copy( src + first, src + last, dst + d)` between two
distinct arrays. -/
def std_copy (src : List Nat) (first last : Nat) (dst : List Nat) (d : Nat) :
    Except Fault (List Nat) :=
  std_move src first last dst d

/-- The local type `NodeInfoMap` of `compact_to`, a `std::map` from the old
offset of a node to its `_NodeInfo`: entries (offset, storage_size,
new_offset) in ascending order of the offset. -/
abbrev NodeInfoMap := List (Nat × Nat × Nat)

/-- Assignment `map[ offset] = size`: the entry becomes `_NodeInfo( size)`,
whose `new_offset` is not initialised. -/
def info_assign (junk : Nat) : NodeInfoMap → Nat → Nat → NodeInfoMap
  | [], k, size => [(k, size, junk)]
  | e :: m, k, size =>
    if k < e.1 then (k, size, junk) :: e :: m
    else if k = e.1 then (k, size, junk) :: m
    else e :: info_assign junk m k size

/-- Read `map[ offset].new_offset`; a missing entry is default-constructed,
so its `new_offset` is not initialised. -/
def info_new_offset (junk : Nat) (m : NodeInfoMap) (k : Nat) : Nat :=
  match m.lookup k with
  | some e => e.2
  | none => junk

/-- The loop of `compact_to` that assigns the new offsets in map order. -/
def assign_new_offsets : NodeInfoMap → Nat → NodeInfoMap
  | [], _ => []
  | e :: m, offset => (e.1, e.2.1, offset) :: assign_new_offsets m ((offset + e.2.1) % 2 ^ 64)

/-- The two `for` loops of `compact_analyse_descend` over the children of
`node`; `body` is what is done with each child. -/
def analyse_loop (body : NodeInfoMap → Nat → M NodeInfoMap) (node : Nat) :
    Nat → Nat → NodeInfoMap → M NodeInfoMap
  | 0, _, _ => throw Fault.fuel
  | fuel + 1, i, map => do
    let n ← deref_inner node
    if i < n.used_slots + 1 then
      let child ← get_child node i
      let map1 ← body map child
      analyse_loop body node fuel ((i + 1) % 256) map1
    else pure map

/-- Method `compact_analyse_descend`; `fuel` bounds the depth of the recursion. -/
def compact_analyse_descend : Nat → NodeInfoMap → Nat → M NodeInfoMap
  | 0, _, _ => throw Fault.fuel
  | fuel + 1, map, node => do
    let t ← get
    let n ← deref_inner node
    let map1 := info_assign t.junk map n.offset (n.inner_actual_storage_size t.slot_count)
    if n.level ≠ 1 then
      analyse_loop (compact_analyse_descend fuel) node 257 0 map1
    else
      analyse_loop (fun m child => do
        let leaf ← deref_leaf child
        pure (info_assign t.junk m leaf.offset (leaf.leaf_actual_storage_size t.slot_count)))
        node 257 0 map1

/-- The locals that `compact_write_descend` works on: the output stream and
the two scratch nodes `inner` and `leaf` of `compact_to`. -/
structure CompactState where
  out : bp_tree_default_stream
  inner : Node
  leaf : Node
  deriving DecidableEq, Repr

/-- The first loop of `compact_write_descend`: the translated child offsets
go to `inner.children`. -/
def translate_children (map : NodeInfoMap) (node : Nat) : Nat → Nat → Nat → Node → M Node
  | 0, _, _, _ => throw Fault.fuel
  | fuel + 1, i, flag, inner => do
    let t ← get
    let n ← deref_inner node
    if i < n.used_slots + 1 then
      let off ← child_offset t.heap n flag i
      let cs ← arr_set inner.children i (info_new_offset t.junk map off)
      translate_children map node fuel ((i + 1) % 256) (bmp_shl flag 1) { inner with children := cs }
    else pure inner

/-- Translated offset of the sibling `index` of `leafSrc`, as computed in
`compact_write_descend`. -/
def translate_sibling (map : NodeInfoMap) (leafSrc : Node) (index : Nat) : M Nat := do
  let t ← get
  let ref ← arr_get leafSrc.siblings index
  if ref ≠ 0 then
    if leafSrc.is_sibling_ptr_at index then
      let s ← deref_leaf ref
      pure (info_new_offset t.junk map s.offset)
    else pure (info_new_offset t.junk map ref)
  else pure 0

/-- Body of the leaf loop of `compact_write_descend`. -/
def compact_write_leaf (map : NodeInfoMap) (st : CompactState) (child : Nat) : M CompactState := do
  let t ← get
  let leafSrc ← deref_leaf child
  let ks ← std_copy leafSrc.keys 0 leafSrc.used_slots st.leaf.keys 0
  let ds ← std_copy leafSrc.data 0 leafSrc.used_slots st.leaf.data 0
  let next ← translate_sibling map leafSrc sibling_next
  let prev ← translate_sibling map leafSrc sibling_prev
  let sb ← arr_set st.leaf.siblings sibling_next next
  let sb ← arr_set sb sibling_prev prev
  let leaf := { st.leaf with used_slots := leafSrc.used_slots,
                             offset := info_new_offset t.junk map leafSrc.offset,
                             keys := ks, data := ds, siblings := sb,
                             key_changes_bmp := bitmap_ones, siblings_changes_bmp := bitmap_ones }
  let out := st.out.seek (info_new_offset t.junk map leafSrc.offset)
  let r ← Leaf_raw_save_to t.slot_count t.heap leaf out
  pure { st with out := r.2.1, leaf := r.1 }

/-- The two `for` loops of `compact_write_descend` over the children of
`node`; `body` is what is done with each child. -/
def write_loop (body : CompactState → Nat → M CompactState) (node : Nat) :
    Nat → Nat → CompactState → M CompactState
  | 0, _, _ => throw Fault.fuel
  | fuel + 1, i, st => do
    let n ← deref_inner node
    if i < n.used_slots + 1 then
      let child ← get_child node i
      let st1 ← body st child
      write_loop body node fuel ((i + 1) % 256) st1
    else pure st

/-- Method `compact_write_descend`; `fuel` bounds the depth of the recursion. -/
def compact_write_descend (map : NodeInfoMap) : Nat → Nat → CompactState → M CompactState
  | 0, _, _ => throw Fault.fuel
  | fuel + 1, node, st => do
    let t ← get
    let n ← deref_inner node
    let ks ← std_copy n.keys 0 n.used_slots st.inner.keys 0
    let inner := { st.inner with keys := ks, used_slots := n.used_slots,
                                 key_changes_bmp := bitmap_ones }
    let inner ← translate_children map node 257 0 1 inner
    let out := st.out.seek (info_new_offset t.junk map n.offset)
    let r ← Inner_raw_save_to t.slot_count t.heap inner out
    let st1 := { st with out := r.2.1, inner := r.1 }
    if n.level ≠ 1 then
      write_loop (fun s child => compact_write_descend map fuel child s) node 257 0 st1
    else
      write_loop (compact_write_leaf map) node 257 0 st1

/-- Method `compact_to( out)`: the result and the stream `out` afterwards. -/
def compact_to (out : bp_tree_default_stream) : M (Bool × bp_tree_default_stream) := do
  let t ← get
  if t.root_ ≠ 0 then
    let root ← deref t.root_
    if !root.is_leaf then
      let map ← compact_analyse_descend (root.level + 1) [] t.root_
      let map := assign_new_offsets map items_offset
      let t1 ← get
      let root ← deref t1.root_
      let hd ← deref_leaf t1.head_
      let tl ← deref_leaf t1.tail_
      let out := out.write signature
      let out := out.write_scalar offset_size t1.item_count_
      let out := out.write_scalar 1 1
      let out := out.write_scalar slotn_size root.level
      let out := out.write_scalar offset_size (info_new_offset t1.junk map root.offset)
      let out := out.write_scalar offset_size (info_new_offset t1.junk map hd.offset)
      let out := out.write_scalar offset_size (info_new_offset t1.junk map tl.offset)
      let st : CompactState := { out := out.set_compact true,
                                 inner := Inner_ctor t1.slot_count t1.junk,
                                 leaf := Leaf_ctor t1.slot_count t1.junk }
      let r ← compact_write_descend map (root.level + 1) t1.root_ st
      pure (true, r.out)
    else pure (false, out)
  else pure (false, out)

/-! ### Drivers for clearing, opening and compaction -/

/-- A tree filled with `ks` on a new file and closed (cache capacity
`cache_size`); then a second tree object with cache capacity `cache_size2`
opened on the file left behind (with `end_off` the length of the file) and
run through `m`. -/
def on_reopened {α : Type} (S cache_size cache_size2 : Nat) (ks : List Nat) (m : M α) : Res α :=
  match (do let _ ← bp_open 0; fill ks; bp_close).run (mk_tree S cache_size 0 []) with
  | .error e => .fault e
  | .ok r =>
    toRes ((do let _ ← bp_open r.2.io.bytes.length; m).run' (mk_tree S cache_size2 0 r.2.io.bytes))

/-- Bytes of the file that a tree filled with `ks` on a new file leaves
behind when it is closed (no bytes when the run faults). -/
def file_of (S cache_size : Nat) (ks : List Nat) : List Nat :=
  match (do let _ ← bp_open 0; fill ks; bp_close).run (mk_tree S cache_size 0 []) with
  | .error _ => []
  | .ok r => r.2.io.bytes

/-- Call `clear()` and then the destructor: `size()`, `depth()`, whether
`begin() == end()`, `eof_`, whether the `count_mask` bit of `change_flags_`
is set and whether the file is byte for byte what it was, all read right
after `clear()`; then the `item_count` field of the header before `clear()`
and after the destructor. -/
def clear_report : M (Nat × Nat × Bool × Nat × Bool × Bool × List Nat × List Nat) := do
  let before ← get
  bp_clear
  let t ← get
  let d ← depth
  bp_close
  let after ← get
  pure (size t, d, bp_begin t == bp_end, t.eof_, t.change_flags_ &&& count_mask != 0,
        t.io.bytes == before.io.bytes,
        (before.io.bytes.drop count_offset).take offset_size,
        (after.io.bytes.drop count_offset).take offset_size)

/-- A new tree object next to a stream over `content`, then `open( io,
end_off)`: the result, whether a stream is attached afterwards, and the
three node pointers. -/
def open_result (S cache_size junk : Nat) (content : List Nat) (end_off : Nat) :
    Res (Bool × Bool × Nat × Nat × Nat) :=
  toRes ((do
    let ok ← bp_open end_off
    let t ← get
    pure (ok, t.stream_attached, t.root_, t.head_, t.tail_)).run'
      (mk_tree S cache_size junk content))

/-- A second tree object opened on the bytes `content` (with `end_off` their
length): result of `open`, the `compact_` switch of the stream, `size()`,
`depth()` and the forward iteration. -/
def reopen (S cache_size : Nat) (content : List Nat) (fuel : Nat) :
    Res (Bool × Bool × Nat × Nat × List (Nat × Nat)) :=
  toRes ((do
    let ok ← bp_open content.length
    let l ← iterate_forward fuel
    let d ← depth
    let t ← get
    pure (ok, t.io.compact_, size t, d, l)).run' (mk_tree S cache_size 0 content))

/-- Function `compact_bpt` of the test on a tree filled with `ks` on a new
file: the forward iteration of the source tree, the result of `compact_to`
on a new empty output file, the flags byte and the `item_count` field of the
output, and what a second tree object opened on the output yields. -/
def compact_bpt (S cache_size : Nat) (ks : List Nat) (fuel : Nat) :
    Res (List (Nat × Nat) × Bool × List Nat × List Nat ×
         Res (Bool × Bool × Nat × Nat × List (Nat × Nat))) :=
  match on_fresh S cache_size ks (do
      let l ← iterate_forward fuel
      let r ← compact_to (bp_tree_default_stream.mk_stream [])
      pure (l, r.1, r.2.bytes)) with
  | .fault f => .fault f
  | .ok r =>
    .ok (r.1, r.2.1, (r.2.2.drop flag_offset).take 1, (r.2.2.drop count_offset).take offset_size,
         reopen S cache_size r.2.2 fuel)

/-- Forward iteration, then `compact_to` on a new empty output file run from
the state the iteration left: the keys visited and the result of
`compact_to` (or the fault that stopped it). -/
def walk_then_compact (fuel : Nat) : M (List Nat × Res Bool) := do
  let l ← forward_keys fuel
  let t ← get
  pure (l, toRes ((do
    let r ← compact_to (bp_tree_default_stream.mk_stream [])
    pure r.1).run' t))

/-! ## Specification of the recency list -/

namespace lru_cache

/-- Cell of the hash map at an address, if there is one. -/
def lookup (c : lru_cache) (a : Nat) : Option Item := c.iMap.find? (fun i => i.addr == a)

/-- Value of `p->next`; nothing where `p` cannot be dereferenced. -/
def nextOf (c : lru_cache) : ItemPtr → Option ItemPtr
  | .null => none
  | .head => some c.head_next
  | .item a => (c.lookup a).map (fun i => i.next)

/-- Value of `p->prev`; nothing where `p` cannot be dereferenced. -/
def prevOf (c : lru_cache) : ItemPtr → Option ItemPtr
  | .null => none
  | .head => some c.head_prev
  | .item a => (c.lookup a).map (fun i => i.prev)

/-- The cells at the addresses `l` are linked in both directions, in this
order, between `p` and `q`: `nx` is `->next` and `pv` is `->prev`. -/
def Seg (nx pv : ItemPtr → Option ItemPtr) : ItemPtr → List Nat → ItemPtr → Prop
  | p, [], q => nx p = some q ∧ pv q = some p
  | p, a :: l, q => nx p = some (.item a) ∧ pv (.item a) = some p ∧ Seg nx pv (.item a) l q

/-- A cache without pinned cells whose recency list, from `mru_begin()` to
`mru_end()`, is made of the cells at the addresses `l`: the list is a ring
through the head sentinel, every cell of the map is on it exactly once, and
`next_item` is an address not yet in use. -/
structure WF (c : lru_cache) (l : List Nat) : Prop where
  seg : Seg c.nextOf c.prevOf .head l .head
  nodup : l.Nodup
  perm : (c.iMap.map (fun i => i.addr)).Perm l
  fresh : ∀ a ∈ l, a < c.next_item

/-- Cells of `c'` differ from those of `c` in their links only, and the
scalar members are the same. -/
structure SameCells (c c' : lru_cache) : Prop where
  addrs : c'.iMap.map (fun i => i.addr) = c.iMap.map (fun i => i.addr)
  cells : ∀ b, (c'.lookup b).map (fun i => (i.key, i.data)) = (c.lookup b).map (fun i => (i.key, i.data))
  limit : c'.iMaxLimit = c.iMaxLimit
  observer : c'.iObserver = c.iObserver
  next : c'.next_item = c.next_item
  locked : c'.iLockedSet = c.iLockedSet

end lru_cache

/-- A call of one of the public operations `get`, `find`, `touch`, `erase`
and `clear` of the cache. -/
inductive CacheOp
  | get (key : Nat)
  | find (key : Nat) (mru : Bool)
  | touch (key : Nat)
  | erase (key : Nat)
  | clear
  deriving DecidableEq, Repr

/-- The cache after one call. -/
def apply_op (c : lru_cache) : CacheOp → Except Fault lru_cache
  | .get key => do
    let r ← c.get key
    pure r.2.2
  | .find key mru => do
    let r ← c.find key mru
    pure r.2
  | .touch key => c.touch key
  | .erase key => do
    let r ← c.erase key
    pure r.2
  | .clear => pure c.clear.2

/-- The cache after a sequence of calls. -/
def run_ops : lru_cache → List CacheOp → Except Fault lru_cache
  | c, [] => pure c
  | c, op :: ops => do
    let c1 ← apply_op c op
    run_ops c1 ops

/-! ### Drivers for the cache -/

/-- A call on the cache as the tree makes it: `get` followed by the
assignment of a payload to a new cell, `lock` and `unlock` on the cursor of
`find( key, false)`, `find` and `touch`. -/
inductive PinOp
  | get (key data : Nat)
  | lock (key : Nat)
  | unlock (key : Nat)
  | find (key : Nat) (mru : Bool)
  | touch (key : Nat)
  deriving DecidableEq, Repr

/-- The payloads handed to the eviction observer by one call, and the cache
after it. -/
def pin_step (c : lru_cache) : PinOp → Except Fault (List Nat × lru_cache)
  | .get key data => do
    let r ← c.get key
    let c1 ← if r.1.2 then pure r.2.2 else r.2.2.set_data r.1.1 data
    pure (r.2.1.toList, c1)
  | .lock key => do
    let r ← c.find key false
    let c1 ← r.2.lock (r.1.map (fun i => i.addr))
    pure ([], c1)
  | .unlock key => do
    let r ← c.find key false
    let c1 ← r.2.unlock (r.1.map (fun i => i.addr))
    pure ([], c1)
  | .find key mru => do
    let r ← c.find key mru
    pure ([], r.2)
  | .touch key => do
    let c1 ← c.touch key
    pure ([], c1)

/-- The payloads handed to the eviction observer by a sequence of calls, in
order, and the cache after them. -/
def pin_run : lru_cache → List PinOp → Except Fault (List Nat × lru_cache)
  | c, [] => pure ([], c)
  | c, op :: ops => do
    let r ← pin_step c op
    let rest ← pin_run r.2 ops
    pure (r.1 ++ rest.1, rest.2)

/-- What a sequence of calls on a new cache of capacity `n` with an observer
shows: the payloads handed to the observer, the keys of the recency list
from `mru_begin()` on, `size()`, and whether `key` is still in the map. -/
def pin_report (n : Nat) (ops : List PinOp) (key : Nat) : Res (List Nat × List Nat × Nat × Bool) :=
  match pin_run (lru_cache.mk_cache n true) ops with
  | .error e => .fault e
  | .ok r => .ok (r.1, r.2.mru_keys (r.2.size + 1) r.2.head_next, r.2.size,
                  (r.2.map_find key).isSome)

/-- State of a new cache of capacity `n` with an observer after a sequence
of calls (the new cache itself when a call faults). -/
def cache_after (n : Nat) (ops : List PinOp) : lru_cache :=
  match pin_run (lru_cache.mk_cache n true) ops with
  | .ok r => r.2
  | .error _ => lru_cache.mk_cache n true

/-! ### The header as laid out in a file -/

/-- The six header fields after the signature as they stand in a file:
`item_count`, the flags byte, root level, and the root, head and tail
offsets, each decoded at its header position. -/
def header_fields (bytes : List Nat) : Nat × Nat × Nat × Nat × Nat × Nat :=
  (decode ((bytes.drop count_offset).take offset_size),
   decode ((bytes.drop flag_offset).take 1),
   decode ((bytes.drop root_level_offset).take slotn_size),
   decode ((bytes.drop root_offset).take offset_size),
   decode ((bytes.drop head_offset).take offset_size),
   decode ((bytes.drop tail_offset).take offset_size))

/-- The same six values as the tree object holds them: `size()`, the
`compact_` switch of its stream, the level and the offset of the root node,
and the offsets of the head and tail leaves. -/
def tree_fields : M (Nat × Nat × Nat × Nat × Nat × Nat) := do
  let t ← get
  let r ← deref t.root_
  let h ← deref t.head_
  let tl ← deref t.tail_
  pure (size t, if t.io.compact_ then 1 else 0, r.level, r.offset, h.offset, tl.offset)

/-- Bytes that `compact_to` leaves in a new empty output file, for a tree
filled with `ks` on a new file (no bytes when the run faults). -/
def compact_file_of (S cache_size : Nat) (ks : List Nat) : List Nat :=
  match on_fresh S cache_size ks (compact_to (bp_tree_default_stream.mk_stream [])) with
  | .ok r => r.2.bytes
  | .fault _ => []

/-- Result and state that `open( io, end_off)` yields on a new tree object
next to a stream over `content` (false and the new object when it faults). -/
def open_state (S cache_size junk : Nat) (content : List Nat) (end_off : Nat) : Bool × bp_tree :=
  match (bp_open end_off).run (mk_tree S cache_size junk content) with
  | .ok r => r
  | .error _ => (false, mk_tree S cache_size junk content)

/-- Result, output stream and state that `compact_to` on a new empty output
file yields from state `t` (false, the empty stream and `t` when it faults). -/
def compact_result (t : bp_tree) : (Bool × bp_tree_default_stream) × bp_tree :=
  match (compact_to (bp_tree_default_stream.mk_stream [])).run t with
  | .ok r => r
  | .error _ => ((false, bp_tree_default_stream.mk_stream []), t)

/-- A new tree object opened on the bytes `content` (with `end_off` their
length) and run through `m`. -/
def on_file {α : Type} (S cache_size : Nat) (content : List Nat) (m : M α) : Res α :=
  toRes ((do let _ ← bp_open content.length; m).run' (mk_tree S cache_size 0 content))

/-! ### Drivers for the pin set, the splits and the shape of the tree -/

/-- What a sequence of calls on a new cache of capacity `n` with an observer
shows about the cell of `key`: `is_locked` on its cursor, the keys met from
`mru_begin()` on by following `next` (at most `size() + 1` cells), and
`size()`. -/
def lock_report (n : Nat) (ops : List PinOp) (key : Nat) : Res (Bool × List Nat × Nat) :=
  match pin_run (lru_cache.mk_cache n true) ops with
  | .error e => .fault e
  | .ok r => .ok (r.2.is_locked ((r.2.map_find key).map (fun i => i.addr)),
                  r.2.mru_keys (r.2.size + 1) r.2.head_next, r.2.size)

/-- Keys of the leaves below `node`, from left to right, the children being
taken through `get_child`.  `fuel` bounds the depth. -/
def subtree_keys : Nat → Nat → M (List Nat)
  | 0, _ => throw Fault.fuel
  | fuel + 1, node => do
    let n ← deref node
    if n.is_leaf then pure (n.keys.take n.used_slots)
    else
      let subs ← (List.range (n.used_slots + 1)).mapM (fun i => do
        let c ← get_child node i
        subtree_keys fuel c)
      pure subs.flatten

/-- The node reached from `node` by taking the children at the positions of
`path`, one after the other, through `get_child`. -/
def node_at : List Nat → Nat → M Nat
  | [], node => pure node
  | i :: path, node => do
    let c ← get_child node i
    node_at path c

/-- The inner node at `path` below the root: its keys `keys[0, used_slots)`
and, for each of its `used_slots + 1` children, the keys of the leaves below
that child. -/
def inner_view (fuel : Nat) (path : List Nat) : M (List Nat × List (List Nat)) := do
  let t ← get
  let node ← node_at path t.root_
  let n ← deref_inner node
  let subs ← (List.range (n.used_slots + 1)).mapM (fun i => do
    let c ← get_child node i
    subtree_keys fuel c)
  pure (n.keys.take n.used_slots, subs)

/-- Offset of the node that a raw `_Ref` value stands for: the offset of the
resident node when the value is the address of one, the value itself
otherwise. -/
def ref_offset (t : bp_tree) (raw : Nat) : Nat :=
  match t.heap.lookup raw with
  | some m => m.offset
  | none => raw

/-- The child slots `children[0, used_slots]` of an inner node: for each slot
the offset of the child stored there and the bit of the slot in
`children_ptr_bmp`. -/
def child_slots (t : bp_tree) (n : Node) : List (Nat × Bool) :=
  (List.range (n.used_slots + 1)).map (fun i =>
    (ref_offset t (n.children.getD i 0), (n.children_ptr_bmp &&& bmp_shl 1 i) != 0))

/-- An inner node of level 1 at offset 36 with the given keys and child
offsets, none of the children resident; then every slot listed in `resident`
gets a resident leaf with the offset found in the slot, linked by
`_Inner::link`.  Returns the address of the inner node. -/
def inner_fixture (keys children resident : List Nat) : M Nat := do
  let t ← get
  let this ← allocate_inner items_offset 0 1
  let n ← deref_inner this
  store this { n with used_slots := keys.length,
                      keys := keys ++ n.keys.drop keys.length,
                      children := children ++ n.children.drop children.length }
  resident.forM (fun i => do
    let leaf ← allocate_leaf (children.getD i 0) this
    Inner_link this i leaf)
  modify fun u => { u with root_ := this, eof_ := t.eof_ + Inner_storage_size t.slot_count }
  pure this

/-- Method `_Inner::split` on the node of `inner_fixture`, with a new inner
node from `allocate_inner` and a new resident child at offset `child`: the
keys of the old node, `key_for_parent`, the keys of the new node, and the
child slots of the old and of the new node. -/
def inner_split_report (S : Nat) (keys children resident : List Nat) (key child : Nat) :
    Res (List Nat × Nat × List Nat × List (Nat × Bool) × List (Nat × Bool)) :=
  toRes ((do
    let this ← inner_fixture keys children resident
    let new_child ← allocate_leaf child 0
    let t ← get
    let new_node ← allocate_inner t.eof_ 0 1
    let key_for_parent ← Inner_split this new_node key new_child
    let u ← get
    let l ← deref_inner this
    let r ← deref_inner new_node
    pure (l.keys.take l.used_slots, key_for_parent, r.keys.take r.used_slots,
          child_slots u l, child_slots u r)).run' (mk_tree S 512 0 []))

/-- Method `_Inner::insert` on the node of `inner_fixture`, with a new
resident child at offset `child`: the keys and the child slots of the node
afterwards. -/
def inner_insert_report (S : Nat) (keys children resident : List Nat) (key child : Nat) :
    Res (List Nat × List (Nat × Bool)) :=
  toRes ((do
    let this ← inner_fixture keys children resident
    let new_child ← allocate_leaf child 0
    Inner_insert this key new_child
    let u ← get
    let l ← deref_inner this
    pure (l.keys.take l.used_slots, child_slots u l)).run' (mk_tree S 512 0 []))

/-- Call `insert( k)` and what it does to the root: `depth()` before and
after, offset and level of the old root, `eof_` before and after; then level,
offset and keys of the root afterwards, its child slots, the `parent` of each
resident child as the offset of the node it points to (0 for none), and
whether the `root_mask` bit of `change_flags_` is set. -/
def growth_report (k : Nat) :
    M ((Nat × Nat) × (Nat × Nat) × (Nat × Nat) ×
       (Nat × Nat × List Nat × List (Nat × Bool) × List Nat) × Bool) := do
  let before ← get
  let d0 ← depth
  let old ← deref before.root_
  let _ ← insert k
  let d1 ← depth
  let u ← get
  let root ← deref u.root_
  let parents := (List.range (root.used_slots + 1)).map (fun i =>
    match u.heap.lookup (root.children.getD i 0) with
    | some m => ref_offset u m.parent
    | none => 0)
  pure ((d0, d1), (old.offset, old.level), (before.eof_, u.eof_),
        (root.level, root.offset, root.keys.take root.used_slots, child_slots u root, parents),
        u.change_flags_ &&& root_mask != 0)

/-- The resident leaves in the order of their offsets, each with its keys
and the offsets of the leaves its `sibling_next` and `sibling_prev` stand
for (0 for none); in front, the offsets of `head_` and `tail_`. -/
def chain_report : M ((Nat × Nat) × List (Nat × List Nat × Nat × Nat)) := do
  let t ← get
  let leaves := (t.heap.filter (fun e => e.2.kind == Kind.leaf)).map (fun e =>
    (e.2.offset, e.2.keys.take e.2.used_slots,
     ref_offset t (e.2.siblings.getD sibling_next 0),
     ref_offset t (e.2.siblings.getD sibling_prev 0)))
  pure ((ref_offset t t.head_, ref_offset t t.tail_),
        leaves.mergeSort (fun a b => a.1 ≤ b.1))

/-- The resident inner nodes in the order of their offsets, each with its
level and the levels of the nodes in its child slots (through `get_child`). -/
def level_rows : M (List (Nat × Nat × List Nat)) := do
  let t ← get
  let inner := (t.heap.filter (fun e => e.2.kind == Kind.inner)).mergeSort
    (fun a b => a.2.offset ≤ b.2.offset)
  inner.mapM (fun e => do
    let levels ← (List.range (e.2.used_slots + 1)).mapM (fun i => do
      let c ← get_child e.1 i
      let m ← deref c
      pure m.level)
    pure (e.2.offset, e.2.level, levels))

/-- The loop of `find_` once more, collecting the level of every node it
visits, the leaf included. -/
def descent_levels : Nat → Nat → Nat → M (List Nat)
  | 0, _, _ => throw Fault.fuel
  | fuel + 1, node, key => do
    let n ← deref node
    if !n.is_leaf then
      let child ← get_child_by_key node key
      let rest ← descent_levels fuel child key
      pure (n.level :: rest)
    else pure [n.level]

/-- Value of `depth()`, the levels met by the descent of `find( key)`, and the key
under the cursor that `find( key)` returns. -/
def descent_report (key : Nat) : M (Nat × List Nat × Option Nat) := do
  let t ← get
  let d ← depth
  let l ← descent_levels (← depth_fuel) t.root_ key
  let f ← find_key key
  pure (d, l, f)

/-- Node object at an address (a prototype leaf when there is none). -/
def heap_node (t : bp_tree) (p : Nat) : Node :=
  (t.heap.lookup p).getD (Leaf_ctor t.slot_count t.junk)

/-- State in which `insert_descend` calls `_Leaf::split`: the tree filled
with `ks`, then a new leaf from `allocate_leaf( eof_)`; in front, the address
of the new leaf. -/
def with_new_leaf (S cache_size : Nat) (ks : List Nat) : Nat × bp_tree :=
  match (do let t ← get; allocate_leaf t.eof_ 0).run (state_after S cache_size ks) with
  | .ok r => r
  | .error _ => (0, state_after S cache_size ks)

/-- The child slots of the root: for each slot the raw value of the `_Ref`
(as an offset when it is the address of a resident node), the bit of the slot
in `children_ptr_bmp`, and whether the raw value is the address of a resident
node. -/
def root_slots : M (List (Nat × Bool × Bool)) := do
  let t ← get
  let n ← deref_inner t.root_
  pure ((List.range (n.used_slots + 1)).map (fun i =>
    (ref_offset t (n.children.getD i 0), (n.children_ptr_bmp &&& bmp_shl 1 i) != 0,
     (t.heap.lookup (n.children.getD i 0)).isSome)))

/-- The keys `ks` inserted one after the other as `fill` does, then
`chain_report`. -/
def chain_after (ks : List Nat) : M ((Nat × Nat) × List (Nat × List Nat × Nat × Nat)) := do
  fill ks
  chain_report

/-! ### Drivers for the search, the change marks, the cache and the links -/

/-- A tree as `on_fresh` builds it, in memory whose uninitialised parts hold
`junk`. -/
def on_junk {α : Type} (S cache_size junk : Nat) (ks : List Nat) (m : M α) : Res α :=
  toRes ((do let _ ← bp_open 0; fill ks; m).run' (mk_tree S cache_size junk []))

/-- Call `get_child_by_key( root_, key)`: the offset of the node returned
and the number of keys in use in the root. -/
def root_child_for (key : Nat) : M (Nat × Nat) := do
  let t ← get
  let r ← deref_inner t.root_
  let c ← get_child_by_key t.root_ key
  let m ← deref c
  pure (m.offset, r.used_slots)

/-- The keys `keys[0, used_slots)` of the root, the content of its key
array behind them, and the offsets in its child slots `children[0,
used_slots]`. -/
def root_keys : M (List Nat × List Nat × List Nat) := do
  let t ← get
  let r ← deref_inner t.root_
  pure (r.keys.take r.used_slots, r.keys.drop r.used_slots,
        (child_slots t r).map (fun e => e.1))

/-- Call `insert( k)` and `*it = k` on a tree whose root is a leaf:
`is_changed()` of the root before and of the leaf of the cursor afterwards,
the keys of that leaf, and `change_flags_` afterwards. -/
def dirty_report (k : Nat) : M (Bool × Bool × List Nat × Nat) := do
  let t0 ← get
  let r0 ← deref t0.root_
  let c ← insert k
  it_assign c k
  let t ← get
  let n ← deref c.1
  pure (r0.leaf_is_changed, n.leaf_is_changed, n.keys.take n.used_slots, t.change_flags_)

/-- The resident nodes other than the root, `head_` and `tail_`, by their
offsets, each with whether the cache has a cell for that offset whose payload
is the node. -/
def cache_rows : M (List (Nat × Bool)) := do
  let t ← get
  pure ((t.heap.filter (fun e => e.1 != t.root_ && e.1 != t.head_ && e.1 != t.tail_)).map
    (fun e => (e.2.offset, (t.cache_.map_find e.2.offset).map (fun i => i.data) == some e.1)))

/-- The resident leaves in the order of their offsets; for each the offset
and, for `sibling_next` and then for `sibling_prev`, the offset the slot
stands for, whether the slot is in pointer form, and whether its content is
the address of a resident node. -/
def link_rows : M (List (Nat × (Nat × Bool × Bool) × (Nat × Bool × Bool))) := do
  let t ← get
  pure (((t.heap.filter (fun e => e.2.kind == Kind.leaf)).map (fun e =>
    (e.2.offset,
     (ref_offset t (e.2.siblings.getD sibling_next 0), e.2.is_sibling_ptr_at sibling_next,
      (t.heap.lookup (e.2.siblings.getD sibling_next 0)).isSome),
     (ref_offset t (e.2.siblings.getD sibling_prev 0), e.2.is_sibling_ptr_at sibling_prev,
      (t.heap.lookup (e.2.siblings.getD sibling_prev 0)).isSome)))).mergeSort
      (fun a b => a.1 ≤ b.1))

/-- The cursor after `n` increments (`++it`). -/
def advance : Nat → Nat × Nat → M (Nat × Nat)
  | 0, it => pure it
  | n + 1, it => do advance n (← to_next it)

/-- Call `find( k)`, `n` increments of the cursor, then `link_rows`. -/
def links_after_walk (k n : Nat) : M (List (Nat × (Nat × Bool × Bool) × (Nat × Bool × Bool))) := do
  let it ← find k
  let _ ← advance n it
  link_rows

/-- Call `insert( k)` and `*it = k` on a tree whose root is an inner node:
`is_changed()` of the root before and afterwards, and its keys before and
afterwards. -/
def root_dirty_report (k : Nat) : M (Bool × Bool × List Nat × List Nat) := do
  let t0 ← get
  let r0 ← deref_inner t0.root_
  let c ← insert k
  it_assign c k
  let t ← get
  let r ← deref_inner t.root_
  pure (r0.inner_is_changed, r.inner_is_changed, r0.keys.take r0.used_slots,
        r.keys.take r.used_slots)

/-- The child slots `children[0, used_slots]` of the inner node at `p`: for
each slot the offset it stands for, its bit in `children_ptr_bmp`, whether
its content is the address of a resident node, and whether that node has `p`
as its `parent`. -/
def slot_rows (t : bp_tree) (p : Nat) : List (Nat × Bool × Bool × Bool) :=
  match t.heap.lookup p with
  | none => []
  | some n =>
    (List.range (n.used_slots + 1)).map (fun i =>
      (ref_offset t (n.children.getD i 0), (n.children_ptr_bmp &&& bmp_shl 1 i) != 0,
       (t.heap.lookup (n.children.getD i 0)).isSome,
       (t.heap.lookup (n.children.getD i 0)).map (fun m => m.parent) == some p))

/-- The child slots of the root, as `slot_rows` shows them. -/
def root_rows : M (List (Nat × Bool × Bool × Bool)) := do
  let t ← get
  pure (slot_rows t t.root_)

/-- Method `_Inner::insert` on the node of `inner_fixture`, with a new
resident child at offset `child`: the child slots of the node afterwards. -/
def insert_rows (S : Nat) (keys children resident : List Nat) (key child : Nat) :
    Res (List (Nat × Bool × Bool × Bool)) :=
  toRes ((do
    let this ← inner_fixture keys children resident
    let new_child ← allocate_leaf child 0
    Inner_insert this key new_child
    let u ← get
    pure (slot_rows u this)).run' (mk_tree S 512 0 []))

/-- Method `_Inner::split` on the node of `inner_fixture` as in
`inner_split_report`, then the destructor of the resident child in slot
`victim` of the new node: the child slots of the new node before and after
the destructor, and whether the slot `victim` still holds the address of the
destroyed node. -/
def split_destroy_rows (S : Nat) (keys children resident : List Nat) (key child victim : Nat) :
    Res (List (Nat × Bool × Bool × Bool) × List (Nat × Bool × Bool × Bool) × Bool) :=
  toRes ((do
    let this ← inner_fixture keys children resident
    let new_child ← allocate_leaf child 0
    let t ← get
    let new_node ← allocate_inner t.eof_ 0 1
    let _ ← Inner_split this new_node key new_child
    let u ← get
    let r ← deref_inner new_node
    let c ← arr_get r.children victim
    destroy_leaf c
    let v ← get
    let r2 ← deref_inner new_node
    pure (slot_rows u new_node, slot_rows v new_node, r2.children.getD victim 0 == c)).run'
      (mk_tree S 512 0 []))

/-- Call `find( k)`, three increments of the cursor, `link_rows`, six more
increments, `link_rows` again, and then the forward iteration from `begin()`
run from that state: the two tables and the keys visited (or the fault that
stopped the iteration). -/
def link_walk_report (k fuel : Nat) :
    M (List (Nat × (Nat × Bool × Bool) × (Nat × Bool × Bool))
       × List (Nat × (Nat × Bool × Bool) × (Nat × Bool × Bool)) × Res (List Nat)) := do
  let it ← find k
  let it3 ← advance 3 it
  let r1 ← link_rows
  let _ ← advance 6 it3
  let r2 ← link_rows
  let t ← get
  pure (r1, r2, toRes ((forward_keys fuel).run' t))

/-- Keys of the recency list from `mru_end()` backwards, following `prev`;
at most `fuel` cells. -/
def lru_keys : Nat → lru_cache → ItemPtr → List Nat
  | 0, _, _ => []
  | fuel + 1, c, p =>
    match p with
    | .item a =>
      match c.iMap.find? (fun i => i.addr == a) with
      | some i => i.key :: lru_keys fuel c i.prev
      | none => []
    | _ => []

/-- What a sequence of calls on a new cache of capacity `n` with an observer
leaves: the keys met from the head sentinel by following `next`, the keys met
by following `prev`, the keys of the cells of the map, and the keys of the
cells in the pin set (at most `size() + 1` cells are followed). -/
def ring_report (n : Nat) (ops : List PinOp) : Res (List Nat × List Nat × List Nat × List Nat) :=
  match pin_run (lru_cache.mk_cache n true) ops with
  | .error e => .fault e
  | .ok r => .ok (r.2.mru_keys (r.2.size + 1) r.2.head_next,
                  lru_keys (r.2.size + 1) r.2 r.2.head_prev,
                  r.2.iMap.map (fun i => i.key),
                  (r.2.iMap.filter (fun i => r.2.iLockedSet.contains i.addr)).map (fun i => i.key))

/-- A leaf object with the keys and values given in its first slots, the two
sibling slots in offset form, and every change mark set, as the constructor
leaves them. -/
def leaf_of (S offset : Nat) (keys data : List Nat) (next prev : Nat) : Node :=
  { Leaf_ctor S 0 with offset := offset, used_slots := keys.length,
                       keys := keys ++ List.replicate (S - keys.length) 0,
                       data := data ++ List.replicate (S - data.length) 0,
                       siblings := [next, prev] }

/-- An inner node object with the keys given in its first slots, the child
slots in offset form, and every change mark set, as the constructor leaves
them. -/
def inner_of (S offset : Nat) (keys children : List Nat) : Node :=
  { Inner_ctor S 0 with offset := offset, level := 1, used_slots := keys.length,
                        keys := keys ++ List.replicate (S - keys.length) 0,
                        children := children ++ List.replicate (S + 1 - children.length) 0 }

/-- A tree object whose heap holds the node `n` alone, at the first address
of the heap. -/
def one_node (S : Nat) (n : Node) : bp_tree :=
  { mk_tree S 512 0 [] with heap := [(heap_base, n)] }

/-- Number of bytes by which `raw_save_to` of a node advances the position
of a stream over an empty file that stands at `start`, in compact mode or
not; next to it `storage_size` and `actual_storage_size()` of the node. -/
def footprint (S : Nat) (compact : Bool) (n : Node) (start : Nat) : Res (Nat × Nat × Nat) :=
  let out := ((bp_tree_default_stream.mk_stream []).set_compact compact).seek start
  match n.kind with
  | .leaf =>
    match Leaf_raw_save_to S [] n out with
    | .error e => .fault e
    | .ok r => .ok (r.2.1.pos - start, Leaf_storage_size S, n.leaf_actual_storage_size S)
  | .inner =>
    match Inner_raw_save_to S [] n out with
    | .error e => .fault e
    | .ok r => .ok (r.2.1.pos - start, Inner_storage_size S, n.inner_actual_storage_size S)

/-- Number of bytes that `read_keys`, `write_keys`, `read_data`, `write_data`
and the three-argument `read_offsets` skip after the `used` slots of width
`w`: none in a compact stream, the `count - used` unused slots otherwise. -/
def pad_bytes (compact : Bool) (w used count : Nat) : Nat :=
  if compact then 0 else w * (count - used)

/-- The offset that `save_sibling` writes for the sibling slot `index` of a
leaf: the offset of the resident sibling for a slot in pointer form, the
content of the slot otherwise. -/
def sibling_offset (h : Heap) (n : Node) (index : Nat) : Except Fault Nat := do
  let r ← arr_get n.siblings index
  if n.siblings_ptr_bmp &&& bmp_shl 1 index ≠ 0 then
    let m ← heap_deref h r
    pure m.offset
  else pure r

namespace bp_tree_default_stream

/-- The stream is in mode `c` and has not failed, the file starts with the
bytes `A`, and the position is `g` bytes after them. -/
structure At (s : bp_tree_default_stream) (c : Bool) (A : List Nat) (g : Nat) : Prop where
  good : s.failed = false
  mode : s.compact_ = c
  front : ∃ post, s.bytes = A ++ post
  place : s.pos = A.length + g

end bp_tree_default_stream

namespace bp_tree_default_stream

end bp_tree_default_stream

/-- The entries of the map of `compact_to` are in strictly ascending order
of the old offsets, and every size recorded is at least the size of a node
record without slots. -/
structure map_ordered (m : NodeInfoMap) : Prop where
  ascending : m.Pairwise (fun a b => a.1 < b.1)
  sized : ∀ e ∈ m, 9 ≤ e.2.1

/-- The old records do not overlap and lie between the header and `eof`:
the first old offset is not below the end of the header, every record ends
where the next begins or before, and the last one ends at `eof` or before. -/
def old_layout : NodeInfoMap → Nat → Nat → Prop
  | [], lo, eof => lo ≤ eof
  | e :: m, lo, eof => lo ≤ e.1 ∧ old_layout m (e.1 + e.2.1) eof

/-- The new records are laid end to end from `start`: each new offset is
where the record before it ends. -/
def end_to_end : NodeInfoMap → Nat → Prop
  | [], _ => True
  | e :: m, start => e.2.2 = start ∧ end_to_end m (start + e.2.1)

/-- End of the last record of a plan that starts at `start`. -/
def plan_end : NodeInfoMap → Nat → Nat
  | [], start => start
  | e :: m, _ => plan_end m (e.2.2 + e.2.1)

/-- The first step of `compact_to` on a tree with a root: the map that
`compact_analyse_descend` builds from the root, and `eof_`. -/
def compact_analysis : M (NodeInfoMap × Nat) := do
  let t ← get
  let root ← deref t.root_
  let map ← compact_analyse_descend (root.level + 1) [] t.root_
  let u ← get
  pure (map, u.eof_)

/-! ### The live nodes that the compaction visits -/

/-- The children of `node` that the loops of `compact_analyse_descend` visit,
slots 0 to `used_slots`, with what `walk` lists for each of them. -/
def live_children (walk : Nat → M (List (Nat × Nat))) (node : Nat) :
    Nat → Nat → M (List (Nat × Nat))
  | 0, _ => throw Fault.fuel
  | fuel + 1, i => do
    let n ← deref_inner node
    if i < n.used_slots + 1 then
      let child ← get_child node i
      let l1 ← walk child
      let l2 ← live_children walk node fuel ((i + 1) % 256)
      pure (l1 ++ l2)
    else pure []

/-- The live nodes below and including the inner node `node`, in the order
of a walk from the top: the node itself, then for each child slot 0 to
`used_slots` the child that `get_child` returns, with what is below it; of
each node its offset and its `actual_storage_size()`. -/
def live_nodes : Nat → Nat → M (List (Nat × Nat))
  | 0, _ => throw Fault.fuel
  | fuel + 1, node => do
    let t ← get
    let n ← deref_inner node
    let l ←
      if n.level ≠ 1 then live_children (live_nodes fuel) node 257 0
      else live_children (fun child => do
        let leaf ← deref_leaf child
        pure [(leaf.offset, leaf.leaf_actual_storage_size t.slot_count)]) node 257 0
    pure ((n.offset, n.inner_actual_storage_size t.slot_count) :: l)

/-- The live nodes of a tree with a root, in the order of the walk from the
root. -/
def live_walk : M (List (Nat × Nat)) := do
  let t ← get
  let root ← deref t.root_
  live_nodes (root.level + 1) t.root_

/-- The map from offset to size that the assignments `map[ offset] = size`
build from `m` on, one for each record of the list in turn. -/
def records_map (l : List (Nat × Nat)) (m : NodeInfoMap) : NodeInfoMap :=
  l.foldl (fun m e => info_assign 0 m e.1 e.2) m

/-- Sum of the sizes in the map. -/
def plan_total : NodeInfoMap → Nat
  | [] => 0
  | e :: m => e.2.1 + plan_total m

/-! ### The kind of the root -/

namespace lru_cache

/-- The payloads of the cells of the map. -/
def payloads (c : lru_cache) : List Nat := c.iMap.map (fun i => i.data)

end lru_cache

/-- What is kept fixed through an operation of the tree: the address of a
node with its kind and level, the values of `root_` and `head_`, and a lower
bound of `next_addr`. -/
structure Anchor where
  addr : Nat
  kind : Kind
  level : Nat
  root : Nat
  head : Nat
  low : Nat

/-- The node at the address of the anchor is resident with the kind and
level of the anchor and is not a payload of the cache, so no eviction
destroys it; every address in use, in the heap or as a payload, is below
`next_addr`, which is at least `low`; `root_` and `head_` are those of the
anchor; the prototype of the inner nodes is an inner node. -/
structure Anchored (x : Anchor) (s : bp_tree) : Prop where
  heap_lt : ∀ e ∈ s.heap, e.1 < s.next_addr
  pay_lt : ∀ d ∈ s.cache_.payloads, d < s.next_addr
  here : ∃ n, s.heap.lookup x.addr = some n ∧ n.kind = x.kind ∧ n.level = x.level
  free : x.addr ∉ s.cache_.payloads
  nz : x.addr ≠ 0
  root : s.root_ = x.root
  head : s.head_ = x.head
  bound : x.low ≤ s.next_addr
  proto : s.inner_node.kind = Kind.inner

/-- What the claim on the kind of the root looks at: whether `root_` points
to a leaf object, whether it is also `head_` and `tail_`, `depth()` and
`size()`. -/
def root_shape : M (Bool × Bool × Nat × Nat) := do
  let t ← get
  let r ← deref t.root_
  let d ← depth
  pure (decide (r.kind = Kind.leaf), decide (t.root_ = t.head_ ∧ t.root_ = t.tail_), d, size t)

/-- The tree is a single leaf with `m` slots in use: `root_`, `head_` and
`tail_` point to it, its arrays have `S` elements, `size()` is `m`. -/
structure SingleLeaf (S m : Nat) (s : bp_tree) : Prop where
  slots : s.slot_count = S
  anchored : Anchored ⟨s.root_, Kind.leaf, 0, s.root_, s.root_, 0⟩ s
  tail : s.tail_ = s.root_
  node : ∃ n, s.heap.lookup s.root_ = some n ∧ n.kind = Kind.leaf ∧ n.level = 0
    ∧ n.used_slots = m ∧ n.keys.length = S ∧ n.data.length = S
  count : s.item_count_ = m

/-- The root is an inner node, after `n` calls of `insert` on a tree of slot
count `S`; its level is between 1 and `n - S` as long as `n < S + 255`. -/
structure Grown (S n : Nat) (s : bp_tree) : Prop where
  root : ∃ x, Anchored x s ∧ x.addr = x.root ∧ x.kind = Kind.inner
    ∧ (n < S + 255 → 1 ≤ x.level ∧ x.level + S ≤ n)
  count : s.item_count_ = n % 2 ^ 64

/-! ## Theorems -/

set_option linter.unusedTactic false
set_option linter.unreachableTactic false
set_option maxRecDepth 20000

/-! ### Rules for the specification predicates -/

/-- Frame rule for `pure`. -/
theorem keeps_pure {α : Type} (a : α) : Keeps (pure a : M α) := by
  constructor
  intro s b s' h
  cases h
  rfl

/-- Frame rule for sequencing. -/
theorem keeps_bind {α β : Type} {x : M α} {f : α → M β} (hx : Keeps x) (hf : ∀ a, Keeps (f a)) :
    Keeps (x >>= f) := by
  constructor
  intro s b s' h
  simp only [bind, StateT.bind] at h
  cases hxs : x s with
  | error e => rw [hxs] at h; cases h
  | ok r =>
    rw [hxs] at h
    obtain ⟨a, s1⟩ := r
    have h1 := hx.keeps s a s1 hxs
    have h2 := (hf a).keeps s1 b s' h
    rw [h2, h1]

/-- Frame rule for reading the state. -/
theorem keeps_get : Keeps (get : M bp_tree) := by
  constructor
  intro s b s' h
  cases h
  rfl

/-- Frame rule for a state update that does not touch `item_count_`. -/
theorem keeps_modify (f : bp_tree → bp_tree) (hf : ∀ t, (f t).item_count_ = t.item_count_) :
    Keeps (modify f : M PUnit) := by
  constructor
  intro s b s' h
  cases h
  exact hf s

/-- Frame rule for a fault. -/
theorem keeps_throw {α : Type} (e : Fault) : Keeps (throw e : M α) := by
  constructor
  intro s b s' h
  cases h

/-- Frame rule for a computation that does not involve the state. -/
theorem keeps_lift {α : Type} (e : Except Fault α) : Keeps (liftM e : M α) := by
  constructor
  intro s b s' h
  cases e with
  | error x => cases h
  | ok x => cases h; rfl


/-- Frame rule for a conditional. -/
theorem keeps_ite {α : Type} (c : Prop) [Decidable c] {a b : M α} (ha : Keeps a) (hb : Keeps b) :
    Keeps (if c then a else b) := by
  split
  · exact ha
  · exact hb


/-- Frame: `deref` leaves `item_count_` unchanged. -/
theorem keeps_deref (p : Nat) :
    Keeps (deref p) := by
  unfold deref
  repeat (with_reducible first
    | exact keeps_get | apply keeps_pure | apply keeps_throw | apply keeps_lift
    | (apply keeps_modify; intro _; rfl) | apply keeps_ite | apply keeps_bind | intro _
    | dsimp only | split)

/-- Frame: `deref_inner` leaves `item_count_` unchanged. -/
theorem keeps_deref_inner (p : Nat) :
    Keeps (deref_inner p) := by
  unfold deref_inner
  repeat (with_reducible first
    | exact keeps_get | apply keeps_pure | apply keeps_throw | apply keeps_lift
    | (apply keeps_modify; intro _; rfl) | apply keeps_deref | apply keeps_ite
    | apply keeps_bind | intro _ | dsimp only | split)

/-- Frame: `deref_leaf` leaves `item_count_` unchanged. -/
theorem keeps_deref_leaf (p : Nat) :
    Keeps (deref_leaf p) := by
  unfold deref_leaf
  repeat (with_reducible first
    | exact keeps_get | apply keeps_pure | apply keeps_throw | apply keeps_lift
    | (apply keeps_modify; intro _; rfl) | apply keeps_deref | apply keeps_ite
    | apply keeps_bind | intro _ | dsimp only | split)

/-- Frame: `store` leaves `item_count_` unchanged. -/
theorem keeps_store (p : Nat) (n : Node) :
    Keeps (store p n) := by
  unfold store
  repeat (with_reducible first
    | exact keeps_get | apply keeps_pure | apply keeps_throw | apply keeps_lift
    | (apply keeps_modify; intro _; rfl) | apply keeps_ite | apply keeps_bind | intro _
    | dsimp only | split)

/-- Frame: `deallocate` leaves `item_count_` unchanged. -/
theorem keeps_deallocate (p : Nat) :
    Keeps (deallocate p) := by
  unfold deallocate
  repeat (with_reducible first
    | exact keeps_get | apply keeps_pure | apply keeps_throw | apply keeps_lift
    | (apply keeps_modify; intro _; rfl) | apply keeps_ite | apply keeps_bind | intro _
    | dsimp only | split)

/-- Frame: `get_stream` leaves `item_count_` unchanged. -/
theorem keeps_get_stream  :
    Keeps (get_stream ) := by
  unfold get_stream
  repeat (with_reducible first
    | exact keeps_get | apply keeps_pure | apply keeps_throw | apply keeps_lift
    | (apply keeps_modify; intro _; rfl) | apply keeps_ite | apply keeps_bind | intro _
    | dsimp only | split)

/-- Frame: `set_stream` leaves `item_count_` unchanged. -/
theorem keeps_set_stream (s : bp_tree_default_stream) :
    Keeps (set_stream s) := by
  unfold set_stream
  repeat (with_reducible first
    | exact keeps_get | apply keeps_pure | apply keeps_throw | apply keeps_lift
    | (apply keeps_modify; intro _; rfl) | apply keeps_ite | apply keeps_bind | intro _
    | dsimp only | split)

/-- Frame: `allocate_leaf` leaves `item_count_` unchanged. -/
theorem keeps_allocate_leaf (offset parent : Nat) :
    Keeps (allocate_leaf offset parent) := by
  unfold allocate_leaf
  repeat (with_reducible first
    | exact keeps_get | apply keeps_pure | apply keeps_throw | apply keeps_lift
    | (apply keeps_modify; intro _; rfl) | apply keeps_ite | apply keeps_bind | intro _
    | dsimp only | split)

/-- Frame: `allocate_inner` leaves `item_count_` unchanged. -/
theorem keeps_allocate_inner (offset parent level : Nat) :
    Keeps (allocate_inner offset parent level) := by
  unfold allocate_inner
  repeat (with_reducible first
    | exact keeps_get | apply keeps_pure | apply keeps_throw | apply keeps_lift
    | (apply keeps_modify; intro _; rfl) | apply keeps_ite | apply keeps_bind | intro _
    | dsimp only | split)

/-- Frame: `Inner_unlink` leaves `item_count_` unchanged. -/
theorem keeps_Inner_unlink (this node : Nat) :
    Keeps (Inner_unlink this node) := by
  unfold Inner_unlink
  repeat (with_reducible first
    | exact keeps_get | apply keeps_pure | apply keeps_throw | apply keeps_lift
    | (apply keeps_modify; intro _; rfl) | apply keeps_deref | apply keeps_deref_inner
    | apply keeps_store | apply keeps_ite | apply keeps_bind | intro _ | dsimp only | split)

/-- Frame: `Node_dtor` leaves `item_count_` unchanged. -/
theorem keeps_Node_dtor (this : Nat) :
    Keeps (Node_dtor this) := by
  unfold Node_dtor
  repeat (with_reducible first
    | exact keeps_get | apply keeps_pure | apply keeps_throw | apply keeps_lift
    | (apply keeps_modify; intro _; rfl) | apply keeps_deref | apply keeps_Inner_unlink
    | apply keeps_ite | apply keeps_bind | intro _ | dsimp only | split)

/-- Frame: `set_parent_loop` leaves `item_count_` unchanged. -/
theorem keeps_set_parent_loop (this value fuel i mask : Nat) :
    Keeps (set_parent_loop this value fuel i mask) := by
  induction fuel generalizing i mask with
  | zero =>
    unfold set_parent_loop
    first | apply keeps_pure | apply keeps_throw
  | succ n ih =>
    unfold set_parent_loop
    repeat (with_reducible first
      | exact keeps_get | apply keeps_pure | apply keeps_throw | apply keeps_lift
      | (apply keeps_modify; intro _; rfl) | apply ih | apply keeps_deref
      | apply keeps_deref_inner | apply keeps_store | apply keeps_ite | apply keeps_bind
      | intro _ | dsimp only | split)

/-- Frame: `set_as_parent` leaves `item_count_` unchanged. -/
theorem keeps_set_as_parent (this : Nat) :
    Keeps (set_as_parent this) := by
  unfold set_as_parent
  repeat (with_reducible first
    | exact keeps_get | apply keeps_pure | apply keeps_throw | apply keeps_lift
    | (apply keeps_modify; intro _; rfl) | apply keeps_deref_inner
    | apply keeps_set_parent_loop | apply keeps_ite | apply keeps_bind | intro _
    | dsimp only | split)

/-- Frame: `destroy_inner` leaves `item_count_` unchanged. -/
theorem keeps_destroy_inner (this : Nat) :
    Keeps (destroy_inner this) := by
  unfold destroy_inner
  repeat (with_reducible first
    | exact keeps_get | apply keeps_pure | apply keeps_throw | apply keeps_lift
    | (apply keeps_modify; intro _; rfl) | apply keeps_deref_inner | apply keeps_deallocate
    | apply keeps_Node_dtor | apply keeps_set_parent_loop | apply keeps_ite
    | apply keeps_bind | intro _ | dsimp only | split)

/-- Frame: `destroy_leaf` leaves `item_count_` unchanged. -/
theorem keeps_destroy_leaf (this : Nat) :
    Keeps (destroy_leaf this) := by
  unfold destroy_leaf
  repeat (with_reducible first
    | exact keeps_get | apply keeps_pure | apply keeps_throw | apply keeps_lift
    | (apply keeps_modify; intro _; rfl) | apply keeps_deref_leaf | apply keeps_store
    | apply keeps_deallocate | apply keeps_Node_dtor | apply keeps_ite | apply keeps_bind
    | intro _ | dsimp only | split)

/-- Frame: `leaf_save` leaves `item_count_` unchanged. -/
theorem keeps_leaf_save (this : Nat) :
    Keeps (leaf_save this) := by
  unfold leaf_save
  repeat (with_reducible first
    | exact keeps_get | apply keeps_pure | apply keeps_throw | apply keeps_lift
    | (apply keeps_modify; intro _; rfl) | apply keeps_deref_leaf | apply keeps_store
    | apply keeps_set_stream | apply keeps_ite | apply keeps_bind | intro _ | dsimp only
    | split)

/-- Frame: `inner_save` leaves `item_count_` unchanged. -/
theorem keeps_inner_save (this : Nat) :
    Keeps (inner_save this) := by
  unfold inner_save
  repeat (with_reducible first
    | exact keeps_get | apply keeps_pure | apply keeps_throw | apply keeps_lift
    | (apply keeps_modify; intro _; rfl) | apply keeps_deref_inner | apply keeps_store
    | apply keeps_set_stream | apply keeps_ite | apply keeps_bind | intro _ | dsimp only
    | split)

/-- Frame: `leaf_load_io` leaves `item_count_` unchanged. -/
theorem keeps_leaf_load_io (this : Nat) :
    Keeps (leaf_load_io this) := by
  unfold leaf_load_io
  repeat (with_reducible first
    | exact keeps_get | apply keeps_pure | apply keeps_throw | apply keeps_lift
    | (apply keeps_modify; intro _; rfl) | apply keeps_deref_leaf | apply keeps_store
    | apply keeps_set_stream | apply keeps_ite | apply keeps_bind | intro _ | dsimp only
    | split)

/-- Frame: `inner_load_io` leaves `item_count_` unchanged. -/
theorem keeps_inner_load_io (this : Nat) :
    Keeps (inner_load_io this) := by
  unfold inner_load_io
  repeat (with_reducible first
    | exact keeps_get | apply keeps_pure | apply keeps_throw | apply keeps_lift
    | (apply keeps_modify; intro _; rfl) | apply keeps_deref_inner | apply keeps_store
    | apply keeps_set_stream | apply keeps_ite | apply keeps_bind | intro _ | dsimp only
    | split)

/-- Frame: `leaf_load` leaves `item_count_` unchanged. -/
theorem keeps_leaf_load (this : Nat) :
    Keeps (leaf_load this) := by
  unfold leaf_load
  repeat (with_reducible first
    | exact keeps_get | apply keeps_pure | apply keeps_throw | apply keeps_lift
    | (apply keeps_modify; intro _; rfl) | apply keeps_get_stream | apply keeps_leaf_load_io
    | apply keeps_ite | apply keeps_bind | intro _ | dsimp only | split)

/-- Frame: `inner_load` leaves `item_count_` unchanged. -/
theorem keeps_inner_load (this : Nat) :
    Keeps (inner_load this) := by
  unfold inner_load
  repeat (with_reducible first
    | exact keeps_get | apply keeps_pure | apply keeps_throw | apply keeps_lift
    | (apply keeps_modify; intro _; rfl) | apply keeps_get_stream
    | apply keeps_inner_load_io | apply keeps_ite | apply keeps_bind | intro _ | dsimp only
    | split)

/-- Frame: `nodeman_call` leaves `item_count_` unchanged. -/
theorem keeps_nodeman_call (node : Nat) :
    Keeps (nodeman_call node) := by
  unfold nodeman_call
  repeat (with_reducible first
    | exact keeps_get | apply keeps_pure | apply keeps_throw | apply keeps_lift
    | (apply keeps_modify; intro _; rfl) | apply keeps_deref | apply keeps_destroy_inner
    | apply keeps_destroy_leaf | apply keeps_leaf_save | apply keeps_inner_save
    | apply keeps_ite | apply keeps_bind | intro _ | dsimp only | split)

/-- Frame: `cache_touch` leaves `item_count_` unchanged. -/
theorem keeps_cache_touch (key : Nat) :
    Keeps (cache_touch key) := by
  unfold cache_touch
  repeat (with_reducible first
    | exact keeps_get | apply keeps_pure | apply keeps_throw | apply keeps_lift
    | (apply keeps_modify; intro _; rfl) | apply keeps_ite | apply keeps_bind | intro _
    | dsimp only | split)

/-- Frame: `cache_find` leaves `item_count_` unchanged. -/
theorem keeps_cache_find (key : Nat) :
    Keeps (cache_find key) := by
  unfold cache_find
  repeat (with_reducible first
    | exact keeps_get | apply keeps_pure | apply keeps_throw | apply keeps_lift
    | (apply keeps_modify; intro _; rfl) | apply keeps_ite | apply keeps_bind | intro _
    | dsimp only | split)

/-- Frame: `cache_get` leaves `item_count_` unchanged. -/
theorem keeps_cache_get (key : Nat) :
    Keeps (cache_get key) := by
  unfold cache_get
  repeat (with_reducible first
    | exact keeps_get | apply keeps_pure | apply keeps_throw | apply keeps_lift
    | (apply keeps_modify; intro _; rfl) | apply keeps_nodeman_call | apply keeps_ite
    | apply keeps_bind | intro _ | dsimp only | split)

/-- Frame: `cache_assign` leaves `item_count_` unchanged. -/
theorem keeps_cache_assign (it node : Nat) :
    Keeps (cache_assign it node) := by
  unfold cache_assign
  repeat (with_reducible first
    | exact keeps_get | apply keeps_pure | apply keeps_throw | apply keeps_lift
    | (apply keeps_modify; intro _; rfl) | apply keeps_ite | apply keeps_bind | intro _
    | dsimp only | split)

/-- Frame: `cache_new_node` leaves `item_count_` unchanged. -/
theorem keeps_cache_new_node (node : Nat) :
    Keeps (cache_new_node node) := by
  unfold cache_new_node
  repeat (with_reducible first
    | exact keeps_get | apply keeps_pure | apply keeps_throw | apply keeps_lift
    | (apply keeps_modify; intro _; rfl) | apply keeps_deref | apply keeps_cache_get
    | apply keeps_cache_assign | apply keeps_ite | apply keeps_bind | intro _ | dsimp only
    | split)

/-- Frame: `cache_node` leaves `item_count_` unchanged. -/
theorem keeps_cache_node (node : Nat) :
    Keeps (cache_node node) := by
  unfold cache_node
  repeat (with_reducible first
    | exact keeps_get | apply keeps_pure | apply keeps_throw | apply keeps_lift
    | (apply keeps_modify; intro _; rfl) | apply keeps_cache_new_node | apply keeps_ite
    | apply keeps_bind | intro _ | dsimp only | split)

/-- Frame: `Inner_link` leaves `item_count_` unchanged. -/
theorem keeps_Inner_link (this index node : Nat) :
    Keeps (Inner_link this index node) := by
  unfold Inner_link
  repeat (with_reducible first
    | exact keeps_get | apply keeps_pure | apply keeps_throw | apply keeps_lift
    | (apply keeps_modify; intro _; rfl) | apply keeps_deref | apply keeps_deref_inner
    | apply keeps_store | apply keeps_ite | apply keeps_bind | intro _ | dsimp only | split)

/-- Frame: `link_siblings` leaves `item_count_` unchanged. -/
theorem keeps_link_siblings (a b : Nat) :
    Keeps (link_siblings a b) := by
  unfold link_siblings
  repeat (with_reducible first
    | exact keeps_get | apply keeps_pure | apply keeps_throw | apply keeps_lift
    | (apply keeps_modify; intro _; rfl) | apply keeps_deref_leaf | apply keeps_store
    | apply keeps_ite | apply keeps_bind | intro _ | dsimp only | split)

/-- Frame: `link_possible_siblings` leaves `item_count_` unchanged. -/
theorem keeps_link_possible_siblings (node : Nat) :
    Keeps (link_possible_siblings node) := by
  unfold link_possible_siblings
  repeat (with_reducible first
    | exact keeps_get | apply keeps_pure | apply keeps_throw | apply keeps_lift
    | (apply keeps_modify; intro _; rfl) | apply keeps_deref_leaf | apply keeps_cache_find
    | apply keeps_link_siblings | apply keeps_ite | apply keeps_bind | intro _ | dsimp only
    | split)

/-- Frame: `get_child` leaves `item_count_` unchanged. -/
theorem keeps_get_child (node pos : Nat) :
    Keeps (get_child node pos) := by
  unfold get_child
  repeat (with_reducible first
    | exact keeps_get | apply keeps_pure | apply keeps_throw | apply keeps_lift
    | (apply keeps_modify; intro _; rfl) | apply keeps_deref | apply keeps_deref_inner
    | apply keeps_allocate_leaf | apply keeps_allocate_inner | apply keeps_leaf_load
    | apply keeps_inner_load | apply keeps_cache_touch | apply keeps_cache_new_node
    | apply keeps_Inner_link | apply keeps_link_possible_siblings | apply keeps_ite
    | apply keeps_bind | intro _ | dsimp only | split)

/-- Frame: `get_sibling` leaves `item_count_` unchanged. -/
theorem keeps_get_sibling (node index : Nat) :
    Keeps (get_sibling node index) := by
  unfold get_sibling
  repeat (with_reducible first
    | exact keeps_get | apply keeps_pure | apply keeps_throw | apply keeps_lift
    | (apply keeps_modify; intro _; rfl) | apply keeps_deref_leaf | apply keeps_store
    | apply keeps_allocate_leaf | apply keeps_leaf_load | apply keeps_cache_touch
    | apply keeps_cache_get | apply keeps_cache_assign | apply keeps_link_possible_siblings
    | apply keeps_ite | apply keeps_bind | intro _ | dsimp only | split)

/-- Frame: `Inner_insert` leaves `item_count_` unchanged. -/
theorem keeps_Inner_insert (this key node : Nat) :
    Keeps (Inner_insert this key node) := by
  unfold Inner_insert
  repeat (with_reducible first
    | exact keeps_get | apply keeps_pure | apply keeps_throw | apply keeps_lift
    | (apply keeps_modify; intro _; rfl) | apply keeps_deref_inner | apply keeps_store
    | apply keeps_Inner_link | apply keeps_ite | apply keeps_bind | intro _ | dsimp only
    | split)

/-- Frame: `Inner_split` leaves `item_count_` unchanged. -/
theorem keeps_Inner_split (this new_inner key new_child : Nat) :
    Keeps (Inner_split this new_inner key new_child) := by
  unfold Inner_split
  repeat (with_reducible first
    | exact keeps_get | apply keeps_pure | apply keeps_throw | apply keeps_lift
    | (apply keeps_modify; intro _; rfl) | apply keeps_deref_inner | apply keeps_store
    | apply keeps_set_as_parent | apply keeps_ite | apply keeps_bind | intro _ | dsimp only
    | split)

/-- Frame: `Leaf_insert` leaves `item_count_` unchanged. -/
theorem keeps_Leaf_insert (this key pos : Nat) :
    Keeps (Leaf_insert this key pos) := by
  unfold Leaf_insert
  repeat (with_reducible first
    | exact keeps_get | apply keeps_pure | apply keeps_throw | apply keeps_lift
    | (apply keeps_modify; intro _; rfl) | apply keeps_deref_leaf | apply keeps_store
    | apply keeps_ite | apply keeps_bind | intro _ | dsimp only | split)

/-- Frame: `Leaf_split` leaves `item_count_` unchanged. -/
theorem keeps_Leaf_split (this new_leaf key : Nat) :
    Keeps (Leaf_split this new_leaf key) := by
  unfold Leaf_split
  repeat (with_reducible first
    | exact keeps_get | apply keeps_pure | apply keeps_throw | apply keeps_lift
    | (apply keeps_modify; intro _; rfl) | apply keeps_deref_leaf | apply keeps_store
    | apply keeps_ite | apply keeps_bind | intro _ | dsimp only | split)

/-- Frame: `insert_descend` leaves `item_count_` unchanged. -/
theorem keeps_insert_descend (fuel node_item key : Nat) :
    Keeps (insert_descend fuel node_item key) := by
  induction fuel generalizing node_item with
  | zero =>
    unfold insert_descend
    first | apply keeps_pure | apply keeps_throw
  | succ n ih =>
    unfold insert_descend
    repeat (with_reducible first
      | exact keeps_get | apply keeps_pure | apply keeps_throw | apply keeps_lift
      | (apply keeps_modify; intro _; rfl) | apply ih | apply keeps_deref
      | apply keeps_deref_inner | apply keeps_deref_leaf | apply keeps_store
      | apply keeps_allocate_leaf | apply keeps_allocate_inner | apply keeps_cache_new_node
      | apply keeps_link_siblings | apply keeps_get_child | apply keeps_get_sibling
      | apply keeps_Inner_insert | apply keeps_Inner_split | apply keeps_Leaf_insert
      | apply keeps_Leaf_split | apply keeps_ite | apply keeps_bind | intro _ | dsimp only
      | split)

/-- Frame: `depth_fuel` leaves `item_count_` unchanged. -/
theorem keeps_depth_fuel  :
    Keeps (depth_fuel ) := by
  unfold depth_fuel
  repeat (with_reducible first
    | exact keeps_get | apply keeps_pure | apply keeps_throw | apply keeps_lift
    | (apply keeps_modify; intro _; rfl) | apply keeps_deref | apply keeps_ite
    | apply keeps_bind | intro _ | dsimp only | split)

/-- Inversion of a completed sequence: both parts completed. -/
theorem bind_ok {α β : Type} {x : M α} {f : α → M β} {s : bp_tree} {b : β} {s' : bp_tree}
    (h : (x >>= f) s = Except.ok (b, s')) :
    ∃ a s1, x s = Except.ok (a, s1) ∧ f a s1 = Except.ok (b, s') := by
  simp only [bind, StateT.bind] at h
  cases hxs : x s with
  | error e => rw [hxs] at h; cases h
  | ok r =>
    rw [hxs] at h
    exact ⟨r.1, r.2, rfl, h⟩

/-- Result rule for `pure`. -/
theorem post_pure {α : Type} {P : α → Prop} {a : α} (h : P a) : Post (pure a : M α) P := by
  constructor
  intro s b s' hb
  cases hb
  exact h

/-- Result rule for a fault. -/
theorem post_throw {α : Type} {P : α → Prop} (e : Fault) : Post (throw e : M α) P := by
  constructor
  intro s b s' hb
  cases hb

/-- Result rule for sequencing, using what is known of the first result. -/
theorem post_bind_of {α β : Type} {x : M α} {f : α → M β} {Q : α → Prop} {P : β → Prop}
    (hx : Post x Q) (hf : ∀ a, Q a → Post (f a) P) : Post (x >>= f) P := by
  constructor
  intro s b s' h
  obtain ⟨a, s1, h1, h2⟩ := bind_ok h
  exact (hf a (hx.post s a s1 h1)).post s1 b s' h2

/-- Result rule for sequencing. -/
theorem post_bind_any {α β : Type} {x : M α} {f : α → M β} {P : β → Prop}
    (hf : ∀ a, Post (f a) P) : Post (x >>= f) P := by
  constructor
  intro s b s' h
  obtain ⟨a, s1, _, h2⟩ := bind_ok h
  exact (hf a).post s1 b s' h2

/-- Result rule for a conditional. -/
theorem post_ite {α : Type} {P : α → Prop} (c : Prop) [Decidable c] {a b : M α}
    (ha : Post a P) (hb : Post b P) : Post (if c then a else b) P := by
  split
  · exact ha
  · exact hb

/-- A pointer that was read through is not null. -/
theorem post_deref (p : Nat) : Post (deref p) (fun _ => p ≠ 0) := by
  constructor
  intro s a s' h
  unfold deref at h
  obtain ⟨t, s1, h1, h2⟩ := bind_ok h
  intro hp
  subst hp
  simp [heap_deref, liftM, monadLift, MonadLift.monadLift, StateT.lift] at h2

/-- A leaf pointer that was read through is not null. -/
theorem post_deref_leaf (p : Nat) : Post (deref_leaf p) (fun _ => p ≠ 0) := by
  unfold deref_leaf
  apply post_bind_of (post_deref p)
  intro n hn
  split
  · exact post_pure hn
  · exact post_throw _

/-- The cursor set by `_Leaf::split` is not null. -/
theorem post_Leaf_split (this new_leaf key : Nat) :
    Post (Leaf_split this new_leaf key) (fun r => r.1.1 ≠ 0) := by
  unfold Leaf_split
  apply post_bind_any
  intro t
  apply post_bind_of (post_deref_leaf this)
  intro n hthis
  apply post_bind_of (post_deref_leaf new_leaf)
  intro d hnew
  repeat (first
    | with_reducible apply post_bind_any
    | intro _)
  apply post_pure
  dsimp only
  split
  · exact hthis
  · exact hnew

/-- The cursor set by `insert_descend` is not null: no path leaves `def` unset. -/
theorem post_insert_descend (fuel node_item key : Nat) :
    Post (insert_descend fuel node_item key) (fun r => r.1.1 ≠ 0) := by
  induction fuel generalizing node_item with
  | zero =>
    unfold insert_descend
    exact post_throw _
  | succ n ih =>
    unfold insert_descend
    apply post_bind_any
    intro t
    apply post_bind_of (post_deref node_item)
    intro nd hne
    apply post_bind_any
    intro slot
    apply post_ite
    · apply post_bind_any
      intro child
      apply post_bind_of (ih child)
      intro r hr
      repeat (first
        | (with_reducible apply post_pure; exact hr)
        | with_reducible apply post_ite
        | with_reducible apply post_bind_any
        | intro _
        | dsimp only)
    · apply post_bind_any
      intro node
      apply post_ite
      · apply post_bind_any
        intro t1
        apply post_bind_any
        intro new_node
        apply post_bind_any
        intro _
        apply post_bind_any
        intro next_node
        apply post_bind_of (post_Leaf_split node_item new_node key)
        intro r hr
        repeat (first
          | (with_reducible apply post_pure; exact hr)
          | with_reducible apply post_ite
          | with_reducible apply post_bind_any
          | intro _
          | dsimp only)
      · apply post_bind_any
        intro _
        exact post_pure hne



/-- Count rule for a state update. -/
theorem counts_modify {g : Nat → Nat} (f : bp_tree → bp_tree)
    (hf : ∀ t, (f t).item_count_ = g t.item_count_) : Counts (modify f : M PUnit) g := by
  constructor
  intro s b s' h
  cases h
  exact hf s

/-- Count rule: a step that keeps the count, then the rest. -/
theorem counts_bind_left {α β : Type} {x : M α} {f : α → M β} {g : Nat → Nat}
    (hx : Keeps x) (hf : ∀ a, Counts (f a) g) : Counts (x >>= f) g := by
  constructor
  intro s b s' h
  obtain ⟨a, s1, h1, h2⟩ := bind_ok h
  rw [(hf a).counts s1 b s' h2, hx.keeps s a s1 h1]

/-- Count rule: a counting step, then steps that keep the count. -/
theorem counts_bind_right {α β : Type} {x : M α} {f : α → M β} {g : Nat → Nat}
    (hx : Counts x g) (hf : ∀ a, Keeps (f a)) : Counts (x >>= f) g := by
  constructor
  intro s b s' h
  obtain ⟨a, s1, h1, h2⟩ := bind_ok h
  rw [(hf a).keeps s1 b s' h2, hx.counts s a s1 h1]

/-- Count rule with knowledge of the first result. -/
theorem counts_bind_post {α β : Type} {x : M α} {f : α → M β} {g : Nat → Nat} {Q : α → Prop}
    (hx : Keeps x) (hq : Post x Q) (hf : ∀ a, Q a → Counts (f a) g) : Counts (x >>= f) g := by
  constructor
  intro s b s' h
  obtain ⟨a, s1, h1, h2⟩ := bind_ok h
  rw [(hf a (hq.post s a s1 h1)).counts s1 b s' h2, hx.keeps s a s1 h1]

/-- Count rule for a conditional. -/
theorem counts_ite {α : Type} {g : Nat → Nat} (c : Prop) [Decidable c] {a b : M α}
    (ha : Counts a g) (hb : Counts b g) : Counts (if c then a else b) g := by
  split
  · exact ha
  · exact hb

/-- The tail of `insert` after the descent: the count goes up when the cursor is not null. -/
theorem counts_tail {pos : Nat × Nat} (hpos : pos.1 ≠ 0) :
    Counts (if pos.1 ≠ 0 then
        (modify fun u => { u with item_count_ := (u.item_count_ + 1) % 2 ^ 64 } : M PUnit)
          >>= fun _ => (pure pos : M (Nat × Nat))
      else (pure PUnit.unit : M PUnit) >>= fun _ => (pure pos : M (Nat × Nat)))
      (fun n => (n + 1) % 2 ^ 64) := by
  rw [if_pos hpos]
  apply counts_bind_right
  · apply counts_modify
    intro t
    rfl
  · intro _
    apply keeps_pure

/-- Every completed `insert` sets `item_count_` to its successor (modulo 2^64) when the tree has a root, and to 1 when it has none. -/
theorem insert_counts (t : bp_tree) (k : Nat) (c : Nat × Nat) (t' : bp_tree)
    (h : (insert k).run t = Except.ok (c, t')) :
    t'.item_count_ = if t.root_ ≠ 0 then (t.item_count_ + 1) % 2 ^ 64 else 1 := by
  unfold insert at h
  obtain ⟨t0, s0, hget, h⟩ := bind_ok h
  cases hget
  split at h
  · rename_i hroot
    rw [if_pos hroot]
    refine Counts.counts (g := fun n => (n + 1) % 2 ^ 64) ?_ t c t' h
    apply counts_bind_left keeps_depth_fuel
    intro fuel
    apply counts_bind_post (keeps_insert_descend _ _ _) (post_insert_descend _ _ _)
    intro r hr
    dsimp only
    apply counts_ite
    · repeat (first
        | with_reducible exact keeps_get
        | with_reducible apply keeps_lift
        | (with_reducible apply keeps_modify; intro _; rfl)
        | with_reducible apply keeps_deref
        | with_reducible apply keeps_deref_inner
        | with_reducible apply keeps_allocate_inner
        | with_reducible apply keeps_store
        | with_reducible apply keeps_Inner_link
        | with_reducible apply keeps_cache_node
        | with_reducible apply counts_bind_left
        | intro _)
      exact counts_tail hr
    · apply counts_bind_left (keeps_pure _)
      intro _
      exact counts_tail hr
  · rename_i hroot
    rw [if_neg hroot]
    refine Counts.counts (g := fun _ => 1) ?_ t c t' h
    apply counts_bind_left (keeps_allocate_leaf _ _)
    intro leaf
    apply counts_bind_left
    · apply keeps_modify
      intro _
      rfl
    intro _
    apply counts_bind_left (keeps_Leaf_insert _ _ _)
    intro _
    apply counts_bind_right
    · apply counts_modify
      intro _
      rfl
    · intro _
      apply keeps_pure


/-- Shape of the key array after the rotation of `insert_`: long enough, and the key that stood at `pos` now stands at `pos + 1`. -/
theorem rotate_shape (keys : List Nat) (used k pos : Nat)
    (hpos : pos < used) (hu : used < keys.length) (hk : keys[pos]? = some k) :
    pos < (keys.take pos ++ (keys.drop used).take (used + 1 - used)
          ++ (keys.drop pos).take (used - pos) ++ keys.drop (used + 1)).length
    ∧ (keys.take pos ++ (keys.drop used).take (used + 1 - used)
          ++ (keys.drop pos).take (used - pos) ++ keys.drop (used + 1))[pos + 1]? = some k := by
  have hA : (keys.take pos).length = pos := by
    rw [List.length_take]; omega
  have hB : ((keys.drop used).take (used + 1 - used)).length = 1 := by
    rw [List.length_take, List.length_drop]; omega
  constructor
  · simp only [List.length_append, hA, hB]
    omega
  · rw [List.append_assoc, List.append_assoc, List.getElem?_append_right (by omega), hA,
      List.getElem?_append_right (by omega), hB]
    have h0 : pos + 1 - pos - 1 = 0 := by omega
    rw [h0, List.getElem?_append_left (by rw [List.length_take, List.length_drop]; omega),
      List.getElem?_take_of_lt (by omega), List.getElem?_drop]
    simpa using hk

/-- Method `insert_` at a position that already holds the key: the key is stored there and the slot that held it moves one place up. -/
theorem insert__dup (keys data : List Nat) (used k pos : Nat)
    (hpos : pos < used) (hu : used < keys.length) (hd : used < data.length)
    (hk : keys[pos]? = some k) :
    ∃ ks vs, insert_ 0 keys used k pos data 0 = Except.ok (ks, vs, (used + 1) % 256)
      ∧ ks[pos]? = some k ∧ ks[pos + 1]? = some k := by
  have h1 : pos ≤ used := Nat.le_of_lt hpos
  have h2 : used + 1 ≤ keys.length := hu
  have h3 : used + 1 ≤ data.length := hd
  obtain ⟨hlen, hnext⟩ := rotate_shape keys used k pos hpos hu hk
  refine ⟨(keys.take pos ++ (keys.drop used).take (used + 1 - used)
          ++ (keys.drop pos).take (used - pos) ++ keys.drop (used + 1)).set pos k,
          data.take pos ++ (data.drop used).take (used + 1 - used)
          ++ (data.drop pos).take (used - pos) ++ data.drop (used + 1), ?_, ?_, ?_⟩
  · simp only [insert_, std_rotate, arr_set, hpos, h1, h2, h3, if_true, and_self, Nat.le_succ,
      Nat.zero_add, Nat.add_zero, bind, Except.bind, pure, Except.pure, hlen, true_and, ite_true,
      Nat.le_add_right]
  · exact List.getElem?_set_self hlen
  · rw [List.getElem?_set_ne (by omega)]
    exact hnext

/-! ### Symbolic runs on a tree whose root is a leaf with room -/

/-- Run of `get`. -/
theorem get_run (s : bp_tree) : (get : M bp_tree) s = Except.ok (s, s) := rfl
/-- Run of `pure`. -/
theorem pure_run {α : Type} (a : α) (s : bp_tree) : (pure a : M α) s = Except.ok (a, s) := rfl
/-- Run of `modify`. -/
theorem modify_run (f : bp_tree → bp_tree) (s : bp_tree) :
    (modify f : M PUnit) s = Except.ok (PUnit.unit, f s) := rfl
/-- Run of a completed computation that does not involve the state. -/
theorem lift_ok_run {α : Type} (a : α) (s : bp_tree) :
    (liftM (Except.ok a : Except Fault α) : M α) s = Except.ok (a, s) := rfl
/-- Run of a sequence whose first part completes. -/
theorem bind_run {α β : Type} (x : M α) (f : α → M β) (s : bp_tree) (a : α) (s1 : bp_tree)
    (h : x s = Except.ok (a, s1)) : (x >>= f) s = f a s1 := by
  simp only [bind, StateT.bind, h, Except.bind]

/-- Run of `deref` on a resident node. -/
theorem deref_run (t : bp_tree) (p : Nat) (n : Node) (hp : p ≠ 0) (hn : t.heap.lookup p = some n) :
    deref p t = Except.ok (n, t) := by
  unfold deref
  rw [bind_run _ _ _ _ _ (get_run t)]
  simp only [heap_deref, hp, if_false, hn]
  rfl

/-- Run of `deref_leaf` on a resident leaf. -/
theorem deref_leaf_run (t : bp_tree) (p : Nat) (n : Node) (hp : p ≠ 0)
    (hn : t.heap.lookup p = some n) (hk : n.kind = Kind.leaf) :
    deref_leaf p t = Except.ok (n, t) := by
  unfold deref_leaf
  rw [bind_run _ _ _ _ _ (deref_run t p n hp hn)]
  simp only [hk, if_true]
  rfl

/-- Run of `_Leaf::insert` on a resident leaf when `insert_` completes. -/
theorem Leaf_insert_run (t : bp_tree) (p : Nat) (n : Node) (k pos : Nat) (ks vs : List Nat) (u : Nat)
    (hp : p ≠ 0) (hn : t.heap.lookup p = some n) (hk : n.kind = Kind.leaf)
    (hi : insert_ 0 n.keys n.used_slots k pos n.data 0 = Except.ok (ks, vs, u)) :
    Leaf_insert p k pos t = Except.ok (PUnit.unit,
      { t with heap := heap_store t.heap p { n with keys := ks, data := vs, used_slots := u } }) := by
  unfold Leaf_insert
  rw [bind_run _ _ _ _ _ (deref_leaf_run t p n hp hn hk)]
  rw [hi]
  rw [bind_run _ _ _ _ _ (lift_ok_run _ t)]
  rfl


/-- Run of `insert_descend` on a resident leaf with room: the key goes to its lower-bound position and nothing is split. -/
theorem insert_descend_leaf_run (t : bp_tree) (p : Nat) (n : Node) (k : Nat) (fuel : Nat)
    (ks vs : List Nat) (u : Nat)
    (hp : p ≠ 0) (hn : t.heap.lookup p = some n) (hk : n.kind = Kind.leaf)
    (hlevel : n.level = 0) (hused : n.used_slots ≠ 0) (hlen : n.used_slots ≤ n.keys.length)
    (hroom : n.used_slots ≠ t.slot_count)
    (hi : insert_ 0 n.keys n.used_slots k (lower_bound n.keys n.used_slots k) n.data 0
            = Except.ok (ks, vs, u)) :
    insert_descend (fuel + 1) p k t = Except.ok
      (((p, lower_bound n.keys n.used_slots k), t.junk, 0),
       { t with heap := heap_store t.heap p { n with keys := ks, data := vs, used_slots := u } }) := by
  unfold insert_descend
  rw [bind_run _ _ _ _ _ (get_run t)]
  rw [bind_run _ _ _ _ _ (deref_run t p n hp hn)]
  have hfl : n.find_lower k = Except.ok (lower_bound n.keys n.used_slots k) := by
    simp only [Node.find_lower, hused, if_false, hlen, if_true]
  rw [hfl, bind_run _ _ _ _ _ (lift_ok_run _ t)]
  have hleaf : n.is_leaf = true := by simp [Node.is_leaf, hlevel]
  have hfull : Node.is_full t.slot_count n = false := by simp [Node.is_full, hroom]
  simp only [hleaf, Bool.not_true, if_false, Bool.false_eq_true]
  rw [bind_run _ _ _ _ _ (deref_leaf_run t p n hp hn hk)]
  simp only [hfull, Bool.false_eq_true, if_false]
  rw [bind_run _ _ _ _ _ (Leaf_insert_run t p n k _ ks vs u hp hn hk hi)]
  rfl

/-- Run of `depth_fuel` on a tree with a resident root. -/
theorem depth_fuel_run (t : bp_tree) (n : Node) (hp : t.root_ ≠ 0)
    (hn : t.heap.lookup t.root_ = some n) : depth_fuel t = Except.ok (n.level + 2, t) := by
  unfold depth_fuel
  rw [bind_run _ _ _ _ _ (get_run t)]
  simp only [hp, if_false]
  rw [bind_run _ _ _ _ _ (deref_run t t.root_ n hp hn)]
  rfl

/-- Run of `insert` on a tree whose root is a resident leaf with room. -/
theorem insert_root_leaf_run (t : bp_tree) (n : Node) (k : Nat) (ks vs : List Nat) (u : Nat)
    (hp : t.root_ ≠ 0) (hn : t.heap.lookup t.root_ = some n) (hk : n.kind = Kind.leaf)
    (hlevel : n.level = 0) (hused : n.used_slots ≠ 0) (hlen : n.used_slots ≤ n.keys.length)
    (hroom : n.used_slots ≠ t.slot_count)
    (hi : insert_ 0 n.keys n.used_slots k (lower_bound n.keys n.used_slots k) n.data 0
            = Except.ok (ks, vs, u)) :
    (insert k).run t = Except.ok
      ((t.root_, lower_bound n.keys n.used_slots k),
       { t with heap := heap_store t.heap t.root_
                          { n with keys := ks, data := vs, used_slots := u },
                item_count_ := (t.item_count_ + 1) % 2 ^ 64 }) := by
  show insert k t = _
  unfold insert
  rw [bind_run _ _ _ _ _ (get_run t)]
  simp only [hp, ne_eq, not_false_eq_true, if_true]
  rw [bind_run _ _ _ _ _ (depth_fuel_run t n hp hn)]
  rw [bind_run _ _ _ _ _ (insert_descend_leaf_run t t.root_ n k (n.level + 1) ks vs u hp hn hk
    hlevel hused hlen hroom hi)]
  simp only [ne_eq, not_true_eq_false, if_false, hp, not_false_eq_true, if_true]
  rfl

/-! ### The claims -/

/-- C1, lookup after insert, at a failing input (slot count 3, cache of 512
nodes): after the pairwise distinct keys 10, 20, 30, 40, 50, 60, 70, 80, 5, 7
have been inserted into a new tree, `find( 5)` returns a cursor whose key is
50, not 5. -/
theorem lookup_after_insert_evaluated :
    on_fresh 3 512 [10, 20, 30, 40, 50, 60, 70, 80, 5, 7] (find_key 5) = Res.ok (some 50) := by
  decide!

/-- C2, ordered traversal, at a failing input (slot count 3, cache of 512
nodes): after the distinct keys 10, 20, 30, 40, 50, 60, 70, 80, 5, 7, 6 the
forward iteration from `begin()` to `end()` visits 6 after 40 and before 50. -/
theorem ordered_traversal_evaluated :
    on_fresh 3 512 [10, 20, 30, 40, 50, 60, 70, 80, 5, 7, 6] (forward_keys 20)
      = Res.ok [5, 7, 10, 20, 30, 40, 6, 50, 60, 70, 80] := by
  decide!

/-- C3, round-trip persistence, at a failing input (slot count 3, cache of one
node): the keys 0, 10, 20, 30, 40, 50, 60, 70, 25 are inserted, each with its
value, and the tree is closed; the reopened tree reports `size() == 9` while
its forward iteration yields eight pairs, the key 25 being absent. -/
theorem round_trip_evaluated :
    round_trip 3 1 [0, 10, 20, 30, 40, 50, 60, 70, 25] 20
      = Res.ok (true, 9, [(0, 0), (10, 10), (20, 20), (30, 30), (40, 40), (50, 50), (60, 60),
                          (70, 70)]) := by
  decide!

/-- C4, iteration count, at a failing input (slot count 3, cache of one node):
after the inserts 0, 10, 20, 30, 40, 50, 60, 70, 25, 45 the forward iteration
visits 8 slots while `size()` is 10. -/
theorem iteration_count_evaluated :
    on_fresh 3 1 [0, 10, 20, 30, 40, 50, 60, 70, 25, 45] (count_and_size 20)
      = Res.ok (8, 10) := by
  decide!

/-- C5, cursor returned by insert, at a failing input (slot count 3, cache of
512 nodes): in the tree holding 10, 20, 30, 40, 50, 60, 70, 80, 5 the statement
`*insert( 7) = 777` is run; the returned cursor has key 7, but `find( 7)`
afterwards reads the value 50 (that of key 50), not 777. -/
theorem insert_cursor_evaluated :
    on_fresh 3 512 [10, 20, 30, 40, 50, 60, 70, 80, 5] (insert_assign_find 7 777)
      = Res.ok (7, some 50) := by
  decide!

/-- C6, duplicate insert, as stated, fails (slot count 3, cache of 512 nodes):
in the tree holding the key 10, `insert( 10)` raises `size()` from 1 to 2 and
returns a cursor to slot 0; the forward iteration then visits two slots with
key 10. -/
theorem duplicate_insert_evaluated :
    on_fresh 3 512 [10] (duplicate_report 10 5) = Res.ok (1, 2, 0, [10, 10]) := by
  decide!

/-- C6 as amended: `insert` makes no presence check.  (1) Whenever
`insert( k)` completes, on any tree state and for any key, present or not,
`size()` is one more than before (modulo 2^64; it is 1 when the tree had no
root).  (2) On every tree whose root is a resident leaf with room, and for
every key `k` that this leaf holds at the lower-bound position of `k`,
`insert( k)` completes, returns the cursor (root leaf, lower-bound position),
increases `size()` by one and rewrites only the key and value arrays and the
slot count of that leaf: the new slot count is one more, the slot under the
cursor holds `k` and the next slot holds `k` too, that is, a new slot was put
in front of the existing one. -/
theorem duplicate_insert_counted :
    (∀ (t : bp_tree) (k : Nat) (r : (Nat × Nat) × bp_tree),
        toRes ((insert k).run t) = Res.ok r →
        size r.2 = (if t.root_ ≠ 0 then (size t + 1) % 2 ^ 64 else 1))
    ∧ (∀ (t : bp_tree) (n : Node) (k : Nat),
        t.root_ ≠ 0 → t.heap.lookup t.root_ = some n → n.kind = Kind.leaf → n.level = 0 →
        n.used_slots < t.slot_count → n.keys.length = t.slot_count →
        n.data.length = t.slot_count →
        lower_bound n.keys n.used_slots k < n.used_slots →
        n.keys[lower_bound n.keys n.used_slots k]? = some k →
        ∃ ks vs,
          toRes ((insert k).run t) = Res.ok
            ((t.root_, lower_bound n.keys n.used_slots k),
             { t with heap := heap_store t.heap t.root_
                                { n with keys := ks, data := vs,
                                         used_slots := (n.used_slots + 1) % 256 },
                      item_count_ := (t.item_count_ + 1) % 2 ^ 64 })
          ∧ ks[lower_bound n.keys n.used_slots k]? = some k
          ∧ ks[lower_bound n.keys n.used_slots k + 1]? = some k) := by
  constructor
  · intro t k r h
    cases hr : (insert k).run t with
    | error e => rw [hr] at h; cases h
    | ok x =>
      rw [hr] at h
      cases h
      exact insert_counts t k _ _ hr
  · intro t n k hp hn hkind hlevel hroom hkeys hdata hpos hk
    obtain ⟨ks, vs, hi, h1, h2⟩ := insert__dup n.keys n.data n.used_slots k
      (lower_bound n.keys n.used_slots k) hpos (by omega) (by omega) hk
    refine ⟨ks, vs, ?_, h1, h2⟩
    rw [insert_root_leaf_run t n k ks vs _ hp hn hkind hlevel (by omega) (by omega) (by omega) hi]
    rfl

/-- Witness for `duplicate_insert_counted`: the tree holding the key 10 (slot
count 3, one leaf) and a second `insert( 10)`.  The insert completes, the size
becomes 2, and the root leaf holds 10 at slot 0 (the cursor) and at slot 1. -/
theorem duplicate_insert_counted_witness :
    toRes ((insert 10).run (state_after 3 512 [10]))
        = Res.ok (insert_result (state_after 3 512 [10]) 10)
      ∧ size (insert_result (state_after 3 512 [10]) 10).2 = 2
      ∧ ∃ ks vs,
          toRes ((insert 10).run (state_after 3 512 [10])) = Res.ok
            (((state_after 3 512 [10]).root_,
              lower_bound (root_node (state_after 3 512 [10])).keys
                (root_node (state_after 3 512 [10])).used_slots 10),
             { state_after 3 512 [10] with
                 heap := heap_store (state_after 3 512 [10]).heap (state_after 3 512 [10]).root_
                   { root_node (state_after 3 512 [10]) with
                       keys := ks, data := vs,
                       used_slots := ((root_node (state_after 3 512 [10])).used_slots + 1) % 256 },
                 item_count_ := ((state_after 3 512 [10]).item_count_ + 1) % 2 ^ 64 })
          ∧ ks[lower_bound (root_node (state_after 3 512 [10])).keys
                (root_node (state_after 3 512 [10])).used_slots 10]? = some 10
          ∧ ks[lower_bound (root_node (state_after 3 512 [10])).keys
                (root_node (state_after 3 512 [10])).used_slots 10 + 1]? = some 10 := by
  have hrun : toRes ((insert 10).run (state_after 3 512 [10]))
      = Res.ok (insert_result (state_after 3 512 [10]) 10) := by decide!
  refine ⟨hrun, ?_, ?_⟩
  · rw [duplicate_insert_counted.1 (state_after 3 512 [10]) 10
      (insert_result (state_after 3 512 [10]) 10) hrun]
    decide!
  · exact duplicate_insert_counted.2 (state_after 3 512 [10]) (root_node (state_after 3 512 [10]))
      10 (by decide!) (by decide!) (by decide!) (by decide!) (by decide!) (by decide!)
      (by decide!) (by decide!) (by decide!)

/-- C7, find semantics, at a failing input (slot count 3, cache of 512 nodes):
in the tree built from 10, 20, 30, 40, 50, 60, 70, 80, 5, 7 the call `find( 5)`
returns a cursor on key 50 although the tree stores 5 (and 7, 10, ...), as its
forward iteration shows; 50 is not the smallest stored key that is >= 5. -/
theorem find_semantics_evaluated :
    on_fresh 3 512 [10, 20, 30, 40, 50, 60, 70, 80, 5, 7] (find_and_keys 5 20)
      = Res.ok (some 50, [5, 7, 10, 20, 30, 40, 50, 60, 70, 80]) := by
  decide!

/-- C8, reverse iteration, at a failing input (slot count 3, cache of one
node): from the same tree state, reached by the inserts 0, 10, 20, 30, 40, 50,
60, 70, 25, the forward iteration yields nine keys including 25 and the
reverse iteration yields eight keys without 25. -/
theorem reverse_iteration_evaluated :
    on_fresh 3 1 [0, 10, 20, 30, 40, 50, 60, 70, 25] (forward_keys 20)
        = Res.ok [0, 10, 20, 25, 30, 40, 50, 60, 70]
      ∧ on_fresh 3 1 [0, 10, 20, 30, 40, 50, 60, 70, 25] (backward_keys 20)
        = Res.ok [70, 60, 50, 40, 30, 20, 10, 0] := by
  decide!

/-- C9, cursor stepping, at a failing input (slot count 3, cache of 512
nodes): in the tree built from 10, 20, 30, 40, 50, 60, 70, 80, 5, 7 the cursor
returned by `insert( 6)` is on key 6; `++` takes it to key 50 although 7 is
stored, and `--` takes it to key 40 although 5 is stored. -/
theorem cursor_stepping_evaluated :
    on_fresh 3 512 [10, 20, 30, 40, 50, 60, 70, 80, 5, 7] (insert_and_step 6)
      = Res.ok (6, 50, 40) := by
  decide!

/-- C10, commuting inserts, at a failing input (slot count 3, cache of 512
nodes): from the tree holding 10, 20, 30, 40, 50, 60, 70, 80, 5, inserting 1
then 2 and inserting 2 then 1 give the same `size()` but different forward
key sequences. -/
theorem insert_order_evaluated :
    on_fresh 3 512 [10, 20, 30, 40, 50, 60, 70, 80, 5, 1, 2] (size_and_keys 20)
        = Res.ok (11, [1, 5, 10, 20, 30, 40, 2, 50, 60, 70, 80])
      ∧ on_fresh 3 512 [10, 20, 30, 40, 50, 60, 70, 80, 5, 2, 1] (size_and_keys 20)
        = Res.ok (11, [2, 5, 10, 20, 30, 40, 1, 50, 60, 70, 80]) := by
  decide!

/-! ### The same losses with a cache of two nodes -/

/-- The loss of a key across close and reopen does not depend on a cache of
one node: with slot count 3 and a cache of two nodes, the keys 0, 10, ..., 90
and then 25 are filled and the tree is closed; the reopened tree reports
`size() == 11` and iterates over ten pairs, without 25. -/
theorem round_trip_cache_two :
    round_trip 3 2 [0, 10, 20, 30, 40, 50, 60, 70, 80, 90, 25] 20
      = Res.ok (true, 11, [(0, 0), (10, 10), (20, 20), (30, 30), (40, 40), (50, 50), (60, 60),
                           (70, 70), (80, 80), (90, 90)]) := by
  decide!

/-- Slots visited against `size()`, with a cache of two nodes: after 0, 10,
..., 90, 25, 45, 65 the forward iteration visits 10 slots while `size()` is
13. -/
theorem iteration_count_cache_two :
    on_fresh 3 2 [0, 10, 20, 30, 40, 50, 60, 70, 80, 90, 25, 45, 65] (count_and_size 20)
      = Res.ok (10, 13) := by
  decide!

/-- Forward against reverse iteration, with a cache of two nodes: after 0,
10, ..., 90, 25 the forward iteration yields eleven keys and the reverse
iteration, from the same state, ten. -/
theorem reverse_iteration_cache_two :
    on_fresh 3 2 [0, 10, 20, 30, 40, 50, 60, 70, 80, 90, 25] (forward_keys 20)
        = Res.ok [0, 10, 20, 25, 30, 40, 50, 60, 70, 80, 90]
      ∧ on_fresh 3 2 [0, 10, 20, 30, 40, 50, 60, 70, 80, 90, 25] (backward_keys 20)
        = Res.ok [90, 80, 70, 60, 50, 40, 30, 20, 10, 0] := by
  decide!

/-! ### The recency ring of the cache -/

namespace lru_cache

theorem lookup_set_cell (c : lru_cache) (i' : Item) (b : Nat) :
    (c.set_cell i').lookup b = (c.lookup b).map (fun j => if j.addr == i'.addr then i' else j) := by
  unfold lookup set_cell
  simp only [List.find?_map]
  congr 1
  have : ((fun i => i.addr == b) ∘ fun j => if (j.addr == i'.addr) = true then i' else j)
      = (fun i : Item => i.addr == b) := by
    funext j
    simp only [Function.comp]
    by_cases h : (j.addr == i'.addr) = true
    · rw [if_pos h]
      have := beq_iff_eq.mp h
      rw [this]
    · rw [if_neg h]
  rw [this]

theorem lookup_addr {c : lru_cache} {a : Nat} {i : Item} (h : c.lookup a = some i) : i.addr = a := by
  unfold lookup at h
  have := List.find?_some h
  simpa using this

theorem lookup_mem {c : lru_cache} {a : Nat} {i : Item} (h : c.lookup a = some i) : i ∈ c.iMap := by
  unfold lookup at h
  exact List.mem_of_find?_eq_some h

theorem cell_eq (c : lru_cache) (a : Nat) :
    c.cell a = match c.lookup a with | some i => .ok i | none => .error .dangling := rfl

theorem cell_of_lookup {c : lru_cache} {a : Nat} {i : Item} (h : c.lookup a = some i) :
    c.cell a = .ok i := by
  rw [cell_eq, h]


theorem set_cell_lookup (c : lru_cache) (a : Nat) (i i' : Item) (h : c.lookup a = some i)
    (ha : i'.addr = a) (b : Nat) :
    (c.set_cell i').lookup b = if b = a then some i' else c.lookup b := by
  rw [lookup_set_cell]
  by_cases hb : b = a
  · subst hb
    rw [h, if_pos rfl]
    have hi := lookup_addr h
    simp [hi, ha]
  · rw [if_neg hb]
    cases hl : c.lookup b with
    | none => rfl
    | some j =>
      have hj := lookup_addr hl
      have : ¬ (j.addr == i'.addr) = true := by
        rw [beq_iff_eq, hj, ha]
        exact hb
      show some (if (j.addr == i'.addr) = true then i' else j) = some j
      rw [if_neg this]

theorem set_cell_addrs (c : lru_cache) (i' : Item) :
    (c.set_cell i').iMap.map (fun i => i.addr) = c.iMap.map (fun i => i.addr) := by
  unfold set_cell
  simp only [List.map_map]
  apply List.map_congr_left
  intro j _
  simp only [Function.comp]
  by_cases h : (j.addr == i'.addr) = true
  · rw [if_pos h]
    exact (beq_iff_eq.mp h).symm
  · rw [if_neg h]

theorem nextOf_item_ne_none {c : lru_cache} {a : Nat} (h : c.nextOf (.item a) ≠ none) :
    ∃ i, c.lookup a = some i := by
  change (c.lookup a).map (fun i => i.next) ≠ none at h
  cases hl : c.lookup a with
  | none => rw [hl] at h; exact absurd rfl h
  | some i => exact ⟨i, rfl⟩

theorem prevOf_item_ne_none {c : lru_cache} {a : Nat} (h : c.prevOf (.item a) ≠ none) :
    ∃ i, c.lookup a = some i := by
  change (c.lookup a).map (fun i => i.prev) ≠ none at h
  cases hl : c.lookup a with
  | none => rw [hl] at h; exact absurd rfl h
  | some i => exact ⟨i, rfl⟩

theorem sameCells_refl (c : lru_cache) : SameCells c c :=
  ⟨rfl, fun _ => rfl, rfl, rfl, rfl, rfl⟩

theorem sameCells_trans {c c' c'' : lru_cache} (h1 : SameCells c c') (h2 : SameCells c' c'') :
    SameCells c c'' :=
  ⟨h2.addrs.trans h1.addrs, fun b => (h2.cells b).trans (h1.cells b), h2.limit.trans h1.limit,
   h2.observer.trans h1.observer, h2.next.trans h1.next, h2.locked.trans h1.locked⟩

/-- Effect of `p->next = v` on the links. -/
theorem set_next_ok (c : lru_cache) (p v : ItemPtr) (h : c.nextOf p ≠ none) :
    ∃ c', c.set_next p v = .ok c' ∧ c'.nextOf = Function.update c.nextOf p (some v) ∧
      c'.prevOf = c.prevOf ∧ SameCells c c' := by
  cases p with
  | null => exact absurd rfl h
  | head =>
    refine ⟨{ c with head_next := v }, rfl, ?_, ?_, ⟨rfl, fun _ => rfl, rfl, rfl, rfl, rfl⟩⟩
    · funext q
      cases q with
      | null => rfl
      | head => simp [nextOf]
      | item b => simp [nextOf, lookup]
    · funext q
      cases q <;> rfl
  | item a =>
    obtain ⟨i, hi⟩ := nextOf_item_ne_none h
    refine ⟨c.set_cell { i with next := v }, ?_, ?_, ?_, ?_⟩
    · simp [set_next, cell_of_lookup hi, bind, Except.bind, pure, Except.pure]
    · funext q
      cases q with
      | null => rfl
      | head => simp [nextOf, set_cell]
      | item b =>
        have ha : ({ i with next := v } : Item).addr = a := by
          show i.addr = a
          exact lookup_addr hi
        simp only [nextOf, set_cell_lookup c a i _ hi ha b]
        by_cases hb : b = a
        · subst hb
          simp
        · have : ItemPtr.item b ≠ ItemPtr.item a := by
            intro e; injection e with e; exact hb e
          simp [hb, Function.update_noteq this, nextOf]
    · funext q
      cases q with
      | null => rfl
      | head => simp [prevOf, set_cell]
      | item b =>
        have ha : ({ i with next := v } : Item).addr = a := by
          show i.addr = a
          exact lookup_addr hi
        simp only [prevOf, set_cell_lookup c a i _ hi ha b]
        by_cases hb : b = a
        · subst hb
          simp [hi]
        · simp [hb]
    · refine ⟨set_cell_addrs c _, ?_, rfl, rfl, rfl, rfl⟩
      intro b
      have ha : ({ i with next := v } : Item).addr = a := by
          show i.addr = a
          exact lookup_addr hi
      rw [set_cell_lookup c a i _ hi ha b]
      by_cases hb : b = a
      · subst hb
        simp [hi]
      · simp [hb]

/-- Effect of `p->prev = v` on the links. -/
theorem set_prev_ok (c : lru_cache) (p v : ItemPtr) (h : c.prevOf p ≠ none) :
    ∃ c', c.set_prev p v = .ok c' ∧ c'.prevOf = Function.update c.prevOf p (some v) ∧
      c'.nextOf = c.nextOf ∧ SameCells c c' := by
  cases p with
  | null => exact absurd rfl h
  | head =>
    refine ⟨{ c with head_prev := v }, rfl, ?_, ?_, ⟨rfl, fun _ => rfl, rfl, rfl, rfl, rfl⟩⟩
    · funext q
      cases q with
      | null => rfl
      | head => simp [prevOf]
      | item b => simp [prevOf, lookup]
    · funext q
      cases q <;> rfl
  | item a =>
    obtain ⟨i, hi⟩ := prevOf_item_ne_none h
    refine ⟨c.set_cell { i with prev := v }, ?_, ?_, ?_, ?_⟩
    · simp [set_prev, cell_of_lookup hi, bind, Except.bind, pure, Except.pure]
    · funext q
      cases q with
      | null => rfl
      | head => simp [prevOf, set_cell]
      | item b =>
        have ha : ({ i with prev := v } : Item).addr = a := by
          show i.addr = a
          exact lookup_addr hi
        simp only [prevOf, set_cell_lookup c a i _ hi ha b]
        by_cases hb : b = a
        · subst hb
          simp
        · have : ItemPtr.item b ≠ ItemPtr.item a := by
            intro e; injection e with e; exact hb e
          simp [hb, Function.update_noteq this, prevOf]
    · funext q
      cases q with
      | null => rfl
      | head => simp [nextOf, set_cell]
      | item b =>
        have ha : ({ i with prev := v } : Item).addr = a := by
          show i.addr = a
          exact lookup_addr hi
        simp only [nextOf, set_cell_lookup c a i _ hi ha b]
        by_cases hb : b = a
        · subst hb
          simp [hi]
        · simp [hb]
    · refine ⟨set_cell_addrs c _, ?_, rfl, rfl, rfl, rfl⟩
      intro b
      have ha : ({ i with prev := v } : Item).addr = a := by
          show i.addr = a
          exact lookup_addr hi
      rw [set_cell_lookup c a i _ hi ha b]
      by_cases hb : b = a
      · subst hb
        simp [hi]
      · simp [hb]


theorem item_ne_of_ne {a b : Nat} (h : a ≠ b) : ItemPtr.item a ≠ ItemPtr.item b := by
  intro e
  injection e with e
  exact h e

/-- A segment reads `nx` at `p` and at its cells and `pv` at its cells and at `q`. -/
theorem Seg.congr {nx pv nx' pv' : ItemPtr → Option ItemPtr} {l : List Nat} :
    ∀ {p q : ItemPtr}, Seg nx pv p l q → nx' p = nx p →
      (∀ b ∈ l, nx' (.item b) = nx (.item b)) → (∀ b ∈ l, pv' (.item b) = pv (.item b)) →
      pv' q = pv q → Seg nx' pv' p l q := by
  induction l with
  | nil =>
    intro p q h hp _ _ hq
    exact ⟨hp.trans h.1, hq.trans h.2⟩
  | cons a l ih =>
    intro p q h hp hn hv hq
    refine ⟨hp.trans h.1, (hv a (List.mem_cons_self a l)).trans h.2.1, ?_⟩
    exact ih h.2.2 (hn a (List.mem_cons_self a l))
      (fun b hb => hn b (List.mem_cons_of_mem a hb))
      (fun b hb => hv b (List.mem_cons_of_mem a hb)) hq

/-- Splitting a segment at one of its cells. -/
theorem Seg.split {nx pv : ItemPtr → Option ItemPtr} {l1 : List Nat} {a : Nat} {l2 : List Nat} :
    ∀ {p q : ItemPtr}, Seg nx pv p (l1 ++ a :: l2) q →
      Seg nx pv p l1 (.item a) ∧ Seg nx pv (.item a) l2 q := by
  induction l1 with
  | nil =>
    intro p q h
    exact ⟨⟨h.1, h.2.1⟩, h.2.2⟩
  | cons b l1 ih =>
    intro p q h
    have := ih h.2.2
    exact ⟨⟨h.1, h.2.1, this.1⟩, this.2⟩

/-- The predecessor of the end of a segment is its start or one of its cells. -/
theorem Seg.pred_mem {nx pv : ItemPtr → Option ItemPtr} {l : List Nat} :
    ∀ {p q x : ItemPtr}, Seg nx pv p l q → pv q = some x → x = p ∨ ∃ b ∈ l, x = .item b := by
  induction l with
  | nil =>
    intro p q x h hx
    left
    have := h.2
    rw [hx] at this
    injection this
  | cons a l ih =>
    intro p q x h hx
    right
    rcases ih h.2.2 hx with e | ⟨b, hb, e⟩
    · exact ⟨a, List.mem_cons_self a l, e⟩
    · exact ⟨b, List.mem_cons_of_mem a hb, e⟩

/-- The successor of the start of a segment is its end or one of its cells. -/
theorem Seg.succ_mem {nx pv : ItemPtr → Option ItemPtr} {l : List Nat} {p q y : ItemPtr}
    (h : Seg nx pv p l q) (hy : nx p = some y) : y = q ∨ ∃ b ∈ l, y = .item b := by
  cases l with
  | nil =>
    left
    have := h.1
    rw [hy] at this
    injection this
  | cons a l =>
    right
    have := h.1
    rw [hy] at this
    injection this with e
    exact ⟨a, List.mem_cons_self a l, e⟩

/-- Last link of a non-empty segment. -/
theorem Seg.last {nx pv : ItemPtr → Option ItemPtr} {l : List Nat} {a : Nat} :
    ∀ {p q : ItemPtr}, Seg nx pv p (l ++ [a]) q → pv q = some (.item a) ∧ nx (.item a) = some q := by
  intro p q h
  have := (Seg.split h).2
  exact ⟨this.2, this.1⟩

/-- Taking the cell `a` out of a segment: its neighbours `x` and `y` get
linked to each other. -/
theorem Seg.unlink {nx pv : ItemPtr → Option ItemPtr} {l1 : List Nat} {a : Nat} {l2 : List Nat}
    {q x y : ItemPtr} :
    ∀ {p : ItemPtr}, Seg nx pv p (l1 ++ a :: l2) q → (l1 ++ a :: l2).Nodup →
      (∀ b ∈ l1 ++ a :: l2, p ≠ .item b) → (∀ b ∈ l1 ++ a :: l2, q ≠ .item b) →
      pv (.item a) = some x → nx (.item a) = some y →
      Seg (Function.update nx x (some y)) (Function.update pv y (some x)) p (l1 ++ l2) q := by
  induction l1 with
  | nil =>
    intro p h hnd hp hq hx hy
    simp only [List.nil_append] at h hnd hp hq ⊢
    have hxp : x = p := by
      have := h.2.1
      rw [hx] at this
      injection this
    subst hxp
    have ha2 : a ∉ l2 := (List.nodup_cons.mp hnd).1
    have hnd2 : l2.Nodup := (List.nodup_cons.mp hnd).2
    cases l2 with
    | nil =>
      have hyq : y = q := by
        have := h.2.2.1
        rw [hy] at this
        injection this
      subst hyq
      exact ⟨by simp, by simp⟩
    | cons b l2 =>
      have hyb : y = .item b := by
        have := h.2.2.1
        rw [hy] at this
        injection this
      subst hyb
      refine ⟨by simp, by simp, ?_⟩
      have hb2 : b ∉ l2 := (List.nodup_cons.mp hnd2).1
      apply Seg.congr h.2.2.2.2
      · apply Function.update_noteq
        intro e
        exact hp b (by simp) e.symm
      · intro d hd
        apply Function.update_noteq
        intro e
        exact hp d (by simp [hd]) e.symm
      · intro d hd
        apply Function.update_noteq
        apply item_ne_of_ne
        intro e
        exact hb2 (e ▸ hd)
      · apply Function.update_noteq
        intro e
        exact hq b (by simp) e
  | cons b l1 ih =>
    intro p h hnd hp hq hx hy
    simp only [List.cons_append] at h hnd hp hq ⊢
    have hb : b ∉ l1 ++ a :: l2 := (List.nodup_cons.mp hnd).1
    have hnd' : (l1 ++ a :: l2).Nodup := (List.nodup_cons.mp hnd).2
    have hs := Seg.split h.2.2
    have ih' := ih (p := .item b) h.2.2 hnd'
      (fun d hd => item_ne_of_ne (fun e => hb (e ▸ hd)))
      (fun d hd => hq d (List.mem_cons_of_mem b hd)) hx hy
    refine ⟨?_, ?_, ih'⟩
    · rw [Function.update_noteq]
      · exact h.1
      · -- p is not x
        intro e
        rcases Seg.pred_mem hs.1 hx with e1 | ⟨d, hd, e1⟩
        · exact hp b (List.mem_cons_self b _) (e.trans e1)
        · exact hp d (List.mem_cons_of_mem b (List.mem_append_left _ hd)) (e.trans e1)
    · rw [Function.update_noteq]
      · exact h.2.1
      · intro e
        rcases Seg.succ_mem hs.2 hy with e1 | ⟨d, hd, e1⟩
        · exact hq b (List.mem_cons_self b _) (e1.symm.trans e.symm)
        · have : b = d := by
            have := e.trans e1
            injection this
          exact hb (List.mem_append_right _ (List.mem_cons_of_mem a (this ▸ hd)))

/-- Putting the cell `a` in front of the ring through the head sentinel. -/
theorem Seg.push {nx pv : ItemPtr → Option ItemPtr} {l : List Nat} {a : Nat} {f : ItemPtr}
    (h : Seg nx pv .head l .head) (hnd : l.Nodup) (ha : a ∉ l) (hf : nx .head = some f) :
    Seg (Function.update (Function.update nx (.item a) (some f)) .head (some (.item a)))
        (Function.update (Function.update pv f (some (.item a))) (.item a) (some .head))
        .head (a :: l) .head := by
  have hah : ItemPtr.item a ≠ ItemPtr.head := by intro e; cases e
  refine ⟨by simp, by simp, ?_⟩
  cases l with
  | nil =>
    have hfh : f = .head := by
      have := h.1
      rw [hf] at this
      injection this
    subst hfh
    refine ⟨?_, ?_⟩
    · rw [Function.update_noteq hah, Function.update_same]
    · rw [Function.update_noteq hah.symm, Function.update_same]
  | cons b l =>
    have hfb : f = .item b := by
      have := h.1
      rw [hf] at this
      injection this
    subst hfb
    have hab : a ≠ b := fun e => ha (e ▸ List.mem_cons_self a l)
    have hb : b ∉ l := (List.nodup_cons.mp hnd).1
    refine ⟨?_, ?_, ?_⟩
    · rw [Function.update_noteq hah, Function.update_same]
    · rw [Function.update_noteq (item_ne_of_ne hab.symm), Function.update_same]
    · apply Seg.congr h.2.2
      · rw [Function.update_noteq (by intro e; cases e), Function.update_noteq (item_ne_of_ne hab.symm)]
      · intro d hd
        rw [Function.update_noteq (by intro e; cases e), Function.update_noteq]
        apply item_ne_of_ne
        intro e
        exact ha (e ▸ List.mem_cons_of_mem b hd)
      · intro d hd
        rw [Function.update_noteq, Function.update_noteq]
        · apply item_ne_of_ne
          intro e
          exact hb (e ▸ hd)
        · apply item_ne_of_ne
          intro e
          exact ha (e ▸ List.mem_cons_of_mem b hd)
      · rw [Function.update_noteq hah.symm, Function.update_noteq (by intro e; cases e)]


theorem Seg.end_prev {nx pv : ItemPtr → Option ItemPtr} {l : List Nat} :
    ∀ {p q : ItemPtr}, Seg nx pv p l q → ∃ x, pv q = some x ∧ nx x = some q := by
  induction l with
  | nil =>
    intro p q h
    exact ⟨p, h.2, h.1⟩
  | cons a l ih =>
    intro p q h
    exact ih h.2.2

theorem Seg.start_next {nx pv : ItemPtr → Option ItemPtr} {l : List Nat} {p q : ItemPtr}
    (h : Seg nx pv p l q) : ∃ y, nx p = some y ∧ pv y = some p := by
  cases l with
  | nil => exact ⟨q, h.1, h.2⟩
  | cons a l => exact ⟨.item a, h.1, h.2.1⟩

theorem prevOf_some_ne_null {c : lru_cache} {y x : ItemPtr} (h : c.prevOf y = some x) : y ≠ .null := by
  intro e
  subst e
  cases h

theorem nextOf_some_ne_null {c : lru_cache} {y x : ItemPtr} (h : c.nextOf y = some x) : y ≠ .null := by
  intro e
  subst e
  cases h

theorem lookup_of_prevOf {c : lru_cache} {a : Nat} {x : ItemPtr} (h : c.prevOf (.item a) = some x) :
    ∃ i, c.lookup a = some i ∧ i.prev = x := by
  change (c.lookup a).map (fun i => i.prev) = some x at h
  cases hl : c.lookup a with
  | none => rw [hl] at h; cases h
  | some i =>
    rw [hl] at h
    injection h with h
    exact ⟨i, rfl, h⟩

theorem lookup_of_nextOf {c : lru_cache} {a : Nat} {x : ItemPtr} (h : c.nextOf (.item a) = some x) :
    ∃ i, c.lookup a = some i ∧ i.next = x := by
  change (c.lookup a).map (fun i => i.next) = some x at h
  cases hl : c.lookup a with
  | none => rw [hl] at h; cases h
  | some i =>
    rw [hl] at h
    injection h with h
    exact ⟨i, rfl, h⟩

theorem SameCells.lookup_some {c c' : lru_cache} (h : SameCells c c') {a : Nat} {i : Item}
    (hi : c.lookup a = some i) : ∃ i', c'.lookup a = some i' ∧ i'.key = i.key ∧ i'.data = i.data := by
  have := h.cells a
  rw [hi] at this
  cases hl : c'.lookup a with
  | none => rw [hl] at this; cases this
  | some i' =>
    rw [hl] at this
    simp only [Option.map_some', Option.some.injEq, Prod.mk.injEq] at this
    exact ⟨i', rfl, this.1, this.2⟩

theorem prevOf_ne_none_of_lookup {c : lru_cache} {a : Nat} {i : Item} (h : c.lookup a = some i) :
    c.prevOf (.item a) ≠ none := by
  change (c.lookup a).map (fun i => i.prev) ≠ none
  rw [h]
  simp

theorem nextOf_ne_none_of_lookup {c : lru_cache} {a : Nat} {i : Item} (h : c.lookup a = some i) :
    c.nextOf (.item a) ≠ none := by
  change (c.lookup a).map (fun i => i.next) ≠ none
  rw [h]
  simp

/-- Method `MruItem::unlink` on a cell of the ring. -/
theorem unlink_ok (c : lru_cache) (l1 : List Nat) (a : Nat) (l2 : List Nat)
    (hseg : Seg c.nextOf c.prevOf .head (l1 ++ a :: l2) .head) (hnd : (l1 ++ a :: l2).Nodup) :
    ∃ c', c.unlink a = .ok c' ∧ Seg c'.nextOf c'.prevOf .head (l1 ++ l2) .head ∧
      SameCells c c' := by
  have hs := Seg.split hseg
  obtain ⟨x, hx, hxn⟩ := Seg.end_prev hs.1
  obtain ⟨y, hy, hyp⟩ := Seg.start_next hs.2
  obtain ⟨i, hi, hip⟩ := lookup_of_prevOf hx
  obtain ⟨i2, hi2, hin⟩ := lookup_of_nextOf hy
  have : i2 = i := by
    rw [hi] at hi2
    injection hi2 with e
    exact e.symm
  subst this
  have hyn : y ≠ .null := prevOf_some_ne_null hyp
  have hxnn : x ≠ .null := nextOf_some_ne_null hxn
  obtain ⟨c1, hc1, hpv1, hnx1, hsame1⟩ := set_prev_ok c y x (by rw [hyp]; simp)
  obtain ⟨c2, hc2, hnx2, hpv2, hsame2⟩ := set_next_ok c1 x y (by rw [hnx1, hxn]; simp)
  refine ⟨c2, ?_, ?_, sameCells_trans hsame1 hsame2⟩
  · unfold unlink
    simp only [cell_of_lookup hi, bind, Except.bind, hin, hip, ne_eq, hyn, not_false_eq_true,
      if_true, hc1, hxnn, hc2, pure, Except.pure]
  · rw [hnx2, hpv2, hpv1, hnx1]
    exact Seg.unlink hseg hnd (fun b _ e => by cases e) (fun b _ e => by cases e) hx hy

theorem nextOf_head (c : lru_cache) : c.nextOf .head = some c.head_next := rfl

/-- Method `MruItem::append` of the head sentinel on a cell outside the ring. -/
theorem append_ok (c : lru_cache) (l : List Nat) (a : Nat)
    (hseg : Seg c.nextOf c.prevOf .head l .head) (hnd : l.Nodup) (ha : a ∉ l)
    (hcell : ∃ i, c.lookup a = some i) :
    ∃ c', c.append a = .ok c' ∧ Seg c'.nextOf c'.prevOf .head (a :: l) .head ∧
      SameCells c c' := by
  obtain ⟨f, hf, hfp⟩ := Seg.start_next hseg
  have hfh : c.head_next = f := by
    have := nextOf_head c
    rw [hf] at this
    injection this with e
    exact e.symm
  have hfn : f ≠ .null := prevOf_some_ne_null hfp
  obtain ⟨i, hi⟩ := hcell
  obtain ⟨c1, hc1, hpv1, hnx1, hsame1⟩ := set_prev_ok c f (.item a) (by rw [hfp]; simp)
  obtain ⟨i1, hi1, _⟩ := hsame1.lookup_some hi
  obtain ⟨c2, hc2, hpv2, hnx2, hsame2⟩ := set_prev_ok c1 (.item a) .head (prevOf_ne_none_of_lookup hi1)
  obtain ⟨i2, hi2, _⟩ := hsame2.lookup_some hi1
  obtain ⟨c3, hc3, hnx3, hpv3, hsame3⟩ := set_next_ok c2 (.item a) f (nextOf_ne_none_of_lookup hi2)
  have h2h : c2.head_next = f := by
    have := nextOf_head c2
    rw [hnx2, hnx1, hf] at this
    injection this with e
    exact e.symm
  refine ⟨{ c3 with head_next := .item a }, ?_, ?_, ?_⟩
  · unfold append
    simp only [hfh, ne_eq, hfn, not_false_eq_true, if_true, hc1, bind, Except.bind, hc2, h2h, hc3,
      pure, Except.pure]
  · have hn : ({ c3 with head_next := ItemPtr.item a } : lru_cache).nextOf
        = Function.update c3.nextOf .head (some (.item a)) := by
      funext q
      cases q with
      | null => rfl
      | head => simp [nextOf]
      | item b => simp [nextOf, lookup]
    have hp : ({ c3 with head_next := ItemPtr.item a } : lru_cache).prevOf = c3.prevOf := by
      funext q
      cases q <;> rfl
    rw [hn, hp, hnx3, hpv3, hpv2, hnx2, hpv1, hnx1]
    exact Seg.push hseg hnd ha hf
  · have h4 : SameCells c3 { c3 with head_next := ItemPtr.item a } :=
      ⟨rfl, fun _ => rfl, rfl, rfl, rfl, rfl⟩
    exact sameCells_trans (sameCells_trans (sameCells_trans hsame1 hsame2) hsame3) h4


theorem WF.size_eq {c : lru_cache} {l : List Nat} (h : WF c l) : c.size = l.length := by
  have := h.perm.length_eq
  simpa [size] using this

theorem WF.mem_of_lookup {c : lru_cache} {l : List Nat} (h : WF c l) {a : Nat} {i : Item}
    (hi : c.lookup a = some i) : a ∈ l := by
  apply h.perm.subset
  rw [List.mem_map]
  exact ⟨i, lookup_mem hi, lookup_addr hi⟩

theorem WF.lookup_of_mem {c : lru_cache} {l : List Nat} (h : WF c l) {a : Nat} (ha : a ∈ l) :
    ∃ i, c.lookup a = some i := by
  have hm : a ∈ c.iMap.map (fun i => i.addr) := h.perm.symm.subset ha
  rw [List.mem_map] at hm
  obtain ⟨j, hj, hja⟩ := hm
  cases hl : c.lookup a with
  | some i => exact ⟨i, rfl⟩
  | none =>
    unfold lookup at hl
    rw [List.find?_eq_none] at hl
    have := hl j hj
    simp [hja] at this

theorem WF.lookup_fresh {c : lru_cache} {l : List Nat} (h : WF c l) : c.lookup c.next_item = none := by
  cases hl : c.lookup c.next_item with
  | none => rfl
  | some i => exact absurd (h.fresh _ (h.mem_of_lookup hl)) (Nat.lt_irrefl _)

theorem map_find_mem {c : lru_cache} {key : Nat} {i : Item} (h : c.map_find key = some i) :
    i ∈ c.iMap := by
  unfold map_find at h
  exact List.mem_of_find?_eq_some h

theorem WF.mem_of_map_find {c : lru_cache} {l : List Nat} (h : WF c l) {key : Nat} {i : Item}
    (hi : c.map_find key = some i) : i.addr ∈ l := by
  apply h.perm.subset
  rw [List.mem_map]
  exact ⟨i, map_find_mem hi, rfl⟩

theorem WF.of_sameCells {c c' : lru_cache} {l l' : List Nat} (h : WF c l) (hs : SameCells c c')
    (hseg : Seg c'.nextOf c'.prevOf .head l' .head) (hp : l'.Perm l) : WF c' l' :=
  ⟨hseg, hp.nodup_iff.mpr h.nodup, by rw [hs.addrs]; exact h.perm.trans hp.symm,
   fun a ha => by rw [hs.next]; exact h.fresh a (hp.subset ha)⟩

/-- Method `set_mru` on a cell of the ring. -/
theorem set_mru_ok (c : lru_cache) (l : List Nat) (a : Nat) (h : WF c l) (ha : a ∈ l) :
    ∃ c' l', c.set_mru a = .ok c' ∧ WF c' l' ∧ l'.Perm l ∧ SameCells c c' := by
  obtain ⟨l1, l2, rfl⟩ := List.append_of_mem ha
  obtain ⟨i, hi⟩ := h.lookup_of_mem ha
  by_cases hp : i.prev ≠ .head
  · obtain ⟨c1, hc1, hseg1, hsame1⟩ := unlink_ok c l1 a l2 h.seg h.nodup
    have hnd : (a :: (l1 ++ l2)).Nodup := List.nodup_middle.mp h.nodup
    obtain ⟨i1, hi1, _⟩ := hsame1.lookup_some hi
    obtain ⟨c2, hc2, hseg2, hsame2⟩ := append_ok c1 (l1 ++ l2) a hseg1
      (List.nodup_cons.mp hnd).2 (List.nodup_cons.mp hnd).1 ⟨i1, hi1⟩
    refine ⟨c2, a :: (l1 ++ l2), ?_, ?_, List.perm_middle.symm, sameCells_trans hsame1 hsame2⟩
    · unfold set_mru
      simp only [cell_of_lookup hi, bind, Except.bind, hc1, hc2]
      rw [if_pos hp]
    · exact h.of_sameCells (sameCells_trans hsame1 hsame2) hseg2 List.perm_middle.symm
  · refine ⟨c, l1 ++ a :: l2, ?_, h, List.Perm.refl _, sameCells_refl c⟩
    unfold set_mru
    simp only [cell_of_lookup hi, bind, Except.bind, pure, Except.pure]
    rw [if_neg hp]

theorem lookup_filter (c : lru_cache) (a b : Nat) :
    ({ c with iMap := c.iMap.filter (fun j => j.addr != a) } : lru_cache).lookup b
      = if b = a then none else c.lookup b := by
  unfold lookup
  simp only [List.find?_filter]
  by_cases hb : b = a
  · subst hb
    rw [if_pos rfl, List.find?_eq_none]
    intro x _
    simp
  · rw [if_neg hb]
    congr 1
    funext j
    by_cases hj : j.addr = b
    · simp [hj, hb]
    · simp [hj]

theorem filter_ne_middle {l1 : List Nat} {a : Nat} {l2 : List Nat} (h : (l1 ++ a :: l2).Nodup) :
    (l1 ++ a :: l2).filter (fun x => x != a) = l1 ++ l2 := by
  have hnd : (a :: (l1 ++ l2)).Nodup := List.nodup_middle.mp h
  have ha : a ∉ l1 ++ l2 := (List.nodup_cons.mp hnd).1
  rw [List.filter_append, List.filter_cons]
  simp only [bne_self_eq_false, Bool.false_eq_true, if_false]
  rw [List.filter_eq_self.mpr, List.filter_eq_self.mpr]
  · intro x hx
    simp only [bne_iff_ne, ne_eq]
    intro e
    exact ha (e ▸ List.mem_append_right _ hx)
  · intro x hx
    simp only [bne_iff_ne, ne_eq]
    intro e
    exact ha (e ▸ List.mem_append_left _ hx)

/-- Protected method `erase( it)` on a cell of the ring. -/
theorem erase_cell_ok (c : lru_cache) (l1 : List Nat) (a : Nat) (l2 : List Nat)
    (h : WF c (l1 ++ a :: l2)) :
    ∃ i c', c.lookup a = some i ∧
      c.erase_cell a = .ok (if c.iObserver then some i.data else none, c') ∧
      WF c' (l1 ++ l2) ∧ c'.iMaxLimit = c.iMaxLimit ∧ c'.iObserver = c.iObserver ∧
      c'.next_item = c.next_item ∧ c'.lookup a = none ∧
      (∀ b, b ≠ a → (c'.lookup b).map (fun i => (i.key, i.data))
                      = (c.lookup b).map (fun i => (i.key, i.data))) := by
  have ha : a ∈ l1 ++ a :: l2 := by simp
  obtain ⟨i, hi⟩ := h.lookup_of_mem ha
  obtain ⟨c1, hc1, hseg1, hsame1⟩ := unlink_ok c l1 a l2 h.seg h.nodup
  obtain ⟨i1, hi1, _, hd1⟩ := hsame1.lookup_some hi
  have hnd : (a :: (l1 ++ l2)).Nodup := List.nodup_middle.mp h.nodup
  have ha' : a ∉ l1 ++ l2 := (List.nodup_cons.mp hnd).1
  refine ⟨i, { c1 with iMap := c1.iMap.filter (fun j => j.addr != a) }, hi, ?_, ?_,
    hsame1.limit, hsame1.observer, hsame1.next, ?_, ?_⟩
  · unfold erase_cell
    simp only [hc1, bind, Except.bind, cell_of_lookup hi1, pure, Except.pure, hsame1.observer, hd1]
  · refine ⟨?_, (List.nodup_cons.mp hnd).2, ?_, ?_⟩
    · apply Seg.congr hseg1
      · rfl
      · intro b hb
        have hba : b ≠ a := fun e => ha' (e ▸ hb)
        show Option.map _ (lookup _ b) = Option.map _ (c1.lookup b)
        rw [lookup_filter, if_neg hba]
      · intro b hb
        have hba : b ≠ a := fun e => ha' (e ▸ hb)
        show Option.map _ (lookup _ b) = Option.map _ (c1.lookup b)
        rw [lookup_filter, if_neg hba]
      · rfl
    · show (List.map (fun i => i.addr) (c1.iMap.filter (fun j => j.addr != a))).Perm (l1 ++ l2)
      have e : List.map (fun i => i.addr) (c1.iMap.filter (fun j => j.addr != a))
          = (c1.iMap.map (fun i => i.addr)).filter (fun x => x != a) := by
        rw [List.filter_map]
        rfl
      rw [e, hsame1.addrs, ← filter_ne_middle h.nodup]
      exact h.perm.filter _
    · intro b hb
      show b < c1.next_item
      rw [hsame1.next]
      exact h.fresh b (by
        rcases List.mem_append.mp hb with hb | hb
        · exact List.mem_append_left _ hb
        · exact List.mem_append_right _ (List.mem_cons_of_mem a hb))
  · rw [lookup_filter, if_pos rfl]
  · intro b hb
    rw [lookup_filter, if_neg hb]
    exact hsame1.cells b


theorem lookup_add (c : lru_cache) (fresh : Item) (n : Nat) (hf : c.lookup fresh.addr = none)
    (b : Nat) :
    ({ c with iMap := c.iMap ++ [fresh], next_item := n } : lru_cache).lookup b
      = if b = fresh.addr then some fresh else c.lookup b := by
  unfold lookup at hf ⊢
  simp only [List.find?_append]
  by_cases hb : b = fresh.addr
  · subst hb
    rw [if_pos rfl, hf]
    simp
  · rw [if_neg hb]
    have : List.find? (fun i => i.addr == b) [fresh] = none := by
      simp [List.find?_cons, Ne.symm hb]
    rw [this]
    simp

/-- The tail of `get` on a miss: a default-constructed cell for `key` enters
the map and goes to the front of the ring. -/
theorem add_front_ok (c : lru_cache) (l : List Nat) (key : Nat) (h : WF c l) :
    ∃ c', ({ c with iMap := c.iMap ++ [Item.mk c.next_item key .null .null 0],
                    next_item := c.next_item + 1 } : lru_cache).append c.next_item = .ok c' ∧
      WF c' (c.next_item :: l) ∧ c'.iMaxLimit = c.iMaxLimit ∧ c'.iObserver = c.iObserver ∧
      (∃ i, c'.lookup c.next_item = some i ∧ i.key = key ∧ i.data = 0) ∧
      (∀ b, b ≠ c.next_item → (c'.lookup b).map (fun i => (i.key, i.data))
                               = (c.lookup b).map (fun i => (i.key, i.data))) := by
  have hfr := h.lookup_fresh
  have hnl : c.next_item ∉ l := fun hm => absurd (h.fresh _ hm) (Nat.lt_irrefl _)
  have hl := lookup_add c (Item.mk c.next_item key .null .null 0)
    (c.next_item + 1) hfr
  have hseg : Seg (lru_cache.nextOf { c with iMap := c.iMap ++ [Item.mk c.next_item key .null .null 0], next_item := c.next_item + 1 })
      (lru_cache.prevOf { c with iMap := c.iMap ++ [Item.mk c.next_item key .null .null 0], next_item := c.next_item + 1 })
      .head l .head := by
    apply Seg.congr h.seg
    · rfl
    · intro b hb
      have hba : b ≠ c.next_item := fun e => hnl (e ▸ hb)
      show Option.map _ (lookup _ b) = Option.map _ (c.lookup b)
      rw [hl b, if_neg hba]
    · intro b hb
      have hba : b ≠ c.next_item := fun e => hnl (e ▸ hb)
      show Option.map _ (lookup _ b) = Option.map _ (c.lookup b)
      rw [hl b, if_neg hba]
    · rfl
  obtain ⟨c', hc', hseg', hsame⟩ := append_ok _ l c.next_item hseg h.nodup hnl
    ⟨_, by rw [hl c.next_item, if_pos rfl]⟩
  refine ⟨c', hc', ?_, hsame.limit, hsame.observer, ?_, ?_⟩
  · refine ⟨hseg', List.nodup_cons.mpr ⟨hnl, h.nodup⟩, ?_, ?_⟩
    · rw [hsame.addrs]
      show (List.map (fun i => i.addr) (c.iMap ++ [_])).Perm (c.next_item :: l)
      rw [List.map_append]
      exact (List.perm_append_comm).trans (List.Perm.cons _ h.perm)
    · intro a ha
      rw [hsame.next]
      show a < c.next_item + 1
      rcases List.mem_cons.mp ha with e | hm
      · rw [e]; exact Nat.lt_succ_self _
      · exact Nat.lt_succ_of_lt (h.fresh a hm)
  · obtain ⟨i', hi', hk, hd⟩ := hsame.lookup_some (hl c.next_item ▸ (if_pos rfl : (if c.next_item = c.next_item
        then some (Item.mk c.next_item key .null .null 0)
        else c.lookup c.next_item) = _))
    exact ⟨i', hi', hk, hd⟩
  · intro b hb
    rw [hsame.cells b, hl b, if_neg hb]

theorem get_unfold_miss (c : lru_cache) (key : Nat) (hmiss : c.map_find key = none) :
    c.get key = (do
      let r ← if c.is_full then
          match c.head_prev with
          | .item a => c.erase_cell a
          | .head => throw Fault.bad_cast
          | .null => throw Fault.null_deref
        else pure (none, c)
      let c := r.2
      let a := c.next_item
      let fresh : Item := { addr := a, key := key, prev := .null, next := .null, data := 0 }
      let c := { c with iMap := c.iMap ++ [fresh], next_item := a + 1 }
      let c ← c.append a
      pure ((a, false), r.1, c)) := by
  unfold get
  rw [hmiss]

/-- Method `get` on a miss while there is room. -/
theorem get_miss_room (c : lru_cache) (l : List Nat) (key : Nat) (h : WF c l)
    (hmiss : c.map_find key = none) (hroom : c.size ≠ c.iMaxLimit) :
    ∃ c', c.get key = .ok ((c.next_item, false), none, c') ∧
      WF c' (c.next_item :: l) ∧ c'.iMaxLimit = c.iMaxLimit ∧ c'.iObserver = c.iObserver ∧
      (∃ i, c'.lookup c.next_item = some i ∧ i.key = key ∧ i.data = 0) ∧
      (∀ b, b ≠ c.next_item → (c'.lookup b).map (fun i => (i.key, i.data))
                               = (c.lookup b).map (fun i => (i.key, i.data))) := by
  obtain ⟨c', hc', hrest⟩ := add_front_ok c l key h
  refine ⟨c', ?_, hrest⟩
  rw [get_unfold_miss c key hmiss]
  have hf : c.is_full = false := by
    simp [is_full, max_limit, hroom]
  simp only [hf, Bool.false_eq_true, if_false, bind, Except.bind, pure, Except.pure, hc']

/-- Method `get` on a miss in a full cache. -/
theorem get_miss_full (c : lru_cache) (l : List Nat) (key : Nat) (h : WF c l)
    (hmiss : c.map_find key = none) (hfull : c.size = c.iMaxLimit) (hlim : 1 ≤ c.iMaxLimit) :
    ∃ l0 t it c', l = l0 ++ [t] ∧ c.lookup t = some it ∧
      c.get key = .ok ((c.next_item, false), (if c.iObserver then some it.data else none), c') ∧
      WF c' (c.next_item :: l0) ∧ c'.iMaxLimit = c.iMaxLimit ∧ c'.iObserver = c.iObserver ∧
      (∃ i, c'.lookup c.next_item = some i ∧ i.key = key ∧ i.data = 0) ∧
      c'.lookup t = none ∧
      (∀ b, b ≠ c.next_item → b ≠ t → (c'.lookup b).map (fun i => (i.key, i.data))
                               = (c.lookup b).map (fun i => (i.key, i.data))) := by
  have hne : l ≠ [] := by
    intro e
    have := h.size_eq
    rw [e, hfull] at this
    simp at this
    omega
  obtain ⟨l0, t, rfl⟩ : ∃ l0 t, l = l0 ++ [t] :=
    ⟨l.dropLast, l.getLast hne, (List.dropLast_append_getLast hne).symm⟩
  have hhp : c.head_prev = .item t := by
    have := (Seg.last h.seg).1
    change some c.head_prev = some (ItemPtr.item t) at this
    injection this
  obtain ⟨it, c1, hit, hc1, hwf1, hlim1, hobs1, hnext1, hgone, hcells1⟩ := erase_cell_ok c l0 t [] h
  rw [List.append_nil] at hwf1
  obtain ⟨c', hc', hwf', hlim', hobs', hnew, hcells'⟩ := add_front_ok c1 l0 key hwf1
  rw [hnext1] at hc' hwf' hnew hcells'
  have htn : t ≠ c.next_item := by
    intro e
    exact absurd (h.fresh t (by simp)) (by rw [e]; exact Nat.lt_irrefl _)
  refine ⟨l0, t, it, c', rfl, hit, ?_, hwf', hlim'.trans hlim1, hobs'.trans hobs1, hnew, ?_, ?_⟩
  · rw [get_unfold_miss c key hmiss]
    have hf : c.is_full = true := by
      simp [is_full, max_limit, hfull]
    simp only [hf, if_true, hhp, bind, Except.bind, hc1, pure, Except.pure, hnext1, hc']
  · have := hcells' t htn
    rw [hgone] at this
    cases hl : c'.lookup t with
    | none => rfl
    | some x => rw [hl] at this; cases this
  · intro b hb hbt
    rw [hcells' b hb, hcells1 b hbt]


theorem SameCells.size_same {c c' : lru_cache} (h : SameCells c c') : c'.size = c.size := by
  have := congrArg List.length h.addrs
  simpa [size] using this

theorem wf_mk_cache (n : Nat) (obs : Bool) : WF (mk_cache n obs) [] :=
  ⟨⟨rfl, rfl⟩, List.nodup_nil, List.Perm.refl _, fun _ h => by cases h⟩

theorem wf_clear (c : lru_cache) : WF c.clear.2 [] :=
  ⟨⟨rfl, rfl⟩, List.nodup_nil, List.Perm.refl _, fun _ h => by cases h⟩


/-- Every public call keeps the ring well formed and the size within the limit. -/
theorem apply_op_ok (c : lru_cache) (l : List Nat) (op : CacheOp) (h : WF c l)
    (hs : c.size ≤ c.iMaxLimit) (hl : 1 ≤ c.iMaxLimit) :
    ∃ c' l', apply_op c op = .ok c' ∧ WF c' l' ∧ c'.size ≤ c'.iMaxLimit ∧
      c'.iMaxLimit = c.iMaxLimit ∧ c'.iObserver = c.iObserver := by
  cases op with
  | get key =>
    cases hm : c.map_find key with
    | some i =>
      refine ⟨c, l, ?_, h, hs, rfl, rfl⟩
      simp [apply_op, lru_cache.get, hm, bind, Except.bind, pure, Except.pure]
    | none =>
      by_cases hf : c.size = c.iMaxLimit
      · obtain ⟨l0, t, it, c', hl0, _, hget, hwf, hlim, hobs, _⟩ := get_miss_full c l key h hm hf hl
        refine ⟨c', _, ?_, hwf, ?_, hlim, hobs⟩
        · simp [apply_op, hget, bind, Except.bind, pure, Except.pure]
        · have h1 := hwf.size_eq
          have h2 := h.size_eq
          rw [hl0] at h2
          simp at h1 h2
          omega
      · obtain ⟨c', hget, hwf, hlim, hobs, _⟩ := get_miss_room c l key h hm hf
        refine ⟨c', _, ?_, hwf, ?_, hlim, hobs⟩
        · simp [apply_op, hget, bind, Except.bind, pure, Except.pure]
        · have h1 := hwf.size_eq
          have h2 := h.size_eq
          simp at h1
          omega
  | find key mru =>
    cases hm : c.map_find key with
    | none =>
      refine ⟨c, l, ?_, h, hs, rfl, rfl⟩
      simp [apply_op, lru_cache.find, hm, bind, Except.bind, pure, Except.pure]
    | some i =>
      cases mru with
      | false =>
        refine ⟨c, l, ?_, h, hs, rfl, rfl⟩
        simp [apply_op, lru_cache.find, hm, bind, Except.bind, pure, Except.pure]
      | true =>
        obtain ⟨c', l', hc', hwf, _, hsame⟩ := set_mru_ok c l i.addr h (h.mem_of_map_find hm)
        refine ⟨c', l', ?_, hwf, ?_, hsame.limit, hsame.observer⟩
        · simp [apply_op, lru_cache.find, hm, hc', bind, Except.bind, pure, Except.pure]
        · rw [hsame.size_same, hsame.limit]
          exact hs
  | touch key =>
    cases hm : c.map_find key with
    | none =>
      refine ⟨c, l, ?_, h, hs, rfl, rfl⟩
      simp [apply_op, lru_cache.touch, hm]
    | some i =>
      obtain ⟨c', l', hc', hwf, _, hsame⟩ := set_mru_ok c l i.addr h (h.mem_of_map_find hm)
      refine ⟨c', l', ?_, hwf, ?_, hsame.limit, hsame.observer⟩
      · simp [apply_op, lru_cache.touch, hm, hc']
      · rw [hsame.size_same, hsame.limit]
        exact hs
  | erase key =>
    cases hm : c.map_find key with
    | none =>
      refine ⟨c, l, ?_, h, hs, rfl, rfl⟩
      simp [apply_op, lru_cache.erase, hm, bind, Except.bind, pure, Except.pure]
    | some i =>
      obtain ⟨l1, l2, rfl⟩ := List.append_of_mem (h.mem_of_map_find hm)
      obtain ⟨it, c', _, hc', hwf, hlim, hobs, _⟩ := erase_cell_ok c l1 i.addr l2 h
      refine ⟨c', _, ?_, hwf, ?_, hlim, hobs⟩
      · simp [apply_op, lru_cache.erase, hm, hc', bind, Except.bind, pure, Except.pure]
      · have h1 := hwf.size_eq
        have h2 := h.size_eq
        simp at h1 h2
        omega
  | clear =>
    refine ⟨c.clear.2, [], rfl, wf_clear c, ?_, rfl, rfl⟩
    show (0 : Nat) ≤ c.iMaxLimit
    exact Nat.zero_le _

/-- Every sequence of public calls runs to the end, keeps the ring well
formed and the size within the limit. -/
theorem run_ops_ok (ops : List CacheOp) :
    ∀ (c : lru_cache) (l : List Nat), WF c l → c.size ≤ c.iMaxLimit → 1 ≤ c.iMaxLimit →
      ∃ c' l', run_ops c ops = .ok c' ∧ WF c' l' ∧ c'.size ≤ c'.iMaxLimit ∧
        c'.iMaxLimit = c.iMaxLimit := by
  induction ops with
  | nil =>
    intro c l h hs _
    exact ⟨c, l, rfl, h, hs, rfl⟩
  | cons op ops ih =>
    intro c l h hs hl
    obtain ⟨c1, l1, h1, hwf1, hs1, hlim1, _⟩ := apply_op_ok c l op h hs hl
    obtain ⟨c2, l2, h2, hwf2, hs2, hlim2⟩ := ih c1 l1 hwf1 hs1 (by rw [hlim1]; exact hl)
    refine ⟨c2, l2, ?_, hwf2, hs2, hlim2.trans hlim1⟩
    simp [run_ops, h1, h2, bind, Except.bind]

end lru_cache

/-! ### Opening a file: symbolic runs and frames -/

/-- A read that the file can serve in full. -/
theorem read_full (s : bp_tree_default_stream) (n : Nat) (hf : s.failed = false)
    (hlen : s.pos + n ≤ s.bytes.length) :
    s.read n = ((s.bytes.drop s.pos).take n, { s with pos := s.pos + n }) := by
  have hl : ((s.bytes.drop s.pos).take n).length = n := by
    rw [List.length_take, List.length_drop]
    omega
  unfold bp_tree_default_stream.read
  simp only [hf, Bool.false_eq_true, if_false, hl, Nat.lt_irrefl, decide_False]

theorem encode_length (w v : Nat) : (encode w v).length = w := by
  induction w generalizing v with
  | zero => rfl
  | succ w ih => simp [encode, ih]

/-- Bytes obtained in full replace the whole destination. -/
theorem overlay_full (got old : List Nat) (h : old.length ≤ got.length) : overlay got old = got := by
  unfold overlay
  rw [List.drop_of_length_le h, List.append_nil]


theorem toRes_ok {α : Type} {x : Except Fault α} {a : α} (h : toRes x = Res.ok a) : x = Except.ok a := by
  cases x with
  | error e => cases h
  | ok b =>
    injection h with h
    rw [h]



/-- Run of `open( io, 0)`: the header of a new file is written and `eof_`
becomes the end of the header. -/
theorem bp_open_new_run (t : bp_tree) :
    bp_open 0 t = Except.ok
      ((((t.io.write signature).write_scalar offset_size 0).write_scalar 1 0).ok,
       { t with eof_ := items_offset,
                io := ((t.io.write signature).write_scalar offset_size 0).write_scalar 1 0,
                item_count_ := 0,
                stream_attached :=
                  (((t.io.write signature).write_scalar offset_size 0).write_scalar 1 0).ok }) := by
  rfl

/-- Run of `allocate_leaf`. -/
theorem allocate_leaf_run (t : bp_tree) (offset parent : Nat) :
    allocate_leaf offset parent t = Except.ok (t.next_addr,
      { t with leaf_node := { t.leaf_node with offset := offset, parent := parent },
               heap := (t.next_addr, { t.leaf_node with offset := offset, parent := parent }) :: t.heap,
               next_addr := t.next_addr + 1 }) := by
  rfl

/-- Run of `allocate_inner`. -/
theorem allocate_inner_run (t : bp_tree) (offset parent level : Nat) :
    allocate_inner offset parent level t = Except.ok (t.next_addr,
      { t with inner_node := { t.inner_node with offset := offset, parent := parent,
                                                 level := level % 256 },
               heap := (t.next_addr, { t.inner_node with offset := offset, parent := parent,
                                                         level := level % 256 }) :: t.heap,
               next_addr := t.next_addr + 1 }) := by
  rfl

/-- Run of `insert` on an empty tree: the first leaf is allocated at `eof_`. -/
theorem insert_first_run (t : bp_tree) (key : Nat) (hroot : t.root_ = 0) (ha : t.next_addr ≠ 0)
    (hk : 0 < t.leaf_node.keys.length) (hkind : t.leaf_node.kind = Kind.leaf)
    (hu : t.leaf_node.used_slots = 0) :
    insert key t = Except.ok ((t.next_addr, 0),
      { t with leaf_node := { t.leaf_node with offset := t.eof_, parent := 0 },
               heap := heap_store
                 ((t.next_addr, { t.leaf_node with offset := t.eof_, parent := 0 }) :: t.heap)
                 t.next_addr
                 { t.leaf_node with offset := t.eof_, parent := 0,
                                    keys := t.leaf_node.keys.set 0 key, used_slots := 1 },
               next_addr := t.next_addr + 1,
               eof_ := t.eof_ + Leaf_storage_size t.slot_count,
               root_ := t.next_addr, head_ := t.next_addr, tail_ := t.next_addr,
               change_flags_ := bitmap_ones, item_count_ := 1 }) := by
  have hi : insert_ 0 t.leaf_node.keys 0 key 0 t.leaf_node.data 0
      = Except.ok (t.leaf_node.keys.set 0 key, t.leaf_node.data, 1) := by
    simp [insert_, arr_set, hk, bind, Except.bind, pure, Except.pure]
  unfold insert
  rw [bind_run _ _ _ _ _ (get_run t)]
  simp only [hroot, ne_eq, not_true_eq_false, if_false]
  rw [bind_run _ _ _ _ _ (allocate_leaf_run t _ _)]
  rw [bind_run _ _ _ _ _ (modify_run _ _)]
  rw [bind_run _ _ _ _ _ (Leaf_insert_run _ t.next_addr
    { t.leaf_node with offset := t.eof_, parent := 0 } key 0 _ _ _ ha
    (by simp [List.lookup]) hkind (by rw [hu]; exact hi))]
  rw [bind_run _ _ _ _ _ (modify_run _ _)]
  rfl

/-- The object stored at the address of the newest node. -/
theorem lookup_store_head (h : Heap) (p : Nat) (n0 n : Node) :
    (heap_store ((p, n0) :: h) p n).lookup p = some n := by
  have h1 : ((p, n0).1 == p) = true := beq_self_eq_true p
  have h2 : (p == p) = true := beq_self_eq_true p
  unfold heap_store
  rw [List.map_cons, if_pos h1]
  simp only [List.lookup, h2]

/-- After `open( io, 0)` on a new tree object the first `insert` puts its
leaf at the end of the header. -/
theorem first_node_offset (S cache_size junk key : Nat) (hS : 1 ≤ S) :
    ∃ t n, (do let _ ← bp_open 0; insert key).run (mk_tree S cache_size junk [])
        = Except.ok ((heap_base, 0), t) ∧
      t.root_ = heap_base ∧ t.heap.lookup t.root_ = some n ∧ n.offset = items_offset ∧
      t.eof_ = items_offset + Leaf_storage_size S := by
  have h1 := insert_first_run
    { mk_tree S cache_size junk [] with
        eof_ := items_offset,
        io := (((mk_tree S cache_size junk []).io.write signature).write_scalar offset_size 0).write_scalar 1 0,
        item_count_ := 0,
        stream_attached := ((((mk_tree S cache_size junk []).io.write signature).write_scalar offset_size 0).write_scalar 1 0).ok }
    key rfl (show heap_base ≠ 0 by decide)
    (show 0 < (List.replicate S junk).length by rw [List.length_replicate]; omega) rfl rfl
  refine ⟨?state, ?node, ?hrunning, ?_, ?hlook, ?_, ?_⟩
  case hrunning =>
    show (bp_open 0 >>= fun _ => insert key) (mk_tree S cache_size junk []) = _
    rw [bind_run _ _ _ _ _ (bp_open_new_run _)]
    exact h1
  case hlook => exact lookup_store_head _ _ _ _
  · rfl
  · rfl
  · rfl

namespace bp_tree_default_stream

theorem read_compact (s : bp_tree_default_stream) (n : Nat) : (s.read n).2.compact_ = s.compact_ := by
  unfold read
  split <;> rfl

theorem seek_compact (s : bp_tree_default_stream) (p : Nat) : (s.seek p).compact_ = s.compact_ := by
  unfold seek
  split <;> rfl

theorem skip_compact (s : bp_tree_default_stream) (p : Nat) : (s.skip p).compact_ = s.compact_ := by
  unfold skip
  split <;> rfl

theorem read_scalar_compact (s : bp_tree_default_stream) (w old : Nat) :
    (s.read_scalar w old).2.compact_ = s.compact_ := by
  unfold read_scalar
  exact read_compact s w

theorem read_array_compact {s : bp_tree_default_stream} {w used : Nat} {old xs : List Nat}
    {s' : bp_tree_default_stream} (h : s.read_array w used old = some (xs, s')) :
    s'.compact_ = s.compact_ := by
  unfold read_array at h
  split at h
  · injection h with h
    injection h with _ h
    rw [← h]
    exact read_compact s _
  · cases h

theorem pad_slots_compact {s : bp_tree_default_stream} {w used count : Nat}
    {s' : bp_tree_default_stream} (h : s.pad_slots w used count = some s') :
    s'.compact_ = s.compact_ := by
  unfold pad_slots at h
  split at h
  · injection h with h
    rw [h]
  · split at h
    · injection h with h
      rw [← h]
      exact skip_compact s _
    · cases h

theorem read_keys_compact {s : bp_tree_default_stream} {keys : List Nat} {used count : Nat}
    {xs : List Nat} {s' : bp_tree_default_stream} (h : s.read_keys keys used count = some (xs, s')) :
    s'.compact_ = s.compact_ := by
  unfold read_keys at h
  split at h
  · cases h
  · rename_i ks s1 h1
    split at h
    · cases h
    · rename_i s2 h2
      injection h with h
      injection h with _ h
      rw [← h, pad_slots_compact h2, read_array_compact h1]

theorem read_offsets3_compact {s : bp_tree_default_stream} {items : List Nat} {used count : Nat}
    {xs : List Nat} {s' : bp_tree_default_stream}
    (h : s.read_offsets3 items used count = some (xs, s')) : s'.compact_ = s.compact_ := by
  unfold read_offsets3 at h
  split at h
  · cases h
  · rename_i ks s1 h1
    split at h
    · cases h
    · rename_i s2 h2
      injection h with h
      injection h with _ h
      rw [← h, pad_slots_compact h2, read_array_compact h1]

theorem read_data_compact {s : bp_tree_default_stream} {data : List Nat} {used count : Nat}
    {xs : List Nat} {s' : bp_tree_default_stream}
    (h : s.read_data data used count = some (xs, s')) : s'.compact_ = s.compact_ := by
  unfold read_data at h
  split at h
  · cases h
  · rename_i ks s1 h1
    split at h
    · cases h
    · rename_i s2 h2
      injection h with h
      injection h with _ h
      rw [← h, pad_slots_compact h2, read_array_compact h1]

end bp_tree_default_stream

/-- Loading the members of `_Node` leaves the offset, the level and the
kind of the node and the `compact_` switch of the stream as they were. -/
theorem Node_raw_load_from_frame {S : Nat} {n : Node} {input : bp_tree_default_stream}
    {r : Node × bp_tree_default_stream × Bool} (h : Node_raw_load_from S n input = Except.ok r) :
    r.1.offset = n.offset ∧ r.1.level = n.level ∧ r.1.kind = n.kind ∧
      r.2.1.compact_ = input.compact_ ∧ r.1.children = n.children ∧ r.1.siblings = n.siblings ∧
      r.1.data = n.data := by
  unfold Node_raw_load_from at h
  dsimp only at h
  cases h2 : (input.read_scalar slotn_size n.used_slots).2.read_keys n.keys
      (input.read_scalar slotn_size n.used_slots).1 S with
  | none => rw [h2] at h; cases h
  | some p =>
    obtain ⟨ks, s2⟩ := p
    rw [h2] at h
    injection h with h
    rw [← h]
    refine ⟨rfl, rfl, rfl, ?_, rfl, rfl, rfl⟩
    show s2.compact_ = _
    rw [bp_tree_default_stream.read_keys_compact h2, bp_tree_default_stream.read_scalar_compact]

/-- Frame of `_Inner::load_from`. -/
theorem Inner_load_from_frame {S : Nat} {n : Node} {input : bp_tree_default_stream}
    {r : Node × bp_tree_default_stream × Bool} (h : Inner_load_from S n input = Except.ok r) :
    r.1.offset = n.offset ∧ r.1.level = n.level ∧ r.1.kind = n.kind ∧
      r.2.1.compact_ = input.compact_ := by
  unfold Inner_load_from Inner_raw_load_from at h
  cases h1 : Node_raw_load_from S n (input.seek n.offset) with
  | error e => rw [h1] at h; cases h
  | ok r1 =>
    rw [h1] at h
    have hf := Node_raw_load_from_frame h1
    simp only [bind, Except.bind] at h
    split at h
    · cases h
    · rename_i cs s2 h2
      have hc : s2.compact_ = input.compact_ := by
        rw [bp_tree_default_stream.read_offsets3_compact h2, hf.2.2.2.1, bp_tree_default_stream.seek_compact]
      split at h
      · injection h with h
        rw [← h]
        exact ⟨hf.1, hf.2.1, hf.2.2.1, hc⟩
      · injection h with h
        rw [← h]
        exact ⟨hf.1, hf.2.1, hf.2.2.1, hc⟩

/-- Frame of `_Leaf::load_from`. -/
theorem Leaf_load_from_frame {S : Nat} {n : Node} {input : bp_tree_default_stream}
    {r : Node × bp_tree_default_stream × Bool} (h : Leaf_load_from S n input = Except.ok r) :
    r.1.offset = n.offset ∧ r.1.level = n.level ∧ r.1.kind = n.kind ∧
      r.2.1.compact_ = input.compact_ := by
  unfold Leaf_load_from Leaf_raw_load_from at h
  cases h1 : Node_raw_load_from S n ((input.seek n.offset).skip leaf_marker_size) with
  | error e => rw [h1] at h; cases h
  | ok r1 =>
    rw [h1] at h
    have hf := Node_raw_load_from_frame h1
    have hc1 : r1.2.1.compact_ = input.compact_ := by
      rw [hf.2.2.2.1, bp_tree_default_stream.skip_compact, bp_tree_default_stream.seek_compact]
    simp only [bind, Except.bind] at h
    split at h
    · split at h
      · cases h
      · rename_i sb s2 h2
        split at h
        · cases h
        · rename_i d s3 h3
          have hc : s3.compact_ = input.compact_ := by
            rw [bp_tree_default_stream.read_data_compact h3]
            unfold bp_tree_default_stream.read_offsets2 at h2
            rw [bp_tree_default_stream.read_array_compact h2, hc1]
          split at h
          · injection h with h
            rw [← h]
            exact ⟨hf.1, hf.2.1, hf.2.2.1, hc⟩
          · injection h with h
            rw [← h]
            exact ⟨hf.1, hf.2.1, hf.2.2.1, hc⟩
    · injection h with h
      rw [← h]
      exact ⟨hf.1, hf.2.1, hf.2.2.1, hc1⟩

/-- A scalar read that the file can serve in full. -/
theorem read_scalar_at (content : List Nat) (p w old : Nat) (c : Bool)
    (hlen : p + w ≤ content.length) :
    bp_tree_default_stream.read_scalar ⟨content, p, false, c⟩ w old
      = (decode ((content.drop p).take w), ⟨content, p + w, false, c⟩) := by
  have hl : ((content.drop p).take w).length = w := by
    rw [List.length_take, List.length_drop]
    omega
  unfold bp_tree_default_stream.read_scalar
  rw [read_full ⟨content, p, false, c⟩ w rfl hlen]
  show (decode (overlay (List.take w (List.drop p content)) (encode w old)), _) = _
  rw [overlay_full _ _ (by rw [encode_length, hl])]

/-- Run of `set_stream`. -/
theorem set_stream_run (s : bp_tree_default_stream) (t : bp_tree) :
    set_stream s t = Except.ok (PUnit.unit, { t with io := s }) := rfl

/-- A completed computation that does not involve the state. -/
theorem lift_inv {α : Type} {e : Except Fault α} {s s1 : bp_tree} {a : α}
    (h : (liftM e : M α) s = Except.ok (a, s1)) : e = Except.ok a ∧ s1 = s := by
  cases e with
  | error x => cases h
  | ok x =>
    cases h
    exact ⟨rfl, rfl⟩

/-- A completed `deref`. -/
theorem deref_inv {p : Nat} {s s1 : bp_tree} {n : Node} (h : deref p s = Except.ok (n, s1)) :
    heap_deref s.heap p = Except.ok n ∧ s1 = s := by
  unfold deref at h
  rw [bind_run _ _ _ _ _ (get_run s)] at h
  exact lift_inv h

/-- A completed `inner_load_io`. -/
theorem inner_load_io_inv {node : Nat} {s s1 : bp_tree} {v : Bool}
    (h : inner_load_io node s = Except.ok (v, s1)) :
    ∃ n r, heap_deref s.heap node = Except.ok n ∧
      Inner_load_from s.slot_count n s.io = Except.ok r ∧
      s1 = { s with heap := heap_store s.heap node r.1, io := r.2.1 } := by
  unfold inner_load_io at h
  rw [bind_run _ _ _ _ _ (get_run s)] at h
  obtain ⟨n, s2, hd, hk⟩ := bind_ok h
  unfold deref_inner at hd
  obtain ⟨n2, s3, hd2, hd3⟩ := bind_ok hd
  obtain ⟨hn, hs3⟩ := deref_inv hd2
  subst hs3
  by_cases hkind : n2.kind = Kind.inner
  · rw [if_pos hkind] at hd3
    cases hd3
    obtain ⟨r, s4, hr, hk2⟩ := bind_ok hk
    obtain ⟨hr2, hs4⟩ := lift_inv hr
    subst hs4
    unfold store set_stream at hk2
    rw [bind_run _ _ _ _ _ (modify_run _ _)] at hk2
    rw [bind_run _ _ _ _ _ (modify_run _ _)] at hk2
    cases hk2
    exact ⟨n, r, hn, hr2, rfl⟩
  · rw [if_neg hkind] at hd3
    cases hd3

/-- A completed `leaf_load_io`. -/
theorem leaf_load_io_inv {node : Nat} {s s1 : bp_tree} {v : Bool}
    (h : leaf_load_io node s = Except.ok (v, s1)) :
    ∃ n r, heap_deref s.heap node = Except.ok n ∧
      Leaf_load_from s.slot_count n s.io = Except.ok r ∧
      s1 = { s with heap := heap_store s.heap node r.1, io := r.2.1 } := by
  unfold leaf_load_io at h
  rw [bind_run _ _ _ _ _ (get_run s)] at h
  obtain ⟨n, s2, hd, hk⟩ := bind_ok h
  unfold deref_leaf at hd
  obtain ⟨n2, s3, hd2, hd3⟩ := bind_ok hd
  obtain ⟨hn, hs3⟩ := deref_inv hd2
  subst hs3
  by_cases hkind : n2.kind = Kind.leaf
  · rw [if_pos hkind] at hd3
    cases hd3
    obtain ⟨r, s4, hr, hk2⟩ := bind_ok hk
    obtain ⟨hr2, hs4⟩ := lift_inv hr
    subst hs4
    unfold store set_stream at hk2
    rw [bind_run _ _ _ _ _ (modify_run _ _)] at hk2
    rw [bind_run _ _ _ _ _ (modify_run _ _)] at hk2
    cases hk2
    exact ⟨n, r, hn, hr2, rfl⟩
  · rw [if_neg hkind] at hd3
    cases hd3

/-- Storing at one address leaves the objects at the other addresses. -/
theorem lookup_store_ne (h : Heap) (p q : Nat) (n : Node) (hq : q ≠ p) :
    (heap_store h p n).lookup q = h.lookup q := by
  induction h with
  | nil => rfl
  | cons e h ih =>
    unfold heap_store at ih ⊢
    rw [List.map_cons]
    by_cases he : (e.1 == p) = true
    · rw [if_pos he]
      have hep : e.1 = p := beq_iff_eq.mp he
      have h1 : (q == p) = false := by simp [hq]
      have h2 : (q == e.1) = false := by simp [hep, hq]
      obtain ⟨k, v⟩ := e
      simp only [List.lookup, h1]
      simp only at h2
      simp only [h2]
      exact ih
    · rw [if_neg he]
      obtain ⟨k, v⟩ := e
      cases hk : (q == k) with
      | true => simp only [List.lookup, hk]
      | false =>
        simp only [List.lookup, hk]
        exact ih

/-- The newest node does not hide the objects at the other addresses. -/
theorem lookup_cons_ne (h : Heap) (p q : Nat) (n : Node) (hq : q ≠ p) :
    List.lookup q ((p, n) :: h) = h.lookup q := by
  have h1 : (q == p) = false := by simp [hq]
  simp only [List.lookup, h1]

/-- The object that a completed read through a pointer found. -/
theorem heap_deref_head {p : Nat} {n0 n : Node} {h : Heap}
    (hd : heap_deref ((p, n0) :: h) p = Except.ok n) : n = n0 := by
  unfold heap_deref at hd
  split at hd
  · cases hd
  · have h2 : (p == p) = true := beq_self_eq_true p
    simp only [List.lookup, h2] at hd
    injection hd with hd
    exact hd.symm

theorem open_reads_header (S cache_size junk : Nat) (content : List Nat) (end_off : Nat) (b : Bool)
    (t' : bp_tree) (h0 : end_off ≠ 0) (hlen : items_offset ≤ content.length)
    (hsig : content.take signature_size = signature)
    (hc : S < decode ((content.drop count_offset).take offset_size))
    (hrun : toRes ((bp_open end_off).run (mk_tree S cache_size junk content)) = Res.ok (b, t')) :
    b = true ∧ t'.stream_attached = true ∧
    t'.item_count_ = (header_fields content).1 ∧
    t'.io.compact_ = ((header_fields content).2.1 % 2 == 1) ∧
    ∃ root head tail, t'.heap.lookup t'.root_ = some root ∧ t'.heap.lookup t'.head_ = some head ∧
      t'.heap.lookup t'.tail_ = some tail ∧
      root.level = (header_fields content).2.2.1 % 256 ∧
      root.offset = (header_fields content).2.2.2.1 ∧
      head.offset = (header_fields content).2.2.2.2.1 ∧
      tail.offset = (header_fields content).2.2.2.2.2 := by
  have hrun := toRes_ok hrun
  change bp_open end_off (mk_tree S cache_size junk content) = _ at hrun
  have hlen36 : 36 ≤ content.length := hlen
  have hc0 : decode ((content.drop 2).take offset_size) ≠ 0 := by
    have : S < decode ((content.drop 2).take offset_size) := hc
    omega
  have hc1 : decode ((content.drop 2).take offset_size) > S := hc
  unfold bp_open at hrun
  rw [bind_run _ _ _ _ _ (modify_run _ _)] at hrun
  rw [bind_run _ _ _ _ _ (get_run _)] at hrun
  simp only [h0, ne_eq, not_false_eq_true, if_true] at hrun
  have hr1 : ({ mk_tree S cache_size junk content with eof_ := end_off } : bp_tree).io.read signature_size
      = (content.take 2, ⟨content, 2, false, false⟩) := by
    have := read_full (bp_tree_default_stream.mk_stream content) 2 rfl
      (by show 0 + 2 ≤ content.length; omega)
    simpa [bp_tree_default_stream.mk_stream] using this
  have hov : overlay signature (encode signature_size junk) = signature :=
    overlay_full _ _ (by rw [encode_length]; decide)
  have hsig2 : content.take 2 = signature := hsig
  rw [hr1] at hrun
  rw [bind_run _ _ _ _ _ (set_stream_run _ _)] at hrun
  simp only [mk_tree, hsig2, hov, if_true] at hrun
  rw [bind_run _ _ _ _ _ (get_run _)] at hrun
  have e1 := read_scalar_at content 2 offset_size 0 false (by simp [offset_size]; omega)
  have e2 := read_scalar_at content (2 + offset_size) 1 junk false (by simp [offset_size]; omega)
  have e3 := read_scalar_at content (2 + offset_size + 1) slotn_size junk
    (decode ((content.drop (2 + offset_size)).take 1) % 2 == 1) (by simp [offset_size, slotn_size]; omega)
  have e4 := read_scalar_at content (2 + offset_size + 1 + slotn_size) offset_size junk
    (decode ((content.drop (2 + offset_size)).take 1) % 2 == 1) (by simp [offset_size, slotn_size]; omega)
  have e5 := read_scalar_at content (2 + offset_size + 1 + slotn_size + offset_size) offset_size junk
    (decode ((content.drop (2 + offset_size)).take 1) % 2 == 1) (by simp [offset_size, slotn_size]; omega)
  have e6 := read_scalar_at content (2 + offset_size + 1 + slotn_size + offset_size + offset_size)
    offset_size junk
    (decode ((content.drop (2 + offset_size)).take 1) % 2 == 1) (by simp [offset_size, slotn_size]; omega)
  simp only [e1, e2, bp_tree_default_stream.set_compact, e3, e4, e5, e6] at hrun
  rw [bind_run _ _ _ _ _ (modify_run _ _)] at hrun
  simp only [hc0, not_false_eq_true, if_true] at hrun
  rw [bind_run _ _ _ _ _ (set_stream_run _ _)] at hrun
  simp only [bp_tree_default_stream.ok, Bool.not_false, if_true] at hrun
  rw [bind_run _ _ _ _ _ (modify_run _ _)] at hrun
  simp only [hc1, if_true] at hrun
  rw [bind_run _ _ _ _ _ (set_stream_run _ _)] at hrun
  simp only [if_true] at hrun
  rw [bind_run _ _ _ _ _ (allocate_inner_run _ _ _ _)] at hrun
  obtain ⟨v1, s1, h1, hrun⟩ := bind_ok hrun
  obtain ⟨n1, r1, hn1, hr1, rfl⟩ := inner_load_io_inv h1
  simp only [] at hrun
  rw [bind_run _ _ _ _ _ (modify_run _ _)] at hrun
  rw [bind_run _ _ _ _ _ (allocate_leaf_run _ _ _)] at hrun
  rw [bind_run _ _ _ _ _ (modify_run _ _)] at hrun
  obtain ⟨v2, s2, h2, hrun⟩ := bind_ok hrun
  obtain ⟨n2, r2, hn2, hr2, rfl⟩ := leaf_load_io_inv h2
  simp only [] at hrun
  rw [bind_run _ _ _ _ _ (allocate_leaf_run _ _ _)] at hrun
  rw [bind_run _ _ _ _ _ (modify_run _ _)] at hrun
  obtain ⟨v3, s3, h3, hrun⟩ := bind_ok hrun
  obtain ⟨n3, r3, hn3, hr3, rfl⟩ := leaf_load_io_inv h3
  simp only [] at hrun
  cases hrun
  have hf1 := Inner_load_from_frame hr1
  have hf2 := Leaf_load_from_frame hr2
  have hf3 := Leaf_load_from_frame hr3
  have e1n := heap_deref_head hn1
  have hb1 : heap_base + 1 ≠ heap_base + 1 + 1 := by omega
  have hb2 : heap_base ≠ heap_base + 1 + 1 := by omega
  have hb3 : heap_base ≠ heap_base + 1 := by omega
  have e2n := heap_deref_head hn2
  have e3n := heap_deref_head hn3
  refine ⟨rfl, rfl, rfl, ?_, r1.1, r2.1, r3.1, ?_, ?_, ?_, ?_, ?_, ?_, ?_⟩
  · show r3.2.1.compact_ = _
    rw [hf3.2.2.2, hf2.2.2.2, hf1.2.2.2]
    rfl
  · show List.lookup heap_base _ = _
    rw [lookup_store_ne _ _ _ _ hb2, lookup_cons_ne _ _ _ _ hb2, lookup_store_ne _ _ _ _ hb3,
      lookup_cons_ne _ _ _ _ hb3]
    exact lookup_store_head _ _ _ _
  · show List.lookup (heap_base + 1) _ = _
    rw [lookup_store_ne _ _ _ _ hb1, lookup_cons_ne _ _ _ _ hb1]
    exact lookup_store_head _ _ _ _
  · exact lookup_store_head _ _ _ _
  · rw [hf1.2.1, e1n]
    rfl
  · rw [hf1.1, e1n]
    rfl
  · rw [hf2.1, e2n]
    rfl
  · rw [hf3.1, e3n]
    rfl

/-! ### Claims on clearing, opening, the header and compaction -/

set_option synthInstance.maxHeartbeats 4000000
set_option synthInstance.maxSize 4096

/-- C11 (`clear` resets the tree), as the code has it.  On a tree that is a
single leaf with two keys (just filled, or reopened) `clear()` does not
come back: `head_`, `tail_` and
`root_` are one object, `item_count_ > 1` holds, and the object is deleted
three times.  On an empty tree opened on an existing empty file `clear()`
does nothing, so `eof_` stays at the length of that file, 11.  On a single
leaf with one key and on a tree whose root is an inner node it does what the
claim says: `size()` and `depth()` are 0, `begin() == end()`, `eof_` is 36,
the `count_mask` bit is set, the file is untouched by `clear()` itself, and
the destructor then writes `item_count = 0` over the old count. -/
theorem clear_evaluated :
    on_fresh 3 512 [10, 20] clear_report = Res.fault Fault.dangling ∧
    on_reopened 3 512 512 [10, 20] clear_report = Res.fault Fault.dangling ∧
    on_reopened 3 512 512 [] clear_report
      = Res.ok (0, 0, true, 11, true, true, [0, 0, 0, 0, 0, 0, 0, 0], [0, 0, 0, 0, 0, 0, 0, 0]) ∧
    on_reopened 3 512 512 [10] clear_report
      = Res.ok (0, 0, true, 36, true, true, [1, 0, 0, 0, 0, 0, 0, 0], [0, 0, 0, 0, 0, 0, 0, 0]) ∧
    on_reopened 3 512 512 [10, 20, 30, 40, 50, 60, 70] clear_report
      = Res.ok (0, 0, true, 36, true, true, [7, 0, 0, 0, 0, 0, 0, 0], [0, 0, 0, 0, 0, 0, 0, 0]) := by
  decide!

/-- C12 (a bad signature is rejected).  For every tree object and every
stream that is not in a failed state and holds at least two more bytes, if
these two bytes are not the signature then `open( io, end_off)` with
`end_off != 0` returns false and changes nothing but `eof_` and the position
of the stream: no node is allocated or loaded, `root_`, `head_` and `tail_`
are what they were, and no stream is attached. -/
theorem bad_signature_rejected (t : bp_tree) (end_off : Nat) (h0 : end_off ≠ 0)
    (hf : t.io.failed = false) (hlen : t.io.pos + 2 ≤ t.io.bytes.length)
    (hsig : (t.io.bytes.drop t.io.pos).take 2 ≠ signature) :
    (bp_open end_off).run t = Except.ok (false,
      { t with eof_ := end_off, io := { t.io with pos := t.io.pos + 2 },
               stream_attached := false }) := by
  have hl : ((t.io.bytes.drop t.io.pos).take 2).length = 2 := by
    rw [List.length_take, List.length_drop]
    omega
  have hov : overlay ((t.io.bytes.drop t.io.pos).take 2) (encode signature_size t.junk)
      = (t.io.bytes.drop t.io.pos).take 2 :=
    overlay_full _ _ (by rw [encode_length, hl]; decide)
  show bp_open end_off t = _
  unfold bp_open
  rw [bind_run _ _ _ _ _ (modify_run _ t)]
  rw [bind_run _ _ _ _ _ (get_run _)]
  simp only [h0, ne_eq, not_false_eq_true, if_true]
  have hr : ({ t with eof_ := end_off } : bp_tree).io.read signature_size
      = ((t.io.bytes.drop t.io.pos).take 2, { t.io with pos := t.io.pos + 2 }) :=
    read_full t.io 2 hf hlen
  simp only [hr, hov, hsig, if_false]
  rfl

/-- Witness of C12: a new tree object next to the four bytes "B-" 1 2. -/
theorem bad_signature_rejected_witness :
    (bp_open 4).run (mk_tree 3 512 0 [66, 45, 1, 2]) = Except.ok (false,
      { mk_tree 3 512 0 [66, 45, 1, 2] with
          eof_ := 4, io := { (mk_tree 3 512 0 [66, 45, 1, 2]).io with pos := 0 + 2 },
          stream_attached := false }) :=
  bad_signature_rejected (mk_tree 3 512 0 [66, 45, 1, 2]) 4 (by decide) rfl (by decide) (by decide)

/-- C13 (short reads are reported), as the code has it.  `open` returns
true on a file that ends right after the signature (the short read leaves
`item_count_` at 0 and the stream is not asked), on the file of a one-key
tree cut inside the record of its root leaf, and on the file of a two-level
tree cut before the records of its root and tail: the results of the three
`load_from` calls are dropped.  It returns false when the file ends inside
the flags, root level, root offset, head offset or tail offset. -/
theorem short_read_evaluated :
    open_result 3 512 0 [66, 43] 2 = Res.ok (true, true, 0, 0, 0) ∧
    open_result 3 512 0 ((file_of 3 512 [10]).take 40) 40
      = Res.ok (true, true, heap_base, heap_base, heap_base) ∧
    open_result 3 512 0 ((file_of 3 512 [10, 20, 30, 40, 50, 60, 70]).take 100) 100
      = Res.ok (true, true, heap_base, heap_base + 1, heap_base + 2) ∧
    open_result 3 512 0 ((file_of 3 512 [10]).take 15) 15 = Res.ok (false, false, 0, 0, 0) ∧
    open_result 3 512 0 ((file_of 3 512 [10, 20, 30, 40, 50, 60, 70]).take 30) 30
      = Res.ok (false, false, 0, 0, 0) := by
  decide!

/-- C14 (the header layout is consistent).  (1) The header positions are
2, 10, 11, 12, 20, 28 and the header ends at 36.  (2) On a new file the first
node that `insert` allocates has offset 36, for every slot count from 1 on.
(3) `open` on a file with the signature and an `item_count` above the slot
count reads `item_count`, the flags byte, the root level and the root, head
and tail offsets from exactly these positions: what it leaves in the tree
object is what `header_fields` decodes there.  (4) On the file that the
destructor leaves and on the file that `compact_to` writes, the values found
at these positions are the ones the tree holds, and a second tree object
opened on either file holds them again. -/
theorem header_layout :
    (count_offset = 2 ∧ flag_offset = 10 ∧ root_level_offset = 11 ∧ root_offset = 12 ∧
      head_offset = 20 ∧ tail_offset = 28 ∧ items_offset = 36) ∧
    (∀ S cache_size junk key : Nat, 1 ≤ S →
      ∃ t n, (do let _ ← bp_open 0; insert key).run (mk_tree S cache_size junk [])
          = Except.ok ((heap_base, 0), t) ∧
        t.root_ = heap_base ∧ t.heap.lookup t.root_ = some n ∧ n.offset = items_offset ∧
        t.eof_ = items_offset + Leaf_storage_size S) ∧
    (∀ (S cache_size junk : Nat) (content : List Nat) (end_off : Nat) (b : Bool) (t' : bp_tree),
      end_off ≠ 0 → items_offset ≤ content.length → content.take signature_size = signature →
      S < decode ((content.drop count_offset).take offset_size) →
      toRes ((bp_open end_off).run (mk_tree S cache_size junk content)) = Res.ok (b, t') →
      b = true ∧ t'.stream_attached = true ∧
      t'.item_count_ = (header_fields content).1 ∧
      t'.io.compact_ = ((header_fields content).2.1 % 2 == 1) ∧
      ∃ root head tail, t'.heap.lookup t'.root_ = some root ∧
        t'.heap.lookup t'.head_ = some head ∧ t'.heap.lookup t'.tail_ = some tail ∧
        root.level = (header_fields content).2.2.1 % 256 ∧
        root.offset = (header_fields content).2.2.2.1 ∧
        head.offset = (header_fields content).2.2.2.2.1 ∧
        tail.offset = (header_fields content).2.2.2.2.2) ∧
    (on_fresh 3 512 [10, 20, 30, 40, 50, 60, 70] tree_fields = Res.ok (7, 0, 1, 170, 36, 227) ∧
     header_fields (file_of 3 512 [10, 20, 30, 40, 50, 60, 70]) = (7, 0, 1, 170, 36, 227) ∧
     on_reopened 3 512 512 [10, 20, 30, 40, 50, 60, 70] tree_fields
       = Res.ok (7, 0, 1, 170, 36, 227) ∧
     header_fields (compact_file_of 3 512 [10, 20, 30, 40, 50, 60, 70]) = (7, 1, 1, 138, 36, 179) ∧
     on_file 3 512 (compact_file_of 3 512 [10, 20, 30, 40, 50, 60, 70]) tree_fields
       = Res.ok (7, 1, 1, 138, 36, 179)) := by
  refine ⟨by decide, ?_, ?_, by decide!⟩
  · intro S cache_size junk key hS
    exact first_node_offset S cache_size junk key hS
  · intro S cache_size junk content end_off b t' h0 hlen hsig hc hrun
    exact open_reads_header S cache_size junk content end_off b t' h0 hlen hsig hc hrun

/-- Witness of C14: slot count 3 and key 10 on a new file; and a header
with `item_count` 5, flags 1, root level 2 and the offsets 100, 200 and 300,
opened with slot count 3. -/
theorem header_layout_witness :
    (1 ≤ 3 ∧ ∃ t n, (do let _ ← bp_open 0; insert 10).run (mk_tree 3 512 0 [])
        = Except.ok ((heap_base, 0), t) ∧
      t.root_ = heap_base ∧ t.heap.lookup t.root_ = some n ∧ n.offset = items_offset ∧
      t.eof_ = items_offset + Leaf_storage_size 3) ∧
    ((open_state 3 512 0 [66, 43, 5, 0, 0, 0, 0, 0, 0, 0, 1, 2, 100, 0, 0, 0, 0, 0, 0, 0,
        200, 0, 0, 0, 0, 0, 0, 0, 44, 1, 0, 0, 0, 0, 0, 0] 36).1 = true ∧
     (open_state 3 512 0 [66, 43, 5, 0, 0, 0, 0, 0, 0, 0, 1, 2, 100, 0, 0, 0, 0, 0, 0, 0,
        200, 0, 0, 0, 0, 0, 0, 0, 44, 1, 0, 0, 0, 0, 0, 0] 36).2.item_count_
       = (header_fields [66, 43, 5, 0, 0, 0, 0, 0, 0, 0, 1, 2, 100, 0, 0, 0, 0, 0, 0, 0,
        200, 0, 0, 0, 0, 0, 0, 0, 44, 1, 0, 0, 0, 0, 0, 0]).1) :=
  ⟨⟨by decide, header_layout.2.1 3 512 0 10 (by decide)⟩,
   (fun h => ⟨h.1, h.2.2.1⟩) (header_layout.2.2.1 3 512 0
     [66, 43, 5, 0, 0, 0, 0, 0, 0, 0, 1, 2, 100, 0, 0, 0, 0, 0, 0, 0,
        200, 0, 0, 0, 0, 0, 0, 0, 44, 1, 0, 0, 0, 0, 0, 0] 36
     (open_state 3 512 0 [66, 43, 5, 0, 0, 0, 0, 0, 0, 0, 1, 2, 100, 0, 0, 0, 0, 0, 0, 0,
        200, 0, 0, 0, 0, 0, 0, 0, 44, 1, 0, 0, 0, 0, 0, 0] 36).1
     (open_state 3 512 0 [66, 43, 5, 0, 0, 0, 0, 0, 0, 0, 1, 2, 100, 0, 0, 0, 0, 0, 0, 0,
        200, 0, 0, 0, 0, 0, 0, 0, 44, 1, 0, 0, 0, 0, 0, 0] 36).2
     (by decide) (by decide!) (by decide!) (by decide!) (by decide!))⟩

/-- A three-level tree of ten keys, opened with a cache of one node: the
forward iteration is right, and `compact_to` then reads a deleted node. -/
theorem compact_small_cache_evaluated :
    on_reopened 3 512 1 [10, 20, 30, 40, 50, 60, 70, 80, 90, 100] (walk_then_compact 20)
      = Res.ok ([10, 20, 30, 40, 50, 60, 70, 80, 90, 100], Res.fault Fault.dangling) := by
  decide!

/-- C15 (compaction preserves content), as the code has it.  On a two-level
tree with every node resident, `compact_to` returns true, the output has the
flags byte 1 and the same `item_count`, and a tree opened on it iterates over
the same keys and values.  On a three-level tree of ten keys opened with a
cache of one node the forward iteration is right, but `compact_to` does not
come back: `compact_analyse_descend` holds a node of level 1 while
`get_child` loads its first leaf into the only cell of the cache, which
evicts and deletes that node, and the loop then reads the deleted node. -/
theorem compaction_evaluated :
    compact_bpt 3 512 [10, 20, 30, 40, 50, 60, 70] 20
      = Res.ok ([(10, 10), (20, 20), (30, 30), (40, 40), (50, 50), (60, 60), (70, 70)], true,
                [1], [7, 0, 0, 0, 0, 0, 0, 0],
                Res.ok (true, true, 7, 2,
                  [(10, 10), (20, 20), (30, 30), (40, 40), (50, 50), (60, 60), (70, 70)])) ∧
    on_reopened 3 512 1 [10, 20, 30, 40, 50, 60, 70, 80, 90, 100] (walk_then_compact 20)
      = Res.ok ([10, 20, 30, 40, 50, 60, 70, 80, 90, 100], Res.fault Fault.dangling) :=
  ⟨by decide!, compact_small_cache_evaluated⟩

/-- C16 (`compact_to` on a tree without inner nodes).  For every tree
without a root and for every tree whose root is a leaf, `compact_to( out)`
returns false and leaves `out` and the tree as they were.  For every tree
whose root is an inner node it returns true whenever it comes back; it comes
back on a tree with every node resident, but not on a three-level tree
opened with a cache of one node, where `get_child` evicts and deletes the
node whose child it is loading. -/
theorem compact_to_guard :
    (∀ (t : bp_tree) (out : bp_tree_default_stream), t.root_ = 0 →
      (compact_to out).run t = Except.ok ((false, out), t)) ∧
    (∀ (t : bp_tree) (out : bp_tree_default_stream) (n : Node), t.root_ ≠ 0 →
      t.heap.lookup t.root_ = some n → n.level = 0 →
      (compact_to out).run t = Except.ok ((false, out), t)) ∧
    (∀ (t : bp_tree) (out : bp_tree_default_stream) (n : Node) (r : Bool × bp_tree_default_stream)
      (t' : bp_tree), t.root_ ≠ 0 → t.heap.lookup t.root_ = some n → n.level ≠ 0 →
      toRes ((compact_to out).run t) = Res.ok (r, t') → r.1 = true) ∧
    on_fresh 3 512 [10, 20, 30, 40, 50, 60, 70] (walk_then_compact 20)
      = Res.ok ([10, 20, 30, 40, 50, 60, 70], Res.ok true) ∧
    on_reopened 3 512 1 [10, 20, 30, 40, 50, 60, 70, 80, 90, 100] (walk_then_compact 20)
      = Res.ok ([10, 20, 30, 40, 50, 60, 70, 80, 90, 100], Res.fault Fault.dangling) := by
  refine ⟨?_, ?_, ?_, by decide!, compact_small_cache_evaluated⟩
  · intro t out h
    show compact_to out t = _
    unfold compact_to
    rw [bind_run _ _ _ _ _ (get_run t)]
    simp only [h, ne_eq, not_true_eq_false, if_false]
    rfl
  · intro t out n h hn hl
    show compact_to out t = _
    unfold compact_to
    rw [bind_run _ _ _ _ _ (get_run t)]
    simp only [h, ne_eq, not_false_eq_true, if_true]
    rw [bind_run _ _ _ _ _ (deref_run t t.root_ n h hn)]
    have : n.is_leaf = true := by simp [Node.is_leaf, hl]
    simp only [this, Bool.not_true, Bool.false_eq_true, if_false]
    rfl
  · intro t out n r t' h hn hl hr
    have hr := toRes_ok hr
    change compact_to out t = _ at hr
    unfold compact_to at hr
    rw [bind_run _ _ _ _ _ (get_run t)] at hr
    simp only [h, ne_eq, not_false_eq_true, if_true] at hr
    rw [bind_run _ _ _ _ _ (deref_run t t.root_ n h hn)] at hr
    have : n.is_leaf = false := by simp [Node.is_leaf, hl]
    simp only [this, Bool.not_false, if_true] at hr
    revert hr
    generalize hm : (compact_analyse_descend (n.level + 1) [] t.root_ >>= _ : M _) = m
    intro hr
    have hp : Post m (fun r => r.1 = true) := by
      rw [← hm]
      repeat (first
        | exact post_pure rfl
        | (apply post_bind_any; intro _)
        | dsimp only)
    exact hp.post t r t' hr

/-- Witness of C16: a new tree object, a tree of one key, and a two-level
tree of seven keys, each with a new empty output file. -/
theorem compact_to_guard_witness :
    (compact_to (bp_tree_default_stream.mk_stream [])).run (mk_tree 3 512 0 [])
      = Except.ok ((false, bp_tree_default_stream.mk_stream []), mk_tree 3 512 0 []) ∧
    (compact_to (bp_tree_default_stream.mk_stream [])).run (state_after 3 512 [10])
      = Except.ok ((false, bp_tree_default_stream.mk_stream []), state_after 3 512 [10]) ∧
    (compact_result (state_after 3 512 [10, 20, 30, 40, 50, 60, 70])).1.1 = true :=
  ⟨compact_to_guard.1 (mk_tree 3 512 0 []) (bp_tree_default_stream.mk_stream []) rfl,
   compact_to_guard.2.1 (state_after 3 512 [10]) (bp_tree_default_stream.mk_stream [])
     (root_node (state_after 3 512 [10])) (by decide!) (by decide!) (by decide!),
   compact_to_guard.2.2.1 (state_after 3 512 [10, 20, 30, 40, 50, 60, 70])
     (bp_tree_default_stream.mk_stream [])
     (root_node (state_after 3 512 [10, 20, 30, 40, 50, 60, 70]))
     (compact_result (state_after 3 512 [10, 20, 30, 40, 50, 60, 70])).1
     (compact_result (state_after 3 512 [10, 20, 30, 40, 50, 60, 70])).2
     (by decide!) (by decide!) (by decide!) (by decide!)⟩

/-! ### Claims on the cache -/

/-- C17 (capacity bound of the cache).  For every capacity `n >= 1`, with or
without an observer, and every sequence of `get`, `find` (with or without
`mru`), `touch`, `erase` and `clear` calls on a new cache of capacity `n`,
every prefix of the sequence runs to its end, the recency ring is well
formed after it, `max_limit()` is still `n`, and `size() <= max_limit()`. -/
theorem lru_capacity_bound (n : Nat) (hn : 1 ≤ n) (obs : Bool) (ops : List CacheOp) (k : Nat) :
    ∃ c l, run_ops (lru_cache.mk_cache n obs) (ops.take k) = Except.ok c ∧ lru_cache.WF c l ∧
      c.max_limit = n ∧ c.size ≤ c.max_limit := by
  obtain ⟨c, l, hrun, hwf, hs, hlim⟩ := lru_cache.run_ops_ok (ops.take k) (lru_cache.mk_cache n obs) []
    (lru_cache.wf_mk_cache n obs) (Nat.zero_le _) hn
  exact ⟨c, l, hrun, hwf, hlim, hs⟩

/-- Witness of C17: capacity 2 and the first eight of ten calls. -/
theorem lru_capacity_bound_witness :
    1 ≤ 2 ∧ ∃ c l, run_ops (lru_cache.mk_cache 2 true)
      ([CacheOp.get 1, .get 2, .find 1 true, .get 3, .touch 2, .erase 3, .get 4, .get 5, .clear,
        .get 6].take 8) = Except.ok c ∧ lru_cache.WF c l ∧ c.max_limit = 2 ∧ c.size ≤ c.max_limit :=
  ⟨by decide, lru_capacity_bound 2 (by decide) true _ 8⟩

/-- C18 as stated fails for a cache of capacity 0: it is at capacity with no
pinned entry, and `get` of an absent key passes `mru_end()` of the empty
ring to `erase`, which reads the sentinel as a cell. -/
theorem lru_capacity_zero_evaluated :
    pin_report 0 [.get 1 100] 1 = Res.fault Fault.bad_cast := by decide

/-- The ring of a cache of capacity 2 after `get( 1)`, `get( 2)`. -/
theorem wf_cache_after_two : lru_cache.WF (cache_after 2 [.get 1 100, .get 2 200]) [2, 1] := by
  refine ⟨?_, by decide, ?_, by decide⟩
  · exact ⟨by decide, by decide, by decide, by decide, by decide, by decide⟩
  · decide

/-- The ring of a cache of capacity 2 after `get( 1)`. -/
theorem wf_cache_after_one : lru_cache.WF (cache_after 2 [.get 1 100]) [1] := by
  refine ⟨?_, by decide, ?_, by decide⟩
  · exact ⟨by decide, by decide, by decide, by decide⟩
  · decide

/-- C18 (eviction on a full miss), with the capacity at least 1.  For every
cache with a well-formed ring `l` (every cell of the map linked, none
pinned), of capacity at least 1 and at capacity, and every absent key,
`get( key)` returns `(cursor to a new cell, false)`; the observer, if one is
set, is called once, with the payload of the last cell of `l`; exactly that
cell is removed; the new cell has the key and a default payload and is first
in the ring, in front of the other cells in their old order; every other cell
keeps key and payload; `size()` stays the capacity.  When the cache is not at
capacity the miss calls no observer, the new cell goes in front of `l` and
`size()` grows by one.  With capacity 2 and `get` of 1, 2, 3, the observer is
not called by the first two and is called once, with the payload of 1, by the
third. -/
theorem lru_eviction_on_miss :
    (∀ (c : lru_cache) (l : List Nat) (key : Nat), lru_cache.WF c l → 1 ≤ c.max_limit →
      c.size = c.max_limit → c.map_find key = none →
      ∃ l0 t it c', l = l0 ++ [t] ∧ c.lookup t = some it ∧
        c.get key = Except.ok ((c.next_item, false), (if c.iObserver then some it.data else none), c') ∧
        lru_cache.WF c' (c.next_item :: l0) ∧ c'.size = c.max_limit ∧ c'.max_limit = c.max_limit ∧
        (∃ i, c'.lookup c.next_item = some i ∧ i.key = key ∧ i.data = 0) ∧
        c'.lookup t = none ∧
        (∀ b, b ≠ c.next_item → b ≠ t →
          (c'.lookup b).map (fun i => (i.key, i.data)) = (c.lookup b).map (fun i => (i.key, i.data)))) ∧
    (∀ (c : lru_cache) (l : List Nat) (key : Nat), lru_cache.WF c l →
      c.size ≠ c.max_limit → c.map_find key = none →
      ∃ c', c.get key = Except.ok ((c.next_item, false), none, c') ∧
        lru_cache.WF c' (c.next_item :: l) ∧ c'.size = c.size + 1 ∧
        (∃ i, c'.lookup c.next_item = some i ∧ i.key = key ∧ i.data = 0) ∧
        (∀ b, b ≠ c.next_item →
          (c'.lookup b).map (fun i => (i.key, i.data)) = (c.lookup b).map (fun i => (i.key, i.data)))) ∧
    pin_report 2 [.get 1 100, .get 2 200] 1 = Res.ok ([], [2, 1], 2, true) ∧
    pin_report 2 [.get 1 100, .get 2 200, .get 3 300] 1 = Res.ok ([100], [3, 2], 2, false) := by
  refine ⟨?_, ?_, by decide, by decide⟩
  · intro c l key h hlim hfull hmiss
    obtain ⟨l0, t, it, c', hl0, hit, hget, hwf, hlim', _, hnew, hgone, hcells⟩ :=
      lru_cache.get_miss_full c l key h hmiss hfull hlim
    refine ⟨l0, t, it, c', hl0, hit, hget, hwf, ?_, hlim', hnew, hgone, hcells⟩
    have h1 := hwf.size_eq
    have h2 := h.size_eq
    rw [hl0] at h2
    simp at h1 h2
    omega
  · intro c l key h hroom hmiss
    obtain ⟨c', hget, hwf, _, _, hnew, hcells⟩ := lru_cache.get_miss_room c l key h hmiss hroom
    refine ⟨c', hget, hwf, ?_, hnew, hcells⟩
    have h1 := hwf.size_eq
    have h2 := h.size_eq
    simp at h1
    omega

/-- Witness of C18: the cache of capacity 2 after `get( 1)`, `get( 2)` and
the absent key 3; the same cache after `get( 1)` alone and the absent key 2. -/
theorem lru_eviction_on_miss_witness :
    (∃ (it : Item) (c' : lru_cache), (cache_after 2 [.get 1 100, .get 2 200]).get 3
        = Except.ok (((cache_after 2 [.get 1 100, .get 2 200]).next_item, false),
            (if (cache_after 2 [.get 1 100, .get 2 200]).iObserver then some it.data else none), c') ∧
      c'.size = (cache_after 2 [.get 1 100, .get 2 200]).max_limit) ∧
    (∃ c', (cache_after 2 [.get 1 100]).get 2
        = Except.ok (((cache_after 2 [.get 1 100]).next_item, false), none, c') ∧
      c'.size = (cache_after 2 [.get 1 100]).size + 1) := by
  obtain ⟨_, _, it, c', _, _, h3, _, h5, _⟩ :=
    lru_eviction_on_miss.1 (cache_after 2 [.get 1 100, .get 2 200]) [2, 1] 3
      wf_cache_after_two (by decide) (by decide) (by decide)
  obtain ⟨d', g1, _, g3, _⟩ :=
    lru_eviction_on_miss.2.1 (cache_after 2 [.get 1 100]) [1] 2
      wf_cache_after_one (by decide) (by decide)
  exact ⟨⟨it, c', h3, h5⟩, ⟨d', g1, g3⟩⟩

/-- C19 as stated fails: with capacity 2, after `get( 1)`, `get( 2)` the
ring is 2, 1, and a further `get( 1)` leaves it 2, 1, where the claim has
1, 2.  It is `find( 1, true)` that gives 1, 2. -/
theorem lru_get_hit_evaluated :
    pin_report 2 [.get 1 100, .get 2 200, .get 1 100] 1 = Res.ok ([], [2, 1], 2, true) ∧
    pin_report 2 [.get 1 100, .get 2 200, .find 1 true] 1 = Res.ok ([], [1, 2], 2, true) := by
  decide

/-- C19 (`get` on a present key), as the code has it.  For every cache
state and every key found in the map, `get( key)` returns `(cursor to the
existing cell, true)`, calls no observer, and leaves the whole cache as it
was: the size, the cells and the recency order, the cell found included (no
promotion). -/
theorem lru_get_hit_unchanged (c : lru_cache) (key : Nat) (i : Item)
    (h : c.map_find key = some i) :
    c.get key = Except.ok ((i.addr, true), none, c) := by
  unfold lru_cache.get
  rw [h]

/-- Witness of C19: the cache of capacity 2 after `get( 1)`, `get( 2)`, and
key 1, whose cell is at address 1 between cell 2 and the sentinel. -/
theorem lru_get_hit_unchanged_witness :
    (cache_after 2 [.get 1 100, .get 2 200]).get 1
      = Except.ok (((Item.mk 1 1 (.item 2) .head 100).addr, true), none,
          cache_after 2 [.get 1 100, .get 2 200]) :=
  lru_get_hit_unchanged (cache_after 2 [.get 1 100, .get 2 200]) 1
    (Item.mk 1 1 (.item 2) .head 100) (by decide)

/-- C20 (pinned entries are never evicted), as the code has it.  Capacity 2,
`get` of 1 and 2 with payloads 100 and 200, then `lock` of 1.  If `touch( 1)`
or `find( 1, true)` follows, the pinned cell is linked into the ring again,
and `get( 3)`, `get( 4)` hand the payloads 200 and 100 to the observer: key 1
is evicted while pinned.  Without the `touch` the same two calls evict 2 and
3, and key 1 stays. -/
theorem lru_pinned_evicted :
    pin_report 2 [.get 1 100, .get 2 200, .lock 1, .touch 1, .get 3 300, .get 4 400] 1
      = Res.ok ([200, 100], [4, 3], 2, false) ∧
    pin_report 2 [.get 1 100, .get 2 200, .lock 1, .find 1 true, .get 3 300, .get 4 400] 1
      = Res.ok ([200, 100], [4, 3], 2, false) ∧
    pin_report 2 [.get 1 100, .get 2 200, .lock 1, .get 3 300, .get 4 400] 1
      = Res.ok ([200, 300], [4], 2, true) := by
  decide

/-! ### Splits of a node: positions, lists and bits -/
/-- The binary search stays inside the range it was given. -/
theorem lower_bound_loop_le (fuel : Nat) (keys : List Nat) (first count key : Nat) :
    lower_bound_loop fuel keys first count key ≤ first + count := by
  induction fuel generalizing first count with
  | zero => simp [lower_bound_loop]
  | succ fuel ih =>
    unfold lower_bound_loop
    by_cases hc : count = 0
    · simp [hc]
    · simp only [hc, if_false]
      split
      · have := ih (first + count / 2 + 1) (count - (count / 2 + 1))
        omega
      · have := ih first (count / 2)
        omega

/-- The lower-bound position is at most the number of keys searched. -/
theorem lower_bound_le (keys : List Nat) (used key : Nat) : lower_bound keys used key ≤ used := by
  have := lower_bound_loop_le used keys 0 used key
  unfold lower_bound
  omega

/-- Run of `std::move` inside the bounds of both arrays. -/
theorem std_move_ok (src : List Nat) (first last : Nat) (dst : List Nat) (d : Nat)
    (h : first ≤ last ∧ last ≤ src.length ∧ d + (last - first) ≤ dst.length) :
    std_move src first last dst d
      = .ok (dst.take d ++ (src.drop first).take (last - first) ++ dst.drop (d + (last - first))) :=
  if_pos h

/-- Run of `std::rotate` inside the bounds of the array. -/
theorem std_rotate_ok (a : List Nat) (first middle last : Nat)
    (h : first ≤ middle ∧ middle ≤ last ∧ last ≤ a.length) :
    std_rotate a first middle last
      = .ok (a.take first ++ (a.drop middle).take (last - middle)
          ++ (a.drop first).take (middle - first) ++ a.drop last) :=
  if_pos h

/-- Write of `a[i]` inside the array. -/
theorem arr_set_ok (a : List Nat) (i v : Nat) (h : i < a.length) : arr_set a i v = .ok (a.set i v) :=
  if_pos h

/-- The part moved to the new node, as far as it is in use. -/
theorem move_take (a b : List Nat) (S m f : Nat) (ha : a.length = S) (hf : f ≤ S) (hm : m = S - f) :
    List.take m (List.take (S - f) (List.drop f a) ++ List.drop (S - f) b) = List.drop f a := by
  subst hm
  have h1 : List.take (S - f) (List.drop f a) = List.drop f a := by
    apply List.take_of_length_le
    rw [List.length_drop, ha]
  rw [h1]
  apply List.take_left'
  rw [List.length_drop, ha]

/-- Keys of a split when the new key stays in the old node. -/
theorem split_left_keys (a : List Nat) (S m pos key : Nat) (ha : a.length = S) (hm : m * 2 = S + 1)
    (hpos : pos < m) :
    List.take (S - m + 1)
        ((List.take pos a ++ List.take (m - (m - 1)) (List.drop (m - 1) a) ++
                List.take (m - 1 - pos) (List.drop pos a) ++ List.drop m a).set pos key) ++
      List.drop (m - 1) a
      = List.take pos a ++ key :: List.drop pos a := by
  have e1 : min pos S = pos := by omega
  have e2 : min (m - (m - 1)) (S - (m - 1)) = 1 := by omega
  have e3 : min (m - 1 - pos) (S - pos) = m - 1 - pos := by omega
  have e4 : min (S - m + 1) (pos + 1 + (m - 1 - pos) + (S - m)) = m := by omega
  apply List.ext_getElem?
  intro i
  simp only [List.getElem?_append, List.getElem?_take, List.getElem?_drop, List.getElem?_set,
    List.length_take, List.length_drop, List.length_append, List.length_set, List.getElem?_cons,
    List.length_cons, ha,  inf_eq_min, e1, e2, e3, e4]
  split_ifs <;> first
    | rfl
    | omega
    | (congr 1; omega)
    | (exfalso; omega)
    | (symm; apply List.getElem?_eq_none; omega)
    | (apply List.getElem?_eq_none; omega)

/-- Values of a split when the new key stays in the old node: the slot of the
new key holds what was in slot `slot_mid - 1`. -/
theorem split_left_values (a : List Nat) (S m pos v : Nat) (ha : a.length = S) (hm : m * 2 = S + 1)
    (hpos : pos < m) (hv : a[m - 1]? = some v) :
    List.take (S - m + 1)
        (List.take pos a ++ List.take (m - (m - 1)) (List.drop (m - 1) a) ++
                List.take (m - 1 - pos) (List.drop pos a) ++ List.drop m a) ++
      List.drop (m - 1) a
      = List.take pos a ++ v :: List.drop pos a := by
  have e1 : min pos S = pos := by omega
  have e2 : min (m - (m - 1)) (S - (m - 1)) = 1 := by omega
  have e3 : min (m - 1 - pos) (S - pos) = m - 1 - pos := by omega
  have e4 : min (S - m + 1) (pos + 1 + (m - 1 - pos) + (S - m)) = m := by omega
  apply List.ext_getElem?
  intro i
  simp only [List.getElem?_append, List.getElem?_take, List.getElem?_drop, List.getElem?_set,
    List.length_take, List.length_drop, List.length_append, List.length_set, List.getElem?_cons,
    List.length_cons, ha, inf_eq_min, e1, e2, e3, e4]
  split_ifs <;> first
    | rfl
    | omega
    | (congr 1; omega)
    | (exfalso; omega)
    | (rw [← hv]; congr 1; omega)
    | (symm; apply List.getElem?_eq_none; omega)
    | (apply List.getElem?_eq_none; omega)

/-- The new node after the entries in front of the new key were moved and the
key was stored. -/
theorem moved_set (a b : List Nat) (S m pos key : Nat) (ha : a.length = S)
    (hb : b.length = S) (hm : m * 2 = S + 1) (hpos : m ≤ pos) (hS : pos ≤ S) :
    (List.take (pos - m) (List.drop m a) ++ List.drop (pos - m) b).set (pos - m) key
      = List.take (pos - m) (List.drop m a) ++ key :: List.drop (pos - m + 1) b := by
  apply List.ext_getElem?
  intro i
  simp only [List.getElem?_append, List.getElem?_take, List.getElem?_drop, List.getElem?_set,
    List.length_take, List.length_drop, List.length_append, List.length_set, List.getElem?_cons,
    List.length_cons, ha, hb, inf_eq_min]
  split_ifs <;> first
    | rfl
    | omega
    | (congr 1; omega)
    | (exfalso; omega)
    | (symm; apply List.getElem?_eq_none; omega)
    | (apply List.getElem?_eq_none; omega)

/-- The entries in use of the new node once the rest was moved behind the new
entry. -/
theorem moved_rest (a b c : List Nat) (S m pos x : Nat) (ha : a.length = S)
    (hb : b.length = S) (hm : m * 2 = S + 1) (hpos : m ≤ pos) (hS : pos ≤ S) :
    List.take m
        (List.take (pos - m + 1) (List.take (pos - m) (List.drop m a) ++ x :: c) ++
            List.take (S - pos) (List.drop pos a) ++
          List.drop (pos - m + 1 + (S - pos)) b)
      = List.take (pos - m) (List.drop m a) ++ x :: List.drop pos a := by
  apply List.ext_getElem?
  intro i
  simp only [List.getElem?_append, List.getElem?_take, List.getElem?_drop, List.getElem?_set,
    List.length_take, List.length_drop, List.length_append, List.length_set, List.getElem?_cons,
    List.length_cons, ha, hb, inf_eq_min]
  split_ifs <;> first
    | rfl
    | omega
    | (congr 1; omega)
    | (exfalso; omega)
    | (symm; apply List.getElem?_eq_none; omega)
    | (apply List.getElem?_eq_none; omega)

/-- The old part and the new part together. -/
theorem parts_joined (a : List Nat) (S m pos x : Nat) (ha : a.length = S)
    (hm : m * 2 = S + 1) (hpos : m ≤ pos) (hS : pos ≤ S) :
    List.take (S - m + 1) a ++ (List.take (pos - m) (List.drop m a) ++ x :: List.drop pos a)
      = List.take pos a ++ x :: List.drop pos a := by
  have e : S - m + 1 = m := by omega
  rw [e, ← List.append_assoc]
  congr 1
  have h := List.take_append_drop m (List.take pos a)
  rw [List.take_take, List.drop_take, Nat.min_eq_left hpos] at h
  exact h

/-- The constants for an odd slot count. -/
theorem odd_consts (S : Nat) (hodd : S % 2 = 1) :
    slot_mid S * 2 = S + 1 ∧ extra S = 1 ∧ not_extra S = 0 := by
  unfold not_extra extra slot_mid
  refine ⟨by omega, hodd, ?_⟩
  rw [hodd]
  rfl

/-- Function `split_<0>` on a full node with an odd slot count: it completes,
the two parts hold the old entries with the new key at `pos`, and the values
moved with their keys. -/
theorem split_leaf_ok (S pos : Nat) (dk dv sk sv : List Nat) (key : Nat) (hodd : S % 2 = 1)
    (hpos : pos ≤ S) (hdk : dk.length = S) (hdv : dv.length = S) (hsk : sk.length = S)
    (hsv : sv.length = S) :
    ∃ r, split_ S 0 pos dk dv sk sv key = Except.ok r ∧
      r.src_used_slots = slot_mid S ∧ r.dest_used_slots = slot_mid S ∧
      r.src_keys.length = S ∧ r.src_values.length = S ∧
      r.dest_keys.length = S ∧ r.dest_values.length = S ∧
      r.src_keys.take r.src_used_slots ++ r.dest_keys.take r.dest_used_slots
        = sk.take pos ++ key :: sk.drop pos ∧
      (∃ v, r.src_values.take r.src_used_slots ++ r.dest_values.take r.dest_used_slots
        = sv.take pos ++ v :: sv.drop pos) ∧
      (if pos < slot_mid S then r.result_in_dest = false ∧ r.key_pos = pos ∧ r.result_index = pos
       else r.result_in_dest = true ∧ r.key_pos = pos - slot_mid S ∧
            r.result_index = pos - slot_mid S) := by
  obtain ⟨hm, hex, hne⟩ := odd_consts S hodd
  unfold split_
  generalize slot_mid S = m at hm ⊢
  by_cases hlt : pos < m
  · rw [if_pos hlt, hex]
    rw [std_move_ok sk (m - 1 + 0) S dk 0 (by omega)]
    rw [std_move_ok sv (m - 1 + 0) (S + 0) dv 0 (by omega)]
    rw [std_rotate_ok sk pos (m - 1) m (by omega)]
    rw [std_rotate_ok sv pos (m - 1 + 0) (m + 0) (by omega)]
    simp only [bind, Except.bind]
    rw [arr_set_ok _ pos key (by
      simp only [List.length_append, List.length_take, List.length_drop, hsk]
      omega)]
    simp only [pure, Except.pure, if_pos hlt]
    refine ⟨_, rfl, ?_, ?_, ?_, ?_, ?_, ?_, ?_, ?_, ?_⟩
    all_goals dsimp only
    · omega
    · omega
    · simp only [List.length_set, List.length_append, List.length_take, List.length_drop, hsk]
      omega
    · simp only [List.length_append, List.length_take, List.length_drop, hsv]
      omega
    · simp only [List.length_append, List.length_take, List.length_drop, hsk, hdk]
      omega
    · simp only [List.length_append, List.length_take, List.length_drop, hsv, hdv]
      omega
    · simp only [Nat.add_zero, Nat.sub_zero, Nat.zero_add, List.take_zero, List.nil_append]
      rw [move_take sk dk S m (m - 1) hsk (by omega) (by omega)]
      exact split_left_keys sk S m pos key hsk hm hlt
    · simp only [Nat.add_zero, Nat.sub_zero, Nat.zero_add, List.take_zero, List.nil_append]
      rw [move_take sv dv S m (m - 1) hsv (by omega) (by omega)]
      have hv : m - 1 < sv.length := by omega
      exact ⟨sv.get ⟨m - 1, hv⟩, split_left_values sv S m pos _ hsv hm hlt
        (List.getElem?_eq_getElem hv)⟩
    · exact ⟨rfl, rfl, rfl⟩
  · rw [if_neg hlt, hne, hex]
    have c1 : ¬ (pos < m + 0) := by omega
    rw [if_neg c1]
    by_cases h0 : pos - m - 0 = 0
    · have hpm : pos = m := by omega
      subst hpm
      have c3 : ¬ (pos - pos - 0 ≠ 0) := by omega
      have c2 : ¬ (pos - pos - 0 < 0) := by omega
      simp only [c3, c2, if_false, bind, Except.bind, pure, Except.pure]
      rw [arr_set_ok dk (pos - pos - 0 - 0) key (by omega)]
      dsimp only
      rw [std_move_ok sk pos S _ (pos - pos - 0 + 1) (by
        rw [List.length_set]
        omega)]
      rw [std_move_ok sv pos (S + 0) dv (pos - pos - 0 + 1) (by omega)]
      dsimp only
      refine ⟨_, rfl, ?_, ?_, ?_, ?_, ?_, ?_, ?_, ?_, ?_⟩
      all_goals dsimp only
      all_goals try simp only [Nat.add_zero, Nat.sub_zero, Nat.zero_add, Nat.sub_self]
      · omega
      · exact hsk
      · exact hsv
      · simp only [List.length_set, List.length_append, List.length_take, List.length_drop, hsk, hdk]
        omega
      · simp only [List.length_append, List.length_take, List.length_drop, hsv, hdv]
        omega
      · have h1 := moved_set sk dk S pos pos key hsk hdk hm (Nat.le_refl _) hpos
        have h2 := moved_rest sk (dk.set 0 key) (List.drop 1 dk) S pos pos key hsk
          (by rw [List.length_set]; exact hdk) hm (Nat.le_refl _) hpos
        have h3 := parts_joined sk S pos pos key hsk hm (Nat.le_refl _) hpos
        simp only [Nat.sub_self, List.take_zero, List.nil_append, List.drop_zero, Nat.zero_add]
          at h1 h2 h3
        rw [h1] at h2 ⊢
        rw [h2]
        exact h3
      · obtain ⟨x, c, hxc⟩ : ∃ x c, dv = x :: c := by
          cases dv with
          | nil => exact absurd hdv (by simp only [List.length_nil]; omega)
          | cons x c => exact ⟨x, c, rfl⟩
        have h2 := moved_rest sv dv c S pos pos x hsv hdv hm (Nat.le_refl _) hpos
        have h3 := parts_joined sv S pos pos x hsv hm (Nat.le_refl _) hpos
        simp only [Nat.sub_self, List.take_zero, List.nil_append, List.drop_zero, Nat.zero_add]
          at h2 h3
        refine ⟨x, ?_⟩
        have e : List.take 1 dv = List.take 1 (x :: c) := by rw [hxc]
        rw [e, h2]
        exact h3
      · simp only [if_neg hlt]
        trivial
    · have c3 : pos - m - 0 ≠ 0 := h0
      have c2 : ¬ (pos - m - 0 < 0) := by omega
      simp only [c3, c2, if_false, if_true, ne_eq, not_false_eq_true, bind, Except.bind, pure, Except.pure]
      rw [std_move_ok sk (m + 0 + 0) pos dk 0 (by omega)]
      rw [std_move_ok sv (m + 0 + 0) (pos + 0) dv 0 (by omega)]
      dsimp only
      rw [arr_set_ok _ (pos - m - 0 - 0) key (by
        simp only [List.length_append, List.length_take, List.length_drop, hsk, hdk]
        omega)]
      dsimp only
      rw [std_move_ok sk pos S _ (pos - m - 0 + 1) (by
        simp only [List.length_set, List.length_append, List.length_take, List.length_drop, hsk, hdk]
        omega)]
      rw [std_move_ok sv pos (S + 0) _ (pos - m - 0 + 1) (by
        simp only [List.length_append, List.length_take, List.length_drop, hsv, hdv]
        omega)]
      dsimp only
      refine ⟨_, rfl, ?_, ?_, ?_, ?_, ?_, ?_, ?_, ?_, ?_⟩
      all_goals dsimp only
      all_goals try simp only [Nat.add_zero, Nat.sub_zero, Nat.zero_add, List.take_zero, List.nil_append]
      · omega
      · exact hsk
      · exact hsv
      · simp only [List.length_set, List.length_append, List.length_take, List.length_drop, hsk, hdk]
        omega
      · simp only [List.length_append, List.length_take, List.length_drop, hsv, hdv]
        omega
      · rw [moved_set sk dk S m pos key hsk hdk hm (by omega) hpos]
        rw [moved_rest sk _ _ S m pos key hsk (by
          simp only [List.length_append, List.length_take, List.length_drop, List.length_cons,
            hsk, hdk]
          omega) hm (by omega) hpos]
        exact parts_joined sk S m pos key hsk hm (by omega) hpos
      · obtain ⟨x, c, hxc⟩ : ∃ x c, List.drop (pos - m) dv = x :: c := by
          cases hd : List.drop (pos - m) dv with
          | nil =>
            have := congrArg List.length hd
            simp only [List.length_drop, List.length_nil, hdv] at this
            omega
          | cons x c => exact ⟨x, c, rfl⟩
        refine ⟨x, ?_⟩
        rw [hxc]
        rw [moved_rest sv _ c S m pos x hsv (by
          simp only [List.length_append, List.length_take, List.length_drop, List.length_cons,
            hsv]
          have := congrArg List.length hxc
          simp only [List.length_drop, List.length_cons, hdv] at this
          omega) hm (by omega) hpos]
        exact parts_joined sv S m pos x hsv hm (by omega) hpos
      · simp only [if_neg hlt]
        trivial

/-- Bits of `bit_insert( bits, pos)` below 64: a 1 at `pos`, the bits of
`bits` below it in place and those from `pos` on one position higher. -/
theorem bit_insert_spec (bits pos j : Nat) (hpos : pos < 64) (hj : j < 64) :
    (bit_insert bits pos).testBit j
      = if j < pos then bits.testBit j else if j = pos then true else bits.testBit (j - 1) := by
  unfold bit_insert bmp_shl bmp_not bitmap_ones bitmap_mod
  simp only [Nat.testBit_or, Nat.testBit_and, Nat.testBit_xor, Nat.testBit_shiftLeft,
    Nat.testBit_mod_two_pow, Nat.testBit_two_pow_sub_one, Nat.one_shiftLeft, Nat.testBit_two_pow]
  by_cases h1 : j < pos
  · have a1 : ¬ (j - 1 ≥ pos) := by omega
    have a2 : ¬ (pos = j) := by omega
    have a3 : ¬ (j ≥ pos) := by omega
    simp [h1, hj, a1, a2, a3]
  · by_cases h2 : j = pos
    · subst h2
      simp [hj]
    · have a1 : j - 1 ≥ pos := by omega
      have a2 : ¬ (pos = j) := by omega
      have a3 : j ≥ pos := by omega
      have a4 : j ≥ 1 := by omega
      have a5 : j - 1 < 64 := by omega
      have a6 : j - 1 - pos < 64 := by omega
      have a7 : j - pos < 64 := by omega
      simp [h1, h2, hj, a1, a2, a3, a4, a5, a6, a7]

/-- Slot counts that a completed `split_` assigns. -/
theorem split_used (S ad pos : Nat) (dk dv sk sv : List Nat) (key : Nat) (r : SplitResult)
    (h : split_ S ad pos dk dv sk sv key = Except.ok r) :
    r.dest_used_slots = slot_mid S - ad ∧ r.src_used_slots = S - slot_mid S + extra S := by
  unfold split_ at h
  simp only [bind, Except.bind, pure, Except.pure] at h
  repeat' (split at h)
  all_goals first
    | (injection h with h; subst h; exact ⟨rfl, rfl⟩)
    | cases h

/-- The function `bit_insert` sets no bit from 64 on. -/
theorem bit_insert_high (bits pos j : Nat) (hj : 64 ≤ j) :
    (bit_insert bits pos).testBit j = false := by
  unfold bit_insert bmp_shl bmp_not bitmap_ones bitmap_mod
  simp only [Nat.testBit_or, Nat.testBit_and, Nat.testBit_xor, Nat.testBit_shiftLeft,
    Nat.testBit_mod_two_pow, Nat.testBit_two_pow_sub_one, Nat.one_shiftLeft, Nat.testBit_two_pow]
  have a : ¬ (j < 64) := by omega
  simp [a]

/-- The object stored at an address is the one read back from it. -/
theorem lookup_store_same (h : Heap) (p : Nat) (n0 n : Node) (h0 : h.lookup p = some n0) :
    (heap_store h p n).lookup p = some n := by
  induction h with
  | nil => cases h0
  | cons e h ih =>
    unfold heap_store at ih ⊢
    rw [List.map_cons]
    obtain ⟨k, v⟩ := e
    by_cases he : (k == p) = true
    · rw [if_pos he]
      have h2 : (p == p) = true := beq_self_eq_true p
      simp only [List.lookup, h2]
    · rw [if_neg he]
      have hkp : k ≠ p := by
        intro e
        exact he (by rw [e]; exact beq_self_eq_true p)
      have h1 : (p == k) = false := by simp [Ne.symm hkp]
      simp only [List.lookup, h1] at h0 ⊢
      exact ih h0

/-- Run of `store`. -/
theorem store_run (t : bp_tree) (p : Nat) (n : Node) :
    store p n t = Except.ok (PUnit.unit, { t with heap := heap_store t.heap p n }) := rfl

/-- Run of `_Leaf::split` on two resident leaves when `split_` completes. -/
theorem Leaf_split_run (t : bp_tree) (this new_leaf key : Nat) (n d : Node) (r : SplitResult)
    (kfp : Nat)
    (h1 : this ≠ 0) (h2 : new_leaf ≠ 0)
    (hn : t.heap.lookup this = some n) (hd : t.heap.lookup new_leaf = some d)
    (hkn : n.kind = Kind.leaf) (hkd : d.kind = Kind.leaf)
    (hused : n.used_slots ≠ 0) (hlen : n.used_slots ≤ n.keys.length)
    (hr : split_ t.slot_count 0 (lower_bound n.keys n.used_slots key) d.keys d.data n.keys n.data key
            = Except.ok r)
    (hk : arr_get r.dest_keys 0 = Except.ok kfp) :
    Leaf_split this new_leaf key t = Except.ok
      (((if r.key_pos = lower_bound n.keys n.used_slots key then this else new_leaf, r.key_pos), kfp),
       { t with heap := (heap_store
           (heap_store t.heap this
             { n with used_slots := r.src_used_slots, keys := r.src_keys, data := r.src_values })
           new_leaf { d with used_slots := r.dest_used_slots, keys := r.dest_keys,
                             data := r.dest_values }) }) := by
  unfold Leaf_split
  rw [bind_run _ _ _ _ _ (get_run t)]
  rw [bind_run _ _ _ _ _ (deref_leaf_run t this n h1 hn hkn)]
  rw [bind_run _ _ _ _ _ (deref_leaf_run t new_leaf d h2 hd hkd)]
  have hfl : n.find_lower key = Except.ok (lower_bound n.keys n.used_slots key) := by
    simp only [Node.find_lower, hused, if_false, hlen, if_true]
  rw [hfl, bind_run _ _ _ _ _ (lift_ok_run _ t)]
  rw [hr, bind_run _ _ _ _ _ (lift_ok_run _ t)]
  rw [bind_run _ _ _ _ _ (store_run t this _)]
  rw [bind_run _ _ _ _ _ (store_run _ new_leaf _)]
  rw [hk, bind_run _ _ _ _ _ (lift_ok_run _ _)]
  rfl

/-- The assignment `p->prev = v` leaves the pin set as it was. -/
theorem set_prev_pin_set (c c' : lru_cache) (p v : ItemPtr) (h : c.set_prev p v = Except.ok c') :
    c'.iLockedSet = c.iLockedSet := by
  cases p with
  | null => cases h
  | head =>
    injection h with h
    rw [← h]
  | item a =>
    unfold lru_cache.set_prev at h
    simp only [bind, Except.bind, pure, Except.pure] at h
    split at h
    · cases h
    · injection h with h
      rw [← h]
      rfl

/-! ### Claims on the pin set, the splits and the shape of the tree -/

/-- C21 (`unlock` unpins), as the code has it.  `unlock` never takes
anything out of `iLockedSet`: for every cache state and cursor, when it
completes the set is what it was, so `is_locked` answers as before.  With
capacity 2, after `get` of 1 and 2, `lock` of 1 and `unlock` of 1 the cell of
1 is first in the recency list again, but `is_locked` is still true; a second
`unlock` of 1 then links the cell to itself, so that following `next` from
`mru_begin()` meets key 1 again and again and never reaches key 2 or
`mru_end()`. -/
theorem unlock_keeps_pin_set :
    (∀ (c c' : lru_cache) (it : Option Nat), c.unlock it = Except.ok c' →
      c'.iLockedSet = c.iLockedSet ∧ c'.is_locked it = c.is_locked it) ∧
    lock_report 2 [.get 1 100, .get 2 200] 1 = Res.ok (false, [2, 1], 2) ∧
    lock_report 2 [.get 1 100, .get 2 200, .lock 1] 1 = Res.ok (true, [2], 2) ∧
    lock_report 2 [.get 1 100, .get 2 200, .lock 1, .unlock 1] 1 = Res.ok (true, [1, 2], 2) ∧
    lock_report 2 [.get 1 100, .get 2 200, .lock 1, .unlock 1, .unlock 1] 1
      = Res.ok (true, [1, 1, 1], 2) := by
  refine ⟨?_, by decide, by decide, by decide, by decide⟩
  intro c c' it h
  have hset : c'.iLockedSet = c.iLockedSet := by
    unfold lru_cache.unlock at h
    cases it with
    | none =>
      injection h with h
      rw [h]
    | some a =>
      dsimp only at h
      split at h
      · simp only [bind, Except.bind, pure, Except.pure] at h
        split at h
        · cases h
        · split at h
          · cases h
          · rename_i c1 hc1
            injection h with h
            rw [← h]
            exact (set_prev_pin_set _ c1 _ _ hc1).trans rfl
      · injection h with h
        rw [h]
  refine ⟨hset, ?_⟩
  unfold lru_cache.is_locked
  rw [hset]

/-- Witness of C21: the cache of capacity 2 after `get` of 1 and 2 and `lock`
of 1, and the cursor of key 1. -/
theorem unlock_keeps_pin_set_witness :
    (cache_after 2 [.get 1 100, .get 2 200, .lock 1, .unlock 1]).iLockedSet = (cache_after 2 [.get 1 100, .get 2 200, .lock 1]).iLockedSet ∧
    (cache_after 2 [.get 1 100, .get 2 200, .lock 1, .unlock 1]).is_locked (some 1) = (cache_after 2 [.get 1 100, .get 2 200, .lock 1]).is_locked (some 1) :=
  unlock_keeps_pin_set.1 (cache_after 2 [.get 1 100, .get 2 200, .lock 1])
    (cache_after 2 [.get 1 100, .get 2 200, .lock 1, .unlock 1]) (some 1) rfl

/-- C22 (`clear` of the cache).  For every cache state with an observer set,
`clear()` hands to the observer the payload of every cell of the map, pinned
or not, each once, in the order of the map, and nothing else; afterwards
`size()` is 0, `mru_begin()` is `mru_end()`, and no key is met from
`mru_begin()`. -/
theorem lru_clear_all (c : lru_cache) (fuel : Nat) (hobs : c.iObserver = true) :
    c.clear.1 = c.iMap.map (fun i => i.data) ∧ c.clear.1.length = c.size ∧
    c.clear.2.size = 0 ∧ c.clear.2.head_next = ItemPtr.head ∧
    c.clear.2.head_prev = ItemPtr.head ∧
    c.clear.2.mru_keys fuel c.clear.2.head_next = [] := by
  have h1 : c.clear.1 = c.iMap.map (fun i => i.data) := by
    unfold lru_cache.clear
    simp only [hobs, if_true]
  refine ⟨h1, ?_, rfl, rfl, rfl, ?_⟩
  · rw [h1, List.length_map]
    rfl
  · cases fuel with
    | zero => rfl
    | succ k => rfl

/-- Witness of C22: the cache of capacity 2 after `get` of 1 and 2 with the
payloads 100 and 200 and `lock` of 1; the observer gets 100 and 200. -/
theorem lru_clear_all_witness :
    (cache_after 2 [.get 1 100, .get 2 200, .lock 1]).iObserver = true ∧
    (cache_after 2 [.get 1 100, .get 2 200, .lock 1]).clear.1 = [100, 200] ∧
    (cache_after 2 [.get 1 100, .get 2 200, .lock 1]).clear.1 = (cache_after 2 [.get 1 100, .get 2 200, .lock 1]).iMap.map (fun i => i.data) ∧
    (cache_after 2 [.get 1 100, .get 2 200, .lock 1]).clear.2.size = 0 ∧
    (cache_after 2 [.get 1 100, .get 2 200, .lock 1]).clear.2.head_next = ItemPtr.head :=
  ⟨by decide, by decide, (lru_clear_all (cache_after 2 [.get 1 100, .get 2 200, .lock 1]) 3 (by decide)).1,
   (lru_clear_all (cache_after 2 [.get 1 100, .get 2 200, .lock 1]) 3 (by decide)).2.2.1, (lru_clear_all (cache_after 2 [.get 1 100, .get 2 200, .lock 1]) 3 (by decide)).2.2.2.1⟩

/-- C23 (ordering invariant of the search tree), at a failing input.  Slot
count 3, cache of 512 nodes, new file, the distinct keys 10, 20, 30, 40, 50,
60, 70, 80, 5, 7 inserted in this order.  The first child of the root is then
an inner node with the keys 10, 30 whose three children hold the leaves
(50, 60), (5, 7) and (30, 40): the keys below child 0 are not below
`keys[0]`, and `keys[0]` is not the smallest key below child 1.  At the root,
with the key 70, the keys 10, 20 are below child 1.  After the ascending
inserts 10, 20, ..., 100 the same two nodes are in order. -/
theorem ordering_evaluated :
    on_fresh 3 512 [10, 20, 30, 40, 50, 60, 70, 80, 5, 7] (inner_view 5 [0])
      = Res.ok ([10, 30], [[50, 60], [5, 7], [30, 40]]) ∧
    on_fresh 3 512 [10, 20, 30, 40, 50, 60, 70, 80, 5, 7] (inner_view 5 [])
      = Res.ok ([70], [[50, 60, 5, 7, 30, 40], [10, 20, 70, 80]]) ∧
    on_fresh 3 512 [10, 20, 30, 40, 50, 60, 70, 80, 90, 100] (inner_view 5 [0])
      = Res.ok ([30, 50], [[10, 20], [30, 40], [50, 60]]) ∧
    on_fresh 3 512 [10, 20, 30, 40, 50, 60, 70, 80, 90, 100] (inner_view 5 [])
      = Res.ok ([70], [[10, 20, 30, 40, 50, 60], [70, 80, 90, 100]]) := by
  decide!

/-- C24 (a leaf split partitions all S + 1 entries).  For every odd slot
count, every full resident leaf whose arrays have `slot_count` elements,
every new leaf whose arrays have `slot_count` elements, and every key,
`_Leaf::split` completes; with `pos` the lower-bound position of the key,
which is at most `slot_count`, the keys in use of the old leaf followed by
those of the new leaf are the old keys with the new key inserted at `pos`,
the values in use are the old values with one slot for the new key inserted
at `pos` (so every old key has its old value in the slot where it now is),
the two slot counts add up to `slot_count + 1`, and the key returned for the
parent is the first key of the new leaf. -/
theorem leaf_split_partitions (t : bp_tree) (this new_leaf key : Nat) (n d : Node)
    (hodd : t.slot_count % 2 = 1) (h1 : this ≠ 0) (h2 : new_leaf ≠ 0) (hne : this ≠ new_leaf)
    (hn : t.heap.lookup this = some n) (hd : t.heap.lookup new_leaf = some d)
    (hkn : n.kind = Kind.leaf) (hkd : d.kind = Kind.leaf)
    (hfull : n.used_slots = t.slot_count)
    (hnk : n.keys.length = t.slot_count) (hnd : n.data.length = t.slot_count)
    (hdk : d.keys.length = t.slot_count) (hdd : d.data.length = t.slot_count) :
    ∃ cur sep t' L R v,
      (Leaf_split this new_leaf key).run t = Except.ok ((cur, sep), t') ∧
      t'.heap.lookup this = some L ∧ t'.heap.lookup new_leaf = some R ∧
      lower_bound n.keys n.used_slots key ≤ t.slot_count ∧
      L.keys.take L.used_slots ++ R.keys.take R.used_slots
        = n.keys.take (lower_bound n.keys n.used_slots key)
            ++ key :: n.keys.drop (lower_bound n.keys n.used_slots key) ∧
      L.data.take L.used_slots ++ R.data.take R.used_slots
        = n.data.take (lower_bound n.keys n.used_slots key)
            ++ v :: n.data.drop (lower_bound n.keys n.used_slots key) ∧
      L.used_slots + R.used_slots = t.slot_count + 1 ∧
      R.keys.head? = some sep := by
  have hpos : lower_bound n.keys n.used_slots key ≤ t.slot_count := by
    have := lower_bound_le n.keys n.used_slots key
    omega
  obtain ⟨r, hr, hsu, hdu, _, _, hl3, _, hkeys, ⟨v, hvals⟩, _⟩ :=
    split_leaf_ok t.slot_count (lower_bound n.keys n.used_slots key) d.keys d.data n.keys n.data
      key hodd hpos hdk hdd hnk hnd
  obtain ⟨hm, _, _⟩ := odd_consts t.slot_count hodd
  obtain ⟨x, c, hxc⟩ : ∃ x c, r.dest_keys = x :: c := by
    cases hk : r.dest_keys with
    | nil =>
      rw [hk] at hl3
      simp only [List.length_nil] at hl3
      omega
    | cons x c => exact ⟨x, c, rfl⟩
  have hk : arr_get r.dest_keys 0 = Except.ok x := by
    rw [hxc]
    simp [arr_get]
  have hrun := Leaf_split_run t this new_leaf key n d r x h1 h2 hn hd hkn hkd (by omega)
    (by omega) hr hk
  refine ⟨_, x, _,
    { n with used_slots := r.src_used_slots, keys := r.src_keys, data := r.src_values },
    { d with used_slots := r.dest_used_slots, keys := r.dest_keys, data := r.dest_values },
    v, hrun, ?_, ?_, hpos, hkeys, hvals, ?_, ?_⟩
  · show (heap_store (heap_store t.heap this _) new_leaf _).lookup this = _
    rw [lookup_store_ne _ _ _ _ hne]
    exact lookup_store_same _ _ _ _ hn
  · show (heap_store (heap_store t.heap this _) new_leaf _).lookup new_leaf = _
    apply lookup_store_same _ _ d
    rw [lookup_store_ne _ _ _ _ (Ne.symm hne)]
    exact hd
  · show r.src_used_slots + r.dest_used_slots = _
    omega
  · show r.dest_keys.head? = _
    rw [hxc]
    rfl

/-- Witness of C24: slot count 3, the leaf with the keys 10, 20, 30, a new
leaf from `allocate_leaf`, and the key 25. -/
theorem leaf_split_partitions_witness :
    ∃ (cur : Nat × Nat) (sep : Nat) (t' : bp_tree) (L R : Node),
      (Leaf_split (with_new_leaf 3 512 [10, 20, 30]).2.root_ (with_new_leaf 3 512 [10, 20, 30]).1 25).run (with_new_leaf 3 512 [10, 20, 30]).2 = Except.ok ((cur, sep), t') ∧
      t'.heap.lookup (with_new_leaf 3 512 [10, 20, 30]).2.root_ = some L ∧
      t'.heap.lookup (with_new_leaf 3 512 [10, 20, 30]).1 = some R ∧
      L.keys.take L.used_slots ++ R.keys.take R.used_slots
        = (root_node (with_new_leaf 3 512 [10, 20, 30]).2).keys.take
            (lower_bound (root_node (with_new_leaf 3 512 [10, 20, 30]).2).keys (root_node (with_new_leaf 3 512 [10, 20, 30]).2).used_slots 25)
          ++ 25 :: (root_node (with_new_leaf 3 512 [10, 20, 30]).2).keys.drop
            (lower_bound (root_node (with_new_leaf 3 512 [10, 20, 30]).2).keys (root_node (with_new_leaf 3 512 [10, 20, 30]).2).used_slots 25) ∧
      L.used_slots + R.used_slots = (with_new_leaf 3 512 [10, 20, 30]).2.slot_count + 1 ∧
      R.keys.head? = some sep := by
  obtain ⟨cur, sep, t', L, R, v, h1, h2, h3, _, h5, _, h7, h8⟩ :=
    leaf_split_partitions (with_new_leaf 3 512 [10, 20, 30]).2 (with_new_leaf 3 512 [10, 20, 30]).2.root_ (with_new_leaf 3 512 [10, 20, 30]).1 25
      (root_node (with_new_leaf 3 512 [10, 20, 30]).2) (heap_node (with_new_leaf 3 512 [10, 20, 30]).2 (with_new_leaf 3 512 [10, 20, 30]).1)
      (by decide!) (by decide!) (by decide!) (by decide!) (by decide!) (by decide!) (by decide!)
      (by decide!) (by decide!) (by decide!) (by decide!) (by decide!) (by decide!)
  exact ⟨cur, sep, t', L, R, h1, h2, h3, h5, h7, h8⟩

/-- C25 (the inner split promotes the separator without loss), at failing
inputs.  Slot count 3, a full inner node with the keys 10, 20, 30 and the
children at the offsets 100, 200, 300, 400, a new child at offset 900.  With
the new key 5 (position 0) the old node keeps 5, 10, the key for the parent
is 30 and the new node holds 30: the key 20 is lost and 30 is both promoted
and kept; the children are 300, 100, 200 and 900, 400.  With the key 15
(position 1) the child 300 is in both nodes.  With the key 25 (position 2,
which is `slot_mid`) the key is written in front of the key array of the new
node.  Only the key 35 (position 3, the append position) comes out as
claimed.  With the default slot count 63, the keys 10, 20, ..., 630 and the
new key 5, the key 320 is lost and 330 is both promoted and kept. -/
theorem inner_split_evaluated :
    inner_split_report 3 [10, 20, 30] [100, 200, 300, 400] [] 5 900
      = Res.ok ([5, 10], 30, [30], [(300, false), (100, false), (200, false)],
                [(900, true), (400, false)]) ∧
    inner_split_report 3 [10, 20, 30] [100, 200, 300, 400] [] 15 900
      = Res.ok ([10, 15], 30, [30], [(100, false), (300, false), (200, false)],
                [(300, false), (900, true)]) ∧
    inner_split_report 3 [10, 20, 30] [100, 200, 300, 400] [] 25 900
      = Res.fault Fault.out_of_bounds ∧
    inner_split_report 3 [10, 20, 30] [100, 200, 300, 400] [] 35 900
      = Res.ok ([10, 20], 30, [35], [(100, false), (200, false), (300, false)],
                [(400, false), (900, true)]) ∧
    inner_split_report 63 ((List.range 63).map (fun i => 10 * (i + 1)))
        ((List.range 64).map (fun i => 100 * (i + 1))) [] 5 9900
      = Res.ok (5 :: (List.range 31).map (fun i => 10 * (i + 1)), 330,
                (List.range 31).map (fun i => 10 * (i + 33)),
                (3300, false) :: (List.range 32).map (fun i => (100 * (i + 1), false)),
                (9900, true) :: (List.range 31).map (fun i => (100 * (i + 34), false))) := by
  decide!

/-- C26 (residency tags follow the children), as the code has it.  The
function `bit_insert` is as claimed: for `pos` and `j` below 64, bit `j` of
the result is bit `j` of `bits` below `pos`, 1 at `pos`, and bit `j - 1` of
`bits` above; no bit from 64 on is set.  But `_Inner::insert` calls it with
the position of the key, one below the slot of the new child: with slot
count 3, an inner node with the key 10 whose child 100 is not resident and
whose child 200 is, the insert of the key 5 with a resident child 900 leaves
the bit of slot 0 set although the child 100 there is in offset form.  (With
the split child itself resident the bits come out right, as for the key 15
with slot count 5.)  `_Inner::split` with the key in the lower half gives the
new node the bits of the low slots of the old node: the child 400, resident
before, is in slot 1 of the new node with its bit clear.  In a tree: slot
count 3, cache of 2 nodes, new file, the keys 10, 20, ..., 160; afterwards
slot 1 of the root holds the offset 428 of a node that is not resident, with
its bit set, and `find( 100)` reads through that offset as a pointer. -/
theorem residency_tags_evaluated :
    (∀ bits pos j : Nat, pos < 64 → j < 64 →
      (bit_insert bits pos).testBit j
        = if j < pos then bits.testBit j else if j = pos then true else bits.testBit (j - 1)) ∧
    (∀ bits pos j : Nat, 64 ≤ j → (bit_insert bits pos).testBit j = false) ∧
    inner_insert_report 3 [10] [100, 200] [1] 5 900
      = Res.ok ([5, 10], [(100, true), (900, true), (200, true)]) ∧
    inner_insert_report 5 [10, 20, 30] [100, 200, 300, 400] [1] 15 900
      = Res.ok ([10, 15, 20, 30],
                [(100, false), (200, true), (900, true), (300, false), (400, false)]) ∧
    inner_split_report 3 [10, 20, 30] [100, 200, 300, 400] [3] 5 900
      = Res.ok ([5, 10], 30, [30], [(300, false), (100, false), (200, false)],
                [(900, true), (400, false)]) ∧
    on_fresh 3 2 [10, 20, 30, 40, 50, 60, 70, 80, 90, 100, 110, 120, 130, 140, 150, 160] root_slots
      = Res.ok [(170, false, false), (428, true, false), (743, true, true)] ∧
    on_fresh 3 2 [10, 20, 30, 40, 50, 60, 70, 80, 90, 100, 110, 120, 130, 140, 150, 160] (find_key 100) = Res.fault Fault.dangling := by
  refine ⟨?_, ?_, by decide!, by decide!, by decide!, by decide!, by decide!⟩
  · intro bits pos j hpos hj
    exact bit_insert_spec bits pos j hpos hj
  · intro bits pos j hj
    exact bit_insert_high bits pos j hj

/-- Witness of C26: the bitmap 5, position 1, bit 2; and bit 64. -/
theorem residency_tags_evaluated_witness :
    (1 < 64 ∧ 2 < 64 ∧ (bit_insert 5 1).testBit 2
        = if 2 < 1 then Nat.testBit 5 2 else if 2 = 1 then true else Nat.testBit 5 (2 - 1)) ∧
    (64 ≤ 64 ∧ (bit_insert 5 1).testBit 64 = false) :=
  ⟨⟨by decide, by decide, residency_tags_evaluated.1 5 1 2 (by decide) (by decide)⟩,
   ⟨by decide, residency_tags_evaluated.2.1 5 1 64 (by decide)⟩⟩

/-- C27 (occupancy after a split), as the code has it.  Whenever `split_`
completes, the new node has `slot_mid - additional_data` keys and the old
node `slot_count - slot_mid + extra`.  For every odd slot count from 3 on
both numbers are between `slot_count / 2` and `slot_count - 1`, for a leaf
(`additional_data` 0) and for an inner node (1), and the split of a full leaf
does complete.  For every even slot count the new inner node gets
`slot_count / 2 - 1` keys, one below `slot_count / 2`: with slot count 4, the
keys 10, 20, 30, 40 and the new key 45, the old node keeps 10, 20, the key
30 goes to the parent, the new node holds 45 alone, and the key 40 and the
child 400 are lost. -/
theorem split_occupancy :
    (∀ (S ad pos : Nat) (dk dv sk sv : List Nat) (key : Nat) (r : SplitResult),
      S % 2 = 1 → 3 ≤ S → ad ≤ 1 → split_ S ad pos dk dv sk sv key = Except.ok r →
      S / 2 ≤ r.dest_used_slots ∧ r.dest_used_slots ≤ S - 1 ∧
      S / 2 ≤ r.src_used_slots ∧ r.src_used_slots ≤ S - 1) ∧
    (∀ (S pos : Nat) (dk dv sk sv : List Nat) (key : Nat),
      S % 2 = 1 → pos ≤ S → dk.length = S → dv.length = S → sk.length = S → sv.length = S →
      ∃ r, split_ S 0 pos dk dv sk sv key = Except.ok r) ∧
    (∀ (S pos : Nat) (dk dv sk sv : List Nat) (key : Nat) (r : SplitResult),
      S % 2 = 0 → 2 ≤ S → split_ S 1 pos dk dv sk sv key = Except.ok r →
      r.dest_used_slots + 1 = S / 2 ∧ r.src_used_slots = S / 2) ∧
    inner_split_report 4 [10, 20, 30, 40] [100, 200, 300, 400, 500] [] 45 900
      = Res.ok ([10, 20], 30, [45], [(100, false), (200, false), (300, false)],
                [(500, false), (900, true)]) := by
  refine ⟨?_, ?_, ?_, by decide!⟩
  · intro S ad pos dk dv sk sv key r hodd h3 had h
    obtain ⟨h1, h2⟩ := split_used S ad pos dk dv sk sv key r h
    rw [h1, h2]
    unfold slot_mid extra
    omega
  · intro S pos dk dv sk sv key hodd hpos hdk hdv hsk hsv
    obtain ⟨r, hr, _⟩ := split_leaf_ok S pos dk dv sk sv key hodd hpos hdk hdv hsk hsv
    exact ⟨r, hr⟩
  · intro S pos dk dv sk sv key r heven h2 h
    obtain ⟨h1, h2⟩ := split_used S 1 pos dk dv sk sv key r h
    rw [h1, h2]
    unfold slot_mid extra
    omega

/-- Witness of C27: slot count 3, a leaf with the keys 10, 20, 30 and the new
key 15; slot count 4, an inner node with the keys 10, 20, 30, 40 and the new
key 45. -/
theorem split_occupancy_witness :
    (3 / 2 ≤ (SplitResult.mk 1 2 2 [20, 30, 0] [2, 3, 0] [10, 15, 30] [1, 2, 3] false 1).dest_used_slots ∧
     (SplitResult.mk 1 2 2 [20, 30, 0] [2, 3, 0] [10, 15, 30] [1, 2, 3] false 1).dest_used_slots ≤ 3 - 1 ∧
     3 / 2 ≤ (SplitResult.mk 1 2 2 [20, 30, 0] [2, 3, 0] [10, 15, 30] [1, 2, 3] false 1).src_used_slots ∧
     (SplitResult.mk 1 2 2 [20, 30, 0] [2, 3, 0] [10, 15, 30] [1, 2, 3] false 1).src_used_slots ≤ 3 - 1) ∧
    (∃ r, split_ 3 0 1 [0, 0, 0] [0, 0, 0] [10, 20, 30] [1, 2, 3] 15 = Except.ok r) ∧
    ((SplitResult.mk 1 1 2 [45, 0, 0, 0] [500, 0, 500, 0, 0] [10, 20, 30, 40]
        [100, 200, 300, 400, 500] true 1).dest_used_slots + 1 = 4 / 2 ∧
     (SplitResult.mk 1 1 2 [45, 0, 0, 0] [500, 0, 500, 0, 0] [10, 20, 30, 40]
        [100, 200, 300, 400, 500] true 1).src_used_slots = 4 / 2) :=
  ⟨split_occupancy.1 3 0 1 [0, 0, 0] [0, 0, 0] [10, 20, 30] [1, 2, 3] 15 _ (by decide) (by decide)
     (by decide) rfl,
   split_occupancy.2.1 3 1 [0, 0, 0] [0, 0, 0] [10, 20, 30] [1, 2, 3] 15 (by decide) (by decide)
     rfl rfl rfl rfl,
   split_occupancy.2.2.1 4 4 [0, 0, 0, 0] [0, 0, 0, 0, 0] [10, 20, 30, 40]
     [100, 200, 300, 400, 500] 45 _ (by decide) (by decide) rfl⟩

/-- C28 (root growth), as the code has it.  Slot count 3.  On a tree of
depth 2 reopened with a cache of 512 nodes, `insert( 100)` splits the root:
the new root is an inner node of level 2 at the offset 485 that `eof_` had
when it was allocated, with the one key 70 and the old root (offset 170) and
its new sibling (offset 428) as children, both in pointer form with the new
root as parent; `depth()` goes from 2 to 3 and the `root_mask` bit is set.
The same holds when the root is a leaf (keys 10, 20, 30, then 40).  When the
split stops below the root (`insert( 35)`), root, `depth()` and the bit stay.
With a cache of one node, on the tree filled with 10, 20, ..., 90,
`insert( 100)` does not come back: `cache_node( root_)` evicts the new
sibling, the only cell of the cache, and `cache_node( splitnode)` then reads
the deleted node. -/
theorem root_growth_evaluated :
    on_reopened 3 512 512 [10, 20, 30, 40, 50, 60, 70, 80, 90] (growth_report 100)
      = Res.ok ((2, 3), (170, 1), (361, 542),
                (2, 485, [70], [(170, true), (428, true)], [485, 485]), true) ∧
    on_reopened 3 512 512 [10, 20, 30] (growth_report 40)
      = Res.ok ((1, 2), (36, 0), (103, 227),
                (1, 170, [30], [(36, true), (103, true)], [170, 170]), true) ∧
    on_reopened 3 512 512 [10, 20, 30, 40, 50, 60, 70, 80, 90] (growth_report 35)
      = Res.ok ((2, 2), (170, 1), (361, 361),
                (1, 170, [30, 50, 70], [(36, false), (103, true), (227, false), (294, false)],
                 [0, 170, 0, 0]), false) ∧
    on_fresh 3 1 [10, 20, 30, 40, 50, 60, 70, 80, 90] (growth_report 100) = Res.fault Fault.dangling := by
  refine ⟨by decide!, by decide!, by decide!, by decide!⟩

/-- C29 (relinking of the leaf chain on a split), as the code has it.  With
every node resident the links are as claimed: slot count 5, leaves
(10, 20, 30), (40, 41, 42, 50, 60), (70, 80, 90) at the offsets 36, 135, 323;
`insert( 43)` splits the middle leaf into (40, 41, 42) and the new leaf
(43, 50, 60) at 422, whose `prev` is 135 and `next` 323, while `next` of 135
and `prev` of 323 are 422; head 36 and tail 323 stay, `prev` of the head and
`next` of the tail stay 0.  When the tail splits (slot count 3, keys
10, ..., 70, then 80) the new leaf becomes the tail.  With a cache of one
node, on the reopened tree of the keys 10, ..., 90, after `insert( 31)` the
leaf (30, 31, 40) is the one cell of the cache and its next leaf is not
resident; `insert( 32)` splits it, `get_sibling` loads the next leaf into the
cache, which evicts and deletes the leaf being split, and `split` then runs
on the deleted leaf. -/
theorem leaf_relink_evaluated :
    on_fresh 5 512 [10, 20, 30, 40, 50, 60, 70, 80, 90] (chain_after [41, 42])
      = Res.ok ((36, 323), [(36, [10, 20, 30], 135, 0), (135, [40, 41, 42, 50, 60], 323, 36),
                            (323, [70, 80, 90], 0, 135)]) ∧
    on_fresh 5 512 [10, 20, 30, 40, 50, 60, 70, 80, 90] (chain_after [41, 42, 43])
      = Res.ok ((36, 323), [(36, [10, 20, 30], 135, 0), (135, [40, 41, 42], 422, 36),
                            (323, [70, 80, 90], 0, 422), (422, [43, 50, 60], 323, 135)]) ∧
    on_fresh 3 512 [10, 20, 30, 40, 50, 60, 70] (chain_after [80])
      = Res.ok ((36, 294), [(36, [10, 20], 103, 0), (103, [30, 40], 227, 36),
                            (227, [50, 60], 294, 103), (294, [70, 80], 0, 227)]) ∧
    on_reopened 3 512 1 [10, 20, 30, 40, 50, 60, 70, 80, 90] (chain_after [31])
      = Res.ok ((36, 294), [(36, [10, 20], 103, 0), (103, [30, 31, 40], 227, 36),
                            (294, [70, 80, 90], 0, 227)]) ∧
    on_reopened 3 512 1 [10, 20, 30, 40, 50, 60, 70, 80, 90] (chain_after [31, 32]) = Res.fault Fault.dangling := by
  decide!

/-- C30 (balanced levels and terminating descent), as the code has it.  Slot
count 3, keys 10, 20, ..., 100, depth 3.  With every node resident each child
of the two inner nodes of level 1 has level 0, both children of the root
(level 2) have level 1, and the descent of `find( 50)` meets the levels 2, 1,
0, that is `depth() - 1` inner nodes and then a leaf; the same on the tree
reopened with a cache of 512 nodes.  On the tree reopened with a cache of one
node the descent does not reach a leaf: `get_child` on the node of level 1
loads the leaf into the only cell of the cache, which evicts and deletes
that node, and `link` then writes into the deleted node. -/
theorem descent_evaluated :
    on_fresh 3 512 [10, 20, 30, 40, 50, 60, 70, 80, 90, 100] level_rows
      = Res.ok [(170, 1, [0, 0, 0]), (428, 1, [0, 0]), (485, 2, [1, 1])] ∧
    on_fresh 3 512 [10, 20, 30, 40, 50, 60, 70, 80, 90, 100] (descent_report 50) = Res.ok (3, [2, 1, 0], some 50) ∧
    on_reopened 3 512 512 [10, 20, 30, 40, 50, 60, 70, 80, 90, 100] (descent_report 50) = Res.ok (3, [2, 1, 0], some 50) ∧
    on_reopened 3 512 1 [10, 20, 30, 40, 50, 60, 70, 80, 90, 100] (descent_report 50) = Res.fault Fault.dangling := by
  decide!

open bp_tree_default_stream

/-! ### Records of nodes: what a save leaves in the file and what a load reads back -/

/-- Bytes of an array of scalars: `w` bytes for each. -/
theorem encode_all_length (w : Nat) (l : List Nat) : (encode_all w l).length = w * l.length := by
  induction l with
  | nil => rfl
  | cons v vs ih =>
    simp only [encode_all, List.length_append, encode_length, ih, List.length_cons]
    rw [Nat.mul_succ, Nat.add_comm]

namespace bp_tree_default_stream

/-- A relative seek moves the position only. -/
theorem at_skip {s : bp_tree_default_stream} {c : Bool} {A : List Nat} {g : Nat} (h : At s c A g)
    (k : Nat) : At (s.skip k) c A (g + k) := by
  obtain ⟨hf, hc, ⟨post, hb⟩, hp⟩ := h
  refine ⟨?_, ?_, ⟨post, ?_⟩, ?_⟩ <;> simp [skip, hf, hb, hp, hc, Nat.add_assoc]

/-- A write puts its bytes at the position; the `g` bytes between what is
known of the file and the position are those the file had there, or zeros. -/
theorem at_write {s : bp_tree_default_stream} {c : Bool} {A : List Nat} {g : Nat}
    (h : At s c A g) (d : List Nat) :
    ∃ G, G.length = g ∧ At (s.write d) c (A ++ G ++ d) 0 := by
  obtain ⟨hf, hc, ⟨post, hb⟩, hp⟩ := h
  refine ⟨(post ++ List.replicate (s.pos - s.bytes.length) 0).take g, ?_, ?_, ?_,
    ⟨s.bytes.drop (s.pos + d.length), ?_⟩, ?_⟩
  · rw [List.length_take, List.length_append, List.length_replicate, hb, hp, List.length_append]
    omega
  · simp [write, hf]
  · simp [write, hf, hc]
  · simp only [write, hf, Bool.false_eq_true, if_false]
    rw [hb, hp, List.append_assoc A post, List.take_append]
  · simp only [write, hf, Bool.false_eq_true, if_false, List.length_append, List.length_take,
      List.length_replicate, hb, hp]
    omega

/-- The padding step on a stream in mode `c`. -/
theorem pad_slots_run (s : bp_tree_default_stream) (w used count : Nat) (h : used ≤ count) :
    s.pad_slots w used count = some (s.skip (pad_bytes s.compact_ w used count)) := by
  unfold pad_slots pad_bytes
  cases s with
  | mk b p f cc => cases cc <;> cases f <;> simp [skip, h]

/-- The used slots of an array go to the file and the position moves over
the padding. -/
theorem at_write_array {s : bp_tree_default_stream} {c : Bool} {A : List Nat} {g : Nat}
    (h : At s c A g) (w used count : Nat) (a : List Nat) (hu : used ≤ a.length)
    (hc : used ≤ count) :
    ∃ G s1 s', G.length = g ∧ s.write_array w used a = some s1
      ∧ s1.pad_slots w used count = some s'
      ∧ At s' c (A ++ G ++ encode_all w (a.take used)) (pad_bytes c w used count) := by
  obtain ⟨G, hG, h1⟩ := at_write h (encode_all w (a.take used))
  refine ⟨G, s.write (encode_all w (a.take used)),
    (s.write (encode_all w (a.take used))).skip (pad_bytes c w used count), hG, ?_, ?_, ?_⟩
  · simp only [write_array, hu, if_true]
  · rw [pad_slots_run _ _ _ _ hc, h1.mode]
  · have := at_skip h1 (pad_bytes c w used count)
    rw [Nat.zero_add] at this
    exact this

/-- Method `write_keys` on a stream that has not failed. -/
theorem at_write_keys {s : bp_tree_default_stream} {c : Bool} {A : List Nat} {g : Nat}
    (h : At s c A g) (used count : Nat) (a : List Nat) (hu : used ≤ a.length)
    (hc : used ≤ count) :
    ∃ G s', G.length = g ∧ s.write_keys a used count = some s'
      ∧ At s' c (A ++ G ++ encode_all key_storage_size (a.take used))
          (pad_bytes c key_storage_size used count) := by
  obtain ⟨G, s1, s', hG, h1, h2, h3⟩ := at_write_array h key_storage_size used count a hu hc
  refine ⟨G, s', hG, ?_, h3⟩
  unfold write_keys
  rw [h1]
  exact h2

/-- Method `write_data` on a stream that has not failed. -/
theorem at_write_data {s : bp_tree_default_stream} {c : Bool} {A : List Nat} {g : Nat}
    (h : At s c A g) (used count : Nat) (a : List Nat) (hu : used ≤ a.length)
    (hc : used ≤ count) :
    ∃ G s', G.length = g ∧ s.write_data a used count = some s'
      ∧ At s' c (A ++ G ++ encode_all value_storage_size (a.take used))
          (pad_bytes c value_storage_size used count) := by
  obtain ⟨G, s1, s', hG, h1, h2, h3⟩ := at_write_array h value_storage_size used count a hu hc
  refine ⟨G, s', hG, ?_, h3⟩
  unfold write_data
  rw [h1]
  exact h2

end bp_tree_default_stream

/-- Method `_Node::raw_save_to` on a stream that has not failed: the count
and the used keys go to the file. -/
theorem Node_raw_save_to_run {S : Nat} {n : Node} {out : bp_tree_default_stream} {c : Bool}
    {A : List Nat} {g : Nat} (h : At out c A g) (hk : n.used_slots ≤ n.keys.length)
    (hS : n.used_slots ≤ S) :
    ∃ G s', G.length = g ∧ Node_raw_save_to S n out = .ok (s', true)
      ∧ At s' c (A ++ G ++ encode slotn_size n.used_slots
                  ++ encode_all key_storage_size (n.keys.take n.used_slots))
               (pad_bytes c key_storage_size n.used_slots S) := by
  obtain ⟨G, hG, h1⟩ := at_write h (encode slotn_size n.used_slots)
  obtain ⟨G2, s', hG2, hw, h2⟩ := at_write_keys h1 n.used_slots S n.keys hk hS
  have hnil : G2 = [] := List.length_eq_zero.mp hG2
  subst hnil
  rw [List.append_nil] at h2
  refine ⟨G, s', hG, ?_, h2⟩
  unfold Node_raw_save_to write_scalar
  rw [hw]
  simp [ok, h2.good]

/-- Method `save_sibling` of a leaf whose sibling slots are marked changed. -/
theorem save_sibling_run {h : Heap} {n : Node} {out : bp_tree_default_stream} {index off : Nat}
    (hi : index < 2) (hsd : n.siblings_changes_bmp = bitmap_ones)
    (ho : sibling_offset h n index = .ok off) :
    save_sibling h n out index = .ok (out.write_scalar offset_size off) := by
  have hbit : bitmap_ones &&& bmp_shl 1 index ≠ 0 := by
    interval_cases index <;> decide
  unfold save_sibling
  unfold sibling_offset at ho
  simp only [hsd, hbit, ne_eq, not_false_eq_true, if_true]
  cases hr : arr_get n.siblings index with
  | error e => rw [hr] at ho; cases ho
  | ok r =>
    rw [hr] at ho
    simp only [bind, Except.bind] at ho ⊢
    split at ho
    · rename_i hp
      simp only [hp, ne_eq, not_false_eq_true, if_true]
      cases hm : heap_deref h r with
      | error e => rw [hm] at ho; cases ho
      | ok m =>
        rw [hm] at ho
        simp only [pure, Except.pure] at ho ⊢
        injection ho with ho
        rw [ho]
    · rename_i hp
      simp only [hp, if_false]
      simp only [pure, Except.pure] at ho ⊢
      injection ho with ho
      rw [ho]

/-- Method `_Leaf::raw_save_to` of a leaf whose sibling slots are marked
changed, on a stream that has not failed: the record that goes to the file. -/
theorem Leaf_raw_save_to_run {S : Nat} {h : Heap} {n : Node} {out : bp_tree_default_stream}
    {c : Bool} {A : List Nat} {g next prev : Nat} (hat : At out c A g)
    (hk : n.used_slots ≤ n.keys.length) (hd : n.used_slots ≤ n.data.length)
    (hS : n.used_slots ≤ S) (hsd : n.siblings_changes_bmp = bitmap_ones)
    (hnext : sibling_offset h n sibling_next = .ok next)
    (hprev : sibling_offset h n sibling_prev = .ok prev) :
    ∃ G G1 s', G.length = g ∧ G1.length = pad_bytes c key_storage_size n.used_slots S
      ∧ Leaf_raw_save_to S h n out = .ok (n.clear_change_flags, s', true)
      ∧ At s' c (A ++ G ++ leaf_marker ++ encode slotn_size n.used_slots
                  ++ encode_all key_storage_size (n.keys.take n.used_slots) ++ G1
                  ++ encode offset_size next ++ encode offset_size prev
                  ++ encode_all value_storage_size (n.data.take n.used_slots))
               (pad_bytes c value_storage_size n.used_slots S) := by
  obtain ⟨G, hG, h1⟩ := at_write hat leaf_marker
  obtain ⟨G0, s2, hG0, hw2, h2⟩ := Node_raw_save_to_run (S := S) (n := n) h1 hk hS
  have hnil : G0 = [] := List.length_eq_zero.mp hG0
  subst hnil
  rw [List.append_nil] at h2
  obtain ⟨G1, hG1, h3⟩ := at_write h2 (encode offset_size next)
  obtain ⟨G2, hG2, h4⟩ := at_write h3 (encode offset_size prev)
  have hnil : G2 = [] := List.length_eq_zero.mp hG2
  subst hnil
  rw [List.append_nil] at h4
  obtain ⟨G3, s5, hG3, hw5, h5⟩ :=
    at_write_data h4 n.used_slots S n.data hd hS
  have hnil : G3 = [] := List.length_eq_zero.mp hG3
  subst hnil
  rw [List.append_nil] at h5
  refine ⟨G, G1, s5, hG, hG1, ?_, h5⟩
  unfold Leaf_raw_save_to
  rw [hw2]
  simp only [bind, Except.bind]
  rw [save_sibling_run (by decide) hsd hnext]
  simp only []
  rw [save_sibling_run (by decide) hsd hprev]
  simp only []
  rw [show (s2.write_scalar offset_size next) = s2.write (encode offset_size next) from rfl,
    show ((s2.write (encode offset_size next)).write_scalar offset_size prev)
      = (s2.write (encode offset_size next)).write (encode offset_size prev) from rfl, hw5]
  simp [ok, h5.good, pure, Except.pure]

/-- The flag of the next slot in the loops over the child slots. -/
theorem bmp_shl_next (i : Nat) : bmp_shl (bmp_shl 1 i) 1 = bmp_shl 1 (i + 1) := by
  unfold bmp_shl bitmap_mod
  simp only [Nat.shiftLeft_eq, Nat.one_mul, Nat.pow_succ, pow_one]
  rw [Nat.mul_mod, Nat.mod_mod, ← Nat.mul_mod]

/-- Every bit below 64 is set in a bitmap of ones. -/
theorem ones_bit (i : Nat) (hi : i < 64) : bitmap_ones &&& bmp_shl 1 i ≠ 0 := by
  intro h0
  have h1 := congrArg (fun x => x.testBit i) h0
  have hlt : 2 ^ i < 2 ^ 64 := Nat.pow_lt_pow_right (by decide) hi
  simp only [bitmap_ones, bmp_shl, bitmap_mod, Nat.shiftLeft_eq, Nat.one_mul,
    Nat.mod_eq_of_lt hlt, Nat.testBit_and, Nat.testBit_two_pow_sub_one, hi, decide_True,
    Nat.testBit_two_pow_self, Bool.and_self, Nat.zero_testBit] at h1
  exact absurd h1 (by decide)

/-- The loop of `_Inner::raw_save_to` over the child slots of a node with
every change mark set: from slot `index` on, the offset of each child goes to
the file. -/
theorem save_children_loop_run {h : Heap} {n : Node} {c : Bool} (offs : List Nat)
    (hkc : n.key_changes_bmp = bitmap_ones) (hlen : offs.length = n.used_slots + 1)
    (hu : n.used_slots ≤ 63)
    (hoffs : ∀ i (hi : i < offs.length), child_offset h n (bmp_shl 1 i) i = .ok (offs.get ⟨i, hi⟩)) :
    ∀ (fuel index : Nat) (out : bp_tree_default_stream) (A : List Nat) (g : Nat),
      index ≤ n.used_slots → n.used_slots < index + fuel → At out c A g →
      ∃ G s', G.length = g ∧ save_children_loop h n fuel index (bmp_shl 1 index) out = .ok s'
        ∧ At s' c (A ++ G ++ encode_all offset_size (offs.drop index)) 0 := by
  intro fuel
  induction fuel with
  | zero =>
    intro index out A g hi hfuel _
    omega
  | succ fuel ih =>
    intro index out A g hi hfuel hat
    have hil : index < offs.length := by omega
    obtain ⟨G, hG, h1⟩ := at_write hat (encode offset_size (offs.get ⟨index, hil⟩))
    have hdrop : offs.drop index = offs.get ⟨index, hil⟩ :: offs.drop (index + 1) :=
      List.drop_eq_getElem_cons hil
    have hmod : (index + 1) % 256 = index + 1 := Nat.mod_eq_of_lt (by omega)
    unfold save_children_loop
    rw [hkc, if_pos (ones_bit index (by omega)), hoffs index hil]
    simp only [bind, Except.bind, pure, Except.pure, write_scalar, hmod, bmp_shl_next, ok,
      h1.good, Bool.not_false, and_true]
    by_cases hlast : index + 1 < n.used_slots + 1
    · rw [if_pos hlast]
      obtain ⟨G2, s', hG2, hrun, hat2⟩ := ih (index + 1) _ _ 0 (by omega) (by omega) h1
      have hnil : G2 = [] := List.length_eq_zero.mp hG2
      subst hnil
      refine ⟨G, s', hG, hrun, ?_⟩
      rw [hdrop]
      simpa [encode_all, List.append_assoc] using hat2
    · rw [if_neg hlast]
      refine ⟨G, _, hG, rfl, ?_⟩
      have hend : offs.drop (index + 1) = [] := List.drop_of_length_le (by omega)
      rw [hdrop, hend]
      simpa [encode_all] using h1

/-- Method `_Inner::raw_save_to` of a node with every change mark set, on a
stream that has not failed: the record that goes to the file, and the
position afterwards, `offset_size * (S - used_slots)` bytes behind the last
child offset in either mode. -/
theorem Inner_raw_save_to_run {S : Nat} {h : Heap} {n : Node} {out : bp_tree_default_stream}
    {c : Bool} {A : List Nat} {g : Nat} (offs : List Nat) (hat : At out c A g)
    (hk : n.used_slots ≤ n.keys.length) (hS : n.used_slots ≤ S) (hu : n.used_slots ≤ 63)
    (hkc : n.key_changes_bmp = bitmap_ones) (hlen : offs.length = n.used_slots + 1)
    (hoffs : ∀ i (hi : i < offs.length), child_offset h n (bmp_shl 1 i) i = .ok (offs.get ⟨i, hi⟩)) :
    ∃ G G1 s', G.length = g ∧ G1.length = pad_bytes c key_storage_size n.used_slots S
      ∧ Inner_raw_save_to S h n out = .ok ({ n with key_changes_bmp := 0 }, s', true)
      ∧ At s' c (A ++ G ++ encode slotn_size n.used_slots
                  ++ encode_all key_storage_size (n.keys.take n.used_slots) ++ G1
                  ++ encode_all offset_size offs)
               (offset_size * (S - n.used_slots)) := by
  obtain ⟨G, s1, hG, hw1, h1⟩ := Node_raw_save_to_run (S := S) (n := n) hat hk hS
  obtain ⟨G1, s2, hG1, hw2, h2⟩ :=
    save_children_loop_run (h := h) (n := n) offs hkc hlen hu hoffs (n.used_slots + 2) 0 s1 _ _
      (Nat.zero_le _) (by omega) h1
  have h3 := at_skip h2 (offset_size * (S - n.used_slots))
  rw [Nat.zero_add] at h3
  refine ⟨G, G1, _, hG, hG1, ?_, h3⟩
  unfold Inner_raw_save_to
  rw [hw1]
  simp only [bind, Except.bind, if_true]
  rw [show (1 : Nat) = bmp_shl 1 0 from rfl, hw2]
  simp only [ok, h3.good, Bool.not_false, if_true]
  rfl

theorem info_assign_mem {junk : Nat} {m : NodeInfoMap} {k size : Nat} {e : Nat × Nat × Nat}
    (h : e ∈ info_assign junk m k size) : e = (k, size, junk) ∨ e ∈ m := by
  induction m with
  | nil =>
    simp only [info_assign, List.mem_singleton] at h
    exact Or.inl h
  | cons x m ih =>
    unfold info_assign at h
    split_ifs at h with h1 h2
    · rcases List.mem_cons.mp h with h | h
      · exact Or.inl h
      · exact Or.inr h
    · rcases List.mem_cons.mp h with h | h
      · exact Or.inl h
      · exact Or.inr (List.mem_cons_of_mem _ h)
    · rcases List.mem_cons.mp h with h | h
      · exact Or.inr (h ▸ List.mem_cons_self _ _)
      · rcases ih h with h | h
        · exact Or.inl h
        · exact Or.inr (List.mem_cons_of_mem _ h)

/-- Assignment `map[ offset] = size` keeps the map in order. -/
theorem info_assign_ordered (junk : Nat) {m : NodeInfoMap} (k size : Nat) (h : map_ordered m)
    (hs : 9 ≤ size) : map_ordered (info_assign junk m k size) := by
  refine ⟨?_, ?_⟩
  · have ha := h.ascending
    clear h
    induction m with
    | nil => simp [info_assign]
    | cons x m ih =>
      rw [List.pairwise_cons] at ha
      unfold info_assign
      split_ifs with h1 h2
      · rw [List.pairwise_cons]
        refine ⟨?_, List.pairwise_cons.mpr ha⟩
        intro b hb
        rcases List.mem_cons.mp hb with hb | hb
        · rw [hb]; exact h1
        · exact Nat.lt_trans h1 (ha.1 b hb)
      · rw [List.pairwise_cons]
        refine ⟨?_, ha.2⟩
        intro b hb
        show k < b.1
        rw [h2]
        exact ha.1 b hb
      · rw [List.pairwise_cons]
        refine ⟨?_, ih ha.2⟩
        intro b hb
        rcases info_assign_mem hb with hb | hb
        · rw [hb]
          show x.1 < k
          omega
        · exact ha.1 b hb
  · intro e he
    rcases info_assign_mem he with he | he
    · rw [he]; exact hs
    · exact h.sized e he

/-- The empty map is in order. -/
theorem map_ordered_nil : map_ordered [] := ⟨List.Pairwise.nil, fun _ h => by cases h⟩

/-- Size of the record of an inner node, as `actual_storage_size` has it. -/
theorem inner_actual_ge (S : Nat) (n : Node) : 9 ≤ n.inner_actual_storage_size S := by
  unfold Node.inner_actual_storage_size Inner_storage_size Node_storage_size slotn_size
    key_storage_size offset_size
  have : (S - n.used_slots) * (8 + 8) ≤ S * 16 := by
    have := Nat.sub_le S n.used_slots
    nlinarith
  omega

/-- Size of the record of a leaf, as `actual_storage_size` has it. -/
theorem leaf_actual_ge (S : Nat) (n : Node) : 9 ≤ n.leaf_actual_storage_size S := by
  unfold Node.leaf_actual_storage_size Leaf_storage_size Node_storage_size slotn_size
    key_storage_size offset_size value_storage_size leaf_marker_size
  have : (S - n.used_slots) * (8 + 8) ≤ S * 16 := by
    have := Nat.sub_le S n.used_slots
    nlinarith
  omega

/-- The loops of `compact_analyse_descend` keep what their body keeps. -/
theorem analyse_loop_inv {P : NodeInfoMap → Prop} {body : NodeInfoMap → Nat → M NodeInfoMap}
    {node : Nat}
    (hbody : ∀ m child s r s', P m → body m child s = Except.ok (r, s') → P r) :
    ∀ (fuel i : Nat) (map : NodeInfoMap) (s : bp_tree) (r : NodeInfoMap) (s' : bp_tree),
      P map → analyse_loop body node fuel i map s = Except.ok (r, s') → P r := by
  intro fuel
  induction fuel with
  | zero =>
    intro i map s r s' _ h
    cases h
  | succ fuel ih =>
    intro i map s r s' hP h
    unfold analyse_loop at h
    obtain ⟨n, s1, _, h⟩ := bind_ok h
    split at h
    · obtain ⟨child, s2, _, h⟩ := bind_ok h
      obtain ⟨map1, s3, hb, h⟩ := bind_ok h
      exact ih _ _ _ _ _ (hbody _ _ _ _ _ hP hb) h
    · cases h
      exact hP

/-- Method `compact_analyse_descend` keeps the map in order. -/
theorem compact_analyse_descend_ordered :
    ∀ (fuel : Nat) (map : NodeInfoMap) (node : Nat) (s : bp_tree) (r : NodeInfoMap) (s' : bp_tree),
      map_ordered map → compact_analyse_descend fuel map node s = Except.ok (r, s') →
      map_ordered r := by
  intro fuel
  induction fuel with
  | zero =>
    intro map node s r s' _ h
    cases h
  | succ fuel ih =>
    intro map node s r s' hP h
    unfold compact_analyse_descend at h
    obtain ⟨t, s1, hget, h⟩ := bind_ok h
    obtain ⟨n, s2, _, h⟩ := bind_ok h
    have hP1 := info_assign_ordered t.junk n.offset
      (n.inner_actual_storage_size t.slot_count) hP (inner_actual_ge _ _)
    split at h
    · exact analyse_loop_inv (fun m child s r s' hm hb => ih m child s r s' hm hb) _ _ _ _ _ _ hP1 h
    · refine analyse_loop_inv ?_ _ _ _ _ _ _ hP1 h
      intro m child s r s' hm hb
      obtain ⟨leaf, s3, _, hb⟩ := bind_ok hb
      cases hb
      exact info_assign_ordered _ _ _ hm (leaf_actual_ge _ _)

/-- Records that do not overlap end at `eof` or before. -/
theorem old_layout_le : ∀ (m : NodeInfoMap) (lo eof : Nat), old_layout m lo eof → lo ≤ eof := by
  intro m
  induction m with
  | nil => intro lo eof h; exact h
  | cons e m ih =>
    intro lo eof h
    have := ih _ _ h.2
    have := h.1
    omega

/-- The loop of `compact_to` keeps the entries and their sizes, in order. -/
theorem assign_keeps : ∀ (m : NodeInfoMap) (o : Nat),
    (assign_new_offsets m o).map (fun e => (e.1, e.2.1)) = m.map (fun e => (e.1, e.2.1)) := by
  intro m
  induction m with
  | nil => intro o; rfl
  | cons e m ih =>
    intro o
    simp only [assign_new_offsets, List.map_cons, ih]

/-- The first entry gets the start offset. -/
theorem assign_first (m : NodeInfoMap) (o : Nat) :
    (assign_new_offsets m o).head?.map (fun e => e.2.2) = m.head?.map (fun _ => o) := by
  cases m with
  | nil => rfl
  | cons e m => rfl

/-- The new offsets over old records that do not overlap: laid end to end
from the start offset, none behind the old offset of its node, no two records
overlapping, ending at `eof` or before. -/
theorem assign_plan : ∀ (m : NodeInfoMap) (o lo eof : Nat),
    old_layout m lo eof → o ≤ lo → eof < 2 ^ 64 →
    end_to_end (assign_new_offsets m o) o
      ∧ (∀ e ∈ assign_new_offsets m o, o ≤ e.2.2 ∧ e.2.2 ≤ e.1)
      ∧ (assign_new_offsets m o).Pairwise (fun a b => a.2.2 + a.2.1 ≤ b.2.2)
      ∧ plan_end (assign_new_offsets m o) o ≤ eof := by
  intro m
  induction m with
  | nil =>
    intro o lo eof h ho _
    refine ⟨?_, ?_, ?_, ?_⟩
    · exact trivial
    · intro e he
      cases he
    · exact List.Pairwise.nil
    · exact Nat.le_trans ho h
  | cons e m ih =>
    intro o lo eof h ho heof
    have hle := old_layout_le _ _ _ h.2
    have h1 := h.1
    have hmod : (o + e.2.1) % 2 ^ 64 = o + e.2.1 := Nat.mod_eq_of_lt (by omega)
    obtain ⟨i1, i2, i3, i4⟩ := ih (o + e.2.1) (e.1 + e.2.1) eof h.2 (by omega) heof
    simp only [assign_new_offsets, hmod]
    refine ⟨⟨rfl, i1⟩, ?_, ?_, i4⟩
    · intro x hx
      rcases List.mem_cons.mp hx with hx | hx
      · rw [hx]
        exact ⟨Nat.le_refl _, by show o ≤ e.1; omega⟩
      · have := i2 x hx
        exact ⟨by omega, this.2⟩
    · rw [List.pairwise_cons]
      refine ⟨?_, i3⟩
      intro x hx
      exact (i2 x hx).1

/-- A completed run seen through `toRes` and `run'`. -/
theorem run_of_toRes {α : Type} {m : M α} {t : bp_tree} {a : α}
    (h : toRes (m.run' t) = Res.ok a) : ∃ t', m t = Except.ok (a, t') := by
  have h1 := toRes_ok h
  cases hm : m t with
  | error e =>
    have h2 : m.run' t = Except.error e := by
      simp [StateT.run', hm, Functor.map, Except.map]
    rw [h2] at h1
    cases h1
  | ok r =>
    have h2 : m.run' t = Except.ok r.1 := by
      simp [StateT.run', hm, Functor.map, Except.map]
    rw [h2] at h1
    injection h1 with h1
    exact ⟨r.2, by rw [← h1]⟩

/-- The sizes in the plan are those of the map. -/
theorem assign_sized : ∀ (m : NodeInfoMap) (o : Nat), (∀ e ∈ m, 9 ≤ e.2.1) →
    ∀ e ∈ assign_new_offsets m o, 9 ≤ e.2.1 := by
  intro m
  induction m with
  | nil => intro o _ e he; cases he
  | cons x m ih =>
    intro o h e he
    simp only [assign_new_offsets] at he
    rcases List.mem_cons.mp he with he | he
    · rw [he]
      exact h x (List.mem_cons_self _ _)
    · exact ih _ (fun y hy => h y (List.mem_cons_of_mem _ hy)) e he

/-- The old offsets in the plan are in the order of the map. -/
theorem assign_ascending (m : NodeInfoMap) (o : Nat) (h : m.Pairwise (fun a b => a.1 < b.1)) :
    (assign_new_offsets m o).Pairwise (fun a b => a.1 < b.1) := by
  have h1 : (m.map (fun e => (e.1, e.2.1))).Pairwise (fun x y => x.1 < y.1) :=
    (List.pairwise_map (f := fun e : Nat × Nat × Nat => (e.1, e.2.1))
      (R := fun x y => x.1 < y.1)).mpr h
  rw [← assign_keeps m o] at h1
  exact (List.pairwise_map (f := fun e : Nat × Nat × Nat => (e.1, e.2.1))
    (R := fun x y => x.1 < y.1)).mp h1

/-! ### Search, change marks and links: what single calls do -/

/-- Run of `deref_inner` on a resident inner node. -/
theorem deref_inner_run (t : bp_tree) (p : Nat) (n : Node) (hp : p ≠ 0)
    (hn : t.heap.lookup p = some n) (hk : n.kind = Kind.inner) :
    deref_inner p t = Except.ok (n, t) := by
  unfold deref_inner
  rw [bind_run _ _ _ _ _ (deref_run t p n hp hn)]
  simp only [hk, if_true]
  rfl

/-- Method `get_child_by_key` on a resident inner node with keys in use:
the key slot at the lower-bound position is read and compared whether or not
the position is below `used_slots`, and a position behind the key array is
read all the same. -/
theorem get_child_by_key_run (t : bp_tree) (p : Nat) (n : Node) (key : Nat)
    (hp : p ≠ 0) (hn : t.heap.lookup p = some n) (hk : n.kind = Kind.inner)
    (hused : n.used_slots ≠ 0) (hlen : n.used_slots ≤ n.keys.length) :
    lower_bound n.keys n.used_slots key ≤ n.used_slots
    ∧ (∀ k, n.keys[lower_bound n.keys n.used_slots key]? = some k →
        get_child_by_key p key t
          = get_child p ((lower_bound n.keys n.used_slots key + (if k = key then 1 else 0)) % 256) t)
    ∧ (lower_bound n.keys n.used_slots key = n.keys.length →
        get_child_by_key p key t = Except.error Fault.out_of_bounds) := by
  have hfl : n.find_lower key = Except.ok (lower_bound n.keys n.used_slots key) := by
    simp only [Node.find_lower, hused, if_false, hlen, if_true]
  refine ⟨lower_bound_le _ _ _, ?_, ?_⟩
  · intro k hk1
    unfold get_child_by_key
    rw [bind_run _ _ _ _ _ (deref_inner_run t p n hp hn hk), hfl,
      bind_run _ _ _ _ _ (lift_ok_run _ t)]
    have hget : arr_get n.keys (lower_bound n.keys n.used_slots key) = Except.ok k := by
      simp only [arr_get, hk1]
    rw [hget, bind_run _ _ _ _ _ (lift_ok_run _ t)]
  · intro hend
    unfold get_child_by_key
    rw [bind_run _ _ _ _ _ (deref_inner_run t p n hp hn hk), hfl,
      bind_run _ _ _ _ _ (lift_ok_run _ t)]
    have hget : arr_get n.keys (lower_bound n.keys n.used_slots key)
        = Except.error Fault.out_of_bounds := by
      have : n.keys[lower_bound n.keys n.used_slots key]? = none := by
        rw [hend]
        exact List.getElem?_eq_none (Nat.le_refl _)
      simp only [arr_get, this]
    rw [hget]
    rfl

/-- Method `_Leaf::insert( key, pos)` leaves the three change bitmaps of the
leaf as they were, and with them `is_changed()`. -/
theorem Leaf_insert_marks (t t' : bp_tree) (p key pos : Nat) (n : Node)
    (hn : t.heap.lookup p = some n)
    (h : Leaf_insert p key pos t = Except.ok (PUnit.unit, t')) :
    ∃ n', t'.heap.lookup p = some n' ∧ n'.key_changes_bmp = n.key_changes_bmp
      ∧ n'.data_changes_bmp = n.data_changes_bmp
      ∧ n'.siblings_changes_bmp = n.siblings_changes_bmp
      ∧ n'.leaf_is_changed = n.leaf_is_changed := by
  unfold Leaf_insert at h
  obtain ⟨n0, s0, hdl, hrest⟩ := bind_ok h
  unfold deref_leaf at hdl
  obtain ⟨n1, s1, hd1, hcast⟩ := bind_ok hdl
  obtain ⟨hh, hs1⟩ := deref_inv hd1
  subst hs1
  have hn1 : n1 = n := by
    unfold heap_deref at hh
    split at hh
    · cases hh
    · rw [hn] at hh
      injection hh with hh
      exact hh.symm
  subst hn1
  by_cases hkind : n1.kind = Kind.leaf
  · rw [if_pos hkind] at hcast
    cases hcast
    obtain ⟨r, s2, hr, hst⟩ := bind_ok hrest
    obtain ⟨_, hs2⟩ := lift_inv hr
    subst hs2
    rw [store_run] at hst
    cases hst
    exact ⟨_, lookup_store_same _ _ _ _ hn, rfl, rfl, rfl, rfl⟩
  · rw [if_neg hkind] at hcast
    cases hcast

/-- The search loop of `_Inner::unlink`, started at slot `i`: when slot `j`
is the first from `i` on that holds the address `node`, the bit of slot `j`
is cleared, the slot gets the offset, and nothing else of the node changes. -/
theorem unlink_loop_run (node off : Nat) (par : Node) (j : Nat)
    (hj : par.children[j]? = some node) :
    ∀ (fuel i : Nat), i ≤ j → j < i + fuel →
      (∀ k, i ≤ k → k < j → par.children[k]? ≠ some node) →
      unlink_loop node off fuel i (bmp_shl 1 i) par
        = Except.ok { par with children_ptr_bmp := par.children_ptr_bmp &&& bmp_not (bmp_shl 1 j),
                               children := par.children.set j off } := by
  have hjl : j < par.children.length := by
    by_contra hc
    rw [List.getElem?_eq_none (Nat.le_of_not_lt hc)] at hj
    cases hj
  intro fuel
  induction fuel with
  | zero =>
    intro i hi hfuel _
    omega
  | succ fuel ih =>
    intro i hi hfuel hfirst
    unfold unlink_loop
    by_cases hij : i = j
    · subst hij
      have hget : arr_get par.children i = Except.ok node := by simp only [arr_get, hj]
      rw [hget]
      simp only [bind, Except.bind, if_true, arr_set, hjl, pure, Except.pure]
    · have hil : i < par.children.length := by omega
      have hne : par.children[i]? ≠ some node := hfirst i (Nat.le_refl _) (by omega)
      have hget : arr_get par.children i = Except.ok (par.children.get ⟨i, hil⟩) := by
        simp only [arr_get, List.getElem?_eq_getElem hil]
        rfl
      have hne2 : par.children.get ⟨i, hil⟩ ≠ node := by
        intro hc
        apply hne
        rw [List.getElem?_eq_getElem hil]
        exact congrArg some hc
      rw [hget]
      simp only [bind, Except.bind, hne2, if_false, bmp_shl_next]
      exact ih (i + 1) (by omega) (by omega) (fun k hk1 hk2 => hfirst k (by omega) hk2)

/-- The position of a stream that has not failed, with nothing known of the
file. -/
theorem at_here (s : bp_tree_default_stream) (hf : s.failed = false) :
    At s s.compact_ [] s.pos :=
  ⟨hf, rfl, ⟨s.bytes, rfl⟩, by simp⟩

/-- Method `_Leaf::raw_save_to` of a leaf whose sibling slots are marked
changed: the position advances by `storage_size`, in a compact stream by
`actual_storage_size()`. -/
theorem leaf_footprint (S : Nat) (h : Heap) (n : Node) (out : bp_tree_default_stream)
    (next prev : Nat) (hf : out.failed = false) (huS : n.used_slots ≤ S)
    (hk : n.keys.length = S) (hd : n.data.length = S)
    (hsc : n.siblings_changes_bmp = bitmap_ones)
    (hnext : sibling_offset h n sibling_next = .ok next)
    (hprev : sibling_offset h n sibling_prev = .ok prev) :
    ∃ n' out', Leaf_raw_save_to S h n out = .ok (n', out', true)
      ∧ out'.pos = out.pos
          + (if out.compact_ then n.leaf_actual_storage_size S else Leaf_storage_size S) := by
  obtain ⟨G, G1, s', hG, hG1, hsave, hat⟩ :=
    Leaf_raw_save_to_run (S := S) (h := h) (n := n) (at_here out hf)
      (by rw [hk]; exact huS) (by rw [hd]; exact huS) huS hsc hnext hprev
  refine ⟨_, s', hsave, ?_⟩
  have hlenK : (n.keys.take n.used_slots).length = n.used_slots := by
    rw [List.length_take, hk]; omega
  have hlenD : (n.data.take n.used_slots).length = n.used_slots := by
    rw [List.length_take, hd]; omega
  rw [hat.place]
  simp only [List.length_append, List.length_nil, encode_length, encode_all_length, hG, hG1,
    hlenK, hlenD, pad_bytes, Node.leaf_actual_storage_size, Leaf_storage_size, Node_storage_size,
    leaf_marker, leaf_marker_size, slotn_size, key_storage_size, value_storage_size, offset_size,
    List.length_cons]
  cases out.compact_ <;> simp <;> omega

/-- Method `_Inner::raw_save_to` of a node with every change mark set: the
position advances by `storage_size`, and in a compact stream by
`actual_storage_size()` and the `S - used_slots` unused child slots. -/
theorem inner_footprint (S : Nat) (h : Heap) (n : Node) (out : bp_tree_default_stream)
    (offs : List Nat) (hf : out.failed = false) (huS : n.used_slots ≤ S) (hS : S ≤ 63)
    (hk : n.keys.length = S) (hkc : n.key_changes_bmp = bitmap_ones)
    (hlen : offs.length = n.used_slots + 1)
    (hoffs : ∀ i (hi : i < offs.length), child_offset h n (bmp_shl 1 i) i = .ok (offs.get ⟨i, hi⟩)) :
    ∃ n' out', Inner_raw_save_to S h n out = .ok (n', out', true)
      ∧ out'.pos = out.pos
          + (if out.compact_ then n.inner_actual_storage_size S + offset_size * (S - n.used_slots)
             else Inner_storage_size S) := by
  obtain ⟨G, G1, s', hG, hG1, hsave, hat⟩ :=
    Inner_raw_save_to_run (S := S) (h := h) (n := n) offs (at_here out hf)
      (by rw [hk]; exact huS) huS (by omega) hkc hlen hoffs
  refine ⟨_, s', hsave, ?_⟩
  have hlenK : (n.keys.take n.used_slots).length = n.used_slots := by
    rw [List.length_take, hk]; omega
  rw [hat.place]
  simp only [List.length_append, List.length_nil, encode_length, encode_all_length, hG, hG1,
    hlenK, hlen, pad_bytes, Node.inner_actual_storage_size, Inner_storage_size, Node_storage_size,
    slotn_size, key_storage_size, offset_size]
  cases out.compact_ <;> simp <;> omega

/-! ### Claims on the search, the change marks, the cache and the links -/

/-- C32 (child selection during search), as the code has it.  On every
resident inner node with keys in use `get_child_by_key` takes the lower-bound
position `p` of the key, which is at most `used_slots`, reads `keys[p]`
without comparing `p` with `used_slots`, and visits child `p + 1` when the
slot holds the key, child `p` otherwise; with `p` behind the key array the
read is outside the array.  So with `p = used_slots` the decision depends on
a slot that is not in use.  Slot count 3, the keys 10 to 90: the root holds
30, 50, 70 and is full, and `find( 90)`, a key of the tree, reads `keys[3]`.
Slot count 3, the keys 10 to 40, uninitialised memory holding 40: the root
holds the key 30 and the children 36 and 103, `keys[1]` is 40,
`get_child_by_key( root, 40)` returns a node made from child slot 2, which is
not in use, and `find( 40)` does not find the key 40; with memory holding 0
it does. -/
theorem child_selection_evaluated :
    (∀ (t : bp_tree) (p : Nat) (n : Node) (key : Nat), p ≠ 0 → t.heap.lookup p = some n →
      n.kind = Kind.inner → n.used_slots ≠ 0 → n.used_slots ≤ n.keys.length →
      lower_bound n.keys n.used_slots key ≤ n.used_slots
      ∧ (∀ k, n.keys[lower_bound n.keys n.used_slots key]? = some k →
          get_child_by_key p key t
            = get_child p ((lower_bound n.keys n.used_slots key + (if k = key then 1 else 0)) % 256) t)
      ∧ (lower_bound n.keys n.used_slots key = n.keys.length →
          get_child_by_key p key t = Except.error Fault.out_of_bounds)) ∧
    on_fresh 3 512 [10, 20, 30, 40, 50, 60, 70, 80, 90] root_keys
      = Res.ok ([30, 50, 70], [], [36, 103, 227, 294]) ∧
    on_fresh 3 512 [10, 20, 30, 40, 50, 60, 70, 80, 90] (find_key 90)
      = Res.fault Fault.out_of_bounds ∧
    on_junk 3 512 40 [10, 20, 30, 40] root_keys = Res.ok ([30], [40, 40], [36, 103]) ∧
    on_junk 3 512 40 [10, 20, 30, 40] (root_child_for 40) = Res.ok (40, 1) ∧
    on_junk 3 512 40 [10, 20, 30, 40] (root_child_for 35) = Res.ok (103, 1) ∧
    on_junk 3 512 40 [10, 20, 30, 40] (find_key 40) = Res.ok none ∧
    on_junk 3 512 0 [10, 20, 30, 40] (find_key 40) = Res.ok (some 40) := by
  refine ⟨?_, by decide!, by decide!, by decide!, by decide!, by decide!, by decide!, by decide!⟩
  intro t p n key hp hn hk hused hlen
  exact get_child_by_key_run t p n key hp hn hk hused hlen

/-- Witness of C32: an inner node with the keys 10 and 20 in three slots,
the third holding 0, and the key 25, whose lower-bound position is 2. -/
theorem child_selection_evaluated_witness :
    lower_bound (inner_of 3 36 [10, 20] [100, 200, 300]).keys 2 25 ≤ 2
    ∧ get_child_by_key heap_base 25 (one_node 3 (inner_of 3 36 [10, 20] [100, 200, 300]))
      = get_child heap_base ((lower_bound (inner_of 3 36 [10, 20] [100, 200, 300]).keys 2 25
          + (if 0 = 25 then 1 else 0)) % 256)
        (one_node 3 (inner_of 3 36 [10, 20] [100, 200, 300])) :=
  ⟨(child_selection_evaluated.1 (one_node 3 (inner_of 3 36 [10, 20] [100, 200, 300]))
      heap_base (inner_of 3 36 [10, 20] [100, 200, 300]) 25 (by decide) rfl rfl (by decide)
      (by decide)).1,
   (child_selection_evaluated.1 (one_node 3 (inner_of 3 36 [10, 20] [100, 200, 300]))
      heap_base (inner_of 3 36 [10, 20] [100, 200, 300]) 25 (by decide) rfl rfl (by decide)
      (by decide)).2.1 0 (by decide)⟩

/-- C33 (modifications mark nodes dirty), as the code has it.  Whenever
`_Leaf::insert( key, pos)` completes on a resident leaf, the three change
bitmaps of the leaf, and so `is_changed()`, are what they were: a clean leaf
stays clean.  Slot count 3: the keys 10 and 20 written to a new file, a
second tree opened on the file, `insert( 15)`: the root leaf holds 10, 15, 20
and `is_changed()` is false before and after, `change_flags_` is 0; on the
tree that was never closed both are true, because the constructor sets every
mark.  The keys 10 to 50 written and reopened, `insert( 60)`: the root, an
inner node, gets the key 50 and `is_changed()` stays false. -/
theorem insert_marks_evaluated :
    (∀ (t t' : bp_tree) (p key pos : Nat) (n : Node), t.heap.lookup p = some n →
      Leaf_insert p key pos t = Except.ok (PUnit.unit, t') →
      ∃ n', t'.heap.lookup p = some n' ∧ n'.key_changes_bmp = n.key_changes_bmp
        ∧ n'.data_changes_bmp = n.data_changes_bmp
        ∧ n'.siblings_changes_bmp = n.siblings_changes_bmp
        ∧ n'.leaf_is_changed = n.leaf_is_changed) ∧
    on_reopened 3 512 512 [10, 20] (dirty_report 15) = Res.ok (false, false, [10, 15, 20], 0) ∧
    on_fresh 3 512 [10, 20] (dirty_report 15)
      = Res.ok (true, true, [10, 15, 20], 18446744073709551615) ∧
    on_reopened 3 512 512 [10, 20, 30, 40, 50] (root_dirty_report 60)
      = Res.ok (false, false, [30], [30, 50]) := by
  refine ⟨?_, by decide!, by decide!, by decide!⟩
  intro t t' p key pos n hn h
  exact Leaf_insert_marks t t' p key pos n hn h

/-- Witness of C33: a clean leaf with the keys 10 and 20 in three slots and
the key 15 at position 1. -/
theorem insert_marks_evaluated_witness :
    ∃ n', (heap_store (one_node 3 (leaf_of 3 36 [10, 20] [1, 2] 0 0).clear_change_flags).heap
        heap_base
        { (leaf_of 3 36 [10, 20] [1, 2] 0 0).clear_change_flags with
          keys := [10, 15, 20], data := [1, 0, 2], used_slots := 3 }).lookup heap_base = some n'
      ∧ n'.key_changes_bmp = 0 ∧ n'.data_changes_bmp = 0 ∧ n'.siblings_changes_bmp = 0
      ∧ n'.leaf_is_changed = false :=
  insert_marks_evaluated.1 (one_node 3 (leaf_of 3 36 [10, 20] [1, 2] 0 0).clear_change_flags)
    { one_node 3 (leaf_of 3 36 [10, 20] [1, 2] 0 0).clear_change_flags with
      heap := heap_store (one_node 3 (leaf_of 3 36 [10, 20] [1, 2] 0 0).clear_change_flags).heap
        heap_base
        { (leaf_of 3 36 [10, 20] [1, 2] 0 0).clear_change_flags with
          keys := [10, 15, 20], data := [1, 0, 2], used_slots := 3 } }
    heap_base 15 1 (leaf_of 3 36 [10, 20] [1, 2] 0 0).clear_change_flags rfl
    (Leaf_insert_run (one_node 3 (leaf_of 3 36 [10, 20] [1, 2] 0 0).clear_change_flags)
      heap_base (leaf_of 3 36 [10, 20] [1, 2] 0 0).clear_change_flags 15 1 [10, 15, 20] [1, 0, 2] 3
      (by decide) rfl rfl rfl)

/-- C34 (the cache owns every resident node), at a failing input.  Slot
count 3, cache of 512 nodes, new file, the keys 10, 20, 30, 40, 11, 12: the
insert of 12 splits the head leaf, which is not the tail; the new leaf, at
offset 227, is resident, is neither root nor head nor tail, and the cache has
no cell for it.  `find( 12)` finds the key while the tree is open.  The file
left by the destructor has 219 bytes, so nothing was written at 227 (`eof_`
was 294); a second tree opened on the file finds 11 but neither 12 nor 20.
With the keys 10 to 100 in ascending order every such node is in the
cache. -/
theorem cache_ownership_evaluated :
    on_fresh 3 512 [10, 20, 30, 40, 11, 12] cache_rows = Res.ok [(227, false)] ∧
    on_fresh 3 512 [10, 20, 30, 40, 11, 12] (find_key 12) = Res.ok (some 12) ∧
    (file_of 3 512 [10, 20, 30, 40, 11, 12]).length = 219 ∧
    on_reopened 3 512 512 [10, 20, 30, 40, 11, 12] (find_key 11) = Res.ok (some 11) ∧
    on_reopened 3 512 512 [10, 20, 30, 40, 11, 12] (find_key 12) = Res.ok none ∧
    on_reopened 3 512 512 [10, 20, 30, 40, 11, 12] (find_key 20) = Res.ok none ∧
    on_fresh 3 512 [10, 20, 30, 40, 50, 60, 70, 80, 90, 100] cache_rows
      = Res.ok [(428, true), (294, true), (227, true), (170, true), (103, true)] := by
  refine ⟨by decide!, by decide!, by decide!, by decide!, by decide!, by decide!, by decide!⟩

/-- C35 (parent and child agree), as the code has it.  `_Inner::unlink`
does what the claim says when the parent holds the address of the child:
the bit of the first slot holding it is cleared, the slot gets the offset,
nothing else changes.  But slots and bits do not always agree.  Slot count 5,
an inner node with the keys 10, 20 whose children 100 and 200 are not
resident and whose child 300 is: after `_Inner::insert( 15, child 900)` the
bit of slot 1 is set although the slot holds the offset 200 of a node that is
not resident.  Slot count 3, a full inner node with the keys 10, 20, 30 and
only the child 400 resident, `_Inner::split` with the key 5: the new node has
the child 400 in slot 1, resident, with the bit clear and with the old node
as its `parent`; when that child is destroyed the slot keeps the address of
the destroyed node.  With the key 35 (the append) bits, parents and the
downgrade on destruction are right. -/
theorem parent_links_evaluated :
    (∀ (node off : Nat) (par : Node) (j : Nat), par.children[j]? = some node →
      j ≤ par.used_slots → (∀ k, k < j → par.children[k]? ≠ some node) →
      unlink_loop node off (par.used_slots + 1) 0 1 par
        = Except.ok { par with children_ptr_bmp := par.children_ptr_bmp &&& bmp_not (bmp_shl 1 j),
                               children := par.children.set j off }) ∧
    insert_rows 5 [10, 20] [100, 200, 300] [2] 15 900
      = Res.ok [(100, false, false, false), (200, true, false, false), (900, true, true, true),
                (300, true, true, true)] ∧
    split_destroy_rows 3 [10, 20, 30] [100, 200, 300, 400] [3] 5 900 1
      = Res.ok ([(900, true, true, true), (400, false, true, false)],
                [(900, true, true, true), (4294967297, false, false, false)], true) ∧
    split_destroy_rows 3 [10, 20, 30] [100, 200, 300, 400] [0, 1, 2, 3] 35 900 0
      = Res.ok ([(400, true, true, true), (900, true, true, true)],
                [(400, false, false, false), (900, true, true, true)], false) := by
  refine ⟨?_, by decide!, by decide!, by decide!⟩
  intro node off par j hj hju hfirst
  exact unlink_loop_run node off par j hj (par.used_slots + 1) 0 (Nat.zero_le _) (by omega)
    (fun k _ hk => hfirst k hk)

/-- Witness of C35: the child at the address 200 in slot 1 of a node with
the child slots 100, 200, 300. -/
theorem parent_links_evaluated_witness :
    unlink_loop 200 77 ((inner_of 3 36 [10, 20] [100, 200, 300]).used_slots + 1) 0 1
        (inner_of 3 36 [10, 20] [100, 200, 300])
      = Except.ok { inner_of 3 36 [10, 20] [100, 200, 300] with
          children_ptr_bmp := (inner_of 3 36 [10, 20] [100, 200, 300]).children_ptr_bmp
            &&& bmp_not (bmp_shl 1 1),
          children := (inner_of 3 36 [10, 20] [100, 200, 300]).children.set 1 77 } :=
  parent_links_evaluated.1 200 77 (inner_of 3 36 [10, 20] [100, 200, 300]) 1 rfl (by decide)
    (by intro k hk; interval_cases k; decide)

/-- C36 (no dangling sibling pointers), at a failing input.  Slot count 5,
cache of 2 nodes, new file, the keys 10 to 90, then 11, 12, 13, then 100 to
150.  The insert of 13 splits the head leaf; the new leaf, at offset 422, is
never put into the cache.  `find( 13)` and three increments of the cursor:
`get_sibling` loads the next leaf, 135, and links the leaf 422 to it, but the
leaf 135 gets no link back (its `prev` is the offset 422, not in pointer
form), because `link_possible_siblings` looks for the leaf 422 in the cache.
After six more increments the leaf 135 has been evicted; nothing told the
leaf 422, whose `next` is still in pointer form and holds the address of the
destroyed leaf.  A forward iteration from `begin()` then reads through that
address. -/
theorem sibling_links_evaluated :
    on_fresh 5 2 [10, 20, 30, 40, 50, 60, 70, 80, 90, 11, 12, 13, 100, 110, 120, 130, 140, 150]
        (link_walk_report 13 40)
      = Res.ok
        ([(36, (422, true, true), 0, false, false),
          (135, (323, false, false), 422, false, false),
          (422, (135, true, true), 36, true, true),
          (521, (620, true, true), 323, false, false),
          (620, (0, false, false), 521, true, true)],
         [(36, (422, true, true), 0, false, false),
          (323, (521, true, true), 135, false, false),
          (422, (4294967303, true, false), 36, true, true),
          (521, (620, true, true), 323, true, true),
          (620, (0, false, false), 521, true, true)],
         Res.fault Fault.dangling) := by
  decide!

/-- C37 (well-formed recency list), at failing inputs.  A cache of capacity
2 with an observer, `get( 1)`, `get( 2)`, `lock` on the cursor of 1: the list
holds the key 2 alone in both directions, the map holds 1 and 2, the pin set
1, as the claim says.  Then `touch( 1)` (or `find( 1, true)`): the pinned cell
is back in the list, 1, 2 forwards and 2, 1 backwards, and still in the pin
set.  Instead `unlock` on the cursor of 1: the list is 1, 2 and the cell is
still in the pin set; a second `unlock` makes the cell its own successor, and
following `next` meets the key 1 again and again. -/
theorem recency_ring_evaluated :
    ring_report 2 [.get 1 100, .get 2 200] = Res.ok ([2, 1], [1, 2], [1, 2], []) ∧
    ring_report 2 [.get 1 100, .get 2 200, .lock 1] = Res.ok ([2], [2], [1, 2], [1]) ∧
    ring_report 2 [.get 1 100, .get 2 200, .lock 1, .touch 1]
      = Res.ok ([1, 2], [2, 1], [1, 2], [1]) ∧
    ring_report 2 [.get 1 100, .get 2 200, .lock 1, .find 1 true]
      = Res.ok ([1, 2], [2, 1], [1, 2], [1]) ∧
    ring_report 2 [.get 1 100, .get 2 200, .lock 1, .unlock 1]
      = Res.ok ([1, 2], [2, 1], [1, 2], [1]) ∧
    ring_report 2 [.get 1 100, .get 2 200, .lock 1, .unlock 1, .unlock 1]
      = Res.ok ([1, 1, 1], [2, 1, 1], [1, 2], [1]) := by
  refine ⟨by decide, by decide, by decide, by decide, by decide, by decide⟩

/-! ### Claims on the records of nodes -/

/-- C39 (footprint of a record), as the code has it.  For a leaf with
`used_slots <= S` whose sibling slots are marked changed, on a stream that
has not failed, `raw_save_to` completes and advances the position by
`storage_size`, in a compact stream by `actual_storage_size()`, as claimed.
For an inner node with every change mark set (`S <= 63`) it advances the
position by `storage_size` in a stream that is not compact, but in a compact
stream by `actual_storage_size() + 8 * (S - used_slots)`: the skip over the
unused child slots is made in either mode.  Slot count 3, two keys: 67 and 51
bytes for the leaf, 57 and 49 for the inner node, whose
`actual_storage_size()` is 41; a full inner node advances by 57 in both
modes; slot count 63 and one key: 521 bytes against 25. -/
theorem record_footprint :
    (∀ (S : Nat) (h : Heap) (n : Node) (out : bp_tree_default_stream) (next prev : Nat),
      out.failed = false → n.used_slots ≤ S → n.keys.length = S → n.data.length = S →
      n.siblings_changes_bmp = bitmap_ones →
      sibling_offset h n sibling_next = .ok next → sibling_offset h n sibling_prev = .ok prev →
      ∃ n' out', Leaf_raw_save_to S h n out = .ok (n', out', true)
        ∧ out'.pos = out.pos
            + (if out.compact_ then n.leaf_actual_storage_size S else Leaf_storage_size S)) ∧
    (∀ (S : Nat) (h : Heap) (n : Node) (out : bp_tree_default_stream) (offs : List Nat),
      out.failed = false → n.used_slots ≤ S → S ≤ 63 → n.keys.length = S →
      n.key_changes_bmp = bitmap_ones → offs.length = n.used_slots + 1 →
      (∀ i (hi : i < offs.length), child_offset h n (bmp_shl 1 i) i = .ok (offs.get ⟨i, hi⟩)) →
      ∃ n' out', Inner_raw_save_to S h n out = .ok (n', out', true)
        ∧ out'.pos = out.pos
            + (if out.compact_ then
                n.inner_actual_storage_size S + offset_size * (S - n.used_slots)
               else Inner_storage_size S)) ∧
    footprint 3 false (leaf_of 3 36 [10, 20] [1, 2] 103 0) 36 = Res.ok (67, 67, 51) ∧
    footprint 3 true (leaf_of 3 36 [10, 20] [1, 2] 103 0) 36 = Res.ok (51, 67, 51) ∧
    footprint 3 false (inner_of 3 36 [10, 20] [100, 200, 300]) 36 = Res.ok (57, 57, 41) ∧
    footprint 3 true (inner_of 3 36 [10, 20] [100, 200, 300]) 36 = Res.ok (49, 57, 41) ∧
    footprint 3 true (inner_of 3 36 [10, 20, 30] [100, 200, 300, 400]) 36 = Res.ok (57, 57, 57) ∧
    footprint 63 true (inner_of 63 36 [10] [100, 200]) 36 = Res.ok (521, 1017, 25) := by
  refine ⟨?_, ?_, by decide!, by decide!, by decide!, by decide!, by decide!, by decide!⟩
  · intro S h n out next prev hf huS hk hd hsc hnext hprev
    exact leaf_footprint S h n out next prev hf huS hk hd hsc hnext hprev
  · intro S h n out offs hf huS hS hk hkc hlen hoffs
    exact inner_footprint S h n out offs hf huS hS hk hkc hlen hoffs

/-- Witness of C39: slot count 3, a leaf and an inner node with two keys,
on a compact stream over an empty file. -/
theorem record_footprint_witness :
    (∃ n' out', Leaf_raw_save_to 3 [] (leaf_of 3 36 [10, 20] [1, 2] 103 0)
          ((mk_stream []).set_compact true) = .ok (n', out', true)
        ∧ out'.pos = ((mk_stream []).set_compact true).pos
            + (if ((mk_stream []).set_compact true).compact_ then
                (leaf_of 3 36 [10, 20] [1, 2] 103 0).leaf_actual_storage_size 3
               else Leaf_storage_size 3)) ∧
    (∃ n' out', Inner_raw_save_to 3 [] (inner_of 3 36 [10, 20] [100, 200, 300])
          ((mk_stream []).set_compact true) = .ok (n', out', true)
        ∧ out'.pos = ((mk_stream []).set_compact true).pos
            + (if ((mk_stream []).set_compact true).compact_ then
                (inner_of 3 36 [10, 20] [100, 200, 300]).inner_actual_storage_size 3
                  + offset_size * (3 - (inner_of 3 36 [10, 20] [100, 200, 300]).used_slots)
               else Inner_storage_size 3)) :=
  ⟨record_footprint.1 3 [] (leaf_of 3 36 [10, 20] [1, 2] 103 0) ((mk_stream []).set_compact true)
      103 0 rfl (by decide) rfl rfl rfl rfl rfl,
   record_footprint.2.1 3 [] (inner_of 3 36 [10, 20] [100, 200, 300])
      ((mk_stream []).set_compact true) [100, 200, 300] rfl (by decide) (by decide) rfl rfl rfl
      (by intro i hi
          have hi3 : i < 3 := hi
          interval_cases i <;> rfl)⟩

namespace lru_cache

/-- A cell read through its address is a cell of the map. -/
theorem cell_mem {c : lru_cache} {a : Nat} {i : Item} (h : c.cell a = Except.ok i) :
    i ∈ c.iMap := by
  unfold cell at h
  split at h
  · rename_i j hj
    injection h with h
    rw [← h]
    exact List.mem_of_find?_eq_some hj
  · cases h

/-- Replacing a cell by one with a payload already in the map adds no payload. -/
theorem payloads_set_cell (c : lru_cache) (i : Item) (hi : i.data ∈ c.payloads) :
    ∀ d ∈ (c.set_cell i).payloads, d ∈ c.payloads := by
  intro d hd
  unfold payloads set_cell at hd
  simp only [List.map_map, List.mem_map, Function.comp] at hd
  obtain ⟨j, hj, hjd⟩ := hd
  split at hjd
  · rw [← hjd]
    exact hi
  · rw [← hjd]
    exact List.mem_map_of_mem _ hj

/-- Writing a `prev` link adds no payload. -/
theorem payloads_set_prev {c c' : lru_cache} {p v : ItemPtr} (h : c.set_prev p v = Except.ok c') :
    ∀ d ∈ c'.payloads, d ∈ c.payloads := by
  unfold set_prev at h
  cases p with
  | null => cases h
  | head =>
    injection h with h
    rw [← h]
    exact fun d hd => hd
  | item a =>
    simp only [bind, Except.bind] at h
    cases hc : c.cell a with
    | error e => rw [hc] at h; cases h
    | ok i =>
      rw [hc] at h
      injection h with h
      rw [← h]
      exact payloads_set_cell c _ (List.mem_map_of_mem (fun i => i.data) (cell_mem hc))

/-- Writing a `next` link adds no payload. -/
theorem payloads_set_next {c c' : lru_cache} {p v : ItemPtr} (h : c.set_next p v = Except.ok c') :
    ∀ d ∈ c'.payloads, d ∈ c.payloads := by
  unfold set_next at h
  cases p with
  | null => cases h
  | head =>
    injection h with h
    rw [← h]
    exact fun d hd => hd
  | item a =>
    simp only [bind, Except.bind] at h
    cases hc : c.cell a with
    | error e => rw [hc] at h; cases h
    | ok i =>
      rw [hc] at h
      injection h with h
      rw [← h]
      exact payloads_set_cell c _ (List.mem_map_of_mem (fun i => i.data) (cell_mem hc))

/-- Method `unlink` adds no payload. -/
theorem payloads_unlink {c c' : lru_cache} {a : Nat} (h : c.unlink a = Except.ok c') :
    ∀ d ∈ c'.payloads, d ∈ c.payloads := by
  unfold unlink at h
  simp only [bind, Except.bind] at h
  cases hc : c.cell a with
  | error e => rw [hc] at h; cases h
  | ok i =>
    rw [hc] at h
    simp only [] at h
    by_cases h1 : i.next ≠ .null
    · rw [if_pos h1] at h
      cases hp : c.set_prev i.next i.prev with
      | error e => rw [hp] at h; cases h
      | ok c1 =>
        rw [hp] at h
        simp only [] at h
        by_cases h2 : i.prev ≠ .null
        · rw [if_pos h2] at h
          cases hn : c1.set_next i.prev i.next with
          | error e => rw [hn] at h; cases h
          | ok c2 =>
            rw [hn] at h
            injection h with h
            rw [← h]
            exact fun d hd => payloads_set_prev hp d (payloads_set_next hn d hd)
        · rw [if_neg h2] at h
          injection h with h
          rw [← h]
          exact payloads_set_prev hp
    · rw [if_neg h1] at h
      simp only [pure, Except.pure] at h
      by_cases h2 : i.prev ≠ .null
      · rw [if_pos h2] at h
        cases hn : c.set_next i.prev i.next with
        | error e => rw [hn] at h; cases h
        | ok c2 =>
          rw [hn] at h
          injection h with h
          rw [← h]
          exact payloads_set_next hn
      · rw [if_neg h2] at h
        injection h with h
        rw [← h]
        exact fun d hd => hd

/-- Inversion of a completed sequence in the `Except` monad. -/
theorem ebind_ok {α β : Type} {x : Except Fault α} {f : α → Except Fault β} {b : β}
    (h : (x >>= f) = Except.ok b) : ∃ a, x = Except.ok a ∧ f a = Except.ok b := by
  cases x with
  | error e => cases h
  | ok a => exact ⟨a, rfl, h⟩

/-- Method `append` adds no payload. -/
theorem payloads_append {c c' : lru_cache} {a : Nat} (h : c.append a = Except.ok c') :
    ∀ d ∈ c'.payloads, d ∈ c.payloads := by
  unfold append at h
  by_cases hn : c.head_next ≠ .null
  · simp only [if_pos hn] at h
    obtain ⟨c1, h1, h⟩ := ebind_ok h
    obtain ⟨c2, h2, h⟩ := ebind_ok h
    obtain ⟨c3, h3, h⟩ := ebind_ok h
    injection h with h
    rw [← h]
    exact fun d hd => payloads_set_prev h1 d (payloads_set_prev h2 d (payloads_set_next h3 d hd))
  · simp only [if_neg hn] at h
    obtain ⟨c1, h1, h⟩ := ebind_ok h
    obtain ⟨c2, h2, h⟩ := ebind_ok h
    obtain ⟨c3, h3, h⟩ := ebind_ok h
    injection h1 with h1
    injection h with h
    rw [← h]
    intro d hd
    have := payloads_set_prev h2 d (payloads_set_next h3 d hd)
    rw [← h1] at this
    exact this

/-- Method `set_mru` adds no payload. -/
theorem payloads_set_mru {c c' : lru_cache} {a : Nat} (h : c.set_mru a = Except.ok c') :
    ∀ d ∈ c'.payloads, d ∈ c.payloads := by
  unfold set_mru at h
  obtain ⟨i, _, h⟩ := ebind_ok h
  by_cases hp : i.prev ≠ .head
  · rw [if_pos hp] at h
    obtain ⟨c1, h1, h⟩ := ebind_ok h
    exact fun d hd => payloads_unlink h1 d (payloads_append h d hd)
  · rw [if_neg hp] at h
    injection h with h
    rw [← h]
    exact fun d hd => hd

/-- Method `touch` adds no payload. -/
theorem payloads_touch {c c' : lru_cache} {key : Nat} (h : c.touch key = Except.ok c') :
    ∀ d ∈ c'.payloads, d ∈ c.payloads := by
  unfold touch at h
  split at h
  · exact payloads_set_mru h
  · injection h with h
    rw [← h]
    exact fun d hd => hd

/-- Method `find`: the cell found is a cell of the map, and no payload is
added. -/
theorem payloads_find {c : lru_cache} {key : Nat} {mru : Bool} {r : Option Item × lru_cache}
    (h : c.find key mru = Except.ok r) :
    (∀ d ∈ r.2.payloads, d ∈ c.payloads) ∧ (∀ i, r.1 = some i → i.data ∈ c.payloads) := by
  unfold find at h
  split at h
  · rename_i i hi
    have him : i.data ∈ c.payloads :=
      List.mem_map_of_mem (fun i => i.data) (List.mem_of_find?_eq_some hi)
    by_cases hm : mru = true
    · rw [if_pos hm] at h
      obtain ⟨c1, h1, h⟩ := ebind_ok h
      injection h with h
      rw [← h]
      refine ⟨payloads_set_mru h1, ?_⟩
      intro j hj
      injection hj with hj
      rw [← hj]
      exact him
    · rw [if_neg hm] at h
      injection h with h
      rw [← h]
      refine ⟨fun d hd => hd, ?_⟩
      intro j hj
      injection hj with hj
      rw [← hj]
      exact him
  · injection h with h
    rw [← h]
    exact ⟨fun d hd => hd, fun i hi => by cases hi⟩

/-- Method `erase`: the payload handed to the observer was in the map, and
no payload is added. -/
theorem payloads_erase_cell {c : lru_cache} {a : Nat} {r : Option Nat × lru_cache}
    (h : c.erase_cell a = Except.ok r) :
    (∀ d ∈ r.2.payloads, d ∈ c.payloads) ∧ (∀ d, r.1 = some d → d ∈ c.payloads) := by
  unfold erase_cell at h
  obtain ⟨c1, h1, h⟩ := ebind_ok h
  obtain ⟨i, hi, h⟩ := ebind_ok h
  injection h with h
  rw [← h]
  have hsub := payloads_unlink h1
  refine ⟨?_, ?_⟩
  · intro d hd
    apply hsub
    dsimp only at hd
    unfold payloads at hd ⊢
    obtain ⟨j, hj, hjd⟩ := List.mem_map.mp hd
    exact List.mem_map.mpr ⟨j, (List.mem_filter.mp hj).1, hjd⟩
  · intro d hd
    apply hsub
    dsimp only at hd
    split at hd
    · injection hd with hd
      rw [← hd]
      exact List.mem_map_of_mem (fun i => i.data) (cell_mem hi)
    · cases hd

/-- The new cell of `get` adds the payload 0 and nothing else. -/
theorem payloads_get_tail {c0 c1 c2 : lru_cache} {a n : Nat} (fresh : Item)
    (hsub : ∀ d ∈ c1.payloads, d ∈ c0.payloads) (hfresh : fresh.data = 0)
    (h : lru_cache.append { c1 with iMap := c1.iMap ++ [fresh], next_item := n } a = Except.ok c2) :
    ∀ d ∈ c2.payloads, d = 0 ∨ d ∈ c0.payloads := by
  intro d hd
  have hd2 := payloads_append h d hd
  unfold payloads at hd2
  simp only [List.map_append, List.map_cons, List.map_nil, List.mem_append,
    List.mem_singleton] at hd2
  rcases hd2 with hd2 | hd2
  · exact Or.inr (hsub d hd2)
  · rw [hfresh] at hd2
    exact Or.inl hd2

/-- Method `get`: the payload handed to the observer was in the map, and
the only payload added is that of the new cell, 0. -/
theorem payloads_get {c : lru_cache} {key : Nat} {r : (Nat × Bool) × Option Nat × lru_cache}
    (h : c.get key = Except.ok r) :
    (∀ d ∈ r.2.2.payloads, d = 0 ∨ d ∈ c.payloads) ∧ (∀ d, r.2.1 = some d → d ∈ c.payloads) := by
  unfold get at h
  split at h
  · injection h with h
    rw [← h]
    exact ⟨fun d hd => Or.inr hd, fun d hd => by cases hd⟩
  · by_cases hfull : c.is_full = true
    · simp only [if_pos hfull] at h
      split at h
      · obtain ⟨r1, h1, h⟩ := ebind_ok h
        obtain ⟨c2, h2, h⟩ := ebind_ok h
        injection h with h
        rw [← h]
        exact ⟨payloads_get_tail _ (payloads_erase_cell h1).1 rfl h2, (payloads_erase_cell h1).2⟩
      · cases h
      · cases h
    · simp only [if_neg hfull] at h
      obtain ⟨r1, h1, h⟩ := ebind_ok h
      obtain ⟨c2, h2, h⟩ := ebind_ok h
      injection h1 with h1
      injection h with h
      rw [← h, ← h1]
      rw [← h1] at h2
      exact ⟨payloads_get_tail _ (fun d hd => hd) rfl h2, fun d hd => by cases hd⟩

/-- Assignment through a cache iterator: the only payload added is the one
assigned. -/
theorem payloads_set_data {c c' : lru_cache} {a data : Nat} (h : c.set_data a data = Except.ok c') :
    ∀ d ∈ c'.payloads, d = data ∨ d ∈ c.payloads := by
  unfold set_data at h
  obtain ⟨i, _, h⟩ := ebind_ok h
  injection h with h
  rw [← h]
  intro d hd
  unfold payloads set_cell at hd
  simp only [List.map_map, List.mem_map, Function.comp] at hd
  obtain ⟨j, hj, hjd⟩ := hd
  split at hjd
  · exact Or.inl hjd.symm
  · rw [← hjd]
    exact Or.inr (List.mem_map_of_mem _ hj)

end lru_cache

/-! ### A resident node that no operation destroys -/

/-- A resident node has an entry in the heap. -/
theorem lookup_mem_fst {h : Heap} {p : Nat} {n : Node} (hl : h.lookup p = some n) :
    ∃ e ∈ h, e.1 = p := by
  induction h with
  | nil => cases hl
  | cons e h ih =>
    obtain ⟨q, v⟩ := e
    by_cases hq : (p == q) = true
    · exact ⟨(q, v), List.mem_cons_self _ _, (beq_iff_eq.mp hq).symm⟩
    · have hq2 : (p == q) = false := by simpa using hq
      simp only [List.lookup, hq2] at hl
      obtain ⟨e, he, hp⟩ := ih hl
      exact ⟨e, List.mem_cons_of_mem _ he, hp⟩

/-- A write through a pointer keeps the addresses of the heap. -/
theorem mem_heap_store {h : Heap} {p : Nat} {v : Node} {e : Nat × Node}
    (he : e ∈ heap_store h p v) : ∃ e0 ∈ h, e0.1 = e.1 := by
  unfold heap_store at he
  obtain ⟨e0, he0, heq⟩ := List.mem_map.mp he
  refine ⟨e0, he0, ?_⟩
  split at heq
  · rename_i hp
    rw [← heq]
    exact beq_iff_eq.mp hp
  · rw [heq]

/-- The release of one node leaves the nodes at the other addresses. -/
theorem lookup_filter_ne (h : Heap) (p q : Nat) (hq : q ≠ p) :
    (h.filter (fun e => e.1 != p)).lookup q = h.lookup q := by
  induction h with
  | nil => rfl
  | cons e h ih =>
    obtain ⟨r, v⟩ := e
    rw [List.filter_cons]
    by_cases hr : r = p
    · have h1 : (r != p) = false := by simp [hr]
      have h2 : (q == r) = false := by simp [hr, hq]
      simp only [h1, Bool.false_eq_true, if_false, List.lookup, h2]
      exact ih
    · have h1 : (r != p) = true := by simp [hr]
      simp only [h1, if_true]
      by_cases hqr : (q == r) = true
      · simp only [List.lookup, hqr]
      · have hqr2 : (q == r) = false := by simpa using hqr
        simp only [List.lookup, hqr2]
        exact ih

/-- A completed `deref`. -/
theorem deref_ok {p : Nat} {s s' : bp_tree} {n : Node} (h : deref p s = Except.ok (n, s')) :
    s' = s ∧ p ≠ 0 ∧ s.heap.lookup p = some n := by
  obtain ⟨hh, hs⟩ := deref_inv h
  refine ⟨hs, ?_, ?_⟩
  · intro hp
    simp [heap_deref, hp] at hh
  · unfold heap_deref at hh
    split at hh
    · cases hh
    · split at hh
      · rename_i m hm
        injection hh with hh
        rw [hm, hh]
      · cases hh

/-- A completed `deref_leaf`. -/
theorem deref_leaf_ok {p : Nat} {s s' : bp_tree} {n : Node}
    (h : deref_leaf p s = Except.ok (n, s')) :
    s' = s ∧ p ≠ 0 ∧ s.heap.lookup p = some n ∧ n.kind = Kind.leaf := by
  unfold deref_leaf at h
  obtain ⟨m, s1, hd, h⟩ := bind_ok h
  obtain ⟨hs, hp, hl⟩ := deref_ok hd
  by_cases hk : m.kind = Kind.leaf
  · rw [if_pos hk] at h
    cases h
    exact ⟨hs, hp, hl, hk⟩
  · rw [if_neg hk] at h
    cases h

/-- A completed `deref_inner`. -/
theorem deref_inner_ok {p : Nat} {s s' : bp_tree} {n : Node}
    (h : deref_inner p s = Except.ok (n, s')) :
    s' = s ∧ p ≠ 0 ∧ s.heap.lookup p = some n ∧ n.kind = Kind.inner := by
  unfold deref_inner at h
  obtain ⟨m, s1, hd, h⟩ := bind_ok h
  obtain ⟨hs, hp, hl⟩ := deref_ok hd
  by_cases hk : m.kind = Kind.inner
  · rw [if_pos hk] at h
    cases h
    exact ⟨hs, hp, hl, hk⟩
  · rw [if_neg hk] at h
    cases h

/-- A completed `store`. -/
theorem store_ok {p : Nat} {v : Node} {s s' : bp_tree} {r : PUnit}
    (h : store p v s = Except.ok (r, s')) : s' = { s with heap := heap_store s.heap p v } := by
  rw [store_run] at h
  cases h
  rfl

/-- A completed `get`. -/
theorem get_ok {s s' t : bp_tree} (h : (get : M bp_tree) s = Except.ok (t, s')) :
    t = s ∧ s' = s := by
  cases h
  exact ⟨rfl, rfl⟩

/-- A completed `modify`. -/
theorem modify_ok {f : bp_tree → bp_tree} {s s' : bp_tree} {r : PUnit}
    (h : (modify f : M PUnit) s = Except.ok (r, s')) : s' = f s := by
  cases h
  rfl

/-- A completed conditional took one of its branches. -/
theorem ite_ok {α : Type} {c : Prop} [Decidable c] {a b : M α} {s s' : bp_tree} {r : α}
    (h : (if c then a else b) s = Except.ok (r, s')) :
    (c ∧ a s = Except.ok (r, s')) ∨ (¬c ∧ b s = Except.ok (r, s')) := by
  by_cases hc : c
  · rw [if_pos hc] at h
    exact Or.inl ⟨hc, h⟩
  · rw [if_neg hc] at h
    exact Or.inr ⟨hc, h⟩

/-- A completed `pure`. -/
theorem pure_ok {α : Type} {a r : α} {s s' : bp_tree}
    (h : (pure a : M α) s = Except.ok (r, s')) : r = a ∧ s' = s := by
  cases h
  exact ⟨rfl, rfl⟩

/-- A completed sequence that starts with `get`. -/
theorem bind_get_ok {β : Type} {f : bp_tree → M β} {s s' : bp_tree} {r : β}
    (h : ((get : M bp_tree) >>= f) s = Except.ok (r, s')) : f s s = Except.ok (r, s') := by
  rw [bind_run _ _ _ _ _ (get_run s)] at h
  exact h

/-- A completed sequence that starts with `pure`. -/
theorem bind_pure_ok {α β : Type} {a : α} {f : α → M β} {s s' : bp_tree} {r : β}
    (h : ((pure a : M α) >>= f) s = Except.ok (r, s')) : f a s = Except.ok (r, s') := by
  rw [bind_run _ _ _ _ _ (pure_run a s)] at h
  exact h

/-- A completed sequence that starts with `modify`. -/
theorem bind_modify_ok {β : Type} {g : bp_tree → bp_tree} {f : PUnit → M β} {s s' : bp_tree}
    {r : β} (h : ((modify g : M PUnit) >>= f) s = Except.ok (r, s')) :
    f PUnit.unit (g s) = Except.ok (r, s') := by
  rw [bind_run _ _ _ _ _ (modify_run g s)] at h
  exact h

/-- A completed sequence that starts with `store`. -/
theorem bind_store_ok {β : Type} {p : Nat} {v : Node} {f : PUnit → M β} {s s' : bp_tree}
    {r : β} (h : (store p v >>= f) s = Except.ok (r, s')) :
    f PUnit.unit { s with heap := heap_store s.heap p v } = Except.ok (r, s') := by
  rw [bind_run _ _ _ _ _ (store_run s p v)] at h
  exact h

/-- A completed sequence that starts with a computation without state. -/
theorem bind_lift_ok {α β : Type} {e : Except Fault α} {f : α → M β} {s s' : bp_tree} {r : β}
    (h : ((liftM e : M α) >>= f) s = Except.ok (r, s')) :
    ∃ a, e = Except.ok a ∧ f a s = Except.ok (r, s') := by
  obtain ⟨a, s1, h1, k1⟩ := bind_ok h
  obtain ⟨ha, hs⟩ := lift_inv h1
  rw [hs] at k1
  exact ⟨a, ha, k1⟩

/-- A completed sequence that starts with `deref`. -/
theorem bind_deref_ok {β : Type} {p : Nat} {f : Node → M β} {s s' : bp_tree} {r : β}
    (h : (deref p >>= f) s = Except.ok (r, s')) :
    ∃ n, p ≠ 0 ∧ s.heap.lookup p = some n ∧ f n s = Except.ok (r, s') := by
  obtain ⟨n, s1, h1, k1⟩ := bind_ok h
  obtain ⟨hs, hp, hl⟩ := deref_ok h1
  rw [hs] at k1
  exact ⟨n, hp, hl, k1⟩

/-- A completed sequence that starts with `deref_leaf`. -/
theorem bind_deref_leaf_ok {β : Type} {p : Nat} {f : Node → M β} {s s' : bp_tree} {r : β}
    (h : (deref_leaf p >>= f) s = Except.ok (r, s')) :
    ∃ n, p ≠ 0 ∧ s.heap.lookup p = some n ∧ n.kind = Kind.leaf ∧ f n s = Except.ok (r, s') := by
  obtain ⟨n, s1, h1, k1⟩ := bind_ok h
  obtain ⟨hs, hp, hl, hk⟩ := deref_leaf_ok h1
  rw [hs] at k1
  exact ⟨n, hp, hl, hk, k1⟩

/-- A completed sequence that starts with `deref_inner`. -/
theorem bind_deref_inner_ok {β : Type} {p : Nat} {f : Node → M β} {s s' : bp_tree} {r : β}
    (h : (deref_inner p >>= f) s = Except.ok (r, s')) :
    ∃ n, p ≠ 0 ∧ s.heap.lookup p = some n ∧ n.kind = Kind.inner ∧ f n s = Except.ok (r, s') := by
  obtain ⟨n, s1, h1, k1⟩ := bind_ok h
  obtain ⟨hs, hp, hl, hk⟩ := deref_inner_ok h1
  rw [hs] at k1
  exact ⟨n, hp, hl, hk, k1⟩

namespace Anchored

/-- The address of the anchor is below `next_addr`. -/
theorem anchor_addr_lt {x : Anchor} {s : bp_tree} (h : Anchored x s) : x.addr < s.next_addr := by
  obtain ⟨n, hn, _⟩ := h.here
  obtain ⟨e, he, hp⟩ := lookup_mem_fst hn
  rw [← hp]
  exact h.heap_lt e he

/-- What a resident node says about the anchor. -/
theorem anchor_of_lookup {x : Anchor} {s : bp_tree} (h : Anchored x s) {p : Nat} {n : Node}
    (hl : s.heap.lookup p = some n) :
    p < s.next_addr ∧ (p = x.addr → n.kind = x.kind ∧ n.level = x.level) := by
  refine ⟨?_, ?_⟩
  · obtain ⟨e, he, hp⟩ := lookup_mem_fst hl
    rw [← hp]
    exact h.heap_lt e he
  · intro hp
    obtain ⟨m, hm, hk, hv⟩ := h.here
    rw [hp, hm] at hl
    injection hl with hl
    rw [← hl]
    exact ⟨hk, hv⟩

/-- A node of another kind is not at the address of the anchor. -/
theorem anchor_ne_of_kind {x : Anchor} {s : bp_tree} (h : Anchored x s) {p : Nat} {n : Node}
    (hl : s.heap.lookup p = some n) (hk : n.kind ≠ x.kind) : p ≠ x.addr :=
  fun hp => hk ((h.anchor_of_lookup hl).2 hp).1

/-- A write through a pointer that keeps kind and level at the anchor. -/
theorem anchor_store {x : Anchor} {s : bp_tree} (h : Anchored x s) (p : Nat) (v : Node)
    (hv : p = x.addr → v.kind = x.kind ∧ v.level = x.level) :
    Anchored x { s with heap := heap_store s.heap p v } := by
  refine ⟨?_, h.pay_lt, ?_, h.free, h.nz, h.root, h.head, h.bound, h.proto⟩
  · intro e he
    obtain ⟨e0, he0, heq⟩ := mem_heap_store he
    rw [← heq]
    exact h.heap_lt e0 he0
  · obtain ⟨n, hn, hk, hl⟩ := h.here
    by_cases hp : p = x.addr
    · refine ⟨v, ?_, (hv hp).1, (hv hp).2⟩
      show (heap_store s.heap p v).lookup x.addr = some v
      rw [← hp]
      exact lookup_store_same _ _ n _ (hp ▸ hn)
    · refine ⟨n, ?_, hk, hl⟩
      show (heap_store s.heap p v).lookup x.addr = some n
      rw [lookup_store_ne _ _ _ _ (fun hc => hp hc.symm)]
      exact hn

/-- The release of another node. -/
theorem anchor_dealloc {x : Anchor} {s : bp_tree} (h : Anchored x s) (p : Nat) (hp : p ≠ x.addr) :
    Anchored x { s with heap := s.heap.filter (fun e => e.1 != p) } := by
  refine ⟨?_, h.pay_lt, ?_, h.free, h.nz, h.root, h.head, h.bound, h.proto⟩
  · intro e he
    exact h.heap_lt e (List.mem_filter.mp he).1
  · obtain ⟨n, hn, hk, hl⟩ := h.here
    refine ⟨n, ?_, hk, hl⟩
    show (s.heap.filter (fun e => e.1 != p)).lookup x.addr = some n
    rw [lookup_filter_ne _ _ _ (fun hc => hp hc.symm)]
    exact hn

/-- A new node at `next_addr`. -/
theorem anchor_alloc {x : Anchor} {s : bp_tree} (h : Anchored x s) (v : Node) (s' : bp_tree)
    (hh : s'.heap = (s.next_addr, v) :: s.heap) (hn : s'.next_addr = s.next_addr + 1)
    (hc : s'.cache_ = s.cache_) (hr : s'.root_ = s.root_) (hd : s'.head_ = s.head_)
    (hi : s'.inner_node.kind = Kind.inner) :
    Anchored x s' := by
  have hlt := h.anchor_addr_lt
  refine ⟨?_, ?_, ?_, ?_, h.nz, hr.trans h.root, hd.trans h.head, ?_, hi⟩
  · intro e he
    rw [hh] at he
    rw [hn]
    rcases List.mem_cons.mp he with he | he
    · rw [he]
      exact Nat.lt_succ_self _
    · exact Nat.lt_succ_of_lt (h.heap_lt e he)
  · intro d hd
    rw [hc] at hd
    rw [hn]
    exact Nat.lt_succ_of_lt (h.pay_lt d hd)
  · obtain ⟨n, hl, hk, hv⟩ := h.here
    refine ⟨n, ?_, hk, hv⟩
    rw [hh, lookup_cons_ne _ _ _ _ (Nat.ne_of_lt hlt)]
    exact hl
  · rw [hc]
    exact h.free
  · rw [hn]
    exact Nat.le_succ_of_le h.bound

/-- A change of the cache that adds no payload but 0 or payloads given as
below `next_addr` and not the anchor. -/
theorem anchor_recache {x : Anchor} {s : bp_tree} (h : Anchored x s) (c : lru_cache)
    (hc : ∀ d ∈ c.payloads, d = 0 ∨ d ∈ s.cache_.payloads ∨ (d < s.next_addr ∧ d ≠ x.addr)) :
    Anchored x { s with cache_ := c } := by
  refine ⟨h.heap_lt, ?_, h.here, ?_, h.nz, h.root, h.head, h.bound, h.proto⟩
  · intro d hd
    rcases hc d hd with h0 | h1 | h2
    · rw [h0]
      exact Nat.lt_of_le_of_lt (Nat.zero_le _) h.anchor_addr_lt
    · exact h.pay_lt d h1
    · exact h2.1
  · intro hd
    rcases hc _ hd with h0 | h1 | h2
    · exact h.nz h0
    · exact h.free h1
    · exact h2.2 rfl

/-- A change of members that the anchor does not mention. -/
theorem anchor_same {x : Anchor} {s : bp_tree} (h : Anchored x s) (s' : bp_tree)
    (hh : s'.heap = s.heap) (hn : s'.next_addr = s.next_addr) (hc : s'.cache_ = s.cache_)
    (hr : s'.root_ = s.root_) (hd : s'.head_ = s.head_)
    (hi : s'.inner_node = s.inner_node) : Anchored x s' := by
  refine ⟨?_, ?_, ?_, ?_, h.nz, hr.trans h.root, hd.trans h.head, ?_, ?_⟩
  · rw [hh, hn]; exact h.heap_lt
  · rw [hc, hn]; exact h.pay_lt
  · rw [hh]; exact h.here
  · rw [hc]; exact h.free
  · rw [hn]; exact h.bound
  · rw [hi]; exact h.proto

/-- The same anchor with the present `next_addr` as its lower bound. -/
theorem anchor_relow {x : Anchor} {s : bp_tree} (hP : Anchored x s) :
    Anchored { x with low := s.next_addr } s :=
  ⟨hP.heap_lt, hP.pay_lt, hP.here, hP.free, hP.nz, hP.root, hP.head, Nat.le_refl _, hP.proto⟩

/-- Back from a raised lower bound to the anchor itself. -/
theorem anchor_unlow {x : Anchor} {l : Nat} {s : bp_tree} (h : Anchored { x with low := l } s)
    (hl : x.low ≤ l) : Anchored x s :=
  ⟨h.heap_lt, h.pay_lt, h.here, h.free, h.nz, h.root, h.head, Nat.le_trans hl h.bound, h.proto⟩

/-- A write of a node derived from the resident one at that address. -/
theorem anchor_store_of {x : Anchor} {s : bp_tree} (hP : Anchored x s) {p : Nat} {n v : Node}
    (hl : s.heap.lookup p = some n) (hk : v.kind = n.kind) (hv : v.level = n.level) :
    Anchored x { s with heap := heap_store s.heap p v } :=
  hP.anchor_store p v (fun hp => by
    rw [hk, hv]
    exact (hP.anchor_of_lookup hl).2 hp)

/-- A completed `store` of a node derived from the resident one. -/
theorem anchor_store_run_of {x : Anchor} {s s' : bp_tree} {r : PUnit} (hP : Anchored x s) {p : Nat}
    {n v : Node} (h : stdext.store p v s = Except.ok (r, s'))
    (hl : s.heap.lookup p = some n) (hk : v.kind = n.kind) (hv : v.level = n.level) :
    Anchored x s' := by
  rw [store_ok h]
  exact hP.anchor_store_of hl hk hv

end Anchored

/-- Method `link_sibling` keeps kind and level. -/
theorem link_sibling_kl {n n' : Node} {node index : Nat}
    (h : n.link_sibling node index = Except.ok n') : n'.kind = n.kind ∧ n'.level = n.level := by
  unfold Node.link_sibling at h
  obtain ⟨sib, _, h⟩ := lru_cache.ebind_ok h
  injection h with h
  rw [← h]
  exact ⟨rfl, rfl⟩

/-- Method `unlink_sibling` keeps kind and level. -/
theorem unlink_sibling_kl {n n' : Node} {index offset : Nat}
    (h : n.unlink_sibling index offset = Except.ok n') : n'.kind = n.kind ∧ n'.level = n.level := by
  unfold Node.unlink_sibling at h
  obtain ⟨sib, _, h⟩ := lru_cache.ebind_ok h
  injection h with h
  rw [← h]
  exact ⟨rfl, rfl⟩

/-- The loop of `_Inner::unlink` keeps kind and level. -/
theorem unlink_loop_kl (node off : Nat) :
    ∀ (fuel i mask : Nat) (par par' : Node), unlink_loop node off fuel i mask par = Except.ok par' →
      par'.kind = par.kind ∧ par'.level = par.level := by
  intro fuel
  induction fuel with
  | zero =>
    intro i mask par par' h
    injection h with h
    rw [← h]
    exact ⟨rfl, rfl⟩
  | succ fuel ih =>
    intro i mask par par' h
    unfold unlink_loop at h
    obtain ⟨c, _, h⟩ := lru_cache.ebind_ok h
    by_cases hc : c = node
    · rw [if_pos hc] at h
      obtain ⟨cs, _, h⟩ := lru_cache.ebind_ok h
      injection h with h
      rw [← h]
      exact ⟨rfl, rfl⟩
    · rw [if_neg hc] at h
      exact ih _ _ _ _ h

namespace Anchored

/-- Method `_Inner::unlink`. -/
theorem anchor_Inner_unlink {x : Anchor} {s s' : bp_tree} {r : PUnit} (this node : Nat)
    (hP : Anchored x s) (h : stdext.Inner_unlink this node s = Except.ok (r, s')) :
    Anchored x s' := by
  unfold stdext.Inner_unlink at h
  obtain ⟨par, _, hl, _, k1⟩ := bind_deref_inner_ok h
  obtain ⟨n, _, _, k2⟩ := bind_deref_ok k1
  obtain ⟨par1, hu, k3⟩ := bind_lift_ok k2
  have hkl := unlink_loop_kl _ _ _ _ _ _ _ hu
  exact hP.anchor_store_run_of k3 hl hkl.1 hkl.2

/-- Destructor `~_Node`. -/
theorem anchor_Node_dtor {x : Anchor} {s s' : bp_tree} {r : PUnit} (this : Nat)
    (hP : Anchored x s) (h : stdext.Node_dtor this s = Except.ok (r, s')) :
    Anchored x s' := by
  unfold stdext.Node_dtor at h
  obtain ⟨n, _, _, k1⟩ := bind_deref_ok h
  rcases ite_ok k1 with ⟨_, k2⟩ | ⟨_, k2⟩
  · exact hP.anchor_Inner_unlink _ _ k2
  · rw [(pure_ok k2).2]
    exact hP

/-- The loop of `~_Inner` and `set_as_parent`. -/
theorem anchor_set_parent_loop {x : Anchor} (this value : Nat) :
    ∀ (fuel i mask : Nat) (s s' : bp_tree) (r : PUnit), Anchored x s →
      stdext.set_parent_loop this value fuel i mask s = Except.ok (r, s') → Anchored x s' := by
  intro fuel
  induction fuel with
  | zero =>
    intro i mask s s' r hP h
    rw [(pure_ok h).2]
    exact hP
  | succ fuel ih =>
    intro i mask s s' r hP h
    unfold stdext.set_parent_loop at h
    obtain ⟨n, _, _, _, k1⟩ := bind_deref_inner_ok h
    dsimp only at k1
    rcases ite_ok k1 with ⟨_, k2⟩ | ⟨_, k2⟩
    · obtain ⟨c, _, k3⟩ := bind_lift_ok k2
      obtain ⟨m, _, hl, k4⟩ := bind_deref_ok k3
      refine ih _ _ _ _ _ ?_ (bind_store_ok k4)
      exact hP.anchor_store_of hl rfl rfl
    · exact ih _ _ _ _ _ hP (bind_pure_ok k2)

/-- Method `set_as_parent`. -/
theorem anchor_set_as_parent {x : Anchor} {s s' : bp_tree} {r : PUnit} (this : Nat)
    (hP : Anchored x s) (h : stdext.set_as_parent this s = Except.ok (r, s')) :
    Anchored x s' := by
  unfold stdext.set_as_parent at h
  obtain ⟨n, _, _, _, k1⟩ := bind_deref_inner_ok h
  exact anchor_set_parent_loop _ _ _ _ _ _ _ _ hP k1

/-- A completed `deallocate`. -/
theorem anchor_deallocate {x : Anchor} {s s' : bp_tree} {r : PUnit} (p : Nat) (hp : p ≠ x.addr)
    (hP : Anchored x s) (h : stdext.deallocate p s = Except.ok (r, s')) :
    Anchored x s' := by
  have hs : s' = { s with heap := s.heap.filter (fun e => e.1 != p) } := modify_ok h
  rw [hs]
  exact hP.anchor_dealloc p hp

/-- The end of both destructors: `~_Node` and the release of the storage. -/
theorem anchor_dtor_tail {x : Anchor} {s s' : bp_tree} {r : PUnit} (this : Nat)
    (hne : this ≠ x.addr) (hP : Anchored x s)
    (h : (do stdext.Node_dtor this; stdext.deallocate this : M PUnit) s = Except.ok (r, s')) :
    Anchored x s' := by
  obtain ⟨u, s1, h1, k1⟩ := bind_ok h
  exact (hP.anchor_Node_dtor _ h1).anchor_deallocate _ hne k1

/-- Destructor of an inner node other than the anchor. -/
theorem anchor_destroy_inner {x : Anchor} {s s' : bp_tree} {r : PUnit} (this : Nat)
    (hne : this ≠ x.addr) (hP : Anchored x s)
    (h : stdext.destroy_inner this s = Except.ok (r, s')) : Anchored x s' := by
  unfold stdext.destroy_inner at h
  obtain ⟨n, _, _, _, k1⟩ := bind_deref_inner_ok h
  dsimp only at k1
  rcases ite_ok k1 with ⟨_, k2⟩ | ⟨_, k2⟩
  · obtain ⟨u, s1, h1, k3⟩ := bind_ok k2
    exact (anchor_set_parent_loop _ _ _ _ _ _ _ _ hP h1).anchor_dtor_tail this hne k3
  · exact hP.anchor_dtor_tail this hne (bind_pure_ok k2)

/-- The second half of `~_Leaf`: the previous leaf gets the offset, then
`~_Node` and the release. -/
theorem anchor_leaf_dtor_tail {x : Anchor} {s s' : bp_tree} {r : PUnit} (this : Nat)
    (hne : this ≠ x.addr) (hP : Anchored x s)
    (h : (do
      let n ← deref_leaf this
      if n.siblings_ptr_bmp &&& sibling_mask_prev ≠ 0 then
        let q ← arr_get n.siblings sibling_prev
        let m ← deref_leaf q
        stdext.store q (← m.unlink_sibling sibling_next n.offset)
      stdext.Node_dtor this
      stdext.deallocate this : M PUnit) s = Except.ok (r, s')) : Anchored x s' := by
  obtain ⟨n, _, _, _, k1⟩ := bind_deref_leaf_ok h
  dsimp only at k1
  rcases ite_ok k1 with ⟨_, k2⟩ | ⟨_, k2⟩
  · obtain ⟨q, _, k3⟩ := bind_lift_ok k2
    obtain ⟨m, _, hl, _, k4⟩ := bind_deref_leaf_ok k3
    obtain ⟨v, hv, k5⟩ := bind_lift_ok k4
    have hkl := unlink_sibling_kl hv
    exact (hP.anchor_store_of hl hkl.1 hkl.2).anchor_dtor_tail this hne (bind_store_ok k5)
  · exact hP.anchor_dtor_tail this hne (bind_pure_ok k2)

/-- Destructor of a leaf other than the anchor. -/
theorem anchor_destroy_leaf {x : Anchor} {s s' : bp_tree} {r : PUnit} (this : Nat)
    (hne : this ≠ x.addr) (hP : Anchored x s)
    (h : stdext.destroy_leaf this s = Except.ok (r, s')) : Anchored x s' := by
  unfold stdext.destroy_leaf at h
  obtain ⟨n, _, _, _, k1⟩ := bind_deref_leaf_ok h
  dsimp only at k1
  rcases ite_ok k1 with ⟨_, k2⟩ | ⟨_, k2⟩
  · obtain ⟨q, _, k3⟩ := bind_lift_ok k2
    obtain ⟨m, _, hl, _, k4⟩ := bind_deref_leaf_ok k3
    obtain ⟨v, hv, k5⟩ := bind_lift_ok k4
    have hkl := unlink_sibling_kl hv
    exact (hP.anchor_store_of hl hkl.1 hkl.2).anchor_leaf_dtor_tail this hne (bind_store_ok k5)
  · exact hP.anchor_leaf_dtor_tail this hne (bind_pure_ok k2)

end Anchored

/-- A completed `get_stream`. -/
theorem get_stream_ok {s s' : bp_tree} {r : bp_tree_default_stream}
    (h : get_stream s = Except.ok (r, s')) : s' = s := by
  unfold get_stream at h
  obtain ⟨t, s1, h1, k1⟩ := bind_ok h
  obtain ⟨_, hs1⟩ := get_ok h1
  rw [hs1] at k1
  rcases ite_ok k1 with ⟨_, k2⟩ | ⟨_, k2⟩
  · exact (pure_ok k2).2
  · cases k2

/-- A completed read through a pointer. -/
theorem heap_deref_ok {h : Heap} {p : Nat} {n : Node} (hh : heap_deref h p = Except.ok n) :
    p ≠ 0 ∧ h.lookup p = some n := by
  refine ⟨?_, ?_⟩
  · intro hp
    simp [heap_deref, hp] at hh
  · unfold heap_deref at hh
    split at hh
    · cases hh
    · split at hh
      · rename_i m hm
        injection hh with hh
        rw [hm, hh]
      · cases hh

/-- Method `_Leaf::save_to` keeps kind and level. -/
theorem Leaf_save_to_kl {S : Nat} {h : Heap} {n : Node} {out : bp_tree_default_stream}
    {r : Node × bp_tree_default_stream × Bool} (hs : Leaf_save_to S h n out = Except.ok r) :
    r.1.kind = n.kind ∧ r.1.level = n.level := by
  unfold Leaf_save_to at hs
  split at hs
  · unfold Leaf_raw_save_to at hs
    obtain ⟨r1, _, h1⟩ := lru_cache.ebind_ok hs
    obtain ⟨s1, _, h2⟩ := lru_cache.ebind_ok h1
    obtain ⟨s2, _, h3⟩ := lru_cache.ebind_ok h2
    split at h3
    · cases h3
    · split at h3
      · cases h3
        exact ⟨rfl, rfl⟩
      · cases h3
        exact ⟨rfl, rfl⟩
  · cases hs
    exact ⟨rfl, rfl⟩

/-- Method `_Inner::save_to` keeps kind and level. -/
theorem Inner_save_to_kl {S : Nat} {h : Heap} {n : Node} {out : bp_tree_default_stream}
    {r : Node × bp_tree_default_stream × Bool} (hs : Inner_save_to S h n out = Except.ok r) :
    r.1.kind = n.kind ∧ r.1.level = n.level := by
  unfold Inner_save_to at hs
  split at hs
  · unfold Inner_raw_save_to at hs
    obtain ⟨r1, _, h1⟩ := lru_cache.ebind_ok hs
    split at h1
    · obtain ⟨o1, _, h2⟩ := lru_cache.ebind_ok h1
      dsimp only at h2
      split at h2
      · cases h2
        exact ⟨rfl, rfl⟩
      · cases h2
        exact ⟨rfl, rfl⟩
    · cases h1
      exact ⟨rfl, rfl⟩
  · cases hs
    exact ⟨rfl, rfl⟩

namespace Anchored

/-- Call `save_to` on a leaf. -/
theorem anchor_leaf_save {x : Anchor} {s s' : bp_tree} {r : Bool} (this : Nat)
    (hP : Anchored x s) (h : stdext.leaf_save this s = Except.ok (r, s')) : Anchored x s' := by
  unfold stdext.leaf_save at h
  have k1 := bind_get_ok h
  obtain ⟨n, _, hl, _, k2⟩ := bind_deref_leaf_ok k1
  obtain ⟨q, hq, k3⟩ := bind_lift_ok k2
  have hkl := Leaf_save_to_kl hq
  have k4 := bind_store_ok k3
  have k5 := bind_modify_ok k4
  rw [(pure_ok k5).2]
  exact (hP.anchor_store_of hl hkl.1 hkl.2).anchor_same _ rfl rfl rfl rfl rfl rfl

/-- Call `save_to` on an inner node. -/
theorem anchor_inner_save {x : Anchor} {s s' : bp_tree} {r : Bool} (this : Nat)
    (hP : Anchored x s) (h : stdext.inner_save this s = Except.ok (r, s')) : Anchored x s' := by
  unfold stdext.inner_save at h
  have k1 := bind_get_ok h
  obtain ⟨n, _, hl, _, k2⟩ := bind_deref_inner_ok k1
  obtain ⟨q, hq, k3⟩ := bind_lift_ok k2
  have hkl := Inner_save_to_kl hq
  have k4 := bind_store_ok k3
  have k5 := bind_modify_ok k4
  rw [(pure_ok k5).2]
  exact (hP.anchor_store_of hl hkl.1 hkl.2).anchor_same _ rfl rfl rfl rfl rfl rfl

/-- Call `load_from` on a leaf, on the stream next to the tree. -/
theorem anchor_leaf_load_io {x : Anchor} {s s' : bp_tree} {r : Bool} (this : Nat)
    (hP : Anchored x s) (h : stdext.leaf_load_io this s = Except.ok (r, s')) : Anchored x s' := by
  obtain ⟨n, q, hn, hq, hs⟩ := leaf_load_io_inv h
  have hf := Leaf_load_from_frame hq
  rw [hs]
  exact (hP.anchor_store_of (heap_deref_ok hn).2 hf.2.2.1 hf.2.1).anchor_same _ rfl rfl rfl rfl rfl rfl

/-- Call `load_from` on an inner node, on the stream next to the tree. -/
theorem anchor_inner_load_io {x : Anchor} {s s' : bp_tree} {r : Bool} (this : Nat)
    (hP : Anchored x s) (h : stdext.inner_load_io this s = Except.ok (r, s')) : Anchored x s' := by
  obtain ⟨n, q, hn, hq, hs⟩ := inner_load_io_inv h
  have hf := Inner_load_from_frame hq
  rw [hs]
  exact (hP.anchor_store_of (heap_deref_ok hn).2 hf.2.2.1 hf.2.1).anchor_same _ rfl rfl rfl rfl rfl rfl

/-- Call `load_from( get_stream())` on a leaf. -/
theorem anchor_leaf_load {x : Anchor} {s s' : bp_tree} {r : Bool} (this : Nat)
    (hP : Anchored x s) (h : stdext.leaf_load this s = Except.ok (r, s')) : Anchored x s' := by
  unfold stdext.leaf_load at h
  obtain ⟨t, s1, h1, k1⟩ := bind_ok h
  rw [get_stream_ok h1] at k1
  exact hP.anchor_leaf_load_io this k1

/-- Call `load_from( get_stream())` on an inner node. -/
theorem anchor_inner_load {x : Anchor} {s s' : bp_tree} {r : Bool} (this : Nat)
    (hP : Anchored x s) (h : stdext.inner_load this s = Except.ok (r, s')) : Anchored x s' := by
  unfold stdext.inner_load at h
  obtain ⟨t, s1, h1, k1⟩ := bind_ok h
  rw [get_stream_ok h1] at k1
  exact hP.anchor_inner_load_io this k1

/-- The eviction observer on a node other than the anchor. -/
theorem anchor_nodeman_call {x : Anchor} {s s' : bp_tree} {r : PUnit} (node : Nat)
    (hne : node ≠ x.addr) (hP : Anchored x s)
    (h : stdext.nodeman_call node s = Except.ok (r, s')) : Anchored x s' := by
  unfold stdext.nodeman_call at h
  obtain ⟨n, _, _, k1⟩ := bind_deref_ok h
  have k2 := bind_get_ok k1
  dsimp only at k2
  rcases ite_ok k2 with ⟨_, k3⟩ | ⟨_, k3⟩
  · rcases ite_ok k3 with ⟨_, k4⟩ | ⟨_, k4⟩
    · obtain ⟨u, s3, h3, k5⟩ := bind_ok k4
      exact (hP.anchor_leaf_save node h3).anchor_destroy_leaf node hne k5
    · exact hP.anchor_destroy_leaf node hne (bind_pure_ok k4)
  · rcases ite_ok k3 with ⟨_, k4⟩ | ⟨_, k4⟩
    · obtain ⟨u, s3, h3, k5⟩ := bind_ok k4
      exact (hP.anchor_inner_save node h3).anchor_destroy_inner node hne k5
    · exact hP.anchor_destroy_inner node hne (bind_pure_ok k4)

/-- Call `cache_.touch`. -/
theorem anchor_cache_touch {x : Anchor} {s s' : bp_tree} {r : PUnit} (key : Nat)
    (hP : Anchored x s) (h : stdext.cache_touch key s = Except.ok (r, s')) : Anchored x s' := by
  unfold stdext.cache_touch at h
  have k1 := bind_get_ok h
  obtain ⟨c, hc, k2⟩ := bind_lift_ok k1
  rw [modify_ok k2]
  exact hP.anchor_recache c (fun d hd => Or.inr (Or.inl (lru_cache.payloads_touch hc d hd)))

/-- Call `cache_.find`. -/
theorem anchor_cache_find {x : Anchor} {s s' : bp_tree} {r : Option Nat} (key : Nat)
    (hP : Anchored x s) (h : stdext.cache_find key s = Except.ok (r, s')) : Anchored x s' := by
  unfold stdext.cache_find at h
  have k1 := bind_get_ok h
  obtain ⟨c, hc, k2⟩ := bind_lift_ok k1
  have k3 := bind_modify_ok k2
  rw [(pure_ok k3).2]
  exact hP.anchor_recache c.2 (fun d hd => Or.inr (Or.inl ((lru_cache.payloads_find hc).1 d hd)))

/-- Call `cache_.get`, with the observer on the evicted payload. -/
theorem anchor_cache_get {x : Anchor} {s s' : bp_tree} {r : Nat × Bool} (key : Nat)
    (hP : Anchored x s) (h : stdext.cache_get key s = Except.ok (r, s')) : Anchored x s' := by
  unfold stdext.cache_get at h
  have k1 := bind_get_ok h
  obtain ⟨c, hc, k2⟩ := bind_lift_ok k1
  obtain ⟨c1, ev, c2⟩ := c
  have k3 := bind_modify_ok k2
  have hpay := lru_cache.payloads_get hc
  have hP3 : Anchored x { s with cache_ := c2 } :=
    hP.anchor_recache c2 (fun d hd => by
      rcases hpay.1 d hd with h0 | h1
      · exact Or.inl h0
      · exact Or.inr (Or.inl h1))
  cases ev with
  | some d =>
    dsimp only at k3
    obtain ⟨u2, s4, h4, k4⟩ := bind_ok k3
    rw [(pure_ok k4).2]
    exact hP3.anchor_nodeman_call d (fun hda => hP.free (hda ▸ hpay.2 d rfl)) h4
  | none =>
    dsimp only at k3
    have k4 := bind_pure_ok k3
    rw [(pure_ok k4).2]
    exact hP3

/-- Assignment through a cache iterator of a node other than the anchor. -/
theorem anchor_cache_assign {x : Anchor} {s s' : bp_tree} {r : PUnit} (it node : Nat)
    (hne : node ≠ x.addr) (hlt : node < s.next_addr)
    (hP : Anchored x s) (h : stdext.cache_assign it node s = Except.ok (r, s')) :
    Anchored x s' := by
  unfold stdext.cache_assign at h
  have k1 := bind_get_ok h
  obtain ⟨c, hc, k2⟩ := bind_lift_ok k1
  rw [modify_ok k2]
  exact hP.anchor_recache c (fun d hd => by
    rcases lru_cache.payloads_set_data hc d hd with h0 | h1
    · exact Or.inr (Or.inr ⟨h0 ▸ hlt, h0 ▸ hne⟩)
    · exact Or.inr (Or.inl h1))

/-- Method `cache_new_node` on a node other than the anchor. -/
theorem anchor_cache_new_node {x : Anchor} {s s' : bp_tree} {r : PUnit} (node : Nat)
    (hne : node ≠ x.addr) (hP : Anchored x s)
    (h : stdext.cache_new_node node s = Except.ok (r, s')) : Anchored x s' := by
  unfold stdext.cache_new_node at h
  obtain ⟨n, _, hl, k1⟩ := bind_deref_ok h
  obtain ⟨pos, s1, h1, k2⟩ := bind_ok k1
  have hP1 := hP.anchor_cache_get _ h1
  rcases ite_ok k2 with ⟨_, k3⟩ | ⟨_, k3⟩
  · refine hP1.anchor_cache_assign _ node hne ?_ k3
    exact Nat.lt_of_lt_of_le (hP.anchor_of_lookup hl).1 (hP.anchor_relow.anchor_cache_get _ h1).bound
  · rw [(pure_ok k3).2]
    exact hP1


/-- Method `allocate_inner`: the new node is at the old `next_addr`. -/
theorem anchor_allocate_inner {x : Anchor} {s s' : bp_tree} {r : Nat} (offset parent level : Nat)
    (hP : Anchored x s) (h : stdext.allocate_inner offset parent level s = Except.ok (r, s')) :
    Anchored x s' ∧ r = s.next_addr ∧ s'.next_addr = s.next_addr + 1
      ∧ (∃ v, s'.heap.lookup r = some v ∧ v.kind = Kind.inner ∧ v.level = level % 256)
      ∧ s'.root_ = s.root_ ∧ s'.cache_ = s.cache_ := by
  rw [allocate_inner_run] at h
  cases h
  refine ⟨hP.anchor_alloc { s.inner_node with offset := offset, parent := parent, level := level % 256 } _
    rfl rfl rfl rfl rfl hP.proto, rfl, rfl, ?_, rfl, rfl⟩
  refine ⟨{ s.inner_node with offset := offset, parent := parent, level := level % 256 }, ?_,
    hP.proto, rfl⟩
  simp [List.lookup]

/-- Method `allocate_leaf`: the new node is at the old `next_addr`. -/
theorem anchor_allocate_leaf {x : Anchor} {s s' : bp_tree} {r : Nat} (offset parent : Nat)
    (hP : Anchored x s) (h : stdext.allocate_leaf offset parent s = Except.ok (r, s')) :
    Anchored x s' ∧ r = s.next_addr ∧ s'.next_addr = s.next_addr + 1 := by
  rw [allocate_leaf_run] at h
  cases h
  exact ⟨hP.anchor_alloc { s.leaf_node with offset := offset, parent := parent } _ rfl rfl rfl rfl rfl
    hP.proto, rfl, rfl⟩

/-- Method `cache_node` on a node other than the anchor. -/
theorem anchor_cache_node {x : Anchor} {s s' : bp_tree} {r : PUnit} (node : Nat)
    (hne : node ≠ x.addr) (hP : Anchored x s)
    (h : stdext.cache_node node s = Except.ok (r, s')) : Anchored x s' := by
  unfold stdext.cache_node at h
  have k1 := bind_get_ok h
  rcases ite_ok k1 with ⟨_, k2⟩ | ⟨_, k2⟩
  · exact hP.anchor_cache_new_node node hne k2
  · rw [(pure_ok k2).2]
    exact hP

/-- Method `_Inner::link`. -/
theorem anchor_Inner_link {x : Anchor} {s s' : bp_tree} {r : PUnit} (this index node : Nat)
    (hP : Anchored x s) (h : stdext.Inner_link this index node s = Except.ok (r, s')) :
    Anchored x s' := by
  unfold stdext.Inner_link at h
  obtain ⟨m, _, hl, k1⟩ := bind_deref_ok h
  have k2 := bind_store_ok k1
  have hP2 : Anchored x { s with heap := heap_store s.heap node { m with parent := this } } :=
    hP.anchor_store_of hl rfl rfl
  obtain ⟨n, _, hl2, _, k3⟩ := bind_deref_inner_ok k2
  dsimp only at k3
  rcases ite_ok k3 with ⟨_, k4⟩ | ⟨_, k4⟩
  · obtain ⟨_, _, h4, _⟩ := bind_ok k4
    cases h4
  · have k5 := bind_pure_ok k4
    obtain ⟨cs, _, k6⟩ := bind_lift_ok k5
    exact hP2.anchor_store_run_of k6 hl2 rfl rfl

/-- Static function `link_siblings`. -/
theorem anchor_link_siblings {x : Anchor} {s s' : bp_tree} {r : PUnit} (a b : Nat)
    (hP : Anchored x s) (h : stdext.link_siblings a b s = Except.ok (r, s')) :
    Anchored x s' := by
  unfold stdext.link_siblings at h
  obtain ⟨na, _, hl, _, k1⟩ := bind_deref_leaf_ok h
  obtain ⟨va, hva, k2⟩ := bind_lift_ok k1
  have k3 := bind_store_ok k2
  have hkl := link_sibling_kl hva
  have hP2 := hP.anchor_store_of (p := a) hl hkl.1 hkl.2
  obtain ⟨nb, _, hl2, _, k4⟩ := bind_deref_leaf_ok k3
  obtain ⟨vb, hvb, k5⟩ := bind_lift_ok k4
  have hkl2 := link_sibling_kl hvb
  exact hP2.anchor_store_run_of k5 hl2 hkl2.1 hkl2.2

/-- The second half of `link_possible_siblings`. -/
theorem anchor_link_possible_prev {x : Anchor} {s s' : bp_tree} {r : PUnit} (t : bp_tree) (node : Nat)
    (hP : Anchored x s)
    (h : (do
      let n ← deref_leaf node
      let off ← arr_get n.siblings sibling_prev
      let hd ← deref_leaf t.head_
      if off = hd.offset then stdext.link_siblings t.head_ node
      else
        match (← stdext.cache_find off) with
        | some sibling => stdext.link_siblings sibling node
        | none => pure () : M PUnit) s = Except.ok (r, s')) : Anchored x s' := by
  obtain ⟨n, _, _, _, k1⟩ := bind_deref_leaf_ok h
  obtain ⟨off, _, k2⟩ := bind_lift_ok k1
  obtain ⟨hd, _, _, _, k3⟩ := bind_deref_leaf_ok k2
  rcases ite_ok k3 with ⟨_, k4⟩ | ⟨_, k4⟩
  · exact hP.anchor_link_siblings _ _ k4
  · obtain ⟨o, s1, h1, k5⟩ := bind_ok k4
    have hP1 := hP.anchor_cache_find _ h1
    cases o with
    | some sibling =>
      dsimp only at k5
      exact hP1.anchor_link_siblings _ _ k5
    | none =>
      dsimp only at k5
      rw [(pure_ok k5).2]
      exact hP1

/-- Method `link_possible_siblings`. -/
theorem anchor_link_possible_siblings {x : Anchor} {s s' : bp_tree} {r : PUnit} (node : Nat)
    (hP : Anchored x s) (h : stdext.link_possible_siblings node s = Except.ok (r, s')) :
    Anchored x s' := by
  unfold stdext.link_possible_siblings at h
  have k0 := bind_get_ok h
  obtain ⟨n, _, _, _, k1⟩ := bind_deref_leaf_ok k0
  obtain ⟨off, _, k2⟩ := bind_lift_ok k1
  obtain ⟨tl, _, _, _, k3⟩ := bind_deref_leaf_ok k2
  dsimp only at k3
  rcases ite_ok k3 with ⟨_, k4⟩ | ⟨_, k4⟩
  · obtain ⟨u, s1, h1, k5⟩ := bind_ok k4
    exact (hP.anchor_link_siblings _ _ h1).anchor_link_possible_prev s node k5
  · obtain ⟨o, s1, h1, k5⟩ := bind_ok k4
    have hP1 := hP.anchor_cache_find _ h1
    cases o with
    | some sibling =>
      dsimp only at k5
      obtain ⟨u, s2, h2, k6⟩ := bind_ok k5
      exact (hP1.anchor_link_siblings _ _ h2).anchor_link_possible_prev s node k6
    | none =>
      dsimp only at k5
      exact hP1.anchor_link_possible_prev s node (bind_pure_ok k5)


/-- The end of `get_child`: the child is linked to the node. -/
theorem anchor_link_tail {x : Anchor} {s s' : bp_tree} {r : Nat} (node pos child : Nat)
    (hP : Anchored x s)
    (h : (do stdext.Inner_link node pos child; pure child : M Nat) s = Except.ok (r, s')) :
    Anchored x s' := by
  obtain ⟨u, s1, h1, k1⟩ := bind_ok h
  rw [(pure_ok k1).2]
  exact hP.anchor_Inner_link _ _ _ h1

/-- Method `get_child` behind the touch of the node: the child is resident,
or it is loaded and linked. -/
theorem anchor_get_child_rest {x : Anchor} {s s' : bp_tree} {r : Nat} (t : bp_tree) (n : Node)
    (node pos : Nat) (hP : Anchored x s)
    (h : (do
      if (← n.is_ptr_at pos) then
        let child ← arr_get n.children pos
        let c ← deref child
        let hd ← deref t.head_
        if c.offset ≠ hd.offset then
          let tl ← deref t.tail_
          if c.offset ≠ tl.offset then stdext.cache_touch c.offset
        pure child
      else
        let offset ← arr_get n.children pos
        let child ← if n.level ≠ 1 then do
            let item ← stdext.allocate_inner offset node ((n.level + (2 ^ 64 - 1)) % 2 ^ 64)
            let _ ← stdext.inner_load item
            stdext.cache_new_node item
            pure item
          else do
            let hd ← deref t.head_
            if offset = hd.offset then pure t.head_
            else
              let tl ← deref t.tail_
              if offset = tl.offset then pure t.tail_
              else
                let item ← stdext.allocate_leaf offset node
                let _ ← stdext.leaf_load item
                stdext.link_possible_siblings item
                stdext.cache_new_node item
                pure item
        stdext.Inner_link node pos child
        pure child : M Nat) s = Except.ok (r, s')) : Anchored x s' := by
  obtain ⟨b, _, k1⟩ := bind_lift_ok h
  rcases ite_ok k1 with ⟨_, k2⟩ | ⟨_, k2⟩
  · obtain ⟨child, _, k3⟩ := bind_lift_ok k2
    obtain ⟨c, _, _, k4⟩ := bind_deref_ok k3
    obtain ⟨hd, _, _, k5⟩ := bind_deref_ok k4
    dsimp only at k5
    rcases ite_ok k5 with ⟨_, k6⟩ | ⟨_, k6⟩
    · obtain ⟨tl, _, _, k7⟩ := bind_deref_ok k6
      rcases ite_ok k7 with ⟨_, k8⟩ | ⟨_, k8⟩
      · obtain ⟨u, s1, h1, k9⟩ := bind_ok k8
        rw [(pure_ok k9).2]
        exact hP.anchor_cache_touch _ h1
      · rw [(pure_ok (bind_pure_ok k8)).2]
        exact hP
    · rw [(pure_ok (bind_pure_ok k6)).2]
      exact hP
  · obtain ⟨offset, _, k3⟩ := bind_lift_ok k2
    dsimp only at k3
    rcases ite_ok k3 with ⟨_, g1⟩ | ⟨_, g1⟩
    · obtain ⟨item, s2, h2, g2⟩ := bind_ok g1
      obtain ⟨hP2, hitem, _⟩ := hP.anchor_allocate_inner _ _ _ h2
      obtain ⟨u, s3, h3, g3⟩ := bind_ok g2
      have hP3 := hP2.anchor_inner_load _ h3
      obtain ⟨u2, s4, h4, g4⟩ := bind_ok g3
      have hP4 := hP3.anchor_cache_new_node item (by rw [hitem]; exact Nat.ne_of_gt hP.anchor_addr_lt) h4
      exact hP4.anchor_link_tail _ _ _ (bind_pure_ok g4)
    · obtain ⟨hd, _, _, g2⟩ := bind_deref_ok g1
      rcases ite_ok g2 with ⟨_, g3⟩ | ⟨_, g3⟩
      · exact hP.anchor_link_tail _ _ _ (bind_pure_ok g3)
      · obtain ⟨tl, _, _, g4⟩ := bind_deref_ok g3
        rcases ite_ok g4 with ⟨_, g5⟩ | ⟨_, g5⟩
        · exact hP.anchor_link_tail _ _ _ (bind_pure_ok g5)
        · obtain ⟨item, s2, h2, g6⟩ := bind_ok g5
          obtain ⟨hP2, hitem, _⟩ := hP.anchor_allocate_leaf _ _ h2
          obtain ⟨u, s3, h3, g7⟩ := bind_ok g6
          have hP3 := hP2.anchor_leaf_load _ h3
          obtain ⟨u2, s4, h4, g8⟩ := bind_ok g7
          have hP4 := hP3.anchor_link_possible_siblings _ h4
          obtain ⟨u3, s5, h5, g9⟩ := bind_ok g8
          have hP5 := hP4.anchor_cache_new_node item (by rw [hitem]; exact Nat.ne_of_gt hP.anchor_addr_lt) h5
          exact hP5.anchor_link_tail _ _ _ (bind_pure_ok g9)

/-- Method `get_child`. -/
theorem anchor_get_child {x : Anchor} {s s' : bp_tree} {r : Nat} (node pos : Nat)
    (hP : Anchored x s) (h : stdext.get_child node pos s = Except.ok (r, s')) :
    Anchored x s' := by
  unfold stdext.get_child at h
  have k0 := bind_get_ok h
  obtain ⟨n, _, _, _, k1⟩ := bind_deref_inner_ok k0
  dsimp only at k1
  rcases ite_ok k1 with ⟨_, k2⟩ | ⟨_, k2⟩
  · obtain ⟨u, s1, h1, k3⟩ := bind_ok k2
    exact (hP.anchor_cache_touch _ h1).anchor_get_child_rest s n node pos k3
  · exact hP.anchor_get_child_rest s n node pos (bind_pure_ok k2)

/-- The end of `get_sibling`: the leaf is linked to the sibling found, and
a sibling that was loaded is put into the cache. -/
theorem anchor_sibling_tail {x : Anchor} {s s' : bp_tree} {r : Nat} (node index raw : Nat)
    (q : Bool × Nat) (hq : q.1 = true → q.2 ≠ x.addr ∧ q.2 < s.next_addr) (hP : Anchored x s)
    (h : (do
      let n ← deref_leaf node
      stdext.store node (← n.link_sibling q.2 index)
      if q.1 then
        let res ← stdext.cache_get raw
        stdext.cache_assign res.1 q.2
      pure q.2 : M Nat) s = Except.ok (r, s')) : Anchored x s' := by
  obtain ⟨n, _, hl, _, k1⟩ := bind_deref_leaf_ok h
  obtain ⟨v, hv, k2⟩ := bind_lift_ok k1
  have k3 := bind_store_ok k2
  have hkl := link_sibling_kl hv
  have hP2 := hP.anchor_store_of (p := node) hl hkl.1 hkl.2
  dsimp only at k3
  rcases ite_ok k3 with ⟨hr, k4⟩ | ⟨_, k4⟩
  · obtain ⟨res, s1, h1, k5⟩ := bind_ok k4
    obtain ⟨u, s2, h2, k6⟩ := bind_ok k5
    rw [(pure_ok k6).2]
    have hP3 := hP2.anchor_cache_get _ h1
    have hle := (hP2.anchor_relow.anchor_cache_get _ h1).bound
    exact hP3.anchor_cache_assign _ _ (hq hr).1 (Nat.lt_of_lt_of_le (hq hr).2 hle) h2
  · rw [(pure_ok (bind_pure_ok k4)).2]
    exact hP2

/-- Method `get_sibling`. -/
theorem anchor_get_sibling {x : Anchor} {s s' : bp_tree} {r : Nat} (node index : Nat)
    (hP : Anchored x s) (h : stdext.get_sibling node index s = Except.ok (r, s')) :
    Anchored x s' := by
  unfold stdext.get_sibling at h
  obtain ⟨n, _, _, _, k1⟩ := bind_deref_leaf_ok h
  obtain ⟨u, s1, h1, k2⟩ := bind_ok k1
  have hP1 := hP.anchor_cache_touch _ h1
  obtain ⟨raw, _, k3⟩ := bind_lift_ok k2
  rcases ite_ok k3 with ⟨_, k4⟩ | ⟨_, k4⟩
  · rw [(pure_ok k4).2]
    exact hP1
  · rcases ite_ok k4 with ⟨_, k5⟩ | ⟨_, k5⟩
    · obtain ⟨leaf, _, _, _, k6⟩ := bind_deref_leaf_ok k5
      obtain ⟨u2, s2, h2, k7⟩ := bind_ok k6
      rw [(pure_ok k7).2]
      exact hP1.anchor_cache_touch _ h2
    · have k6 := bind_get_ok k5
      dsimp only at k6
      obtain ⟨hd, _, hlh, _, k7⟩ := bind_deref_leaf_ok k6
      rcases ite_ok k7 with ⟨_, k8⟩ | ⟨_, k8⟩
      · obtain ⟨v, hv, k9⟩ := bind_lift_ok k8
        have k10 := bind_store_ok k9
        have hkl := link_sibling_kl hv
        have hP2 := hP1.anchor_store_of (p := s1.head_) hlh hkl.1 hkl.2
        exact hP2.anchor_sibling_tail node index raw (false, s1.head_) (fun hf => by cases hf)
          (bind_pure_ok k10)
      · obtain ⟨tl, _, hlt, _, k9⟩ := bind_deref_leaf_ok k8
        rcases ite_ok k9 with ⟨_, k10⟩ | ⟨_, k10⟩
        · obtain ⟨v, hv, k11⟩ := bind_lift_ok k10
          have k12 := bind_store_ok k11
          have hkl := link_sibling_kl hv
          have hP2 := hP1.anchor_store_of (p := s1.tail_) hlt hkl.1 hkl.2
          exact hP2.anchor_sibling_tail node index raw (false, s1.tail_) (fun hf => by cases hf)
            (bind_pure_ok k12)
        · obtain ⟨item, s2, h2, k11⟩ := bind_ok k10
          obtain ⟨hP2, hitem, hnext⟩ := hP1.anchor_allocate_leaf _ _ h2
          obtain ⟨u3, s3, h3, k12⟩ := bind_ok k11
          have hP3 := hP2.anchor_leaf_load _ h3
          have hle3 := (hP2.anchor_relow.anchor_leaf_load _ h3).bound
          obtain ⟨u4, s4, h4, k13⟩ := bind_ok k12
          have hP4 := hP3.anchor_link_possible_siblings _ h4
          have hle4 := (hP3.anchor_relow.anchor_link_possible_siblings _ h4).bound
          refine hP4.anchor_sibling_tail node index raw (true, item) (fun _ => ⟨?_, ?_⟩) (bind_pure_ok k13)
          · show item ≠ x.addr
            rw [hitem]
            exact Nat.ne_of_gt hP1.anchor_addr_lt
          · show item < s4.next_addr
            have h5 : s2.next_addr ≤ s3.next_addr := hle3
            have h6 : s3.next_addr ≤ s4.next_addr := hle4
            omega


/-- Method `_Inner::insert`. -/
theorem anchor_Inner_insert {x : Anchor} {s s' : bp_tree} {r : PUnit} (this key node : Nat)
    (hP : Anchored x s) (h : stdext.Inner_insert this key node s = Except.ok (r, s')) :
    Anchored x s' := by
  unfold stdext.Inner_insert at h
  obtain ⟨n, _, hl, _, k1⟩ := bind_deref_inner_ok h
  obtain ⟨pos, _, k2⟩ := bind_lift_ok k1
  obtain ⟨q, _, k3⟩ := bind_lift_ok k2
  have k4 := bind_store_ok k3
  refine Anchored.anchor_Inner_link _ _ _ ?_ k4
  exact hP.anchor_store_of hl rfl rfl

/-- Method `_Inner::split`. -/
theorem anchor_Inner_split {x : Anchor} {s s' : bp_tree} {r : Nat} (this new_inner key new_child : Nat)
    (hP : Anchored x s)
    (h : stdext.Inner_split this new_inner key new_child s = Except.ok (r, s')) :
    Anchored x s' := by
  unfold stdext.Inner_split at h
  have k0 := bind_get_ok h
  obtain ⟨n, _, hl, _, k1⟩ := bind_deref_inner_ok k0
  obtain ⟨d, _, hld, _, k2⟩ := bind_deref_inner_ok k1
  obtain ⟨pos, _, k3⟩ := bind_lift_ok k2
  obtain ⟨q, _, k4⟩ := bind_lift_ok k3
  have k5 := bind_store_ok k4
  obtain ⟨cs, _, k6⟩ := bind_lift_ok k5
  have k7 := bind_store_ok k6
  obtain ⟨u, s1, h1, k8⟩ := bind_ok k7
  obtain ⟨n2, _, _, _, k9⟩ := bind_deref_inner_ok k8
  rw [(lift_inv k9).2]
  refine Anchored.anchor_set_as_parent _ ?_ h1
  refine Anchored.anchor_store ?_ _ _ (fun hp => (hP.anchor_of_lookup hld).2 hp)
  exact hP.anchor_store_of hl rfl rfl

/-- Method `_Leaf::insert`. -/
theorem anchor_Leaf_insert {x : Anchor} {s s' : bp_tree} {r : PUnit} (this key pos : Nat)
    (hP : Anchored x s) (h : stdext.Leaf_insert this key pos s = Except.ok (r, s')) :
    Anchored x s' := by
  unfold stdext.Leaf_insert at h
  obtain ⟨n, _, hl, _, k1⟩ := bind_deref_leaf_ok h
  obtain ⟨q, _, k2⟩ := bind_lift_ok k1
  exact hP.anchor_store_run_of k2 hl rfl rfl

/-- Method `_Leaf::split`. -/
theorem anchor_Leaf_split {x : Anchor} {s s' : bp_tree} {r : (Nat × Nat) × Nat}
    (this new_leaf key : Nat) (hP : Anchored x s)
    (h : stdext.Leaf_split this new_leaf key s = Except.ok (r, s')) : Anchored x s' := by
  unfold stdext.Leaf_split at h
  have k0 := bind_get_ok h
  obtain ⟨n, _, hl, _, k1⟩ := bind_deref_leaf_ok k0
  obtain ⟨d, _, hld, _, k2⟩ := bind_deref_leaf_ok k1
  obtain ⟨pos, _, k3⟩ := bind_lift_ok k2
  obtain ⟨q, _, k4⟩ := bind_lift_ok k3
  have k5 := bind_store_ok k4
  have k6 := bind_store_ok k5
  obtain ⟨v, _, k7⟩ := bind_lift_ok k6
  rw [(pure_ok k7).2]
  refine Anchored.anchor_store ?_ _ _ (fun hp => (hP.anchor_of_lookup hld).2 hp)
  exact hP.anchor_store_of hl rfl rfl

/-- Assignment through a cursor. -/
theorem anchor_it_assign {x : Anchor} {s s' : bp_tree} {r : PUnit} (it : Nat × Nat) (v : Nat)
    (hP : Anchored x s) (h : stdext.it_assign it v s = Except.ok (r, s')) : Anchored x s' := by
  unfold stdext.it_assign at h
  obtain ⟨n, _, hl, _, k1⟩ := bind_deref_leaf_ok h
  obtain ⟨q, _, k2⟩ := bind_lift_ok k1
  exact hP.anchor_store_run_of k2 hl rfl rfl


/-- The end of the leaf split in `insert_descend`: the two halves are linked,
the tail moves to the new leaf, and the old leaf goes into the cache unless
it is the head. -/
theorem anchor_leaf_split_tail {x : Anchor} {s s' : bp_tree} {r : (Nat × Nat) × Nat × Nat}
    (hhead : x.kind = Kind.leaf → x.head = x.addr) (node_item new_node : Nat)
    (q : (Nat × Nat) × Nat) (hP : Anchored x s)
    (h : (do
      stdext.link_siblings node_item new_node
      let nd ← deref_leaf node_item
      stdext.store node_item { nd with siblings_changes_bmp := nd.siblings_changes_bmp ||| sibling_mask_next }
      let t2 ← get
      if t2.tail_ = node_item then
        modify fun u => { u with tail_ := new_node }
        if node_item ≠ t2.head_ then stdext.cache_new_node node_item
      pure (q.1, q.2, new_node) : M ((Nat × Nat) × Nat × Nat)) s = Except.ok (r, s')) :
    Anchored x s' ∧ r.2.2 = new_node := by
  obtain ⟨u, s1, h1, k1⟩ := bind_ok h
  have hP1 := hP.anchor_link_siblings _ _ h1
  obtain ⟨nd, _, hl, hk, k2⟩ := bind_deref_leaf_ok k1
  have k3 := bind_store_ok k2
  have hP3 := hP1.anchor_store_of (p := node_item)
    (v := { nd with siblings_changes_bmp := nd.siblings_changes_bmp ||| sibling_mask_next })
    hl rfl rfl
  have k4 := bind_get_ok k3
  dsimp only at k4
  rcases ite_ok k4 with ⟨_, k5⟩ | ⟨_, k5⟩
  · obtain ⟨u1, s2, h2, k6⟩ := bind_ok k5
    have hs2 := modify_ok h2
    have hP6 : Anchored x s2 := by
      rw [hs2]
      exact hP3.anchor_same _ rfl rfl rfl rfl rfl rfl
    rcases ite_ok k6 with ⟨hne, k7⟩ | ⟨_, k7⟩
    · obtain ⟨u2, s3, h3, k8⟩ := bind_ok k7
      obtain ⟨hr, hs⟩ := pure_ok k8
      rw [hr, hs]
      refine ⟨hP6.anchor_cache_new_node node_item ?_ h3, rfl⟩
      intro hx
      have hkx := ((hP1.anchor_of_lookup hl).2 hx).1
      have hh : s1.head_ = x.head := hP1.head
      exact hne (by
        show node_item = s1.head_
        rw [hh, hhead (hkx.symm.trans hk), hx])
    · obtain ⟨hr, hs⟩ := pure_ok (bind_pure_ok k7)
      rw [hr, hs]
      exact ⟨hP6, rfl⟩
  · obtain ⟨hr, hs⟩ := pure_ok (bind_pure_ok k5)
    rw [hr, hs]
    exact ⟨hP3, rfl⟩

/-- Method `insert_descend`: the anchor stays, and a node returned as split
off is below `next_addr`. -/
theorem anchor_insert_descend {x : Anchor} (hhead : x.kind = Kind.leaf → x.head = x.addr) (key : Nat) :
    ∀ (fuel node_item : Nat) (s s' : bp_tree) (r : (Nat × Nat) × Nat × Nat), Anchored x s →
      stdext.insert_descend fuel node_item key s = Except.ok (r, s') →
      Anchored x s' ∧ (r.2.2 = 0 ∨ r.2.2 < s'.next_addr)
        ∧ (∀ m, s.heap.lookup node_item = some m → m.level = 0 →
            m.used_slots = s.slot_count → r.2.2 ≠ 0) := by
  intro fuel
  induction fuel with
  | zero =>
    intro node_item s s' r hP h
    cases h
  | succ fuel ih =>
    intro node_item s s' r hP h
    unfold stdext.insert_descend at h
    have k0 := bind_get_ok h
    obtain ⟨n, _, hln, k1⟩ := bind_deref_ok k0
    obtain ⟨slot, _, k2⟩ := bind_lift_ok k1
    rcases ite_ok k2 with ⟨hc, k3⟩ | ⟨_, k3⟩
    · have hno : ∀ {P : Prop} (m : Node), s.heap.lookup node_item = some m → m.level = 0 →
          m.used_slots = s.slot_count → P := by
        intro P m hm hlev _
        exfalso
        rw [hln] at hm
        cases hm
        simp [Node.is_leaf, hlev] at hc
      obtain ⟨child, s1, h1, k4⟩ := bind_ok k3
      have hP1 := hP.anchor_get_child _ _ h1
      obtain ⟨q, s2, h2, k5⟩ := bind_ok k4
      obtain ⟨hP2, _, _⟩ := ih _ _ _ _ hP1 h2
      dsimp only at k5
      rcases ite_ok k5 with ⟨_, k6⟩ | ⟨_, k6⟩
      · obtain ⟨node, _, _, _, k7⟩ := bind_deref_inner_ok k6
        rcases ite_ok k7 with ⟨_, k8⟩ | ⟨_, k8⟩
        · have k9 := bind_get_ok k8
          obtain ⟨new_node, s3, h3, k10⟩ := bind_ok k9
          obtain ⟨hP3, hnew, hnext, _⟩ := hP2.anchor_allocate_inner _ _ _ h3
          obtain ⟨u0, s4, h4, k11⟩ := bind_ok k10
          have hs4 := modify_ok h4
          have hQ4 : Anchored { x with low := s3.next_addr } s4 := by
            rw [hs4]
            exact hP3.anchor_relow.anchor_same _ rfl rfl rfl rfl rfl rfl
          obtain ⟨splitkey, s5, h5, k12⟩ := bind_ok k11
          have hQ5 := hQ4.anchor_Inner_split _ _ _ _ h5
          obtain ⟨u, s6, h6, k13⟩ := bind_ok k12
          have hne : new_node ≠ x.addr := by
            rw [hnew]
            exact Nat.ne_of_gt hP2.anchor_addr_lt
          have hQ6 := Anchored.anchor_cache_new_node (x := { x with low := s3.next_addr }) new_node hne hQ5 h6
          obtain ⟨hr, hs⟩ := pure_ok k13
          rw [hr, hs]
          refine ⟨hQ6.anchor_unlow hP3.bound, Or.inr ?_, hno⟩
          show new_node < s6.next_addr
          have hb : s3.next_addr ≤ s6.next_addr := hQ6.bound
          omega
        · obtain ⟨u, s3, h3, k9⟩ := bind_ok k8
          obtain ⟨hr, hs⟩ := pure_ok k9
          refine ⟨?_, ?_, hno⟩
          · rw [hs]
            exact hP2.anchor_Inner_insert _ _ _ h3
          · rw [hr]
            exact Or.inl rfl
      · obtain ⟨hr, hs⟩ := pure_ok k6
        refine ⟨?_, ?_, hno⟩
        · rw [hs]
          exact hP2
        · rw [hr]
          exact Or.inl rfl
    · obtain ⟨node, _, hlnode, _, k4⟩ := bind_deref_leaf_ok k3
      rcases ite_ok k4 with ⟨_, k5⟩ | ⟨hnf, k5⟩
      · have k6 := bind_get_ok k5
        obtain ⟨new_node, s1, h1, k7⟩ := bind_ok k6
        obtain ⟨hP1, hnew, hnext⟩ := hP.anchor_allocate_leaf _ _ h1
        obtain ⟨u0, s2, h2, k8⟩ := bind_ok k7
        have hs2 := modify_ok h2
        have hQ2 : Anchored { x with low := s1.next_addr } s2 := by
          rw [hs2]
          exact hP1.anchor_relow.anchor_same _ rfl rfl rfl rfl rfl rfl
        obtain ⟨next_node, s3, h3, k9⟩ := bind_ok k8
        have hQ3 := hQ2.anchor_get_sibling _ _ h3
        obtain ⟨q, s4, h4, k10⟩ := bind_ok k9
        have hQ4 := hQ3.anchor_Leaf_split _ _ _ h4
        dsimp only at k10
        have htail : ∀ (t t' : bp_tree) (r' : (Nat × Nat) × Nat × Nat),
            Anchored { x with low := s1.next_addr } t →
            (Anchored { x with low := s1.next_addr } t' ∧ r'.2.2 = new_node) →
            Anchored x t' ∧ (r'.2.2 = 0 ∨ r'.2.2 < t'.next_addr)
              ∧ (∀ m, s.heap.lookup node_item = some m → m.level = 0 →
                  m.used_slots = s.slot_count → r'.2.2 ≠ 0) := by
          intro t t' r' _ hq
          have hb : s1.next_addr ≤ t'.next_addr := hq.1.bound
          have hlt := hP.anchor_addr_lt
          refine ⟨hq.1.anchor_unlow hP1.bound, Or.inr ?_, ?_⟩
          · rw [hq.2]
            omega
          · intro m _ _ _
            rw [hq.2]
            omega
        rcases ite_ok k10 with ⟨_, k11⟩ | ⟨_, k11⟩
        · obtain ⟨u1, s5, h5, k12⟩ := bind_ok k11
          have hQ5 := hQ4.anchor_link_siblings _ _ h5
          obtain ⟨nx, _, hlx, _, k13⟩ := bind_deref_leaf_ok k12
          have k14 := bind_store_ok k13
          refine htail _ _ _ hQ5 (Anchored.anchor_leaf_split_tail (x := { x with low := s1.next_addr }) hhead
            node_item new_node q ?_ k14)
          exact hQ5.anchor_store_of hlx rfl rfl
        · exact htail _ _ _ hQ4
            (Anchored.anchor_leaf_split_tail (x := { x with low := s1.next_addr }) hhead node_item new_node q
              hQ4 (bind_pure_ok k11))
      · obtain ⟨u, s1, h1, k6⟩ := bind_ok k5
        obtain ⟨hr, hs⟩ := pure_ok k6
        refine ⟨?_, ?_, ?_⟩
        · rw [hs]
          exact hP.anchor_Leaf_insert _ _ _ h1
        · rw [hr]
          exact Or.inl rfl
        · intro m hm _ hfull
          rw [hlnode] at hm
          cases hm
          exact absurd (by simp [Node.is_full, hfull]) hnf


/-- A new inner node becomes the anchor. -/
theorem anchor_switch {x : Anchor} {s s' : bp_tree} {r : Nat} (offset parent level : Nat)
    (hP : Anchored x s) (h : stdext.allocate_inner offset parent level s = Except.ok (r, s')) :
    Anchored ⟨r, Kind.inner, level % 256, x.root, x.head, x.low⟩ s' := by
  obtain ⟨hP1, hr, hnext, ⟨v, hv, hk, hl⟩, hroot, hcache⟩ := hP.anchor_allocate_inner _ _ _ h
  have hlt := hP.anchor_addr_lt
  refine ⟨hP1.heap_lt, hP1.pay_lt, ⟨v, hv, hk, hl⟩, ?_, ?_, hP1.root, hP1.head, hP1.bound,
    hP1.proto⟩
  · intro hmem
    have hmem2 : r ∈ s.cache_.payloads := hcache ▸ hmem
    have := hP.pay_lt r hmem2
    omega
  · show r ≠ 0
    omega

/-- The end of `insert`: the count goes up, nothing else changes. -/
theorem anchor_count_tail {s s' : bp_tree} {r : Nat × Nat} (pos : Nat × Nat)
    (h : (do
      if pos.1 ≠ 0 then
        modify fun u => { u with item_count_ := (u.item_count_ + 1) % 2 ^ 64 }
      pure pos : M (Nat × Nat)) s = Except.ok (r, s')) :
    ∃ c, s' = { s with item_count_ := c } := by
  dsimp only at h
  rcases ite_ok h with ⟨_, k1⟩ | ⟨_, k1⟩
  · have k2 := bind_modify_ok k1
    exact ⟨_, (pure_ok k2).2⟩
  · exact ⟨s.item_count_, (pure_ok (bind_pure_ok k1)).2⟩

/-- Method `insert` on a tree whose root is the anchor: the root stays, or a
new inner node one level higher becomes the root; a full leaf root does not
stay. -/
theorem anchor_insert {x : Anchor} {s s' : bp_tree} {r : Nat × Nat} (key : Nat)
    (hxr : x.addr = x.root) (hhead : x.kind = Kind.leaf → x.head = x.addr)
    (hP : Anchored x s) (h : stdext.insert key s = Except.ok (r, s')) :
    (Anchored x s' ∧ ∀ m, s.heap.lookup x.addr = some m → m.level = 0 →
        m.used_slots = s.slot_count → False)
    ∨ (∃ a, Anchored ⟨a, Kind.inner, (x.level + 1) % 256, a, x.head, x.low⟩ s') := by
  unfold stdext.insert at h
  have k0 := bind_get_ok h
  have hroot : s.root_ = x.addr := hP.root.trans hxr.symm
  rcases ite_ok k0 with ⟨_, k1⟩ | ⟨hz, k1⟩
  · obtain ⟨fuel, s1, h1, k2⟩ := bind_ok k1
    have hs1 : s1 = s := by
      unfold depth_fuel at h1
      have g0 := bind_get_ok h1
      rcases ite_ok g0 with ⟨_, g1⟩ | ⟨_, g1⟩
      · exact (pure_ok g1).2
      · obtain ⟨n, _, _, g2⟩ := bind_deref_ok g1
        exact (pure_ok g2).2
    rw [hs1] at k2
    obtain ⟨q, s2, h2, k3⟩ := bind_ok k2
    obtain ⟨hP2, hlt, hfull⟩ := Anchored.anchor_insert_descend hhead key _ _ _ _ _ hP h2
    dsimp only at k3
    rcases ite_ok k3 with ⟨hsplit, k4⟩ | ⟨hsplit, k4⟩
    · right
      have k5 := bind_get_ok k4
      obtain ⟨root, _, hlroot, k6⟩ := bind_deref_ok k5
      obtain ⟨new_root, s3, h3, k7⟩ := bind_ok k6
      have hroot2 : s2.root_ = x.addr := hP2.root.trans hxr.symm
      have hlev : root.level = x.level := ((hP2.anchor_of_lookup hlroot).2 hroot2).2
      rw [hlev] at h3
      have hQ3 := hP2.anchor_switch _ _ _ h3
      obtain ⟨_, hnew, hnext, _⟩ := hP2.anchor_allocate_inner _ _ _ h3
      obtain ⟨u0, s4, h4, k8⟩ := bind_ok k7
      have hs4 := modify_ok h4
      have hQ4 : Anchored ⟨new_root, Kind.inner, (x.level + 1) % 256, x.root, x.head, x.low⟩ s4 := by
        rw [hs4]
        exact hQ3.anchor_same _ rfl rfl rfl rfl rfl rfl
      obtain ⟨nr, _, hlnr, _, k9⟩ := bind_deref_inner_ok k8
      obtain ⟨ks, _, k10⟩ := bind_lift_ok k9
      have k11 := bind_store_ok k10
      have hQ5 := hQ4.anchor_store_of (p := new_root) (v := { nr with keys := ks }) hlnr rfl rfl
      obtain ⟨u1, s6, h6, k12⟩ := bind_ok k11
      have hQ6 := hQ5.anchor_Inner_link _ _ _ h6
      obtain ⟨u2, s7, h7, k13⟩ := bind_ok k12
      have hQ7 := hQ6.anchor_Inner_link _ _ _ h7
      obtain ⟨nr2, _, hlnr2, _, k14⟩ := bind_deref_inner_ok k13
      have k15 := bind_store_ok k14
      have hQ8 := hQ7.anchor_store_of (p := new_root) (v := { nr2 with used_slots := 1 }) hlnr2 rfl rfl
      obtain ⟨u3, s9, h9, k16⟩ := bind_ok k15
      have hlt2 := hP2.anchor_addr_lt
      have hQ9 := hQ8.anchor_cache_node s2.root_ (by
        show s2.root_ ≠ new_root
        rw [hroot2, hnew]
        omega) h9
      obtain ⟨u4, s10, h10, k17⟩ := bind_ok k16
      have hQ10 := hQ9.anchor_cache_node q.2.2 (by
        show q.2.2 ≠ new_root
        rw [hnew]
        rcases hlt with h0 | h0
        · exact absurd h0 hsplit
        · omega) h10
      obtain ⟨u5, s11, h11, k18⟩ := bind_ok k17
      have hs11 := modify_ok h11
      have hQ11 : Anchored ⟨new_root, Kind.inner, (x.level + 1) % 256, new_root, x.head, x.low⟩
          s11 := by
        rw [hs11]
        exact ⟨hQ10.heap_lt, hQ10.pay_lt, hQ10.here, hQ10.free, hQ10.nz, rfl, hQ10.head,
          hQ10.bound, hQ10.proto⟩
      obtain ⟨c, hc⟩ := anchor_count_tail q.1 k18
      refine ⟨new_root, ?_⟩
      rw [hc]
      exact hQ11.anchor_same _ rfl rfl rfl rfl rfl rfl
    · left
      obtain ⟨c, hc⟩ := anchor_count_tail q.1 (bind_pure_ok k4)
      refine ⟨?_, ?_⟩
      · rw [hc]
        exact hP2.anchor_same _ rfl rfl rfl rfl rfl rfl
      · intro m hm hlev hused
        rw [← hroot] at hm
        exact hsplit (hfull m hm hlev hused)
  · exact absurd (hroot.trans_ne hP.nz) hz

end Anchored

/-- Method `insert_` on a leaf with room completes and keeps the lengths. -/
theorem insert__leaf_ok (keys data : List Nat) (used k pos : Nat)
    (hpos : pos ≤ used) (hu : used < keys.length) (hd : used < data.length)
    (h256 : used + 1 < 256) :
    ∃ ks vs, insert_ 0 keys used k pos data 0 = Except.ok (ks, vs, used + 1)
      ∧ ks.length = keys.length ∧ vs.length = data.length := by
  have hmod : (used + 1) % 256 = used + 1 := Nat.mod_eq_of_lt h256
  by_cases hlt : pos < used
  · have h2 : used + 1 ≤ keys.length := hu
    have h3 : used + 1 ≤ data.length := hd
    have hlenk : (keys.take pos ++ (keys.drop used).take (used + 1 - used)
          ++ (keys.drop pos).take (used - pos) ++ keys.drop (used + 1)).length = keys.length := by
      simp only [List.length_append, List.length_take, List.length_drop]
      omega
    have hlend : (data.take pos ++ (data.drop used).take (used + 1 - used)
          ++ (data.drop pos).take (used - pos) ++ data.drop (used + 1)).length = data.length := by
      simp only [List.length_append, List.length_take, List.length_drop]
      omega
    have hps : pos < (keys.take pos ++ (keys.drop used).take (used + 1 - used)
          ++ (keys.drop pos).take (used - pos) ++ keys.drop (used + 1)).length := by
      rw [hlenk]
      omega
    refine ⟨(keys.take pos ++ (keys.drop used).take (used + 1 - used)
          ++ (keys.drop pos).take (used - pos) ++ keys.drop (used + 1)).set pos k,
          data.take pos ++ (data.drop used).take (used + 1 - used)
          ++ (data.drop pos).take (used - pos) ++ data.drop (used + 1), ?_, ?_, hlend⟩
    · simp only [insert_, std_rotate, arr_set, hlt, hpos, h2, h3, if_true, and_self, Nat.le_succ,
        Nat.zero_add, Nat.add_zero, bind, Except.bind, pure, Except.pure, hps, true_and, ite_true,
        Nat.le_add_right, hmod]
    · rw [List.length_set, hlenk]
  · have hps : pos < keys.length := by omega
    refine ⟨keys.set pos k, data, ?_, List.length_set _ _ _, rfl⟩
    simp only [insert_, arr_set, hlt, if_false, bind, Except.bind, pure, Except.pure, hps,
      if_true, hmod]

/-- Run of the assignment through a cursor into a resident leaf. -/
theorem it_assign_run (t : bp_tree) (p i v : Nat) (n : Node) (hp : p ≠ 0)
    (hn : t.heap.lookup p = some n) (hk : n.kind = Kind.leaf) (hi : i < n.data.length) :
    it_assign (p, i) v t = Except.ok (PUnit.unit,
      { t with heap := heap_store t.heap p { n with data := n.data.set i v } }) := by
  unfold it_assign
  rw [bind_run _ _ _ _ _ (deref_leaf_run t p n hp hn hk)]
  rw [arr_set_ok _ _ _ hi]
  rw [bind_run _ _ _ _ _ (lift_ok_run _ t)]
  rfl

/-- One `insert` with its assignment on a single leaf with room: both
complete and the tree is a single leaf with one more slot in use. -/
theorem single_leaf_step (S m k : Nat) (s : bp_tree) (hS : S ≤ 255) (hm1 : 1 ≤ m) (hm : m < S)
    (hA : SingleLeaf S m s) :
    ∃ it s1 s2, insert k s = Except.ok (it, s1) ∧ it_assign it k s1 = Except.ok (PUnit.unit, s2)
      ∧ SingleLeaf S (m + 1) s2 := by
  obtain ⟨n, hl, hk, hlev, hused, hkl, hdl⟩ := hA.node
  have hp : s.root_ ≠ 0 := hA.anchored.nz
  have hle := lower_bound_le n.keys n.used_slots k
  obtain ⟨ks, vs, hi, hksl, hvsl⟩ := insert__leaf_ok n.keys n.data n.used_slots k
    (lower_bound n.keys n.used_slots k) hle (by omega) (by omega) (by omega)
  have hrun := insert_root_leaf_run s n k ks vs (n.used_slots + 1) hp hl hk hlev (by omega)
    (by omega) (by rw [hA.slots]; omega) hi
  have hl1 : (heap_store s.heap s.root_
      { n with keys := ks, data := vs, used_slots := n.used_slots + 1 }).lookup s.root_
      = some { n with keys := ks, data := vs, used_slots := n.used_slots + 1 } :=
    lookup_store_same _ _ n _ hl
  have hrun2 := it_assign_run
    { s with heap := heap_store s.heap s.root_ { n with keys := ks, data := vs, used_slots := n.used_slots + 1 }, item_count_ := (s.item_count_ + 1) % 2 ^ 64 }
    s.root_ (lower_bound n.keys n.used_slots k) k
    { n with keys := ks, data := vs, used_slots := n.used_slots + 1 } hp hl1 hk
    (by show lower_bound n.keys n.used_slots k < vs.length; omega)
  refine ⟨_, _, _, hrun, hrun2, ?_⟩
  have hP1 := hA.anchored.anchor_store_of (v := { n with keys := ks, data := vs, used_slots := n.used_slots + 1 })
    hl rfl rfl
  have hP2 := hP1.anchor_store_of (v := { n with keys := ks, data := vs.set (lower_bound n.keys n.used_slots k) k, used_slots := n.used_slots + 1 })
    hl1 rfl rfl
  refine ⟨hA.slots, hP2.anchor_same _ rfl rfl rfl rfl rfl rfl, hA.tail, ?_, ?_⟩
  · refine ⟨{ n with keys := ks, data := vs.set (lower_bound n.keys n.used_slots k) k, used_slots := n.used_slots + 1 }, ?_, hk, hlev, ?_, ?_, ?_⟩
    · exact lookup_store_same _ _ _ _ hl1
    · show n.used_slots + 1 = m + 1
      rw [hused]
    · show ks.length = S
      rw [hksl, hkl]
    · show (vs.set _ k).length = S
      rw [List.length_set, hvsl, hdl]
  · show (s.item_count_ + 1) % 2 ^ 64 = m + 1
    rw [hA.count]
    exact Nat.mod_eq_of_lt (by omega)

/-- Assignment through a cursor into the single leaf. -/
theorem single_leaf_assign (S m pos v : Nat) (s : bp_tree) (hpos : pos < S)
    (hA : SingleLeaf S m s) :
    ∃ s2, it_assign (s.root_, pos) v s = Except.ok (PUnit.unit, s2) ∧ SingleLeaf S m s2 := by
  obtain ⟨n, hl, hk, hlev, hused, hkl, hdl⟩ := hA.node
  have hp : s.root_ ≠ 0 := hA.anchored.nz
  refine ⟨_, it_assign_run s s.root_ pos v n hp hl hk (by omega), ?_⟩
  have hP1 := hA.anchored.anchor_store_of (v := { n with data := n.data.set pos v }) hl rfl rfl
  refine ⟨hA.slots, hP1, hA.tail, ?_, hA.count⟩
  exact ⟨{ n with data := n.data.set pos v }, lookup_store_same _ _ n _ hl, hk, hlev, hused, hkl,
    by show (n.data.set pos v).length = S; rw [List.length_set, hdl]⟩

/-- The first `insert` on a tree object without a root completes and makes
the tree a single leaf with one slot in use. -/
theorem first_insert (S k : Nat) (t : bp_tree) (hS : 1 ≤ S) (hsl : t.slot_count = S)
    (hroot : t.root_ = 0) (ha : t.next_addr ≠ 0) (hheap : ∀ e ∈ t.heap, e.1 < t.next_addr)
    (hpay : ∀ d ∈ t.cache_.payloads, d < t.next_addr) (hkind : t.leaf_node.kind = Kind.leaf)
    (hlev : t.leaf_node.level = 0) (hu : t.leaf_node.used_slots = 0)
    (hkl : t.leaf_node.keys.length = S) (hdl : t.leaf_node.data.length = S)
    (hproto : t.inner_node.kind = Kind.inner) :
    ∃ s1, insert k t = Except.ok ((t.next_addr, 0), s1) ∧ s1.root_ = t.next_addr
      ∧ SingleLeaf S 1 s1 := by
  have h1 := insert_first_run t k hroot ha (by omega) hkind hu
  refine ⟨_, h1, rfl, ?_⟩
  refine ⟨hsl, ?_, rfl, ?_, rfl⟩
  · refine ⟨?_, ?_, ⟨_, lookup_store_head _ _ _ _, hkind, hlev⟩, ?_, ha, rfl, rfl, Nat.zero_le _,
      hproto⟩
    · intro e he
      obtain ⟨e1, he1, heq1⟩ := mem_heap_store he
      show e.1 < t.next_addr + 1
      rw [← heq1]
      rcases List.mem_cons.mp he1 with h0 | h0
      · rw [h0]
        exact Nat.lt_succ_self _
      · exact Nat.lt_succ_of_lt (hheap e1 h0)
    · intro d hd
      exact Nat.lt_succ_of_lt (hpay d hd)
    · intro hmem
      exact Nat.lt_irrefl _ (hpay _ hmem)
  · exact ⟨_, lookup_store_head _ _ _ _, hkind, hlev, rfl,
      by show (t.leaf_node.keys.set 0 k).length = S; rw [List.length_set, hkl], hdl⟩

/-- The first `insert` with its assignment, on a tree object without a root:
both complete and the tree is a single leaf with one slot in use. -/
theorem first_single (S k : Nat) (t : bp_tree) (hS : 1 ≤ S) (hsl : t.slot_count = S)
    (hroot : t.root_ = 0) (ha : t.next_addr ≠ 0) (hheap : ∀ e ∈ t.heap, e.1 < t.next_addr)
    (hpay : ∀ d ∈ t.cache_.payloads, d < t.next_addr) (hkind : t.leaf_node.kind = Kind.leaf)
    (hlev : t.leaf_node.level = 0) (hu : t.leaf_node.used_slots = 0)
    (hkl : t.leaf_node.keys.length = S) (hdl : t.leaf_node.data.length = S)
    (hproto : t.inner_node.kind = Kind.inner) :
    ∃ it s1 s2, insert k t = Except.ok (it, s1) ∧ it_assign it k s1 = Except.ok (PUnit.unit, s2)
      ∧ SingleLeaf S 1 s2 := by
  obtain ⟨s1, h1, hr, hA⟩ :=
    first_insert S k t hS hsl hroot ha hheap hpay hkind hlev hu hkl hdl hproto
  obtain ⟨s2, h2, hA2⟩ := single_leaf_assign S 1 0 k s1 (by omega) hA
  rw [hr] at h2
  exact ⟨_, s1, s2, h1, h2, hA2⟩

/-- Assignment through a cursor keeps `item_count_`. -/
theorem it_assign_count {it : Nat × Nat} {v : Nat} {s s' : bp_tree} {r : PUnit}
    (h : it_assign it v s = Except.ok (r, s')) : s'.item_count_ = s.item_count_ := by
  unfold it_assign at h
  obtain ⟨n, _, _, _, k1⟩ := bind_deref_leaf_ok h
  obtain ⟨q, _, k2⟩ := bind_lift_ok k1
  rw [store_ok k2]

/-- One `insert` with its assignment on a tree whose root is an inner node. -/
theorem grown_step (S n k : Nat) (s s1 s2 : bp_tree) (it : Nat × Nat) (u : PUnit)
    (hG : Grown S n s) (h1 : insert k s = Except.ok (it, s1))
    (h2 : it_assign it k s1 = Except.ok (u, s2)) : Grown S (n + 1) s2 := by
  obtain ⟨x, hP, hxr, hxk, hlevel⟩ := hG.root
  have hcount : s2.item_count_ = (n + 1) % 2 ^ 64 := by
    have hc := insert_counts s k it s1 h1
    have hr : s.root_ ≠ 0 := by
      rw [hP.root, ← hxr]
      exact hP.nz
    rw [if_pos hr, hG.count] at hc
    rw [it_assign_count h2, hc]
    omega
  refine ⟨?_, hcount⟩
  rcases Anchored.anchor_insert k hxr (fun hk => by rw [hxk] at hk; cases hk) hP h1 with ⟨hP1, _⟩ | ⟨a, hP1⟩
  · refine ⟨x, hP1.anchor_it_assign _ _ h2, hxr, hxk, ?_⟩
    intro hn
    have := hlevel (by omega)
    omega
  · refine ⟨_, hP1.anchor_it_assign _ _ h2, rfl, rfl, ?_⟩
    intro hn
    have hb := hlevel (by omega)
    show 1 ≤ (x.level + 1) % 256 ∧ (x.level + 1) % 256 + S ≤ n + 1
    rw [Nat.mod_eq_of_lt (by omega)]
    omega

/-- One `insert` with its assignment on a single leaf that is full: the root
becomes an inner node of level 1. -/
theorem full_leaf_step (S k : Nat) (s s1 s2 : bp_tree) (it : Nat × Nat) (u : PUnit)
    (hA : SingleLeaf S S s) (h1 : insert k s = Except.ok (it, s1))
    (h2 : it_assign it k s1 = Except.ok (u, s2)) : Grown S (S + 1) s2 := by
  obtain ⟨n, hl, hk, hlev, hused, _, _⟩ := hA.node
  have hcount : s2.item_count_ = (S + 1) % 2 ^ 64 := by
    have hc := insert_counts s k it s1 h1
    rw [if_pos hA.anchored.nz, hA.count] at hc
    rw [it_assign_count h2, hc]
  refine ⟨?_, hcount⟩
  rcases Anchored.anchor_insert k rfl (fun _ => rfl) hA.anchored h1 with ⟨_, hno⟩ | ⟨a, hP1⟩
  · exact (hno n hl hlev (by rw [hused, hA.slots])).elim
  · refine ⟨_, hP1.anchor_it_assign _ _ h2, rfl, rfl, ?_⟩
    intro _
    show 1 ≤ (0 + 1) % 256 ∧ (0 + 1) % 256 + S ≤ S + 1
    omega

/-- A completed `fill` of a list with a first key. -/
theorem fill_cons_ok {k : Nat} {ks : List Nat} {s s' : bp_tree} {u : PUnit}
    (h : fill (k :: ks) s = Except.ok (u, s')) :
    ∃ it s1 u1 s2, insert k s = Except.ok (it, s1) ∧ it_assign it k s1 = Except.ok (u1, s2)
      ∧ fill ks s2 = Except.ok (u, s') := by
  unfold fill at h
  obtain ⟨it, s1, h1, k1⟩ := bind_ok h
  obtain ⟨u1, s2, h2, k2⟩ := bind_ok k1
  exact ⟨it, s1, u1, s2, h1, h2, k2⟩

/-- Run of `fill` on a list with a first key whose insert completes. -/
theorem fill_cons_run {k : Nat} {ks : List Nat} {s s1 s2 : bp_tree} {it : Nat × Nat}
    (h1 : insert k s = Except.ok (it, s1)) (h2 : it_assign it k s1 = Except.ok (PUnit.unit, s2)) :
    fill (k :: ks) s = fill ks s2 := by
  show (insert k >>= fun it => it_assign it k >>= fun _ => fill ks) s = _
  rw [bind_run _ _ _ _ _ h1, bind_run _ _ _ _ _ h2]

/-- While the keys fit into one leaf `fill` completes and the tree is a
single leaf. -/
theorem fill_single (S : Nat) (hS : S ≤ 255) :
    ∀ (ks : List Nat) (n : Nat) (s : bp_tree), 1 ≤ n → n + ks.length ≤ S → SingleLeaf S n s →
      ∃ s', fill ks s = Except.ok (PUnit.unit, s') ∧ SingleLeaf S (n + ks.length) s' := by
  intro ks
  induction ks with
  | nil =>
    intro n s _ _ hA
    exact ⟨s, rfl, hA⟩
  | cons k ks ih =>
    intro n s hn hlen hA
    rw [List.length_cons] at hlen
    obtain ⟨it, s1, s2, h1, h2, hA2⟩ := single_leaf_step S n k s hS hn (by omega) hA
    obtain ⟨s', h3, hA3⟩ := ih (n + 1) s2 (by omega) (by omega) hA2
    refine ⟨s', ?_, ?_⟩
    · rw [fill_cons_run h1 h2]
      exact h3
    · rw [List.length_cons]
      have he : n + (ks.length + 1) = n + 1 + ks.length := by omega
      rw [he]
      exact hA3

/-- Whenever `fill` completes, the tree is a single leaf if the number of
keys inserted so far is at most `S`, and has an inner node as its root
otherwise. -/
theorem fill_stage (S : Nat) (hS : S ≤ 255) :
    ∀ (ks : List Nat) (n : Nat) (s s' : bp_tree) (u : PUnit), 1 ≤ n →
      ((n ≤ S ∧ SingleLeaf S n s) ∨ (S < n ∧ Grown S n s)) →
      fill ks s = Except.ok (u, s') →
      ((n + ks.length ≤ S ∧ SingleLeaf S (n + ks.length) s')
        ∨ (S < n + ks.length ∧ Grown S (n + ks.length) s')) := by
  intro ks
  induction ks with
  | nil =>
    intro n s s' u _ hst h
    cases h
    exact hst
  | cons k ks ih =>
    intro n s s' u hn hst h
    obtain ⟨it, s1, u1, s2, h1, h2, h3⟩ := fill_cons_ok h
    have he : n + (k :: ks).length = n + 1 + ks.length := by
      rw [List.length_cons]
      omega
    rw [he]
    refine ih (n + 1) s2 s' u (by omega) ?_ h3
    rcases hst with ⟨hle, hA⟩ | ⟨hlt, hG⟩
    · by_cases hfull : n = S
      · right
        rw [hfull] at hA
        rw [hfull]
        exact ⟨Nat.lt_succ_self _, full_leaf_step S k s s1 s2 it u1 hA h1 h2⟩
      · left
        obtain ⟨it', t1, t2, g1, g2, hA2⟩ := single_leaf_step S n k s hS hn (by omega) hA
        rw [h1] at g1
        cases g1
        rw [h2] at g2
        cases g2
        exact ⟨by omega, hA2⟩
    · right
      exact ⟨by omega, grown_step S n k s s1 s2 it u1 hG h1 h2⟩

/-- Run of `root_shape` on a tree with a resident root. -/
theorem root_shape_run (s : bp_tree) (n : Node) (hp : s.root_ ≠ 0)
    (hl : s.heap.lookup s.root_ = some n) :
    root_shape s = Except.ok
      ((decide (n.kind = Kind.leaf), decide (s.root_ = s.head_ ∧ s.root_ = s.tail_),
        n.level + 1, s.item_count_), s) := by
  unfold root_shape
  rw [bind_run _ _ _ _ _ (get_run s)]
  rw [bind_run _ _ _ _ _ (deref_run s s.root_ n hp hl)]
  have hd : depth s = Except.ok (n.level + 1, s) := by
    unfold depth
    rw [bind_run _ _ _ _ _ (get_run s)]
    simp only [hp, ne_eq, not_false_eq_true, if_true]
    rw [bind_run _ _ _ _ _ (deref_run s s.root_ n hp hl)]
    rfl
  rw [bind_run _ _ _ _ _ hd]
  rfl

/-- A completed `root_shape`. -/
theorem root_shape_ok {s s' : bp_tree} {r : Bool × Bool × Nat × Nat}
    (h : root_shape s = Except.ok (r, s')) :
    ∃ n, s.root_ ≠ 0 ∧ s.heap.lookup s.root_ = some n
      ∧ r = (decide (n.kind = Kind.leaf), decide (s.root_ = s.head_ ∧ s.root_ = s.tail_),
          n.level + 1, s.item_count_) := by
  have h0 := h
  unfold root_shape at h0
  have k0 := bind_get_ok h0
  obtain ⟨n, hp, hl, _⟩ := bind_deref_ok k0
  rw [root_shape_run s n hp hl] at h
  cases h
  exact ⟨n, hp, hl, rfl⟩

/-- Result of a run that completes. -/
theorem toRes_run {α : Type} {m : M α} {t t' : bp_tree} {a : α} (h : m t = Except.ok (a, t')) :
    toRes (m.run' t) = Res.ok a := by
  simp [StateT.run', h, Functor.map, Except.map, toRes]

/-- The first key of a fill on a new file: `open( io, 0)`, the first `insert`
and its assignment complete and leave a single leaf with one slot in use. -/
theorem open_first_single (S cache_size k : Nat) (hS : 1 ≤ S) :
    ∃ v t0 it s1 s2, bp_open 0 (mk_tree S cache_size 0 []) = Except.ok (v, t0)
      ∧ insert k t0 = Except.ok (it, s1) ∧ it_assign it k s1 = Except.ok (PUnit.unit, s2)
      ∧ SingleLeaf S 1 s2 := by
  obtain ⟨it, s1, s2, h1, h2, hA⟩ := first_single S k
    { mk_tree S cache_size 0 [] with eof_ := items_offset, io := (((mk_tree S cache_size 0 []).io.write signature).write_scalar offset_size 0).write_scalar 1 0, item_count_ := 0, stream_attached := ((((mk_tree S cache_size 0 []).io.write signature).write_scalar offset_size 0).write_scalar 1 0).ok }
    hS rfl rfl (show heap_base ≠ 0 by decide) (fun e he => by cases he) (fun d hd => by cases hd)
    rfl rfl rfl (List.length_replicate _ _) (List.length_replicate _ _) rfl
  exact ⟨_, _, it, s1, s2, bp_open_new_run _, h1, h2, hA⟩

/-- The kind of the root after a fill of a new file.  For every slot count
`S` from 1 to 255, every cache capacity and every list of `n >= 1` keys
inserted by `fill`: if `n <= S` every call completes, `root_` points to a
leaf that is also `head_` and `tail_`, `depth()` is 1 and `size()` is `n`; if
`n > S`, then whenever the calls complete `root_` points to an inner node,
`size()` is `n` (modulo 2^64), and `depth()` is at least 2 as long as
`n < S + 255` (the level is kept in one byte). -/
theorem root_kind_of_fill (S cache_size : Nat) (ks : List Nat) (hS1 : 1 ≤ S) (hS2 : S ≤ 255)
    (hn : 1 ≤ ks.length) :
    (ks.length ≤ S → on_fresh S cache_size ks root_shape = Res.ok (true, true, 1, ks.length)) ∧
    (S < ks.length → ∀ r, on_fresh S cache_size ks root_shape = Res.ok r →
      r.1 = false ∧ (ks.length < S + 255 → 2 ≤ r.2.2.1) ∧ r.2.2.2 = ks.length % 2 ^ 64) := by
  cases ks with
  | nil => simp at hn
  | cons k ks =>
    obtain ⟨v, t0, it, s1, s2, hopen, h1, h2, hA⟩ := open_first_single S cache_size k hS1
    have hlen : (k :: ks).length = 1 + ks.length := by
      rw [List.length_cons]
      omega
    refine ⟨?_, ?_⟩
    · intro hle
      obtain ⟨s3, h3, hA3⟩ := fill_single S hS2 ks 1 s2 (Nat.le_refl _) (by omega) hA
      obtain ⟨n, hl, hk, hlev, _, _, _⟩ := hA3.node
      have hrun : (do let _ ← bp_open 0; fill (k :: ks); root_shape :
          M (Bool × Bool × Nat × Nat)) (mk_tree S cache_size 0 [])
          = Except.ok ((true, true, 1, (k :: ks).length), s3) := by
        have hf : fill (k :: ks) t0 = Except.ok (PUnit.unit, s3) := by
          rw [fill_cons_run h1 h2]
          exact h3
        show (bp_open 0 >>= fun _ => fill (k :: ks) >>= fun _ => root_shape) _ = _
        rw [bind_run _ _ _ _ _ hopen, bind_run _ _ _ _ _ hf,
          root_shape_run s3 n hA3.anchored.nz hl]
        have hh : s3.head_ = s3.root_ := hA3.anchored.head
        simp only [hk, hlev, hh, hA3.tail, hA3.count, hlen, decide_True, and_self, Nat.zero_add]
      exact toRes_run hrun
    · intro hlt r hr
      obtain ⟨t', hrun⟩ := run_of_toRes hr
      obtain ⟨v', t0', g0, k1⟩ := bind_ok hrun
      rw [hopen] at g0
      cases g0
      obtain ⟨u, s3, g1, k2⟩ := bind_ok k1
      rw [fill_cons_run h1 h2] at g1
      rcases fill_stage S hS2 ks 1 s2 s3 u (Nat.le_refl _) (Or.inl ⟨hS1, hA⟩) g1 with
        ⟨hle, _⟩ | ⟨_, hG⟩
      · omega
      · obtain ⟨n, _, hl, hrn⟩ := root_shape_ok k2
        obtain ⟨x, hP, hxr, hxk, hlevel⟩ := hG.root
        have hroot : s3.root_ = x.addr := hP.root.trans hxr.symm
        obtain ⟨hkn, hln⟩ := (hP.anchor_of_lookup hl).2 hroot
        rw [hrn]
        refine ⟨?_, ?_, ?_⟩
        · show decide (n.kind = Kind.leaf) = false
          rw [hkn, hxk]
          rfl
        · intro hb
          show 2 ≤ n.level + 1
          have := hlevel (by omega)
          omega
        · show s3.item_count_ = (k :: ks).length % 2 ^ 64
          rw [hG.count, hlen]

/-- Slot count 3, a cache of one node: the keys 10 to 80 and 31 give the
leaves (10, 20), (30, 31, 40), (50, 60) and (70, 80) under one root, the
second leaf in the only cell of the cache, the third not resident.  The key
32 has to split the second leaf: `get_sibling` loads the third leaf into the
cache, which evicts and deletes the leaf being split. -/
theorem fill_evicts_split_leaf :
    on_fresh 3 1 [10, 20, 30, 40, 50, 60, 70, 80, 31] root_shape = Res.ok (false, false, 2, 9) ∧
    on_fresh 3 1 [10, 20, 30, 40, 50, 60, 70, 80, 31, 32] root_shape
      = Res.fault Fault.dangling := by
  refine ⟨?_, ?_⟩
  · decide!
  · decide!

/-- Slot count 3, every node resident: after the keys 10 to 70 and 1 the
root holds two keys over the leaves (1, 10, 20), (30, 40) and (50, 60, 70).
The key 2 splits the first leaf, and `_Inner::insert` at position 0 of the
root rotates the children one element too far, past the end of the array. -/
theorem fill_rotates_too_far :
    on_fresh 3 512 [10, 20, 30, 40, 50, 60, 70, 1] root_shape = Res.ok (false, false, 2, 8) ∧
    on_fresh 3 512 [10, 20, 30, 40, 50, 60, 70, 1, 2] root_shape
      = Res.fault Fault.out_of_bounds := by
  refine ⟨?_, ?_⟩
  · decide!
  · decide!

/-- The default slot count 63: 64 ascending keys give an inner root of
depth 2. -/
theorem fill_default_grown :
    on_fresh 63 512 (List.range 64) root_shape = Res.ok (false, false, 2, 64) := by
  decide!

/-- C31 (the kind of the root is determined by the item count).  For every
slot count `S` from 1 to 255 (the default is 63), every cache capacity and
every list of `n >= 1` keys inserted into a new file by `fill` (`insert` and
the assignment through its cursor, one key after the other): if `n <= S`
every call completes, `root_` points to a leaf that is also `head_` and
`tail_`, `depth()` is 1 and `size()` is `n`; if `n > S`, then whenever the
calls complete `root_` points to an inner node, `size()` is `n` (modulo
2^64), and `depth()` is at least 2 as long as `n < S + 255` (the level is
kept in one byte).  So the root is a leaf exactly when `size() <= S`, which
is what `open` tests.  But not every sequence of `n > S` calls completes:
with slot count 3 and a cache of one node the tenth call, which splits a
leaf whose next leaf is not resident, runs on a leaf that `get_sibling` has
evicted and deleted; with every node resident the ninth call, which splits
the first leaf under a root of two keys, writes past the end of the
children of the root. -/
theorem root_kind_by_count :
    (∀ (S cache_size : Nat) (ks : List Nat), 1 ≤ S → S ≤ 255 → 1 ≤ ks.length →
      (ks.length ≤ S → on_fresh S cache_size ks root_shape = Res.ok (true, true, 1, ks.length)) ∧
      (S < ks.length → ∀ r, on_fresh S cache_size ks root_shape = Res.ok r →
        r.1 = false ∧ (ks.length < S + 255 → 2 ≤ r.2.2.1) ∧ r.2.2.2 = ks.length % 2 ^ 64)) ∧
    on_fresh 3 1 [10, 20, 30, 40, 50, 60, 70, 80, 31] root_shape = Res.ok (false, false, 2, 9) ∧
    on_fresh 3 1 [10, 20, 30, 40, 50, 60, 70, 80, 31, 32] root_shape
      = Res.fault Fault.dangling ∧
    on_fresh 3 512 [10, 20, 30, 40, 50, 60, 70, 1] root_shape = Res.ok (false, false, 2, 8) ∧
    on_fresh 3 512 [10, 20, 30, 40, 50, 60, 70, 1, 2] root_shape
      = Res.fault Fault.out_of_bounds :=
  ⟨fun S cache_size ks h1 h2 h3 => root_kind_of_fill S cache_size ks h1 h2 h3,
   fill_evicts_split_leaf.1, fill_evicts_split_leaf.2, fill_rotates_too_far.1,
   fill_rotates_too_far.2⟩

/-- Witness of C31: slot count 3 with three and with four keys, the default
slot count 63 with the keys 5, 1, 9, 3, 7, 2, 8, 4, 6, with 63 and with 64
keys; four keys at slot count 3 and 64 keys at slot count 63 give an inner
root of depth 2.  A second tree opened on the file of the first one loads a
leaf as its root for three keys and an inner node for four. -/
theorem root_kind_by_count_witness :
    on_fresh 3 512 [10, 20, 30] root_shape = Res.ok (true, true, 1, 3) ∧
    on_fresh 63 512 [5, 1, 9, 3, 7, 2, 8, 4, 6] root_shape = Res.ok (true, true, 1, 9) ∧
    on_fresh 63 512 (List.range 63) root_shape = Res.ok (true, true, 1, (List.range 63).length) ∧
    on_fresh 3 512 [10, 20, 30, 40] root_shape = Res.ok (false, false, 2, 4) ∧
    (((false, false, 2, 4) : Bool × Bool × Nat × Nat).1 = false
      ∧ ([10, 20, 30, 40].length < 3 + 255 →
          2 ≤ ((false, false, 2, 4) : Bool × Bool × Nat × Nat).2.2.1)
      ∧ ((false, false, 2, 4) : Bool × Bool × Nat × Nat).2.2.2
          = [10, 20, 30, 40].length % 2 ^ 64) ∧
    (((false, false, 2, 64) : Bool × Bool × Nat × Nat).1 = false
      ∧ ((List.range 64).length < 63 + 255 →
          2 ≤ ((false, false, 2, 64) : Bool × Bool × Nat × Nat).2.2.1)
      ∧ ((false, false, 2, 64) : Bool × Bool × Nat × Nat).2.2.2
          = (List.range 64).length % 2 ^ 64) ∧
    on_reopened 3 512 512 [10, 20, 30] root_shape = Res.ok (true, true, 1, 3) ∧
    on_reopened 3 512 512 [10, 20, 30, 40] root_shape = Res.ok (false, false, 2, 4) :=
  ⟨(root_kind_by_count.1 3 512 [10, 20, 30] (by decide) (by decide) (by decide)).1 (by decide),
   (root_kind_by_count.1 63 512 [5, 1, 9, 3, 7, 2, 8, 4, 6] (by decide) (by decide)
      (by decide)).1 (by decide),
   (root_kind_by_count.1 63 512 (List.range 63) (by decide) (by decide)
      (by simp)).1 (by simp),
   by decide!,
   (root_kind_by_count.1 3 512 [10, 20, 30, 40] (by decide) (by decide) (by decide)).2 (by decide)
      (false, false, 2, 4) (by decide!),
   (root_kind_by_count.1 63 512 (List.range 64) (by decide) (by decide) (by simp)).2 (by simp)
      (false, false, 2, 64) fill_default_grown,
   by decide!, by decide!⟩

/-! ### The offsets that the compaction assigns -/

/-- Assignment `map[ offset] = size` on maps with the same offsets and sizes. -/
theorem info_assign_proj (j j' : Nat) (k size : Nat) : ∀ (m m' : NodeInfoMap),
    m.map (fun e => (e.1, e.2.1)) = m'.map (fun e => (e.1, e.2.1)) →
    (info_assign j m k size).map (fun e => (e.1, e.2.1))
      = (info_assign j' m' k size).map (fun e => (e.1, e.2.1)) := by
  intro m
  induction m with
  | nil =>
    intro m' h
    cases m' with
    | nil => rfl
    | cons y m' => cases h
  | cons x m ih =>
    intro m' h
    cases m' with
    | nil => cases h
    | cons y m' =>
      simp only [List.map_cons, List.cons.injEq, Prod.mk.injEq] at h
      obtain ⟨⟨h1, h2⟩, h3⟩ := h
      unfold info_assign
      rw [← h1]
      split_ifs with c1 c2
      · simp only [List.map_cons, h1, h2, h3]
      · simp only [List.map_cons, h3]
      · simp only [List.map_cons, h1, h2, ih m' h3]

/-- The assignments of a list of records on maps with the same offsets and
sizes. -/
theorem records_map_proj : ∀ (l : List (Nat × Nat)) (m m' : NodeInfoMap),
    m.map (fun e => (e.1, e.2.1)) = m'.map (fun e => (e.1, e.2.1)) →
    (records_map l m).map (fun e => (e.1, e.2.1))
      = (records_map l m').map (fun e => (e.1, e.2.1)) := by
  intro l
  induction l with
  | nil => intro m m' h; exact h
  | cons e l ih =>
    intro m m' h
    exact ih _ _ (info_assign_proj 0 0 e.1 e.2 m m' h)

/-- The assignments of two lists of records, one after the other. -/
theorem records_map_append (l1 l2 : List (Nat × Nat)) (m : NodeInfoMap) :
    records_map (l1 ++ l2) m = records_map l2 (records_map l1 m) := by
  unfold records_map
  rw [List.foldl_append]

/-- The loops of `compact_analyse_descend` record what the walk over the
children lists. -/
theorem analyse_loop_live {body : NodeInfoMap → Nat → M NodeInfoMap}
    {w : Nat → M (List (Nat × Nat))} {node : Nat}
    (hbody : ∀ m child s r s', body m child s = Except.ok (r, s') →
      ∃ l, w child s = Except.ok (l, s')
        ∧ r.map (fun e => (e.1, e.2.1)) = (records_map l m).map (fun e => (e.1, e.2.1))) :
    ∀ (fuel i : Nat) (map : NodeInfoMap) (s : bp_tree) (r : NodeInfoMap) (s' : bp_tree),
      analyse_loop body node fuel i map s = Except.ok (r, s') →
      ∃ l, live_children w node fuel i s = Except.ok (l, s')
        ∧ r.map (fun e => (e.1, e.2.1)) = (records_map l map).map (fun e => (e.1, e.2.1)) := by
  intro fuel
  induction fuel with
  | zero =>
    intro i map s r s' h
    cases h
  | succ fuel ih =>
    intro i map s r s' h
    unfold analyse_loop at h
    obtain ⟨n, s1, hd, h⟩ := bind_ok h
    unfold live_children
    rw [bind_run _ _ _ _ _ hd]
    by_cases hc : i < n.used_slots + 1
    · simp only [hc, if_true] at h ⊢
      obtain ⟨child, s2, hg, h⟩ := bind_ok h
      obtain ⟨map1, s3, hb, h⟩ := bind_ok h
      obtain ⟨l1, hw, hp1⟩ := hbody _ _ _ _ _ hb
      obtain ⟨l2, hr, hp2⟩ := ih _ _ _ _ _ h
      refine ⟨l1 ++ l2, ?_, ?_⟩
      · rw [bind_run _ _ _ _ _ hg, bind_run _ _ _ _ _ hw, bind_run _ _ _ _ _ hr]
        rfl
      · rw [hp2, records_map_append]
        exact records_map_proj l2 _ _ hp1
    · simp only [hc, if_false] at h ⊢
      cases h
      exact ⟨[], rfl, rfl⟩

/-- Method `compact_analyse_descend` records the live nodes below and
including `node`, each with its `actual_storage_size()`. -/
theorem compact_analyse_descend_live :
    ∀ (fuel : Nat) (map : NodeInfoMap) (node : Nat) (s : bp_tree) (r : NodeInfoMap) (s' : bp_tree),
      compact_analyse_descend fuel map node s = Except.ok (r, s') →
      ∃ l, live_nodes fuel node s = Except.ok (l, s')
        ∧ r.map (fun e => (e.1, e.2.1)) = (records_map l map).map (fun e => (e.1, e.2.1)) := by
  intro fuel
  induction fuel with
  | zero =>
    intro map node s r s' h
    cases h
  | succ fuel ih =>
    intro map node s r s' h
    unfold compact_analyse_descend at h
    have k1 := bind_get_ok h
    obtain ⟨n, s2, hd, k2⟩ := bind_ok k1
    unfold live_nodes
    rw [bind_run _ _ _ _ _ (get_run s), bind_run _ _ _ _ _ hd]
    have hfirst : (info_assign s.junk map n.offset (n.inner_actual_storage_size s.slot_count)).map
          (fun e => (e.1, e.2.1))
        = (records_map [(n.offset, n.inner_actual_storage_size s.slot_count)] map).map
          (fun e => (e.1, e.2.1)) :=
      info_assign_proj _ _ _ _ _ _ rfl
    dsimp only at k2
    by_cases hc : n.level ≠ 1
    · rw [if_pos hc] at k2 ⊢
      obtain ⟨l, hl, hp⟩ := analyse_loop_live (w := live_nodes fuel)
        (fun m child s r s' hb => ih m child s r s' hb) _ _ _ _ _ _ k2
      refine ⟨(n.offset, n.inner_actual_storage_size s.slot_count) :: l, ?_, ?_⟩
      · rw [bind_run _ _ _ _ _ hl]
        rfl
      · rw [hp]
        exact records_map_proj l _ _ hfirst
    · rw [if_neg hc] at k2 ⊢
      obtain ⟨l, hl, hp⟩ := analyse_loop_live
        (w := fun child => do
          let leaf ← deref_leaf child
          pure [(leaf.offset, leaf.leaf_actual_storage_size s.slot_count)])
        (fun m child s0 r s0' hb => by
          obtain ⟨leaf, s3, hdl, hb⟩ := bind_ok hb
          cases hb
          refine ⟨[(leaf.offset, leaf.leaf_actual_storage_size s.slot_count)], ?_, ?_⟩
          · show (deref_leaf child >>= fun leaf =>
              pure [(leaf.offset, leaf.leaf_actual_storage_size s.slot_count)]) s0 = _
            rw [bind_run _ _ _ _ _ hdl]
            rfl
          · exact info_assign_proj _ _ _ _ _ _ rfl) _ _ _ _ _ _ k2
      refine ⟨(n.offset, n.inner_actual_storage_size s.slot_count) :: l, ?_, ?_⟩
      · rw [bind_run _ _ _ _ _ hl]
        rfl
      · rw [hp]
        exact records_map_proj l _ _ hfirst

/-- Each new offset is the one before it plus the size before it, in the
64-bit arithmetic of the loop. -/
theorem assign_chain : ∀ (m : NodeInfoMap) (o : Nat),
    (assign_new_offsets m o).Chain' (fun a b => b.2.2 = (a.2.2 + a.2.1) % 2 ^ 64) := by
  intro m
  induction m with
  | nil => intro o; exact List.chain'_nil
  | cons e m ih =>
    intro o
    cases m with
    | nil => exact List.chain'_singleton _
    | cons x m =>
      have := ih ((o + e.2.1) % 2 ^ 64)
      simp only [assign_new_offsets] at this ⊢
      exact List.Chain'.cons rfl this

/-- Records that do not overlap have a total size that fits below `eof`. -/
theorem old_layout_total : ∀ (m : NodeInfoMap) (lo eof : Nat),
    old_layout m lo eof → lo + plan_total m ≤ eof := by
  intro m
  induction m with
  | nil => intro lo eof h; exact h
  | cons e m ih =>
    intro lo eof h
    have := ih _ _ h.2
    have := h.1
    simp only [plan_total]
    omega

/-- The new offsets of a plan whose end stays below 2^64: laid end to end
from the start offset, no two records overlapping, ending at the start offset
plus the sum of the sizes. -/
theorem assign_total : ∀ (m : NodeInfoMap) (o : Nat), o + plan_total m < 2 ^ 64 →
    end_to_end (assign_new_offsets m o) o
      ∧ (∀ e ∈ assign_new_offsets m o, o ≤ e.2.2)
      ∧ (assign_new_offsets m o).Pairwise (fun a b => a.2.2 + a.2.1 ≤ b.2.2)
      ∧ plan_end (assign_new_offsets m o) o = o + plan_total m := by
  intro m
  induction m with
  | nil =>
    intro o _
    refine ⟨trivial, ?_, List.Pairwise.nil, rfl⟩
    intro e he
    cases he
  | cons e m ih =>
    intro o h
    simp only [plan_total] at h
    have hmod : (o + e.2.1) % 2 ^ 64 = o + e.2.1 := Nat.mod_eq_of_lt (by omega)
    obtain ⟨i1, i2, i3, i4⟩ := ih (o + e.2.1) (by omega)
    simp only [assign_new_offsets, hmod, plan_total]
    refine ⟨⟨rfl, i1⟩, ?_, ?_, ?_⟩
    · intro x hx
      rcases List.mem_cons.mp hx with hx | hx
      · rw [hx]
      · have := i2 x hx
        omega
    · rw [List.pairwise_cons]
      exact ⟨fun x hx => i2 x hx, i3⟩
    · show plan_end (assign_new_offsets m (o + e.2.1)) (o + e.2.1) = _
      rw [i4]
      omega

/-- The analysis of `compact_to` records what the walk from the root lists,
in order, and reads `eof_` afterwards. -/
theorem compact_analysis_live {t s' : bp_tree} {map : NodeInfoMap} {eof : Nat}
    (h : compact_analysis t = Except.ok ((map, eof), s')) :
    (∃ l, live_walk t = Except.ok (l, s')
      ∧ map.map (fun e => (e.1, e.2.1)) = (records_map l []).map (fun e => (e.1, e.2.1)))
    ∧ map_ordered map ∧ eof = s'.eof_ := by
  unfold compact_analysis at h
  have k1 := bind_get_ok h
  obtain ⟨root, s1, hd, k2⟩ := bind_ok k1
  obtain ⟨m1, s2, hm, k3⟩ := bind_ok k2
  have k4 := bind_get_ok k3
  cases k4
  have hord := compact_analyse_descend_ordered _ _ _ _ _ _ map_ordered_nil hm
  obtain ⟨l, hl, hp⟩ := compact_analyse_descend_live _ _ _ _ _ _ hm
  refine ⟨⟨l, ?_, hp⟩, hord, rfl⟩
  unfold live_walk
  rw [bind_run _ _ _ _ _ (get_run t), bind_run _ _ _ _ _ hd]
  exact hl

/-- C38 (offset assignment of the compaction).  For every tree state on which
the analysis of `compact_to` completes: the walk from the root over the child
slots 0 to `used_slots` of every inner node completes too, and the map holds,
for the offsets of the nodes the walk visits, the `actual_storage_size()` of
each (the last visit counts for an offset met twice); the map is in strictly
ascending order of the old offsets, with sizes of at least 9 bytes; the loop
that assigns the new offsets keeps the entries, their order and their sizes,
gives the first entry the end of the header, 36, and each following entry the
new offset before it plus the size before it, modulo 2^64.  When 36 plus the
sum of the sizes is below 2^64, the new offsets are these sums without
reduction, the entry with the smaller old offset has the smaller new offset,
no two records overlap, and the last record ends at 36 plus the sum of the
sizes.  When the old records do not overlap below `eof_` (each old offset is
at or behind the end of the record before it) and `eof_` is below 2^64,
moreover no new offset is behind the old offset of its node and the last
record ends at `eof_` or before. -/
theorem compaction_offsets (t : bp_tree) (map : NodeInfoMap) (eof : Nat)
    (h : toRes (compact_analysis.run' t) = Res.ok (map, eof)) :
    (∃ l, toRes (live_walk.run' t) = Res.ok l
      ∧ map.map (fun e => (e.1, e.2.1)) = (records_map l []).map (fun e => (e.1, e.2.1)))
    ∧ map_ordered map
    ∧ (assign_new_offsets map items_offset).map (fun e => (e.1, e.2.1))
        = map.map (fun e => (e.1, e.2.1))
    ∧ (assign_new_offsets map items_offset).head?.map (fun e => e.2.2)
        = map.head?.map (fun _ => 36)
    ∧ (assign_new_offsets map items_offset).Chain'
        (fun a b => b.2.2 = (a.2.2 + a.2.1) % 2 ^ 64)
    ∧ (items_offset + plan_total map < 2 ^ 64 →
        end_to_end (assign_new_offsets map items_offset) items_offset
        ∧ (assign_new_offsets map items_offset).Pairwise
            (fun a b => a.1 < b.1 ∧ a.2.2 < b.2.2 ∧ a.2.2 + a.2.1 ≤ b.2.2)
        ∧ plan_end (assign_new_offsets map items_offset) items_offset
            = items_offset + plan_total map)
    ∧ (old_layout map items_offset eof → eof < 2 ^ 64 →
        end_to_end (assign_new_offsets map items_offset) items_offset
        ∧ (∀ e ∈ assign_new_offsets map items_offset, e.2.2 ≤ e.1)
        ∧ (assign_new_offsets map items_offset).Pairwise
            (fun a b => a.1 < b.1 ∧ a.2.2 < b.2.2 ∧ a.2.2 + a.2.1 ≤ b.2.2)
        ∧ plan_end (assign_new_offsets map items_offset) items_offset ≤ eof) := by
  obtain ⟨t', hrun⟩ := run_of_toRes h
  obtain ⟨⟨l, hl, hp⟩, hord, _⟩ := compact_analysis_live hrun
  have hsz := assign_sized map items_offset hord.sized
  have hasc := assign_ascending map items_offset hord.ascending
  have hpair : (assign_new_offsets map items_offset).Pairwise (fun a b => a.2.2 + a.2.1 ≤ b.2.2) →
      (assign_new_offsets map items_offset).Pairwise
        (fun a b => a.1 < b.1 ∧ a.2.2 < b.2.2 ∧ a.2.2 + a.2.1 ≤ b.2.2) := by
    intro p3
    refine (hasc.and p3).imp_of_mem ?_
    intro a b ha _ hab
    have := hsz a ha
    exact ⟨hab.1, by omega, hab.2⟩
  refine ⟨⟨l, toRes_run hl, hp⟩, hord, assign_keeps _ _, assign_first _ _, assign_chain _ _, ?_, ?_⟩
  · intro htot
    obtain ⟨p1, _, p3, p4⟩ := assign_total map items_offset htot
    exact ⟨p1, hpair p3, p4⟩
  · intro hlay heof
    obtain ⟨p1, p2, p3, p4⟩ := assign_plan map items_offset items_offset _ hlay (Nat.le_refl _) heof
    exact ⟨p1, fun e he => (p2 e he).2, hpair p3, p4⟩

/-- Witness of C38: slot count 3, the keys 10 to 50; the walk visits the
root at 170 and the leaves at 36 and 103, which get the new offsets 154, 36
and 87. -/
theorem compaction_offsets_witness :
    toRes (live_walk.run' (state_after 3 512 [10, 20, 30, 40, 50]))
      = Res.ok [(170, 25), (36, 51), (103, 67)]
    ∧ records_map [(170, 25), (36, 51), (103, 67)] [] = [(36, 51, 0), (103, 67, 0), (170, 25, 0)]
    ∧ assign_new_offsets [(36, 51, 0), (103, 67, 0), (170, 25, 0)] items_offset
      = [(36, 51, 36), (103, 67, 87), (170, 25, 154)]
    ∧ plan_end (assign_new_offsets [(36, 51, 0), (103, 67, 0), (170, 25, 0)] items_offset)
        items_offset = items_offset + plan_total [(36, 51, 0), (103, 67, 0), (170, 25, 0)]
    ∧ plan_end (assign_new_offsets [(36, 51, 0), (103, 67, 0), (170, 25, 0)] items_offset)
        items_offset ≤ 227 :=
  ⟨by decide!, by decide, by decide,
   ((compaction_offsets (state_after 3 512 [10, 20, 30, 40, 50])
      [(36, 51, 0), (103, 67, 0), (170, 25, 0)] 227 (by decide!)).2.2.2.2.2.1 (by decide)).2.2,
   ((compaction_offsets (state_after 3 512 [10, 20, 30, 40, 50])
      [(36, 51, 0), (103, 67, 0), (170, 25, 0)] 227 (by decide!)).2.2.2.2.2.2
      ⟨by decide, by decide, by decide, (by decide : 170 + 25 ≤ 227)⟩ (by decide)).2.2.2⟩

/-- C38 as stated fails for a tree opened on a compact file and changed by
an insert: slot count 3, the compact file of the keys 10 to 70 (records of
51, 51, 41 and 67 bytes from 36 on, 246 bytes in all), `insert( 15)` into the
first leaf.  `compact_to` takes the branch of a non-leaf root and returns
true; the sizes in its map are 67, 51, 41 and 67, so the last record of the
plan ends at 262, behind `eof_` = 246. -/
theorem compaction_plan_beyond_eof :
    (compact_file_of 3 512 [10, 20, 30, 40, 50, 60, 70]).length = 246 ∧
    on_file 3 512 (compact_file_of 3 512 [10, 20, 30, 40, 50, 60, 70])
        (do let _ ← insert 15
            let a ← compact_analysis
            let r ← compact_to (bp_tree_default_stream.mk_stream [])
            pure (a, r.1))
      = Res.ok (([(36, 67, 0), (87, 51, 0), (138, 41, 0), (179, 67, 0)], 246), true) ∧
    assign_new_offsets [(36, 67, 0), (87, 51, 0), (138, 41, 0), (179, 67, 0)] items_offset
      = [(36, 67, 36), (87, 51, 103), (138, 41, 154), (179, 67, 195)] ∧
    plan_end (assign_new_offsets [(36, 67, 0), (87, 51, 0), (138, 41, 0), (179, 67, 0)]
      items_offset) items_offset = 262 ∧
    ¬ plan_end (assign_new_offsets [(36, 67, 0), (87, 51, 0), (138, 41, 0), (179, 67, 0)]
      items_offset) items_offset ≤ 246 :=
  ⟨by decide!, by decide!, by decide, by decide, by decide⟩

end stdext
